import Mathlib

/-!
Verification of the generic data-structure toolkit.

Shallow embedding of `my_algos/myheap/generic_heap.go` (binary heap driven by a
comparator) and `my_algos/bst/binary_search_tree.go` (unbalanced binary search
tree), followed by theorems about them.

Conventions of the embedding

* A Go slice `[]T` is a `List T`; an index expression `s[i]` is `s[i]?`, and
  every function that indexes a slice or runs a loop returns in `Option`:
  `none` stands for a run that does not return normally (an index-out-of-range
  or nil-dereference panic, or a loop that is still running when its iteration
  budget is used up).  Theorems that say an operation returns a result prove
  that the result is `some _`.
* Methods with a pointer receiver that mutate the receiver take the old state
  and return the new one.
* The zero value of `T` (`var zero T`) is `default` of `Inhabited T`.
* Slice indices are machine `int`s in Go; they are `Nat` where every call site
  passes a non-negative value and `Int` where the source lets them go negative
  (the loop counter of `CreateHeapFromArray`).
-/

set_option autoImplicit false

namespace myheap

/-! ## The heap: definitions (generic_heap.go) -/

/-- Go `Heap[T]`: the backing slice and the comparator
(`comparator a b` is true when `a` should come before `b`). -/
structure Heap (T : Type) where
  data : List T
  comparator : T → T → Bool

/-- Go `NewHeap`: an empty heap with the given comparator. -/
def NewHeap {T : Type} (comparator : T → T → Bool) : Heap T :=
  { data := [], comparator := comparator }

/-- Go `CreateHeapWithCapacity`: length 0, capacity `c` (capacity is not
observable through the heap operations). -/
def CreateHeapWithCapacity {T : Type} (_c : Nat) (comparator : T → T → Bool) : Heap T :=
  { data := [], comparator := comparator }

/-- Go `(h *Heap[T]) Len`. -/
def Heap.Len {T : Type} (h : Heap T) : Nat :=
  h.data.length

/-- Go `(h *Heap[T]) IsEmpty`. -/
def Heap.IsEmpty {T : Type} (h : Heap T) : Bool :=
  h.Len == 0

/-- Go `(h *Heap[T]) GetHeapArray`. -/
def Heap.GetHeapArray {T : Type} (h : Heap T) : List T :=
  h.data

/-- Go `(h *Heap[T]) compare`: `h.comparator(h.data[i], h.data[j])`;
`none` when either index is out of range. -/
def Heap.compare {T : Type} (h : Heap T) (i j : Nat) : Option Bool :=
  match h.data[i]?, h.data[j]? with
  | some a, some b => some (h.comparator a b)
  | _, _ => none

/-- The Go statement `h.data[i], h.data[j] = h.data[j], h.data[i]`:
both operands are read first, then `data[i]` and `data[j]` are written in
that order; `none` when either index is out of range. -/
def Heap.swap {T : Type} (h : Heap T) (i j : Nat) : Option (Heap T) :=
  match h.data[i]?, h.data[j]? with
  | some a, some b => some { h with data := (h.data.set i b).set j a }
  | _, _ => none

/-- The `for index > 0` loop of Go `bubbleUp`, one iteration per unit of
the budget. -/
def Heap.bubbleUpLoop {T : Type} : Nat → Heap T → Nat → Option (Heap T)
  | 0, _, _ => none
  | fuel + 1, h, index =>
    if index > 0 then
      let parent := (index - 1) / 2
      match h.compare index parent with
      | none => none
      | some false => some h
      | some true =>
        match h.swap index parent with
        | none => none
        | some h1 => Heap.bubbleUpLoop fuel h1 parent
    else some h

/-- Go `(h *Heap[T]) bubbleUp`.  The loop runs at most `index + 1` times
(see `bubbleUpLoop_spec`). -/
def Heap.bubbleUp {T : Type} (h : Heap T) (index : Nat) : Option (Heap T) :=
  Heap.bubbleUpLoop (index + 1) h index

/-- The `for { ... }` loop of Go `bubbleDown`; `size` is read once before the
loop, as in the source. -/
def Heap.bubbleDownLoop {T : Type} : Nat → Nat → Heap T → Nat → Option (Heap T)
  | 0, _, _, _ => none
  | fuel + 1, size, h, index =>
    let left := 2 * index + 1
    let right := 2 * index + 2
    let smallest := index
    match (if left < size then h.compare left smallest else some false) with
    | none => none
    | some c1 =>
      let smallest := if c1 then left else smallest
      match (if right < size then h.compare right smallest else some false) with
      | none => none
      | some c2 =>
        let smallest := if c2 then right else smallest
        if smallest = index then some h
        else
          match h.swap index smallest with
          | none => none
          | some h1 => Heap.bubbleDownLoop fuel size h1 smallest

/-- Go `(h *Heap[T]) bubbleDown`.  The loop runs at most `size + 1` times
(see `bubbleDownLoop_spec`). -/
def Heap.bubbleDown {T : Type} (h : Heap T) (index : Nat) : Option (Heap T) :=
  let size := h.data.length
  Heap.bubbleDownLoop (size + 1) size h index

/-- The loop `for i := ...; i >= 0; i-- { heap.bubbleDown(i) }` of Go
`CreateHeapFromArray`, with the signed counter `i`. -/
def heapifyLoop {T : Type} : Nat → Heap T → Int → Option (Heap T)
  | 0, _, _ => none
  | fuel + 1, h, i =>
    if i ≥ 0 then
      match h.bubbleDown i.toNat with
      | none => none
      | some h1 => heapifyLoop fuel h1 (i - 1)
    else some h

/-- Go `CreateHeapFromArray`.  `(len(arr) - 2) / 2` is Go integer division,
which truncates toward zero: it is `-1` for an empty array and `0` for a
one-element array. -/
def CreateHeapFromArray {T : Type} (arr : List T) (comparator : T → T → Bool) :
    Option (Heap T) :=
  let heap : Heap T := { data := arr, comparator := comparator }
  heapifyLoop (arr.length + 1) heap (Int.tdiv ((arr.length : Int) - 2) 2)

/-- Go `(h *Heap[T]) Insert`. -/
def Heap.Insert {T : Type} (h : Heap T) (val : T) : Option (Heap T) :=
  let h1 : Heap T := { h with data := h.data ++ [val] }
  h1.bubbleUp (h1.data.length - 1)

/-- Go `(h *Heap[T]) Pop`: the returned value and the heap afterwards. -/
def Heap.Pop {T : Type} [Inhabited T] (h : Heap T) : Option (T × Heap T) :=
  if h.data.length = 0 then some (default, h)
  else
    match h.data[0]?, h.data[h.data.length - 1]? with
    | some root, some last =>
      let h1 : Heap T := { h with data := h.data.set 0 last }
      let h2 : Heap T := { h1 with data := h1.data.take (h1.data.length - 1) }
      match h2.bubbleDown 0 with
      | none => none
      | some h3 => some (root, h3)
    | _, _ => none

/-- Go `(h *Heap[T]) Peek`: the returned value and the heap afterwards
(the method has a pointer receiver; it assigns nothing). -/
def Heap.Peek {T : Type} [Inhabited T] (h : Heap T) : Option (T × Heap T) :=
  if h.data.length = 0 then some (default, h)
  else
    match h.data[0]? with
    | some root => some (root, h)
    | none => none

/-- The loop `for i := 0; i < k; i++ { result = append(result, heap.Pop()) }`
of `kSmallestDumb` (1_top_k_elements_test.go): `k` successive calls of `Pop`,
the popped values in order, and the heap left over. -/
def popLoop {T : Type} [Inhabited T] : Nat → Heap T → List T → Option (List T × Heap T)
  | 0, h, result => some (result, h)
  | k + 1, h, result =>
    match h.Pop with
    | none => none
    | some (x, h1) => popLoop k h1 (result ++ [x])

/-- The min-heap comparator `func(a, b int) bool { return a < b }`. -/
def minComparator (a b : Int) : Bool := decide (a < b)

/-- The max-heap comparator `func(a, b int) bool { return a > b }`. -/
def maxComparator (a b : Int) : Bool := decide (a > b)

/-! ## The heap: specification vocabulary -/

/-- A comparator is a strict weak order: irreflexive, transitive, and
incomparability is transitive. -/
structure StrictWeakOrder {T : Type} (cmp : T → T → Bool) : Prop where
  irrefl : ∀ a, cmp a a = false
  trans : ∀ a b c, cmp a b = true → cmp b c = true → cmp a c = true
  incomp_trans : ∀ a b c, cmp a b = false → cmp b a = false →
    cmp b c = false → cmp c b = false → cmp a c = false ∧ cmp c a = false

/-- The heap-order predicate on the backing array: for all `i ≥ 1`,
`comparator(data[i], data[(i-1)/2])` is false (no child is better than its
parent). -/
def IsHeap {T : Type} (cmp : T → T → Bool) (data : List T) : Prop :=
  ∀ i, i < data.length → 1 ≤ i →
    ∀ a ∈ data[i]?, ∀ b ∈ data[(i - 1) / 2]?, cmp a b = false

instance {T : Type} (cmp : T → T → Bool) (data : List T) : Decidable (IsHeap cmp data) := by
  unfold IsHeap; infer_instance

/-- Heap order restricted to the pairs whose parent index is at least `lo`
(`HeapFrom cmp 0` is the heap order of the whole array). -/
def HeapFrom {T : Type} (cmp : T → T → Bool) (lo : Nat) (data : List T) : Prop :=
  ∀ i a b, 1 ≤ i → lo ≤ (i - 1) / 2 → data[i]? = some a → data[(i - 1) / 2]? = some b →
    cmp a b = false

/-- Loop invariant of `bubbleDown` at position `idx`: the order holds for every
pair whose parent is at least `lo` and is not `idx`, and no child of `idx` is
better than the parent of `idx` (when that parent is at least `lo`). -/
def DownInv {T : Type} (cmp : T → T → Bool) (lo : Nat) (data : List T) (idx : Nat) : Prop :=
  (∀ i a b, 1 ≤ i → lo ≤ (i - 1) / 2 → (i - 1) / 2 ≠ idx →
      data[i]? = some a → data[(i - 1) / 2]? = some b → cmp a b = false) ∧
  (∀ i a b, 1 ≤ i → (i - 1) / 2 = idx → 1 ≤ idx → lo ≤ (idx - 1) / 2 →
      data[i]? = some a → data[(idx - 1) / 2]? = some b → cmp a b = false)

/-- Loop invariant of `bubbleUp` at position `idx`: the order holds for every
pair whose child is not `idx`, and no child of `idx` is better than the parent
of `idx`. -/
def UpInv {T : Type} (cmp : T → T → Bool) (data : List T) (idx : Nat) : Prop :=
  (∀ i a b, 1 ≤ i → i ≠ idx →
      data[i]? = some a → data[(i - 1) / 2]? = some b → cmp a b = false) ∧
  (∀ i a b, 1 ≤ i → (i - 1) / 2 = idx → 1 ≤ idx →
      data[i]? = some a → data[(idx - 1) / 2]? = some b → cmp a b = false)

/-- Heaps that arise from the empty heap by a sequence of `Insert` and `Pop`
calls. -/
inductive Reachable {T : Type} [Inhabited T] (cmp : T → T → Bool) : Heap T → Prop
  | new : Reachable cmp (NewHeap cmp)
  | insert {h h1 : Heap T} (v : T) : Reachable cmp h → h.Insert v = some h1 → Reachable cmp h1
  | pop {h h1 : Heap T} (x : T) : Reachable cmp h → h.Pop = some (x, h1) → Reachable cmp h1

/-- The invariant as the data model words it: for every index `i` and each
existing child `c` in `2i+1`, `2i+2`, `better(data[i], data[c])` holds. -/
def StrictParentOrder {T : Type} (cmp : T → T → Bool) (data : List T) : Prop :=
  ∀ i, i < data.length → ∀ c, c < data.length → (c = 2 * i + 1 ∨ c = 2 * i + 2) →
    ∀ a ∈ data[i]?, ∀ b ∈ data[c]?, cmp a b = true

instance {T : Type} (cmp : T → T → Bool) (data : List T) :
    Decidable (StrictParentOrder cmp data) := by
  unfold StrictParentOrder; infer_instance

/-- The invariant the code keeps: for every index `i` and each existing child
`c` in `2i+1`, `2i+2`, the child is not better than the parent. -/
def WeakParentOrder {T : Type} (cmp : T → T → Bool) (data : List T) : Prop :=
  ∀ i, i < data.length → ∀ c, c < data.length → (c = 2 * i + 1 ∨ c = 2 * i + 2) →
    ∀ a ∈ data[i]?, ∀ b ∈ data[c]?, cmp b a = false

end myheap

namespace bst

/-! ## The binary search tree: definitions (binary_search_tree.go)

The element type is Go `Ordered` (`~int | ~int64 | ~float64 | ~string`) with
its built-in `<`, `>` and `==`; the contract is stated for a totally ordered
`T`, so the embedding takes `[LinearOrder T]` (integers and strings; floating
point without NaN). -/

/-- Go `*Node[T]`: `nil` is the nil pointer, `node` a node with its value and
its exclusively owned children. -/
inductive Node (T : Type) where
  | nil : Node T
  | node (Value : T) (Left : Node T) (Right : Node T) : Node T

/-- Go `BST[T]`: the wrapper around the root pointer. -/
structure BST (T : Type) where
  Root : Node T

/-- Go `NewBST`. -/
def NewBST {T : Type} : BST T :=
  { Root := Node.nil }

/-- Go `NewBSTFromRootNode`. -/
def NewBSTFromRootNode {T : Type} (rootNode : Node T) : BST T :=
  { Root := rootNode }

/-- Go `insert`: duplicates are ignored. -/
def insert {T : Type} [LinearOrder T] : Node T → T → Node T
  | Node.nil, value => Node.node value Node.nil Node.nil
  | Node.node v l r, value =>
    if value < v then Node.node v (insert l value) r
    else if value > v then Node.node v l (insert r value)
    else Node.node v l r

/-- Go `(t *BST[T]) Insert`. -/
def BST.Insert {T : Type} [LinearOrder T] (t : BST T) (value : T) : BST T :=
  { Root := insert t.Root value }

/-- Go `search`. -/
def search {T : Type} [LinearOrder T] : Node T → T → Bool
  | Node.nil, _ => false
  | Node.node v l r, value =>
    if value = v then true
    else if value < v then search l value
    else search r value

/-- Go `(t *BST[T]) Search`. -/
def BST.Search {T : Type} [LinearOrder T] (t : BST T) (value : T) : Bool :=
  search t.Root value

/-- Go `FindMin`: follows `Left` pointers while they are not nil; `none` is the
nil dereference of `node.Left` when the argument itself is nil. -/
def FindMin {T : Type} : Node T → Option (Node T)
  | Node.nil => none
  | Node.node v Node.nil r => some (Node.node v Node.nil r)
  | Node.node _ (Node.node lv ll lr) _ => FindMin (Node.node lv ll lr)

/-- Go `Delete` (the function on nodes): the three cases, the two-children case
copying the value of the in-order successor and deleting it from the right
subtree. -/
def Delete {T : Type} [LinearOrder T] : Node T → T → Option (Node T)
  | Node.nil, _ => some Node.nil
  | Node.node v l r, value =>
    if value < v then
      match Delete l value with
      | none => none
      | some l1 => some (Node.node v l1 r)
    else if value > v then
      match Delete r value with
      | none => none
      | some r1 => some (Node.node v l r1)
    else
      match l with
      | Node.nil =>
        match r with
        | Node.nil => some Node.nil
        | Node.node _ _ _ => some r
      | Node.node _ _ _ =>
        match r with
        | Node.nil => some l
        | Node.node _ _ _ =>
          match FindMin r with
          | none => none
          | some Node.nil => none
          | some (Node.node mv _ _) =>
            match Delete r mv with
            | none => none
            | some r1 => some (Node.node mv l r1)

/-- Go `(t *BST[T]) Delete`. -/
def BST.Delete {T : Type} [LinearOrder T] (t : BST T) (value : T) : Option (BST T) :=
  match bst.Delete t.Root value with
  | none => none
  | some root => some { Root := root }

/-- Go `inOrder`: appends the values of the subtree to `*result`, left subtree,
node, right subtree. -/
def inOrder {T : Type} : Node T → List T → List T
  | Node.nil, result => result
  | Node.node v l r, result => inOrder r (inOrder l result ++ [v])

/-- Go `(t *BST[T]) InOrderTraversal`. -/
def BST.InOrderTraversal {T : Type} (t : BST T) : List T :=
  inOrder t.Root []

/-- Go `BuildBSTFromSlice`: `Insert` of each value in slice order, starting
from the empty tree. -/
def BuildBSTFromSlice {T : Type} [LinearOrder T] (values : List T) : BST T :=
  values.foldl (fun tree val => tree.Insert val) NewBST

/-! ## The binary search tree: specification vocabulary -/

/-- Every value stored in the subtree satisfies `p`. -/
def Node.All {T : Type} (p : T → Prop) : Node T → Prop
  | Node.nil => True
  | Node.node v l r => p v ∧ Node.All p l ∧ Node.All p r

/-- The BST invariant: at every node, all values in the left subtree are less
than the value of the node and all values in the right subtree are greater. -/
def IsBST {T : Type} [LinearOrder T] : Node T → Prop
  | Node.nil => True
  | Node.node v l r =>
    Node.All (fun x => x < v) l ∧ Node.All (fun x => v < x) r ∧ IsBST l ∧ IsBST r

end bst

namespace history

/-! ## Call sequences

Vocabulary for the claims that speak of a sequence of `Insert` and `Delete`
calls applied to an empty container. -/

/-- One call of the sequence: `Insert(a)` or `Delete(a)`. -/
inductive Op (α : Type) where
  | insert (a : α) : Op α
  | delete (a : α) : Op α
  deriving DecidableEq

/-- The value `a` was inserted and not deleted after its last insertion: some
`Insert(a)` of the sequence has no `Delete(a)` after it. -/
def StoredAfter {α : Type} (ops : List (Op α)) (a : α) : Prop :=
  ∃ pre post, ops = pre ++ Op.insert a :: post ∧ Op.delete a ∉ post

/-- Runs the calls in order from the state `s`; `none` when a call does not
return. -/
def run {σ α : Type} (step : σ → Op α → Option σ) : List (Op α) → σ → Option σ
  | [], s => some s
  | op :: ops, s =>
    match step s op with
    | none => none
    | some s1 => run step ops s1

end history

namespace bst

/-- One call on a tree: `t.Insert(v)` or `t.Delete(v)`. -/
def applyOp {T : Type} [LinearOrder T] (t : BST T) : history.Op T → Option (BST T)
  | history.Op.insert v => some (t.Insert v)
  | history.Op.delete v => t.Delete v

end bst

namespace stack

/-! ## The stack (stack.go) -/

/-- Go `Stack[T]`: the backing slice, top of the stack last. -/
structure Stack (T : Type) where
  arr : List T

/-- Go `NewStack`. -/
def NewStack {T : Type} : Stack T :=
  { arr := [] }

/-- Go `(s *Stack[T]) Push`. -/
def Stack.Push {T : Type} (s : Stack T) (el : T) : Stack T :=
  { arr := s.arr ++ [el] }

/-- Go `(s *Stack[T]) Pop`: the returned pointer (`none` is nil) and the stack
afterwards. -/
def Stack.Pop {T : Type} (s : Stack T) : Option T × Stack T :=
  if s.arr.length = 0 then (none, s)
  else (s.arr[s.arr.length - 1]?, { arr := s.arr.take (s.arr.length - 1) })

/-- Go `(s *Stack[T]) Len`. -/
def Stack.Len {T : Type} (s : Stack T) : Nat :=
  s.arr.length

/-- Go `(s *Stack[T]) IsEmpty`. -/
def Stack.IsEmpty {T : Type} (s : Stack T) : Bool :=
  s.Len == 0

end stack

namespace trie

/-! ## The trie: definitions (trie.go, 1_autocomplete_test.go)

A Go string is the list of the runes that `range` yields from it (`List Char`).
A `map[rune]*Node` is an association list with one entry per key; `range` over
the map visits the entries in list order (Go leaves the order unspecified, and
the theorems do not depend on it).  A `*Node` that the code only reads is the
node it points to; where the code writes through node pointers (`Insert`,
`Delete`, `cleanup`) the state is the tree under the root and a pointer is the
path of runes from the root to the node (every node has exactly one owner, so
the path identifies it): `nodeAt` dereferences a pointer, `modifyAt` writes
through it. -/

/-- Go `Node`: the children map, the end-of-word flag and the count. -/
inductive Node where
  | mk (Children : List (Char × Node)) (IsEnd : Bool) (Count : Int) : Node

/-- Field `Children`. -/
def Node.Children : Node → List (Char × Node)
  | Node.mk c _ _ => c

/-- Field `IsEnd`. -/
def Node.IsEnd : Node → Bool
  | Node.mk _ e _ => e

/-- Field `Count`. -/
def Node.Count : Node → Int
  | Node.mk _ _ c => c

/-- Assignment to the field `Children`. -/
def Node.setChildren (n : Node) (c : List (Char × Node)) : Node :=
  Node.mk c n.IsEnd n.Count

/-- Assignment to the field `IsEnd`. -/
def Node.setIsEnd (n : Node) (e : Bool) : Node :=
  Node.mk n.Children e n.Count

/-- Assignment to the field `Count`. -/
def Node.setCount (n : Node) (c : Int) : Node :=
  Node.mk n.Children n.IsEnd c

/-- Go `Trie`: the wrapper around the root node. -/
structure Trie where
  Root : Node

/-- Go `NewNode`: empty children map, `IsEnd` false, `Count` 0. -/
def NewNode : Node :=
  Node.mk [] false 0

/-- Go `NewTrie`. -/
def NewTrie : Trie :=
  { Root := NewNode }

/-- Map read `m[ch]`; `none` is the nil pointer of a missing key. -/
def mapGet : List (Char × Node) → Char → Option Node
  | [], _ => none
  | (k, v) :: rest, ch => if k = ch then some v else mapGet rest ch

/-- Map write `m[ch] = n`. -/
def mapSet : List (Char × Node) → Char → Node → List (Char × Node)
  | [], ch, n => [(ch, n)]
  | (k, v) :: rest, ch, n => if k = ch then (ch, n) :: rest else (k, v) :: mapSet rest ch n

/-- Map removal `delete(m, ch)`. -/
def mapDelete : List (Char × Node) → Char → List (Char × Node)
  | [], _ => []
  | (k, v) :: rest, ch => if k = ch then mapDelete rest ch else (k, v) :: mapDelete rest ch

/-- The loop shared by `Search`, `StartsWith`, `Autocomplete`, `PrefixCount` and
`PrefixCountPrecomputedCount`:
`for _, ch := range word { if node.Children[ch] == nil { return ... }; node = node.Children[ch] }`.
`none` is the early return, `some` the node reached.  The same walk from the
root dereferences a node pointer. -/
def nodeAt : Node → List Char → Option Node
  | node, [] => some node
  | node, ch :: rest =>
    match mapGet node.Children ch with
    | none => none
    | some child => nodeAt child rest

/-- Write through a node pointer: the tree in which the node at `path` is
replaced by `f` of it (the tree itself when no node is at `path`). -/
def modifyAt : Node → List Char → (Node → Node) → Node
  | node, [], f => f node
  | node, ch :: rest, f =>
    match mapGet node.Children ch with
    | none => node
    | some child => node.setChildren (mapSet node.Children ch (modifyAt child rest f))

/-- The loop of Go `Insert`; the state is the tree under the root and the
pointer `node`.  `none` is a nil dereference. -/
def insertLoop : List Char → Node → List Char → Option (Node × List Char)
  | [], root, node => some (root, node)
  | ch :: rest, root, node =>
    match nodeAt root node with
    | none => none
    | some n =>
      let root1 :=
        if (mapGet n.Children ch).isNone then
          modifyAt root node (fun m => m.setChildren (mapSet m.Children ch NewNode))
        else root
      let node1 := node ++ [ch]
      match nodeAt root1 node1 with
      | none => none
      | some _ =>
        insertLoop rest (modifyAt root1 node1 (fun m => m.setCount (m.Count + 1))) node1

/-- Go `(t *Trie) Insert`. -/
def Trie.Insert (t : Trie) (word : List Char) : Option Trie :=
  match insertLoop word t.Root [] with
  | none => none
  | some (root, node) =>
    match nodeAt root node with
    | none => none
    | some _ => some { Root := modifyAt root node (fun m => m.setIsEnd true) }

/-- Go `NewTrieFromArray`. -/
def NewTrieFromArray : List (List Char) → Option Trie
  | words => words.foldl (fun tr w => tr.bind (fun t => t.Insert w)) (some NewTrie)

/-- Go `(t *Trie) Search`. -/
def Trie.Search (t : Trie) (word : List Char) : Bool :=
  match nodeAt t.Root word with
  | none => false
  | some node => node.IsEnd

/-- Go `(t *Trie) StartsWith`. -/
def Trie.StartsWith (t : Trie) (pfx : List Char) : Bool :=
  match nodeAt t.Root pfx with
  | none => false
  | some _ => true

/-- Go `stackEntry`: the pointer to the parent node and the rune. -/
structure stackEntry where
  parent : List Char
  char : Char

/-- Step 1 of Go `Delete`: follows the word from `node` (the node and its
pointer), pushing one entry per rune; `none` is the early `return false`. -/
def deleteWalk : List Char → Node → List Char → stack.Stack stackEntry →
    Option (stack.Stack stackEntry × Node × List Char)
  | [], node, ptr, st => some (st, node, ptr)
  | ch :: rest, node, ptr, st =>
    match mapGet node.Children ch with
    | none => none
    | some child => deleteWalk rest child (ptr ++ [ch]) (st.Push { parent := ptr, char := ch })

/-- The loop of Go `cleanup`, one iteration per unit of the budget; the state is
the tree under the root and the stack.  `none` is a nil dereference or a used-up
budget. -/
def cleanupLoop : Nat → Node → stack.Stack stackEntry → Option Node
  | 0, _, _ => none
  | fuel + 1, root, st =>
    if st.IsEmpty then some root
    else
      match st.Pop with
      | (none, _) => none
      | (some entry, st1) =>
        match nodeAt root entry.parent with
        | none => none
        | some parent =>
          match mapGet parent.Children entry.char with
          | none => none
          | some node =>
            let root1 :=
              modifyAt root (entry.parent ++ [entry.char]) (fun m => m.setCount (m.Count - 1))
            if node.Count - 1 = 0 ∧ node.IsEnd = false then
              cleanupLoop fuel
                (modifyAt root1 entry.parent
                  (fun m => m.setChildren (mapDelete m.Children entry.char)))
                st1
            else some root1

/-- Go `cleanup`.  The loop runs at most `st.Len() + 1` times. -/
def cleanup (root : Node) (st : stack.Stack stackEntry) : Option Node :=
  cleanupLoop (st.Len + 1) root st

/-- Go `Delete`: the returned boolean and the trie afterwards. -/
def Delete (t : Trie) (word : List Char) : Option (Bool × Trie) :=
  match deleteWalk word t.Root [] stack.NewStack with
  | none => some (false, t)
  | some (st, node, ptr) =>
    if node.IsEnd = false then some (false, t)
    else
      match cleanup (modifyAt t.Root ptr (fun m => m.setIsEnd false)) st with
      | none => none
      | some root => some (true, { Root := root })

mutual
/-- Go `collectWords` (1_autocomplete_test.go): depth-first, the path of a node
is appended to the results when the node ends a word. -/
def collectWords : Node → List Char → List (List Char) → List (List Char)
  | Node.mk kids isEnd _, path, results =>
    collectKids kids path (if isEnd then results ++ [path] else results)
/-- The loop `for ch, child := range node.Children` of `collectWords`. -/
def collectKids : List (Char × Node) → List Char → List (List Char) → List (List Char)
  | [], _, results => results
  | (ch, child) :: rest, path, results =>
    collectKids rest path (collectWords child (path ++ [ch]) results)
end

/-- Go `Autocomplete` (1_autocomplete_test.go); the nil slice is `[]`. -/
def Autocomplete (t : Trie) (pfx : List Char) : List (List Char) :=
  match nodeAt t.Root pfx with
  | none => []
  | some node => collectWords node pfx []

mutual
/-- Go `countWords` (1_autocomplete_test.go): depth-first count of the nodes
that end a word. -/
def countWords : Node → Int → Int
  | Node.mk kids isEnd _, count => countKids kids (if isEnd then count + 1 else count)
/-- The loop `for _, child := range node.Children` of `countWords`. -/
def countKids : List (Char × Node) → Int → Int
  | [], count => count
  | (_, child) :: rest, count => countKids rest (countWords child count)
end

/-- Go `PrefixCount` (1_autocomplete_test.go). -/
def PrefixCount (t : Trie) (pfx : List Char) : Int :=
  match nodeAt t.Root pfx with
  | none => 0
  | some node => countWords node 0

/-- Go `PrefixCountPrecomputedCount` (1_autocomplete_test.go). -/
def PrefixCountPrecomputedCount (t : Trie) (pfx : List Char) : Int :=
  match nodeAt t.Root pfx with
  | none => 0
  | some node => node.Count

/-- One call on a trie: `t.Insert(w)` or `Delete(t, w)` (its boolean result
dropped). -/
def applyOp (t : Trie) : history.Op (List Char) → Option Trie
  | history.Op.insert w => t.Insert w
  | history.Op.delete w =>
    match Delete t w with
    | none => none
    | some (_, t1) => some t1

/-! ## The trie: specification vocabulary -/

/-- What the claims observe of a node: its `IsEnd` flag and its `Count`. -/
def obs (n : Node) : Bool × Int :=
  (n.IsEnd, n.Count)

/-- The observation at the end of `path` from `root`; `none` when no node is
there. -/
def obsAt (root : Node) (path : List Char) : Option (Bool × Int) :=
  (nodeAt root path).map obs

/-- The observation of a node after one more word passed through it (a node
that was missing counts as a new node). -/
def bump (o : Option (Bool × Int)) : Bool × Int :=
  ((o.getD (false, 0)).1, (o.getD (false, 0)).2 + 1)

/-- The stack that step 1 of `Delete` builds for the word `rest` followed from
the node with pointer `ptr`: one entry per rune, the first rune at the bottom. -/
def pathEntries : List Char → List Char → List stackEntry
  | _, [] => []
  | ptr, ch :: rest => { parent := ptr, char := ch } :: pathEntries (ptr ++ [ch]) rest

/-- A tree in which every children map has one entry per key. -/
inductive WF : Node → Prop
  | mk (kids : List (Char × Node)) (e : Bool) (c : Int) :
      (kids.map Prod.fst).Nodup → (∀ kv, kv ∈ kids → WF kv.2) → WF (Node.mk kids e c)

/-- The number of words of `ws` that start with `p`. -/
def prefixCount (ws : List (List Char)) (p : List Char) : Int :=
  ((ws.filter (fun w => p.isPrefixOf w)).length : Int)

/-- The invariant that `Insert` and `Delete` keep: the words found by `Search`
form a duplicate-free list `S`, and the count of every non-root node is at
least the number of words of `S` that pass through it. -/
def TrieInv (t : Trie) : Prop :=
  ∃ S : List (List Char), S.Nodup ∧ (∀ q, t.Search q = true ↔ q ∈ S) ∧
    ∀ q, q ≠ [] → prefixCount S q ≤ PrefixCountPrecomputedCount t q

end trie

namespace trie

/-! ## The trie: further definitions (trie.go, 2_serach_with_wildcard_test.go) -/

mutual
/-- Go `collect` (trie.go): depth-first, the path of a node is appended to the
result when the node ends a word. -/
def collect : Node → List Char → List (List Char) → List (List Char)
  | Node.mk kids isEnd _, path, result =>
    collectRange kids path (if isEnd then result ++ [path] else result)
/-- The loop `for ch, child := range node.Children` of `collect`. -/
def collectRange : List (Char × Node) → List Char → List (List Char) → List (List Char)
  | [], _, result => result
  | (ch, child) :: rest, path, result =>
    collectRange rest path (collect child (path ++ [ch]) result)
end

/-- Go `GetAllWords`; the nil slice is `[]`. -/
def GetAllWords (t : Trie) : List (List Char) :=
  collect t.Root [] []

/-- Go `Update`: the returned boolean and the trie afterwards. -/
def Update (t : Trie) (oldWord newWord : List Char) : Option (Bool × Trie) :=
  match Delete t oldWord with
  | none => none
  | some (deleted, t1) =>
    if deleted = false then some (false, t1)
    else
      match t1.Insert newWord with
      | none => none
      | some t2 => some (true, t2)

/-- Go `searchHelper` (2_serach_with_wildcard_test.go); the pair `word`, `index`
is the rest of the pattern `word[index:]`. -/
def searchHelper : Node → List Char → Bool
  | node, [] => node.IsEnd
  | node, ch :: rest =>
    if ch = '.' then
      node.Children.any (fun kv => searchHelper kv.2 rest)
    else
      match mapGet node.Children ch with
      | none => false
      | some child => searchHelper child rest

/-- Go `SearchWithWildcard`. -/
def SearchWithWildcard (t : Trie) (word : List Char) : Bool :=
  searchHelper t.Root word

/-- The word `w` has as many characters as the pattern and agrees with it at
every position where the pattern character is not `.`. -/
def Matches (pattern w : List Char) : Prop :=
  w.length = pattern.length ∧
    ∀ (i : Nat) (p : Char), pattern[i]? = some p → p ≠ '.' → w[i]? = some p

end trie

namespace union_find

/-! ## Union-find: definitions (union_find.go, union_find_generic.go)

Elements of the array-based version are Go `int`s used as slice indices; they
are `Nat` here (a negative index panics like one past the end, and the claims
are about arguments in range).  Ranks are `Int`.  A Go map is an association
list read by `mapGet` (first entry of the key) and written by `mapSet`; the
key type has a decidable equality (a Go `float64` NaN key, which is unequal to
itself, is outside this model).  Loops
and recursions that the source leaves unbounded take an iteration budget, fixed
in the top-level function and proved sufficient on valid states; `none` is a
panic or a used-up budget. -/

/-- The indexed assignment `l[i] = v`; `none` when `i` is out of range. -/
def assign {α : Type} (l : List α) (i : Nat) (v : α) : Option (List α) :=
  if i < l.length then some (l.set i v) else none

/-- The loop of Go `findNaive`, one iteration per unit of the budget. -/
def findNaiveLoop : Nat → Nat → List Nat → Option Nat
  | 0, _, _ => none
  | fuel + 1, x, parent =>
    match parent[x]? with
    | none => none
    | some px => if px ≠ x then findNaiveLoop fuel px parent else some x

/-- Go `findNaive`.  On a forest the loop runs at most `len(parent)` times. -/
def findNaive (x : Nat) (parent : List Nat) : Option Nat :=
  findNaiveLoop (parent.length + 1) x parent

/-- Go `unionNaive`: the parent array afterwards. -/
def unionNaive (x y : Nat) (parent : List Nat) : Option (List Nat) :=
  match findNaive x parent with
  | none => none
  | some rootX =>
    match findNaive y parent with
    | none => none
    | some rootY =>
      if rootX ≠ rootY then assign parent rootX rootY
      else some parent

/-- The recursion of Go `Find` (path compression), one call per unit of the
budget: the returned value and the parent array afterwards. -/
def FindRec : Nat → Nat → List Nat → Option (Nat × List Nat)
  | 0, _, _ => none
  | fuel + 1, x, parent =>
    match parent[x]? with
    | none => none
    | some px =>
      if px ≠ x then
        match FindRec fuel px parent with
        | none => none
        | some (r, parent1) =>
          match assign parent1 x r with
          | none => none
          | some parent2 =>
            match parent2[x]? with
            | none => none
            | some v => some (v, parent2)
      else some (px, parent)

/-- Go `Find`.  On a forest the recursion is at most `len(parent)` deep. -/
def Find (x : Nat) (parent : List Nat) : Option (Nat × List Nat) :=
  FindRec (parent.length + 1) x parent

/-- Go `Union` (union by rank): the returned boolean and the parent and rank
arrays afterwards. -/
def Union (x y : Nat) (parent : List Nat) (rank : List Int) :
    Option (Bool × List Nat × List Int) :=
  match Find x parent with
  | none => none
  | some (rootX, parent1) =>
    match Find y parent1 with
    | none => none
    | some (rootY, parent2) =>
      if rootX = rootY then some (false, parent2, rank)
      else
        match rank[rootX]?, rank[rootY]? with
        | some rkX, some rkY =>
          if rkX < rkY then
            match assign parent2 rootX rootY with
            | none => none
            | some parent3 => some (true, parent3, rank)
          else if rkX > rkY then
            match assign parent2 rootY rootX with
            | none => none
            | some parent3 => some (true, parent3, rank)
          else
            match assign parent2 rootY rootX with
            | none => none
            | some parent3 =>
              match assign rank rootX (rkX + 1) with
              | none => none
              | some rank1 => some (true, parent3, rank1)
        | _, _ => none

/-- Map read with the comma-ok form `v, ok := m[k]`; `none` is `ok == false`. -/
def mapGet {K V : Type} [DecidableEq K] : List (K × V) → K → Option V
  | [], _ => none
  | (k, v) :: rest, key => if k = key then some v else mapGet rest key

/-- Map write `m[k] = v`. -/
def mapSet {K V : Type} [DecidableEq K] : List (K × V) → K → V → List (K × V)
  | [], key, val => [(key, val)]
  | (k, v) :: rest, key, val =>
    if k = key then (key, val) :: rest else (k, v) :: mapSet rest key val

/-- Map read `m[k]`: the zero value when the key is missing. -/
def mapRead {K V : Type} [DecidableEq K] [Inhabited V] (m : List (K × V)) (key : K) : V :=
  (mapGet m key).getD default

/-- Go `UnionFind[T]`: the parent map and the rank map. -/
structure UnionFind (T : Type) where
  parent : List (T × T)
  rank : List (T × Int)

/-- Go `NewUnionFind`. -/
def NewUnionFind {T : Type} : UnionFind T :=
  { parent := [], rank := [] }

/-- Go `(uf *UnionFind[T]) Add`. -/
def UnionFind.Add {T : Type} [DecidableEq T] (uf : UnionFind T) (x : T) : UnionFind T :=
  if (mapGet uf.parent x).isNone then
    { parent := mapSet uf.parent x x, rank := mapSet uf.rank x 0 }
  else uf

/-- The recursion of Go `(uf *UnionFind[T]) Find`, one call per unit of the
budget: the returned value and the structure afterwards. -/
def UnionFind.FindRec {T : Type} [DecidableEq T] [Inhabited T] :
    Nat → UnionFind T → T → Option (T × UnionFind T)
  | 0, _, _ => none
  | fuel + 1, uf, x =>
    let uf1 := if (mapGet uf.parent x).isNone then uf.Add x else uf
    if mapRead uf1.parent x ≠ x then
      match UnionFind.FindRec fuel uf1 (mapRead uf1.parent x) with
      | none => none
      | some (r, uf2) =>
        let uf3 : UnionFind T := { uf2 with parent := mapSet uf2.parent x r }
        some (mapRead uf3.parent x, uf3)
    else some (mapRead uf1.parent x, uf1)

/-- Go `(uf *UnionFind[T]) Find`.  On a forest the recursion is at most
`len(uf.parent)` deep. -/
def UnionFind.Find {T : Type} [DecidableEq T] [Inhabited T] (uf : UnionFind T) (x : T) :
    Option (T × UnionFind T) :=
  UnionFind.FindRec (uf.parent.length + 1) uf x

/-- Go `(uf *UnionFind[T]) Union`: the returned boolean and the structure
afterwards. -/
def UnionFind.Union {T : Type} [DecidableEq T] [Inhabited T] (uf : UnionFind T) (x y : T) :
    Option (Bool × UnionFind T) :=
  match uf.Find x with
  | none => none
  | some (rootX, uf1) =>
    match uf1.Find y with
    | none => none
    | some (rootY, uf2) =>
      if rootX = rootY then some (false, uf2)
      else if mapRead uf2.rank rootX < mapRead uf2.rank rootY then
        some (true, { uf2 with parent := mapSet uf2.parent rootX rootY })
      else if mapRead uf2.rank rootX > mapRead uf2.rank rootY then
        some (true, { uf2 with parent := mapSet uf2.parent rootY rootX })
      else
        some (true, { parent := mapSet uf2.parent rootX rootY,
                      rank := mapSet uf2.rank rootY (mapRead uf2.rank rootY + 1) })

/-- The loop of Go `countConnectedComponents`
(2_counting_connected_components_test.go); an edge is the pair
`(edge[0], edge[1])`. -/
def countLoop : List (Nat × Nat) → UnionFind Nat → Int → Option Int
  | [], _, componentCount => some componentCount
  | (u, v) :: edges, uf, componentCount =>
    match uf.Union u v with
    | none => none
    | some (merged, uf1) =>
      countLoop edges uf1 (if merged then componentCount - 1 else componentCount)

/-- Go `countConnectedComponents`. -/
def countConnectedComponents (n : Nat) (edges : List (Nat × Nat)) : Option Int :=
  countLoop edges NewUnionFind (n : Int)

/-! ### Vocabulary of the union-find claims -/

/-- The value Go `Find(x, parent)` returns. -/
def findValue (parent : List Nat) (x : Nat) : Option Nat :=
  (Find x parent).map Prod.fst

/-- The value Go `uf.Find(x)` returns. -/
def UnionFind.findValue {T : Type} [DecidableEq T] [Inhabited T] (uf : UnionFind T) (x : T) :
    Option T :=
  (uf.Find x).map Prod.fst

/-- `Find(a) == Find(b)` on the parent array (both calls return, with equal values). -/
def SameSet (parent : List Nat) (a b : Nat) : Prop :=
  ∃ r, findValue parent a = some r ∧ findValue parent b = some r

/-- `findNaive(a) == findNaive(b)` on the parent array. -/
def SameSetNaive (parent : List Nat) (a b : Nat) : Prop :=
  ∃ r, findNaive a parent = some r ∧ findNaive b parent = some r

/-- `uf.Find(a) == uf.Find(b)` on the generic structure. -/
def UnionFind.SameSet {T : Type} [DecidableEq T] [Inhabited T] (uf : UnionFind T) (a b : T) :
    Prop :=
  ∃ r, uf.findValue a = some r ∧ uf.findValue b = some r

/-- `RootAt par k x r`: following the parent function `par` from `x`, the first
element that is its own parent is `r`, reached after exactly `k` steps. -/
def RootAt {α : Type} (par : α → α) : Nat → α → α → Prop
  | 0, x, r => x = r ∧ par x = x
  | k + 1, x, r => par x ≠ x ∧ RootAt par k (par x) r

/-- `r` is the root that the parent pointers lead to from `x`. -/
def IsRootOf {α : Type} (par : α → α) (x r : α) : Prop :=
  ∃ k, RootAt par k x r

/-- The parent pointers form a forest: from every element they lead to a root
(no cycle other than the self-loops of the roots). -/
def Forest {α : Type} (par : α → α) : Prop :=
  ∀ x, ∃ r, IsRootOf par x r

/-- Two elements have the same root. -/
def SameRoot {α : Type} (par : α → α) (a b : α) : Prop :=
  ∃ r, IsRootOf par a r ∧ IsRootOf par b r

/-- The parent function of a parent array; an index out of range counts as its
own parent. -/
def arrPar (parent : List Nat) (x : Nat) : Nat :=
  (parent[x]?).getD x

/-- Every entry of the parent array is an index of the array. -/
def InRange (parent : List Nat) : Prop :=
  ∀ x, x < parent.length → arrPar parent x < parent.length

/-- A valid parent array: entries in range, and the parent pointers form a
forest. -/
def ValidArr (parent : List Nat) : Prop :=
  InRange parent ∧ Forest (arrPar parent)

/-- The parent function of the generic structure; an element that is not
registered counts as its own parent (it is registered so by its first use). -/
def UnionFind.par {T : Type} [DecidableEq T] (uf : UnionFind T) (x : T) : T :=
  (mapGet uf.parent x).getD x

/-- A valid generic structure: the parent pointers form a forest. -/
def UnionFind.Valid {T : Type} [DecidableEq T] (uf : UnionFind T) : Prop :=
  Forest uf.par

/-- What a union of `x` and `y` does to the parent pointers: with `rx`, `ry` the
roots of `x` and `y`, the call returns whether they differ; when they are equal
every element keeps its root, and otherwise one of the two roots is put under
the other and every other root stays. -/
def UnionSpec {α : Type} [DecidableEq α] (par par1 : α → α) (x y : α) (ret : Bool) : Prop :=
  ∃ rx ry, IsRootOf par x rx ∧ IsRootOf par y ry ∧ ret = decide (rx ≠ ry) ∧
    (rx = ry → ∀ z r, IsRootOf par z r → IsRootOf par1 z r) ∧
    (rx ≠ ry → ∃ a b, ((a = rx ∧ b = ry) ∨ (a = ry ∧ b = rx)) ∧
      ∀ z r, IsRootOf par z r → IsRootOf par1 z (if r = a then b else r))

/-- What a sequence of unions does to the parent pointers, step by step: the
pairs united and the booleans returned. -/
inductive UnionsSpec {α : Type} [DecidableEq α] :
    (α → α) → (α → α) → List (α × α) → List Bool → Prop
  | nil (par : α → α) : UnionsSpec par par [] []
  | cons {par par1 par2 : α → α} {x y : α} {b : Bool} {es : List (α × α)} {bs : List Bool} :
      UnionSpec par par1 x y b → UnionsSpec par1 par2 es bs →
      UnionsSpec par par2 ((x, y) :: es) (b :: bs)

/-- Two elements are joined by a chain of the given pairs, in either direction. -/
def Conn {α : Type} (es : List (α × α)) (a b : α) : Prop :=
  Relation.EqvGen (fun u v => (u, v) ∈ es) a b

/-- The roots of elements below `n` are below `n`. -/
def RootClosed (par : Nat → Nat) (n : Nat) : Prop :=
  ∀ z r, z < n → IsRootOf par z r → r < n

/-- A sequence of `Union(x, y, parent, rank)` calls: the booleans returned and
the arrays afterwards. -/
def unionAll : List (Nat × Nat) → List Nat → List Int →
    Option (List Bool × List Nat × List Int)
  | [], parent, rank => some ([], parent, rank)
  | (x, y) :: rest, parent, rank =>
    match Union x y parent rank with
    | none => none
    | some (b, parent1, rank1) =>
      match unionAll rest parent1 rank1 with
      | none => none
      | some (bs, parent2, rank2) => some (b :: bs, parent2, rank2)

/-- A sequence of `unionNaive(x, y, parent)` calls: the array afterwards. -/
def unionNaiveAll : List (Nat × Nat) → List Nat → Option (List Nat)
  | [], parent => some parent
  | (x, y) :: rest, parent =>
    match unionNaive x y parent with
    | none => none
    | some parent1 => unionNaiveAll rest parent1

/-- A sequence of `uf.Union(x, y)` calls: the booleans returned and the
structure afterwards. -/
def UnionFind.unionAll {T : Type} [DecidableEq T] [Inhabited T] :
    List (T × T) → UnionFind T → Option (List Bool × UnionFind T)
  | [], uf => some ([], uf)
  | (x, y) :: rest, uf =>
    match uf.Union x y with
    | none => none
    | some (b, uf1) =>
      match UnionFind.unionAll rest uf1 with
      | none => none
      | some (bs, uf2) => some (b :: bs, uf2)

/-- A call of the union-find interface. -/
inductive Call (T : Type) where
  | find (x : T) : Call T
  | union (x y : T) : Call T

/-- The arguments of the call are indices below `n`. -/
def Call.Below (n : Nat) : Call Nat → Prop
  | Call.find x => x < n
  | Call.union x y => x < n ∧ y < n

/-- A sequence of `Find` and `Union` calls on the arrays. -/
def runCalls : List (Call Nat) → List Nat → List Int → Option (List Nat × List Int)
  | [], parent, rank => some (parent, rank)
  | Call.find x :: rest, parent, rank =>
    match Find x parent with
    | none => none
    | some (_, parent1) => runCalls rest parent1 rank
  | Call.union x y :: rest, parent, rank =>
    match Union x y parent rank with
    | none => none
    | some (_, parent1, rank1) => runCalls rest parent1 rank1

/-- A sequence of `Find` and `Union` calls on the generic structure. -/
def UnionFind.runCalls {T : Type} [DecidableEq T] [Inhabited T] :
    List (Call T) → UnionFind T → Option (UnionFind T)
  | [], uf => some uf
  | Call.find x :: rest, uf =>
    match uf.Find x with
    | none => none
    | some (_, uf1) => UnionFind.runCalls rest uf1
  | Call.union x y :: rest, uf =>
    match uf.Union x y with
    | none => none
    | some (_, uf1) => UnionFind.runCalls rest uf1

/-- The number of roots of the parent array: the indices `i` with
`Find(i) == i`. -/
def numRoots (parent : List Nat) : Nat :=
  ((Finset.range parent.length).filter (fun i => findValue parent i = some i)).card

/-- The number of roots of the generic structure among `0..n-1`: the `i` with
`uf.Find(i) == i`. -/
def UnionFind.numRootsBelow (uf : UnionFind Nat) (n : Nat) : Nat :=
  ((Finset.range n).filter (fun i => uf.findValue i = some i)).card

/-- The undirected graph on the vertices `0..n-1` whose edges are the given
pairs. -/
def edgeGraph (n : Nat) (edges : List (Nat × Nat)) : SimpleGraph (Fin n) :=
  SimpleGraph.fromRel (fun a b => (a.val, b.val) ∈ edges)

end union_find

namespace gomath

/-! ## Machine integers

A Go `int` is a 64-bit two's-complement integer.  Values are `Int`; where the
source adds or subtracts, the result is wrapped by `wrapInt`. -/

/-- Go `math.MaxInt`. -/
def MaxInt : Int := 9223372036854775807

/-- Go `math.MinInt`. -/
def MinInt : Int := -9223372036854775808

/-- The value of type `int` that a mathematical result wraps to. -/
def wrapInt (z : Int) : Int :=
  (z + 9223372036854775808) % 18446744073709551616 - 9223372036854775808

/-- The integer is a value of type `int`. -/
def IsInt (z : Int) : Prop :=
  MinInt ≤ z ∧ z ≤ MaxInt

end gomath

namespace stack

/-- The calls `s.Push(x)` for each `x` of `xs`, in order. -/
def Stack.pushAll {T : Type} (s : Stack T) (xs : List T) : Stack T :=
  xs.foldl Stack.Push s

/-- The given number of successive `s.Pop()` calls: the returned pointers in
call order and the stack afterwards. -/
def Stack.popN {T : Type} : Nat → Stack T → List (Option T) × Stack T
  | 0, s => ([], s)
  | n + 1, s =>
    let r := s.Pop
    let rest := Stack.popN n r.2
    (r.1 :: rest.1, rest.2)

end stack

namespace queue

/-! ## The queue (queue.go) -/

/-- Go `Queue[T]`: the backing slice, front of the queue first. -/
structure Queue (T : Type) where
  arr : List T

/-- Go `NewQueue`. -/
def NewQueue {T : Type} : Queue T :=
  { arr := [] }

/-- Go `(q *Queue[T]) Enqueue`. -/
def Queue.Enqueue {T : Type} (q : Queue T) (el : T) : Queue T :=
  { arr := q.arr ++ [el] }

/-- Go `(q *Queue[T]) Dequeue`: the returned pointer (`none` is nil) and the
queue afterwards. -/
def Queue.Dequeue {T : Type} (q : Queue T) : Option T × Queue T :=
  if q.arr.length = 0 then (none, q)
  else (q.arr[0]?, { arr := q.arr.drop 1 })

/-- Go `(q *Queue[T]) IsEmpty`. -/
def Queue.IsEmpty {T : Type} (q : Queue T) : Bool :=
  q.arr.length == 0

/-- The calls `q.Enqueue(x)` for each `x` of `xs`, in order. -/
def Queue.enqueueAll {T : Type} (q : Queue T) (xs : List T) : Queue T :=
  xs.foldl Queue.Enqueue q

/-- The given number of successive `q.Dequeue()` calls: the returned pointers
in call order and the queue afterwards. -/
def Queue.dequeueN {T : Type} : Nat → Queue T → List (Option T) × Queue T
  | 0, q => ([], q)
  | n + 1, q =>
    let r := q.Dequeue
    let rest := Queue.dequeueN n r.2
    (r.1 :: rest.1, rest.2)

end queue

namespace bst_algos

/-! ## Algorithms on the binary search tree (4_is_valid_bst_test.go,
2_kth_smallest_el_in_bst_test.go) -/

/-- Go `isValidBST`. -/
def isValidBST {T : Type} [LinearOrder T] : bst.Node T → T → T → Bool
  | bst.Node.nil, _, _ => true
  | bst.Node.node v l r, min, max =>
    if v ≤ min ∨ v ≥ max then false
    else isValidBST l min v && isValidBST r v max

/-- Go `getKthSmallestNodeValueEarlyExit(node, k)`: the returned pair and the
value of `*k` afterwards. -/
def getKthSmallestNodeValueEarlyExit : bst.Node Int → Int → (Int × Bool) × Int
  | bst.Node.nil, k => ((-1, false), k)
  | bst.Node.node v l r, k =>
    let res := getKthSmallestNodeValueEarlyExit l k
    if res.1.2 then res
    else
      let k1 := gomath.wrapInt (res.2 - 1)
      if k1 = 0 then ((v, true), k1)
      else getKthSmallestNodeValueEarlyExit r k1

end bst_algos

namespace quicksort

/-! ## Quicksort (04_quicksort/go/05_quicksort.go) -/

/-- The recursion of Go `qs`, one call per unit of the budget.  The loop over
`arr` appends the elements below the pivot to `less` and those above it to
`greater`, in order. -/
def qsRec : Nat → List Int → Option (List Int)
  | 0, _ => none
  | fuel + 1, arr =>
    if arr.length ≤ 1 then some arr
    else
      match arr[(arr.length - 1) / 2]? with
      | none => none
      | some pivot =>
        let less := arr.filter (fun el => decide (el < pivot))
        let greater := arr.filter (fun el => decide (¬ el < pivot ∧ el > pivot))
        match qsRec fuel less, qsRec fuel greater with
        | some l, some g => some ((l ++ [pivot]) ++ g)
        | _, _ => none

/-- Go `qs`.  Both partitions are shorter than `arr`, so the recursion is at
most `len(arr)` deep. -/
def qs (arr : List Int) : Option (List Int) :=
  qsRec (arr.length + 1) arr

end quicksort

namespace sorted_array

/-! ## Sorted array (11_and_other_problems/sorted_array.go) -/

/-- The loop of the Go standard library function `sort.Search(n, f)` with
`f(h) = a[h] >= x`, as `sort.SearchInts(a, x)` calls it: binary search for the
smallest index whose element is at least `x`. -/
def searchLoop (a : List Int) (x : Int) : Nat → Nat → Nat → Option Nat
  | 0, _, _ => none
  | fuel + 1, i, j =>
    if i < j then
      let h := (i + j) / 2
      match a[h]? with
      | none => none
      | some v => if ¬ (v ≥ x) then searchLoop a x fuel (h + 1) j else searchLoop a x fuel i h
    else some i

/-- Go standard library `sort.SearchInts(a, x)`. -/
def SearchInts (a : List Int) (x : Int) : Option Nat :=
  searchLoop a x (a.length + 1) 0 a.length

/-- Go `searchSorted`. -/
def searchSorted (arr : List Int) (value : Int) : Option Int :=
  match SearchInts arr value with
  | none => none
  | some i => if i = arr.length then some (-1) else some (i : Int)

end sorted_array

namespace heap_algos

/-! ## Algorithms on the heap (1_top_k_elements_test.go,
3_median_from_data_stream_test.go) -/

/-- Go `kSmallestDumb`; the nil slice is `[]`. -/
def kSmallestDumb (k : Int) (arr : List Int) : Option (List Int) :=
  if k ≤ 0 ∨ arr.length = 0 then some []
  else
    match myheap.CreateHeapFromArray arr myheap.minComparator with
    | none => none
    | some heap => (myheap.popLoop k.toNat heap []).map Prod.fst

/-- The loop `for i := 0; i < len(arr); i++` of Go `kSmallest`, over the
elements `arr[i:]` still to be read. -/
def kSmallestLoop (k : Int) : List Int → myheap.Heap Int → Option (myheap.Heap Int)
  | [], heap => some heap
  | a :: rest, heap =>
    if (heap.Len : Int) < k then
      match heap.Insert a with
      | none => none
      | some h1 => kSmallestLoop k rest h1
    else
      match heap.Peek with
      | none => none
      | some (top, h0) =>
        if a < top then
          match h0.Pop with
          | none => none
          | some (_, h1) =>
            match h1.Insert a with
            | none => none
            | some h2 => kSmallestLoop k rest h2
        else kSmallestLoop k rest h0

/-- Go `kSmallest`; the nil slice is `[]`. -/
def kSmallest (k : Int) (arr : List Int) : Option (List Int) :=
  if k ≤ 0 ∨ arr.length = 0 then some []
  else
    match kSmallestLoop k arr
        (myheap.CreateHeapWithCapacity k.toNat myheap.maxComparator) with
    | none => none
    | some heap => some heap.GetHeapArray

/-- The `k` smallest elements of `arr` in ascending order. -/
def smallest (k : Nat) (arr : List Int) : List Int :=
  (arr.insertionSort (fun a b => a ≤ b)).take k

/-- Go `DataStream`: the max-heap of the lower half and the min-heap of the
upper half. -/
structure DataStream where
  leftSide : myheap.Heap Int
  rightSide : myheap.Heap Int

/-- Go `CreateDataStream`. -/
def CreateDataStream : DataStream :=
  { leftSide := myheap.NewHeap myheap.maxComparator,
    rightSide := myheap.NewHeap myheap.minComparator }

/-- The statement `dst.Insert(src.Pop())`: the two heaps afterwards. -/
def moveTop (src dst : myheap.Heap Int) : Option (myheap.Heap Int × myheap.Heap Int) :=
  match src.Pop with
  | none => none
  | some (x, src1) =>
    match dst.Insert x with
    | none => none
    | some dst1 => some (src1, dst1)

/-- Go `(d *DataStream) AddNum`. -/
def DataStream.AddNum (d : DataStream) (num : Int) : Option DataStream :=
  let left := d.leftSide
  let right := d.rightSide
  let toLeft : Option Bool :=
    if left.IsEmpty then some true
    else
      match left.Peek with
      | none => none
      | some (top, _) => some (decide (num ≤ top))
  match toLeft with
  | none => none
  | some c =>
    let inserted : Option (myheap.Heap Int × myheap.Heap Int) :=
      if c then (left.Insert num).map (fun l => (l, right))
      else (right.Insert num).map (fun r => (left, r))
    match inserted with
    | none => none
    | some (l1, r1) =>
      let first : Option (myheap.Heap Int × myheap.Heap Int) :=
        if l1.Len > r1.Len + 1 then moveTop l1 r1 else some (l1, r1)
      match first with
      | none => none
      | some (l2, r2) =>
        let second : Option (myheap.Heap Int × myheap.Heap Int) :=
          if r2.Len > l2.Len then (moveTop r2 l2).map (fun p => (p.2, p.1)) else some (l2, r2)
        match second with
        | none => none
        | some (l3, r3) => some { leftSide := l3, rightSide := r3 }

/-- The spacing of the float64 values around a magnitude `n` below `2^64`: 1
below `2^53`, then doubling with every further bit. -/
def float64Spacing : Nat → Nat → Nat → Nat
  | 0, q, _ => q
  | fuel + 1, q, n => if n < 9007199254740992 * q then q else float64Spacing fuel (2 * q) n

/-- The Go conversion `float64(z)` of an `int`: the value (a float64 is the
rational it denotes) is `z` rounded to 53 significant bits, ties to even. -/
def float64OfInt (z : Int) : Rat :=
  let n := z.natAbs
  let q := float64Spacing 11 1 n
  let lo := n / q
  let r := n % q
  let m := if 2 * r > q ∨ (2 * r = q ∧ lo % 2 = 1) then lo + 1 else lo
  if z < 0 then -(((m * q : Nat) : Int) : Rat) else (((m * q : Nat) : Int) : Rat)

/-- Go `(d *DataStream) GetMedian`; the float64 division by 2 is exact. -/
def DataStream.GetMedian (d : DataStream) : Option Rat :=
  let totalLen := d.leftSide.Len + d.rightSide.Len
  if totalLen % 2 = 0 then
    match d.leftSide.Peek, d.rightSide.Peek with
    | some (a, _), some (b, _) => some (float64OfInt (gomath.wrapInt (a + b)) / 2)
    | _, _ => none
  else
    match d.leftSide.Peek with
    | some (a, _) => some (float64OfInt a)
    | none => none

/-- A sequence of `AddNum` calls. -/
def DataStream.addAll : List Int → DataStream → Option DataStream
  | [], d => some d
  | x :: rest, d =>
    match d.AddNum x with
    | none => none
    | some d1 => DataStream.addAll rest d1

/-- The median of a list of integers: the middle element of the sorted list
when the length is odd, the average of the two middle elements when it is
even. -/
def median (xs : List Int) : Rat :=
  let s := xs.insertionSort (fun a b => a ≤ b)
  if s.length % 2 = 1 then ((s.getD (s.length / 2) 0 : Int) : Rat)
  else ((s.getD (s.length / 2 - 1) 0 + s.getD (s.length / 2) 0 : Int) : Rat) / 2

/-- The value `GetMedian` computes from the sorted numbers: the float64 of the
middle element when the count is odd, and half the float64 of the `int` sum of
the two middle elements when it is even. -/
def roundedMedian (xs : List Int) : Rat :=
  let s := xs.insertionSort (fun a b => a ≤ b)
  if s.length % 2 = 0 then
    float64OfInt (gomath.wrapInt (s.getD (s.length / 2 - 1) 0 + s.getD (s.length / 2) 0)) / 2
  else float64OfInt (s.getD (s.length / 2) 0)

end heap_algos

namespace heap_algos

/-! ## Dijkstra (4_dijkstra_interview_ready_test.go)

A node is a Go string.  The graph `map[string][]Edge` is an association list;
`graph[node]` reads the first entry of the key and is the nil slice when there is
none.  The maps `dist`, `visited` and `parents`, which the code only indexes
(`m[k]` and `m[k] = v`), are the total functions from keys to values, with the
zero value on keys that were never written.  The sum `dist[node] + edge.Weight`
is an `int` sum and wraps around. -/

/-- Go `Edge`. -/
structure Edge where
  To : String
  Weight : Int

/-- Go `Item`. -/
structure Item where
  Node : String
  Distance : Int

/-- The zero value of `Item`. -/
instance : Inhabited Item := ⟨{ Node := "", Distance := 0 }⟩

/-- The comparator of the heap of `Dijkstra`:
`func(a, b Item) bool { return a.Distance < b.Distance }`. -/
def itemComparator (a b : Item) : Bool :=
  decide (a.Distance < b.Distance)

/-- The index expression `graph[node]`. -/
def edgesOf : List (String × List Edge) → String → List Edge
  | [], _ => []
  | (k, es) :: rest, node => if k = node then es else edgesOf rest node

/-- The number of edges stored in the graph. -/
def numEdges : List (String × List Edge) → Nat
  | [] => 0
  | (_, es) :: rest => es.length + numEdges rest

/-- The loop `for node := range graph { dist[node] = math.MaxInt }`, on the empty
map. -/
def initDist (graph : List (String × List Edge)) : String → Int :=
  graph.foldl (fun d kv => Function.update d kv.1 gomath.MaxInt) (fun _ => 0)

/-- The variables of `Dijkstra` that the loops change. -/
structure DState where
  dist : String → Int
  visited : String → Bool
  parents : String → String
  heap : myheap.Heap Item

/-- The loop `for _, edge := range graph[node]` of `Dijkstra`, over the edges
still to be read. -/
def relax (node : String) : List Edge → DState → Option DState
  | [], s => some s
  | edge :: rest, s =>
    let neighbour := edge.To
    let distanceThroughNode := gomath.wrapInt (s.dist node + edge.Weight)
    if distanceThroughNode < s.dist neighbour then
      match s.heap.Insert { Node := neighbour, Distance := distanceThroughNode } with
      | none => none
      | some heap1 =>
        relax node rest
          { dist := Function.update s.dist neighbour distanceThroughNode,
            visited := s.visited,
            parents := Function.update s.parents neighbour node,
            heap := heap1 }
    else relax node rest s

/-- The loop `for current != ""` of Go `buildPath`, one iteration per unit of
the budget. -/
def buildPathLoop : Nat → String → (String → String) → List String → Option (List String)
  | 0, _, _, _ => none
  | fuel + 1, current, parents, path =>
    if current ≠ "" then buildPathLoop fuel (parents current) parents (path ++ [current])
    else some path

/-- Go `buildPath`, with the iteration budget of its loop; the nil slice is
`[]`. -/
def buildPath (fuel : Nat) (finish : String) (parents : String → String) :
    Option (List String) :=
  (buildPathLoop fuel finish parents []).map List.reverse

/-- The loop `for heap.Len() > 0` of `Dijkstra`, one iteration per unit of the
budget; `pathFuel` is the budget of `buildPath`. -/
def dijkstraLoop (finish : String) (graph : List (String × List Edge)) (pathFuel : Nat) :
    Nat → DState → Option (Int × List String)
  | 0, _ => none
  | fuel + 1, s =>
    if s.heap.Len > 0 then
      match s.heap.Pop with
      | none => none
      | some (current, heap1) =>
        let node := current.Node
        if s.visited node then
          dijkstraLoop finish graph pathFuel fuel { s with heap := heap1 }
        else
          let visited1 := Function.update s.visited node true
          if node = finish then
            match buildPath pathFuel finish s.parents with
            | none => none
            | some path => some (s.dist finish, path)
          else
            match relax node (edgesOf graph node)
                { s with visited := visited1, heap := heap1 } with
            | none => none
            | some s1 => dijkstraLoop finish graph pathFuel fuel s1
    else some (-1, [])

/-- Go `Dijkstra`.  Every iteration of the main loop pops one item, and at most
one item per edge is ever inserted besides the first, so the loop runs at most
`numEdges graph + 1` times; the path has at most as many nodes. -/
def Dijkstra (start finish : String) (graph : List (String × List Edge)) :
    Option (Int × List String) :=
  let dist := Function.update (initDist graph) start 0
  match (myheap.NewHeap itemComparator).Insert { Node := start, Distance := 0 } with
  | none => none
  | some heap =>
    dijkstraLoop finish graph (numEdges graph + 2) (numEdges graph + 2)
      { dist := dist, visited := fun _ => false, parents := fun _ => "", heap := heap }

/-- `Walk graph u p v w`: `p` lists the nodes of a walk from `u` to `v` along
edges of the graph, of total weight `w`. -/
inductive Walk (graph : List (String × List Edge)) : String → List String → String → Int → Prop
  | single (u : String) : Walk graph u [u] u 0
  | step {u v : String} {p : List String} {w : Int} (e : Edge) :
      Walk graph u p v w → e ∈ edgesOf graph v → Walk graph u (p ++ [e.To]) e.To (w + e.Weight)

/-- The keys of the graph map. -/
def keysOf (graph : List (String × List Edge)) : List String :=
  graph.map Prod.fst

/-- The number of edges stored under keys that are not visited yet. -/
def pot (visited : String → Bool) : List (String × List Edge) → Nat
  | [] => 0
  | (k, es) :: rest => (if visited k = true then 0 else es.length) + pot visited rest

/-- `PathTo parents start v p`: following `parents` back from `v` gives the
nodes of `p` in reverse, down to `start`, which has no parent. -/
inductive PathTo (parents : String → String) (start : String) : String → List String → Prop
  | base : parents start = "" → PathTo parents start start [start]
  | step {u v : String} {p : List String} :
      PathTo parents start u p → parents v = u → PathTo parents start v (p ++ [v])

/-- The invariant of the main loop of `Dijkstra` after `it` iterations.  Weights
are at most `B`; `exempt u e` marks the edges of the node being expanded that
are still to be read. -/
structure DInv (graph : List (String × List Edge)) (start finish : String) (B : Int)
    (exempt : String → Edge → Prop) (s : DState) (it : Nat) : Prop where
  hcmp : s.heap.comparator = itemComparator
  hheap : myheap.HeapFrom itemComparator 0 s.heap.data
  hstart : s.dist start = 0
  hpstart : s.parents start = ""
  hdist : ∀ v, (v = start ∨ v ∈ keysOf graph) →
    s.dist v = gomath.MaxInt ∨
      ((∃ p, Walk graph start p v (s.dist v)) ∧ s.dist v ≤ B * (it : Int))
  hitems : ∀ x, x ∈ s.heap.data →
    (x.Node = start ∨ x.Node ∈ keysOf graph) ∧ s.dist x.Node ≤ x.Distance ∧
      x.Distance ≤ B * (it : Int)
  hqueued : ∀ v, (v = start ∨ v ∈ keysOf graph) → s.visited v = false →
    s.dist v ≠ gomath.MaxInt → (⟨v, s.dist v⟩ : Item) ∈ s.heap.data
  hfinal : ∀ v, s.visited v = true →
    (v = start ∨ v ∈ keysOf graph) ∧ s.dist v ≠ gomath.MaxInt ∧
      ∀ p w, Walk graph start p v w → s.dist v ≤ w
  hrelaxed : ∀ u, s.visited u = true → ∀ e, e ∈ edgesOf graph u →
    exempt u e ∨ s.dist e.To ≤ s.dist u + e.Weight
  hparents : ∀ v, s.visited v = true →
    ∃ p, PathTo s.parents start v p ∧ (∀ a, a ∈ p → s.visited a = true) ∧
      Walk graph start p v (s.dist v) ∧ p.length ≤ it
  hpending : ∀ v, v ∈ keysOf graph → v ≠ start → s.visited v = false →
    s.dist v ≠ gomath.MaxInt →
    ∃ u e, s.visited u = true ∧ s.parents v = u ∧ e ∈ edgesOf graph u ∧ e.To = v ∧
      s.dist v = s.dist u + e.Weight
  hnotfin : s.visited finish = false

/-- The inputs for which `Dijkstra` is specified: weights between 0 and `B`,
small enough that no path length over the edges of the graph overflows; every
edge leads to a node that is a key of the graph; no node is named by the empty
string. -/
structure GoodGraph (graph : List (String × List Edge)) (start : String) (B : Int) : Prop where
  hw : ∀ u e, e ∈ edgesOf graph u → 0 ≤ e.Weight ∧ e.Weight ≤ B
  hB : 0 ≤ B
  hfit : B * ((numEdges graph : Int) + 2) < gomath.MaxInt
  hkeys : ∀ u e, e ∈ edgesOf graph u → e.To ∈ keysOf graph
  hstart : start ≠ ""
  hnames : ∀ k, k ∈ keysOf graph → k ≠ ""

end heap_algos

namespace myheap

/-! ## The heap: auxiliary lemmas -/

theorem StrictWeakOrder.asymm {T : Type} {cmp : T → T → Bool} (hc : StrictWeakOrder cmp)
    {a b : T} (hab : cmp a b = true) : cmp b a = false := by
  cases hba : cmp b a with
  | false => rfl
  | true =>
    have h1 := hc.trans a b a hab hba
    rw [hc.irrefl a] at h1
    exact absurd h1 (by decide)

theorem StrictWeakOrder.neg_trans {T : Type} {cmp : T → T → Bool} (hc : StrictWeakOrder cmp)
    {a b c : T} (hab : cmp a b = false) (hbc : cmp b c = false) : cmp a c = false := by
  cases hac : cmp a c with
  | false => rfl
  | true =>
    cases hba : cmp b a with
    | true =>
      have h1 := hc.trans b a c hba hac
      rw [hbc] at h1
      exact absurd h1 (by decide)
    | false =>
      cases hcb : cmp c b with
      | true =>
        have h1 := hc.trans a c b hac hcb
        rw [hab] at h1
        exact absurd h1 (by decide)
      | false =>
        have h1 := (hc.incomp_trans a b c hab hba hbc hcb).1
        rw [hac] at h1
        exact absurd h1 (by decide)

theorem minComparator_swo : StrictWeakOrder minComparator := by
  refine ⟨?_, ?_, ?_⟩
  · intro a; simp [minComparator]
  · intro a b c; simp only [minComparator, decide_eq_true_eq]; omega
  · intro a b c; simp only [minComparator, decide_eq_false_iff_not]; omega

theorem maxComparator_swo : StrictWeakOrder maxComparator := by
  refine ⟨?_, ?_, ?_⟩
  · intro a; simp [maxComparator]
  · intro a b c; simp only [maxComparator, decide_eq_true_eq]; omega
  · intro a b c; simp only [maxComparator, decide_eq_false_iff_not]; omega

/-- Writing `x` at a position that held `b` gives, up to order, the list with
`b` taken out and `x` put in. -/
theorem cons_set_perm {T : Type} (x b : T) :
    ∀ (t : List T) (j : Nat), t[j]? = some b → (b :: t.set j x).Perm (x :: t)
  | [], j, h => by simp at h
  | y :: t, 0, h => by
    simp at h
    subst h
    simpa using List.Perm.swap x y t
  | y :: t, j + 1, h => by
    simp at h
    have ih := cons_set_perm x b t j h
    simp only [List.set_cons_succ]
    exact (List.Perm.swap y b _).trans ((ih.cons y).trans (List.Perm.swap x y t))

/-- The two writes of a swap permute the list. -/
theorem swap_perm {T : Type} :
    ∀ (d : List T) (i j : Nat) (a b : T), d[i]? = some a → d[j]? = some b →
      ((d.set i b).set j a).Perm d
  | [], i, _, _, _, hi, _ => by simp at hi
  | x :: t, 0, 0, a, b, hi, hj => by
    simp at hi hj
    subst hi
    simp
  | x :: t, 0, j + 1, a, b, hi, hj => by
    simp at hi hj
    subst hi
    simpa using cons_set_perm x b t j hj
  | x :: t, i + 1, 0, a, b, hi, hj => by
    simp at hi hj
    subst hj
    simpa using cons_set_perm x a t i hi
  | x :: t, i + 1, j + 1, a, b, hi, hj => by
    simp at hi hj
    simpa using (swap_perm t i j a b hi hj).cons x

/-- Reading the list after a swap. -/
theorem getElem?_swap {T : Type} (d : List T) (i j k : Nat) (a b : T)
    (hi : d[i]? = some a) (hj : d[j]? = some b) :
    ((d.set i b).set j a)[k]? =
      if k = j then some a else if k = i then some b else d[k]? := by
  have hil : i < d.length := by
    by_contra hcon
    rw [List.getElem?_eq_none (by omega)] at hi
    exact absurd hi (by simp)
  have hjl : j < d.length := by
    by_contra hcon
    rw [List.getElem?_eq_none (by omega)] at hj
    exact absurd hj (by simp)
  simp only [List.getElem?_set, List.length_set]
  by_cases h1 : k = j
  · subst h1; simp [hjl]
  · by_cases h2 : k = i
    · subst h2
      have : ¬ j = k := fun h => h1 h.symm
      simp [this, hil, h1]
    · have h3 : ¬ j = k := fun h => h1 h.symm
      have h4 : ¬ i = k := fun h => h2 h.symm
      simp [h1, h2, h3, h4]

theorem compare_eq {T : Type} (d : List T) (cmp : T → T → Bool) (i j : Nat) (a b : T)
    (hi : d[i]? = some a) (hj : d[j]? = some b) :
    Heap.compare { data := d, comparator := cmp } i j = some (cmp a b) := by
  simp [Heap.compare, hi, hj]

theorem swap_eq {T : Type} (d : List T) (cmp : T → T → Bool) (i j : Nat) (a b : T)
    (hi : d[i]? = some a) (hj : d[j]? = some b) :
    Heap.swap { data := d, comparator := cmp } i j =
      some { data := (d.set i b).set j a, comparator := cmp } := by
  simp [Heap.swap, hi, hj]


theorem isHeap_iff_heapFrom {T : Type} (cmp : T → T → Bool) (d : List T) :
    IsHeap cmp d ↔ HeapFrom cmp 0 d := by
  constructor
  · intro h i a b h1 _ ha hb
    have hil : i < d.length := by
      by_contra hcon
      rw [List.getElem?_eq_none (by omega)] at ha
      exact absurd ha (by simp)
    exact h i hil h1 a (by simpa using ha) b (by simpa using hb)
  · intro h i _ h1 a ha b hb
    exact h i a b h1 (Nat.zero_le _) (by simpa using ha) (by simpa using hb)

theorem downInv_stop {T : Type} {cmp : T → T → Bool} {lo : Nat} {d : List T} {idx : Nat}
    (hl : ∀ a b, d[2 * idx + 1]? = some a → d[idx]? = some b → cmp a b = false)
    (hr : ∀ a b, d[2 * idx + 2]? = some a → d[idx]? = some b → cmp a b = false)
    (hinv : DownInv cmp lo d idx) : HeapFrom cmp lo d := by
  intro i a b h1 hlo ha hb
  by_cases hp : (i - 1) / 2 = idx
  · have hi : i = 2 * idx + 1 ∨ i = 2 * idx + 2 := by omega
    rw [hp] at hb
    rcases hi with hi | hi
    · rw [hi] at ha; exact hl a b ha hb
    · rw [hi] at ha; exact hr a b ha hb
  · exact hinv.1 i a b h1 hlo hp ha hb

theorem downInv_step {T : Type} {cmp : T → T → Bool}
    (hasym : ∀ a b, cmp a b = true → cmp b a = false)
    {lo : Nat} {d : List T} {idx s o : Nat} {x m : T}
    (hs : (s = 2 * idx + 1 ∧ o = 2 * idx + 2) ∨ (s = 2 * idx + 2 ∧ o = 2 * idx + 1))
    (hx : d[idx]? = some x) (hm : d[s]? = some m) (hmx : cmp m x = true)
    (ho : ∀ c, d[o]? = some c → cmp c m = false)
    (hinv : DownInv cmp lo d idx) : DownInv cmp lo ((d.set idx m).set s x) s := by
  constructor
  · intro i a b h1 hlo hne ha hb
    rw [getElem?_swap d idx s i x m hx hm] at ha
    rw [getElem?_swap d idx s _ x m hx hm] at hb
    have hps : ¬ (i - 1) / 2 = s := hne
    simp only [hps, if_false] at hb
    by_cases his : i = s
    · -- the moved element sits under its old child
      have hpi : (i - 1) / 2 = idx := by omega
      simp only [his, if_true] at ha
      simp only [hpi, if_true] at hb
      cases ha; cases hb
      exact hasym _ _ hmx
    · simp only [his, if_false] at ha
      by_cases hii : i = idx
      · simp only [hii, if_true] at ha
        cases ha
        have hpi : ¬ (i - 1) / 2 = idx := by omega
        simp only [hpi, if_false] at hb
        have hb2 : d[(idx - 1) / 2]? = some b := by rw [← hii]; exact hb
        exact hinv.2 s _ b (by omega) (by omega) (by omega) (by rw [← hii]; exact hlo) hm hb2
      · simp only [hii, if_false] at ha
        by_cases hpi : (i - 1) / 2 = idx
        · simp only [hpi, if_true] at hb
          cases hb
          have hio : i = o := by omega
          exact ho a (by rw [← hio]; exact ha)
        · simp only [hpi, if_false] at hb
          exact hinv.1 i a b h1 hlo hpi ha hb
  · intro i a b h1 hp hs1 hlo ha hb
    rw [getElem?_swap d idx s i x m hx hm] at ha
    rw [getElem?_swap d idx s _ x m hx hm] at hb
    have hsi : (s - 1) / 2 = idx := by omega
    have h2 : ¬ (s - 1) / 2 = s := by omega
    simp only [hsi] at hb hlo
    have h3 : ¬ idx = s := by omega
    simp only [h3, if_false, if_true] at hb
    cases hb
    have h4 : ¬ i = s := by omega
    have h5 : ¬ i = idx := by omega
    simp only [h4, h5, if_false] at ha
    have hm2 : d[(i - 1) / 2]? = some m := by rw [hp]; exact hm
    exact hinv.1 i a m h1 (by omega) (by omega) ha hm2


theorem getElem?_lt {T : Type} {d : List T} {i : Nat} {a : T} (h : d[i]? = some a) :
    i < d.length := by
  by_contra hcon
  rw [List.getElem?_eq_none (by omega)] at h
  exact absurd h (by simp)

/-- The sift-down loop: with a budget above `size - idx` it returns, its result
is a permutation of the array, and it turns the loop invariant into heap
order. -/
theorem bubbleDownLoop_spec {T : Type} (cmp : T → T → Bool) :
    ∀ (fuel : Nat) (d : List T) (idx : Nat), d.length - idx < fuel →
      ∃ d1, Heap.bubbleDownLoop fuel d.length { data := d, comparator := cmp } idx
          = some { data := d1, comparator := cmp } ∧ d1.Perm d ∧
        ((∀ a b, cmp a b = true → cmp b a = false) →
         (∀ a b c, cmp a b = true → cmp b c = true → cmp a c = true) →
         ∀ lo, DownInv cmp lo d idx → HeapFrom cmp lo d1) := by
  intro fuel
  induction fuel with
  | zero => intro d idx h; omega
  | succ fuel ih =>
    intro d idx hfuel
    -- what happens after a swap with the child `s`
    have key : ∀ (s o : Nat) (x m : T),
        ((s = 2 * idx + 1 ∧ o = 2 * idx + 2) ∨ (s = 2 * idx + 2 ∧ o = 2 * idx + 1)) →
        d[idx]? = some x → d[s]? = some m →
        ∃ d1, (match Heap.swap { data := d, comparator := cmp } idx s with
              | none => none
              | some h1 => Heap.bubbleDownLoop fuel d.length h1 s)
            = some { data := d1, comparator := cmp } ∧ d1.Perm d ∧
          ((∀ a b, cmp a b = true → cmp b a = false) →
           (∀ a b c, cmp a b = true → cmp b c = true → cmp a c = true) →
           cmp m x = true → (∀ c, d[o]? = some c → cmp c m = false) →
           ∀ lo, DownInv cmp lo d idx → HeapFrom cmp lo d1) := by
      intro s o x m hs hx hm
      have hsl := getElem?_lt hm
      rw [swap_eq d cmp idx s x m hx hm]
      have hlen : ((d.set idx m).set s x).length = d.length := by simp
      obtain ⟨d1, h1, h2, h3⟩ := ih ((d.set idx m).set s x) s (by rw [hlen]; omega)
      rw [hlen] at h1
      refine ⟨d1, h1, h2.trans (swap_perm d idx s x m hx hm), ?_⟩
      intro hasym htrans hmx ho lo hinv
      exact h3 hasym htrans lo (downInv_step hasym hs hx hm hmx ho hinv)
    unfold Heap.bubbleDownLoop
    by_cases hl : 2 * idx + 1 < d.length
    · obtain ⟨x, hx⟩ : ∃ x, d[idx]? = some x :=
        ⟨d[idx], List.getElem?_eq_getElem (by omega)⟩
      obtain ⟨l, hlv⟩ : ∃ l, d[2 * idx + 1]? = some l :=
        ⟨d[2 * idx + 1], List.getElem?_eq_getElem hl⟩
      simp only [hl, if_true, compare_eq d cmp _ _ l x hlv hx]
      cases hc1 : cmp l x with
      | true =>
        simp only [if_true]
        by_cases hr : 2 * idx + 2 < d.length
        · obtain ⟨r, hrv⟩ : ∃ r, d[2 * idx + 2]? = some r :=
            ⟨d[2 * idx + 2], List.getElem?_eq_getElem hr⟩
          simp only [hr, if_true, compare_eq d cmp _ _ r l hrv hlv]
          cases hc2 : cmp r l with
          | true =>
            have hne : ¬ 2 * idx + 2 = idx := by omega
            simp only [if_true, hne, if_false]
            obtain ⟨d1, h1, h2, h3⟩ := key (2 * idx + 2) (2 * idx + 1) x r (Or.inr ⟨rfl, rfl⟩) hx hrv
            refine ⟨d1, h1, h2, ?_⟩
            intro hasym htrans lo hinv
            refine h3 hasym htrans (htrans _ _ _ hc2 hc1) ?_ lo hinv
            intro c hc
            rw [hlv] at hc; cases hc
            exact hasym _ _ hc2
          | false =>
            have hne : ¬ 2 * idx + 1 = idx := by omega
            simp only [Bool.false_eq_true, if_false, hne]
            obtain ⟨d1, h1, h2, h3⟩ := key (2 * idx + 1) (2 * idx + 2) x l (Or.inl ⟨rfl, rfl⟩) hx hlv
            refine ⟨d1, h1, h2, ?_⟩
            intro hasym htrans lo hinv
            refine h3 hasym htrans hc1 ?_ lo hinv
            intro c hc
            rw [hrv] at hc; cases hc
            exact hc2
        · have hne : ¬ 2 * idx + 1 = idx := by omega
          simp only [hr, Bool.false_eq_true, if_false, hne]
          obtain ⟨d1, h1, h2, h3⟩ := key (2 * idx + 1) (2 * idx + 2) x l (Or.inl ⟨rfl, rfl⟩) hx hlv
          refine ⟨d1, h1, h2, ?_⟩
          intro hasym htrans lo hinv
          refine h3 hasym htrans hc1 ?_ lo hinv
          intro c hc
          rw [List.getElem?_eq_none (by omega)] at hc
          exact absurd hc (by simp)
      | false =>
        simp only [Bool.false_eq_true, if_false]
        by_cases hr : 2 * idx + 2 < d.length
        · obtain ⟨r, hrv⟩ : ∃ r, d[2 * idx + 2]? = some r :=
            ⟨d[2 * idx + 2], List.getElem?_eq_getElem hr⟩
          simp only [hr, if_true, compare_eq d cmp _ _ r x hrv hx]
          cases hc2 : cmp r x with
          | true =>
            have hne : ¬ 2 * idx + 2 = idx := by omega
            simp only [if_true, hne, if_false]
            obtain ⟨d1, h1, h2, h3⟩ := key (2 * idx + 2) (2 * idx + 1) x r (Or.inr ⟨rfl, rfl⟩) hx hrv
            refine ⟨d1, h1, h2, ?_⟩
            intro hasym htrans lo hinv
            refine h3 hasym htrans hc2 ?_ lo hinv
            intro c hc
            rw [hlv] at hc; cases hc
            cases hlr : cmp l r with
            | false => rfl
            | true =>
              have h4 := htrans _ _ _ hlr hc2
              rw [hc1] at h4
              exact absurd h4 (by decide)
          | false =>
            simp only [Bool.false_eq_true, if_false, if_true]
            refine ⟨d, rfl, List.Perm.refl _, ?_⟩
            intro hasym htrans lo hinv
            refine downInv_stop ?_ ?_ hinv
            · intro a b ha hb
              rw [hlv] at ha; rw [hx] at hb; cases ha; cases hb; exact hc1
            · intro a b ha hb
              rw [hrv] at ha; rw [hx] at hb; cases ha; cases hb; exact hc2
        · simp only [hr, Bool.false_eq_true, if_false, if_true]
          refine ⟨d, rfl, List.Perm.refl _, ?_⟩
          intro hasym htrans lo hinv
          refine downInv_stop ?_ ?_ hinv
          · intro a b ha hb
            rw [hlv] at ha; rw [hx] at hb; cases ha; cases hb; exact hc1
          · intro a b ha hb
            rw [List.getElem?_eq_none (by omega)] at ha
            exact absurd ha (by simp)
    · have hr : ¬ 2 * idx + 2 < d.length := by omega
      simp only [hl, hr, Bool.false_eq_true, if_false, if_true]
      refine ⟨d, rfl, List.Perm.refl _, ?_⟩
      intro hasym htrans lo hinv
      refine downInv_stop ?_ ?_ hinv
      · intro a b ha hb
        rw [List.getElem?_eq_none (by omega)] at ha
        exact absurd ha (by simp)
      · intro a b ha hb
        rw [List.getElem?_eq_none (by omega)] at ha
        exact absurd ha (by simp)


theorem upInv_stop {T : Type} {cmp : T → T → Bool} {d : List T} {idx : Nat}
    (h0 : 1 ≤ idx → ∀ a b, d[idx]? = some a → d[(idx - 1) / 2]? = some b → cmp a b = false)
    (hinv : UpInv cmp d idx) : HeapFrom cmp 0 d := by
  intro i a b h1 _ ha hb
  by_cases hi : i = idx
  · subst hi; exact h0 h1 a b ha hb
  · exact hinv.1 i a b h1 hi ha hb

theorem upInv_step {T : Type} {cmp : T → T → Bool} (hc : StrictWeakOrder cmp)
    {d : List T} {idx : Nat} {v pv : T} (hpos : 1 ≤ idx)
    (hv : d[idx]? = some v) (hp : d[(idx - 1) / 2]? = some pv) (hvp : cmp v pv = true)
    (hinv : UpInv cmp d idx) :
    UpInv cmp ((d.set idx pv).set ((idx - 1) / 2) v) ((idx - 1) / 2) := by
  constructor
  · intro i a b h1 hne ha hb
    rw [getElem?_swap d idx _ i v pv hv hp] at ha
    rw [getElem?_swap d idx _ _ v pv hv hp] at hb
    simp only [hne, if_false] at ha
    by_cases hi : i = idx
    · subst hi
      simp only [if_true] at ha hb
      cases ha; cases hb
      exact hc.asymm hvp
    · simp only [hi, if_false] at ha
      by_cases hq : (i - 1) / 2 = (idx - 1) / 2
      · simp only [hq, if_true] at hb
        cases hb
        have h2 := hinv.1 i a pv h1 hi ha (by rw [hq]; exact hp)
        cases h3 : cmp a v with
        | false => rfl
        | true =>
          have h4 := hc.trans _ _ _ h3 hvp
          rw [h2] at h4
          exact absurd h4 (by decide)
      · simp only [hq, if_false] at hb
        by_cases hq2 : (i - 1) / 2 = idx
        · simp only [hq2, if_true] at hb
          cases hb
          exact hinv.2 i a _ h1 hq2 hpos ha hp
        · simp only [hq2, if_false] at hb
          exact hinv.1 i a b h1 hi ha hb
  · intro i a b h1 hpi hp1 ha hb
    rw [getElem?_swap d idx _ i v pv hv hp] at ha
    rw [getElem?_swap d idx _ _ v pv hv hp] at hb
    have h2 : ¬ ((idx - 1) / 2 - 1) / 2 = (idx - 1) / 2 := by omega
    have h3 : ¬ ((idx - 1) / 2 - 1) / 2 = idx := by omega
    simp only [h2, h3, if_false] at hb
    have hpg : cmp pv b = false :=
      hinv.1 ((idx - 1) / 2) pv b hp1 (by omega) hp hb
    have h4 : ¬ i = (idx - 1) / 2 := by omega
    simp only [h4, if_false] at ha
    by_cases hi : i = idx
    · simp only [hi, if_true] at ha
      cases ha
      exact hpg
    · simp only [hi, if_false] at ha
      have h5 := hinv.1 i a pv h1 hi ha (by rw [hpi]; exact hp)
      exact hc.neg_trans h5 hpg

/-- The sift-up loop: with a budget above `idx` it returns, its result is a
permutation of the array, and it turns the loop invariant into heap order. -/
theorem bubbleUpLoop_spec {T : Type} (cmp : T → T → Bool) :
    ∀ (fuel : Nat) (d : List T) (idx : Nat), idx < fuel → idx < d.length →
      ∃ d1, Heap.bubbleUpLoop fuel { data := d, comparator := cmp } idx
          = some { data := d1, comparator := cmp } ∧ d1.Perm d ∧
        (StrictWeakOrder cmp → UpInv cmp d idx → HeapFrom cmp 0 d1) := by
  intro fuel
  induction fuel with
  | zero => intro d idx h; omega
  | succ fuel ih =>
    intro d idx hfuel hlen
    unfold Heap.bubbleUpLoop
    by_cases hpos : idx > 0
    · obtain ⟨v, hv⟩ : ∃ v, d[idx]? = some v := ⟨d[idx], List.getElem?_eq_getElem hlen⟩
      obtain ⟨pv, hp⟩ : ∃ pv, d[(idx - 1) / 2]? = some pv :=
        ⟨d[(idx - 1) / 2], List.getElem?_eq_getElem (by omega)⟩
      simp only [hpos, if_true, compare_eq d cmp _ _ v pv hv hp]
      cases hvp : cmp v pv with
      | false =>
        refine ⟨d, rfl, List.Perm.refl _, ?_⟩
        intro _ hinv
        refine upInv_stop ?_ hinv
        intro _ a b ha hb
        rw [hv] at ha; rw [hp] at hb; cases ha; cases hb; exact hvp
      | true =>
        simp only [swap_eq d cmp _ _ v pv hv hp]
        have hl2 : ((d.set idx pv).set ((idx - 1) / 2) v).length = d.length := by simp
        obtain ⟨d1, h1, h2, h3⟩ :=
          ih ((d.set idx pv).set ((idx - 1) / 2) v) ((idx - 1) / 2) (by omega)
            (by rw [hl2]; omega)
        refine ⟨d1, h1, h2.trans (swap_perm d _ _ v pv hv hp), ?_⟩
        intro hc hinv
        exact h3 hc (upInv_step hc hpos hv hp hvp hinv)
    · simp only [hpos, if_false]
      refine ⟨d, rfl, List.Perm.refl _, ?_⟩
      intro _ hinv
      refine upInv_stop ?_ hinv
      intro h1; omega


/-- In a heap no element is better than the root. -/
theorem root_extremal {T : Type} {cmp : T → T → Bool} (hc : StrictWeakOrder cmp)
    {d : List T} (hd : HeapFrom cmp 0 d) {x : T} (hx : d[0]? = some x) :
    ∀ (i : Nat) (y : T), d[i]? = some y → cmp y x = false := by
  intro i
  induction i using Nat.strong_induction_on with
  | _ i ih =>
    intro y (hy : d[i]? = some y)
    by_cases hi : i = 0
    · subst hi
      rw [hx] at hy; cases hy
      exact hc.irrefl _
    · have hil := getElem?_lt hy
      obtain ⟨p, hp⟩ : ∃ p, d[(i - 1) / 2]? = some p :=
        ⟨d[(i - 1) / 2], List.getElem?_eq_getElem (by omega)⟩
      have h1 := hd i y p (by omega) (Nat.zero_le _) hy hp
      have h2 := ih ((i - 1) / 2) (by omega) p hp
      exact hc.neg_trans h1 h2

theorem Insert_spec {T : Type} (cmp : T → T → Bool) (d : List T) (v : T) :
    ∃ d1, Heap.Insert { data := d, comparator := cmp } v
        = some { data := d1, comparator := cmp } ∧ d1.Perm (v :: d) ∧
      (StrictWeakOrder cmp → HeapFrom cmp 0 d → HeapFrom cmp 0 d1) := by
  unfold Heap.Insert Heap.bubbleUp
  have hlen : (d ++ [v]).length - 1 = d.length := by simp
  simp only [hlen]
  obtain ⟨d1, h1, h2, h3⟩ :=
    bubbleUpLoop_spec cmp (d.length + 1) (d ++ [v]) d.length (by omega) (by simp)
  refine ⟨d1, h1, h2.trans (by simp), ?_⟩
  intro hc hd
  refine h3 hc ⟨?_, ?_⟩
  · intro i a b hi hne ha hb
    have hil : i < (d ++ [v]).length := getElem?_lt ha
    simp at hil
    rw [List.getElem?_append_left (by omega)] at ha hb
    exact hd i a b hi (Nat.zero_le _) ha hb
  · intro i a b hi hp _ ha _
    have hil : i < (d ++ [v]).length := getElem?_lt ha
    simp at hil
    omega

theorem Pop_spec {T : Type} [Inhabited T] (cmp : T → T → Bool) (x : T) (t : List T) :
    ∃ d1, Heap.Pop { data := x :: t, comparator := cmp }
        = some (x, { data := d1, comparator := cmp }) ∧ (x :: d1).Perm (x :: t) ∧
      (StrictWeakOrder cmp → HeapFrom cmp 0 (x :: t) → HeapFrom cmp 0 d1) := by
  unfold Heap.Pop Heap.bubbleDown
  obtain ⟨last, hlast⟩ : ∃ last, (x :: t)[(x :: t).length - 1]? = some last :=
    ⟨(x :: t)[(x :: t).length - 1], List.getElem?_eq_getElem (by simp)⟩
  have h0 : (x :: t)[0]? = some x := by simp
  have hne : ¬ (x :: t).length = 0 := by simp
  simp only [hne, if_false, h0, hlast]
  have hd2 : List.take (((x :: t).set 0 last).length - 1) ((x :: t).set 0 last)
      = List.take t.length (last :: t) := by simp
  simp only [hd2]
  obtain ⟨d1, h1, h2, h3⟩ :=
    bubbleDownLoop_spec cmp ((List.take t.length (last :: t)).length + 1)
      (List.take t.length (last :: t)) 0 (by omega)
  rw [h1]
  have hperm : (List.take t.length (last :: t)).Perm t := by
    by_cases ht : t = []
    · subst ht; simp
    · have e1 : List.take t.length (last :: t) = last :: t.dropLast := by
        rw [← List.dropLast_cons_of_ne_nil ht, List.dropLast_eq_take]
        simp
      have e2 : t.getLast ht = last := by
        have h5 : (x :: t).getLast? = some last := by
          rw [List.getLast?_eq_getElem?]; exact hlast
        obtain ⟨y, t1, rfl⟩ := List.exists_cons_of_ne_nil ht
        rw [List.getLast?_cons_cons, List.getLast?_eq_getLast _ ht] at h5
        exact Option.some.inj h5
      rw [e1, ← e2]
      have e3 := List.dropLast_append_getLast ht
      exact (@List.perm_append_comm T [t.getLast ht] t.dropLast).trans (by rw [e3])
  refine ⟨d1, rfl, (h2.trans hperm).cons x, ?_⟩
  intro hc hd
  refine h3 (fun a b => hc.asymm) hc.trans 0 ⟨?_, ?_⟩
  · intro i a b hi _ hp ha hb
    rw [List.getElem?_take] at ha hb
    split at ha
    · split at hb
      · have e1 : ∀ k, 1 ≤ k → (last :: t)[k]? = (x :: t)[k]? := by
          intro k hk
          cases k with
          | zero => omega
          | succ k => rfl
        rw [e1 i hi] at ha
        rw [e1 _ (by omega)] at hb
        exact hd i a b hi (Nat.zero_le _) ha hb
      · exact absurd hb (by simp)
    · exact absurd ha (by simp)
  · intro i a b _ _ h1; omega


theorem bubbleDown_spec {T : Type} (cmp : T → T → Bool) (d : List T) (idx : Nat) :
    ∃ d1, Heap.bubbleDown { data := d, comparator := cmp } idx
        = some { data := d1, comparator := cmp } ∧ d1.Perm d ∧
      ((∀ a b, cmp a b = true → cmp b a = false) →
       (∀ a b c, cmp a b = true → cmp b c = true → cmp a c = true) →
       ∀ lo, DownInv cmp lo d idx → HeapFrom cmp lo d1) := by
  unfold Heap.bubbleDown
  exact bubbleDownLoop_spec cmp (d.length + 1) d idx (by omega)

theorem downInv_of_heapFrom_succ {T : Type} {cmp : T → T → Bool} {d : List T} {k : Nat}
    (h : HeapFrom cmp (k + 1) d) : DownInv cmp k d k := by
  constructor
  · intro i a b h1 hlo hne ha hb
    exact h i a b h1 (by omega) ha hb
  · intro i a b _ _ h1 hlo _ _
    omega

/-- The heapify loop: with a budget above `i + 1` it returns a permutation of the
array, and heap order from `i + 1` on becomes heap order everywhere. -/
theorem heapifyLoop_spec {T : Type} (cmp : T → T → Bool) :
    ∀ (fuel : Nat) (d : List T) (i : Int), (i + 1).toNat < fuel →
      ∃ d1, heapifyLoop fuel { data := d, comparator := cmp } i
          = some { data := d1, comparator := cmp } ∧ d1.Perm d ∧
        ((∀ a b, cmp a b = true → cmp b a = false) →
         (∀ a b c, cmp a b = true → cmp b c = true → cmp a c = true) →
         HeapFrom cmp (i + 1).toNat d → HeapFrom cmp 0 d1) := by
  intro fuel
  induction fuel with
  | zero => intro d i h; omega
  | succ fuel ih =>
    intro d i hfuel
    unfold heapifyLoop
    by_cases hi : i ≥ 0
    · simp only [hi, if_true]
      obtain ⟨d1, h1, h2, h3⟩ := bubbleDown_spec cmp d i.toNat
      rw [h1]
      obtain ⟨d2, g1, g2, g3⟩ := ih d1 (i - 1) (by omega)
      refine ⟨d2, g1, g2.trans h2, ?_⟩
      intro hasym htrans hd
      refine g3 hasym htrans ?_
      have e1 : (i - 1 + 1).toNat = i.toNat := by simp
      have e2 : (i + 1).toNat = i.toNat + 1 := by omega
      rw [e1]
      rw [e2] at hd
      exact h3 hasym htrans _ (downInv_of_heapFrom_succ hd)
    · simp only [hi, if_false]
      refine ⟨d, rfl, List.Perm.refl _, ?_⟩
      intro _ _ hd
      have e2 : (i + 1).toNat = 0 := by omega
      rw [e2] at hd
      exact hd

theorem CreateHeapFromArray_spec {T : Type} (cmp : T → T → Bool) (arr : List T) :
    ∃ d1, CreateHeapFromArray arr cmp = some { data := d1, comparator := cmp } ∧
      d1.Perm arr ∧
      ((∀ a b, cmp a b = true → cmp b a = false) →
       (∀ a b c, cmp a b = true → cmp b c = true → cmp a c = true) →
       HeapFrom cmp 0 d1) := by
  unfold CreateHeapFromArray
  have hstart : (Int.tdiv ((arr.length : Int) - 2) 2 + 1).toNat < arr.length + 1 ∧
      ∀ i : Nat, 1 ≤ i → i < arr.length →
        (Int.tdiv ((arr.length : Int) - 2) 2 + 1).toNat > (i - 1) / 2 := by
    match arr with
    | [] => exact ⟨by simp, by intro i h1 h2; simp at h2⟩
    | [_] =>
      have e0 : Int.tdiv 1 2 = 0 := by decide
      exact ⟨by simp [e0], by intro i h1 h2; simp at h2; omega⟩
    | x :: y :: t =>
      have e : Int.tdiv (((x :: y :: t).length : Int) - 2) 2 = ((t.length / 2 : Nat) : Int) := by
        have e1 : (((x :: y :: t).length : Int) - 2) = (t.length : Int) := by
          simp only [List.length_cons]; push_cast; ring
        rw [e1, Int.tdiv_eq_ediv (by omega) (by omega)]
        norm_cast
      rw [e]
      refine ⟨?_, ?_⟩
      · simp only [List.length_cons]; omega
      · intro i h1 h2
        simp only [List.length_cons] at h2
        omega
  obtain ⟨d1, h1, h2, h3⟩ := heapifyLoop_spec cmp (arr.length + 1) arr _ hstart.1
  refine ⟨d1, h1, h2, ?_⟩
  intro hasym htrans
  refine h3 hasym htrans ?_
  intro i a b hi hlo ha hb
  have := hstart.2 i hi (getElem?_lt ha)
  omega


theorem popLoop_spec {T : Type} [Inhabited T] {cmp : T → T → Bool} (hc : StrictWeakOrder cmp) :
    ∀ (k : Nat) (d result : List T), d.length = k → HeapFrom cmp 0 d →
      ∃ out, popLoop k { data := d, comparator := cmp } result
          = some (result ++ out, { data := [], comparator := cmp }) ∧ out.Perm d ∧
        out.Pairwise (fun a b => cmp b a = false) := by
  intro k
  induction k with
  | zero =>
    intro d result hlen _
    have hd : d = [] := List.length_eq_zero.mp hlen
    subst hd
    exact ⟨[], by simp [popLoop], List.Perm.refl _, List.Pairwise.nil⟩
  | succ k ih =>
    intro d result hlen hd
    match d, hlen, hd with
    | [], hlen, _ => simp at hlen
    | x :: t, hlen, hd =>
      obtain ⟨d1, h1, h2, h3⟩ := Pop_spec cmp x t
      have hl1 : d1.length = k := by
        have := h2.length_eq
        simp only [List.length_cons] at this hlen
        omega
      obtain ⟨out, g1, g2, g3⟩ := ih d1 (result ++ [x]) hl1 (h3 hc hd)
      refine ⟨x :: out, ?_, (g2.cons x).trans h2, ?_⟩
      · unfold popLoop
        rw [h1]
        simp only [g1, List.append_assoc, List.singleton_append]
      · refine List.Pairwise.cons ?_ g3
        intro b hb
        have hb2 : b ∈ x :: t := h2.subset (List.mem_cons_of_mem x (g2.subset hb))
        obtain ⟨i, hi⟩ := List.mem_iff_getElem?.mp hb2
        exact root_extremal hc hd (by simp) i b hi


theorem Reachable.inv {T : Type} [Inhabited T] {cmp : T → T → Bool}
    (hc : StrictWeakOrder cmp) {h : Heap T} (hr : Reachable cmp h) :
    h.comparator = cmp ∧ HeapFrom cmp 0 h.data := by
  induction hr with
  | new =>
    refine ⟨rfl, ?_⟩
    intro i a b _ _ ha _
    simp [NewHeap] at ha
  | @insert h h1 v _ heq ih =>
    obtain ⟨d, c⟩ := h
    obtain ⟨hcmp, hd⟩ := ih
    simp only at hcmp hd
    subst hcmp
    obtain ⟨d1, e1, _, e3⟩ := Insert_spec c d v
    rw [e1] at heq
    cases heq
    exact ⟨rfl, e3 hc hd⟩
  | @pop h h1 x _ heq ih =>
    obtain ⟨d, c⟩ := h
    obtain ⟨hcmp, hd⟩ := ih
    simp only at hcmp hd
    subst hcmp
    match d, heq, hd with
    | [], heq, hd =>
      simp [Heap.Pop] at heq
      rw [← heq.2]
      exact ⟨rfl, hd⟩
    | y :: t, heq, hd =>
      obtain ⟨d1, e1, _, e3⟩ := Pop_spec c y t
      rw [e1] at heq
      cases heq
      exact ⟨rfl, e3 hc hd⟩

theorem weakParentOrder_of_heapFrom {T : Type} {cmp : T → T → Bool} {d : List T}
    (hd : HeapFrom cmp 0 d) : WeakParentOrder cmp d := by
  intro i _ c _ hci a ha b hb
  have hp : (c - 1) / 2 = i := by omega
  exact hd c b a (by omega) (Nat.zero_le _) (by simpa using hb) (by rw [hp]; simpa using ha)

/-! ## The heap: claims -/

/-- C1. On a non-empty heap reached from the empty heap by `Insert` and `Pop`
calls under a strict-weak-order comparator, `Pop` returns an element `x` with
`comparator(y, x)` false for every element `y` held before the call, and the
elements held afterwards are the previous ones minus one occurrence of `x`. -/
theorem pop_returns_extremal {T : Type} [Inhabited T] (cmp : T → T → Bool)
    (hc : StrictWeakOrder cmp) (h : Heap T) (hr : Reachable cmp h) (hne : h.data ≠ []) :
    ∃ x h1, h.Pop = some (x, h1) ∧ (∀ y ∈ h.data, cmp y x = false) ∧
      h.data.Perm (x :: h1.data) := by
  obtain ⟨hcmp, hd⟩ := hr.inv hc
  obtain ⟨d, c⟩ := h
  simp only at hcmp hd hne
  subst hcmp
  match d, hne, hd with
  | [], hne, _ => exact absurd rfl hne
  | x :: t, _, hd =>
    obtain ⟨d1, e1, e2, _⟩ := Pop_spec c x t
    refine ⟨x, _, e1, ?_, e2.symm⟩
    intro y hy
    obtain ⟨i, hi⟩ := List.mem_iff_getElem?.mp hy
    exact root_extremal hc hd (by simp) i y hi

theorem pop_returns_extremal_witness :
    StrictWeakOrder minComparator ∧
    Reachable minComparator { data := [1, 2], comparator := minComparator } ∧
    ∃ x h1, Heap.Pop { data := [1, 2], comparator := minComparator } = some (x, h1) ∧
      (∀ y ∈ [1, 2], minComparator y x = false) ∧ [1, 2].Perm (x :: h1.data) :=
  ⟨minComparator_swo,
   Reachable.insert 1 (Reachable.insert 2 Reachable.new rfl) rfl,
   pop_returns_extremal minComparator minComparator_swo
     { data := [1, 2], comparator := minComparator }
     (Reachable.insert 1 (Reachable.insert 2 Reachable.new rfl) rfl) (by simp)⟩

/-- C2. Heap invariant preservation: under a strict-weak-order comparator, if no
child is better than its parent in the array of the heap, then `Insert(v)` returns
and `Pop()` returns, and the array after each satisfies the same predicate. -/
theorem heap_invariant_preserved {T : Type} [Inhabited T] (h : Heap T)
    (hc : StrictWeakOrder h.comparator) (hinv : IsHeap h.comparator h.data) (v : T) :
    (∃ h1, h.Insert v = some h1 ∧ h1.comparator = h.comparator ∧
        IsHeap h1.comparator h1.data) ∧
    (∃ x h1, h.Pop = some (x, h1) ∧ h1.comparator = h.comparator ∧
        IsHeap h1.comparator h1.data) := by
  obtain ⟨d, c⟩ := h
  simp only at hc hinv
  rw [isHeap_iff_heapFrom] at hinv
  constructor
  · obtain ⟨d1, e1, _, e3⟩ := Insert_spec c d v
    exact ⟨_, e1, rfl, (isHeap_iff_heapFrom _ _).mpr (e3 hc hinv)⟩
  · match d, hinv with
    | [], hinv =>
      exact ⟨default, { data := [], comparator := c }, by simp [Heap.Pop], rfl,
        (isHeap_iff_heapFrom _ _).mpr hinv⟩
    | x :: t, hinv =>
      obtain ⟨d1, e1, _, e3⟩ := Pop_spec c x t
      exact ⟨x, _, e1, rfl, (isHeap_iff_heapFrom _ _).mpr (e3 hc hinv)⟩

theorem heap_invariant_preserved_witness :
    StrictWeakOrder minComparator ∧ IsHeap minComparator [1, 3, 2, 3] ∧
    ((∃ h1, Heap.Insert { data := [1, 3, 2, 3], comparator := minComparator } 0 = some h1 ∧
        h1.comparator = minComparator ∧ IsHeap h1.comparator h1.data) ∧
     (∃ x h1, Heap.Pop { data := [1, 3, 2, 3], comparator := minComparator } = some (x, h1) ∧
        h1.comparator = minComparator ∧ IsHeap h1.comparator h1.data)) :=
  ⟨minComparator_swo, by decide,
   heap_invariant_preserved { data := [1, 3, 2, 3], comparator := minComparator }
     minComparator_swo (by decide) 0⟩

/-- C3. For every int array `xs`, `CreateHeapFromArray(xs, a<b)` followed by
`len(xs)` calls of `Pop` returns a sorted permutation of `xs` in ascending
order; with the comparator `a>b` the sequence is descending. -/
theorem heapify_then_pop_sorts (xs : List Int) :
    (∃ h out h1, CreateHeapFromArray xs minComparator = some h ∧
        popLoop xs.length h [] = some (out, h1) ∧
        out.Perm xs ∧ out.Sorted (fun a b => a ≤ b)) ∧
    (∃ h out h1, CreateHeapFromArray xs maxComparator = some h ∧
        popLoop xs.length h [] = some (out, h1) ∧
        out.Perm xs ∧ out.Sorted (fun a b => a ≥ b)) := by
  constructor
  · obtain ⟨d1, e1, e2, e3⟩ := CreateHeapFromArray_spec minComparator xs
    have hd := e3 (fun a b => minComparator_swo.asymm) minComparator_swo.trans
    obtain ⟨out, g1, g2, g3⟩ :=
      popLoop_spec minComparator_swo xs.length d1 [] e2.length_eq hd
    refine ⟨_, out, _, e1, by simpa using g1, g2.trans e2, ?_⟩
    refine List.Pairwise.imp ?_ g3
    intro a b hab
    simp only [minComparator, decide_eq_false_iff_not] at hab
    omega
  · obtain ⟨d1, e1, e2, e3⟩ := CreateHeapFromArray_spec maxComparator xs
    have hd := e3 (fun a b => maxComparator_swo.asymm) maxComparator_swo.trans
    obtain ⟨out, g1, g2, g3⟩ :=
      popLoop_spec maxComparator_swo xs.length d1 [] e2.length_eq hd
    refine ⟨_, out, _, e1, by simpa using g1, g2.trans e2, ?_⟩
    refine List.Pairwise.imp ?_ g3
    intro a b hab
    simp only [maxComparator, decide_eq_false_iff_not] at hab
    omega

/-- C4. For every array (of any length, 0 and 1 included) and every
strict-weak-order comparator, `CreateHeapFromArray` returns (no index leaves the
array), and the array of the returned heap is a permutation of the input in which no
child is better than its parent. -/
theorem createHeapFromArray_safe {T : Type} (arr : List T) (cmp : T → T → Bool)
    (hc : StrictWeakOrder cmp) :
    ∃ h, CreateHeapFromArray arr cmp = some h ∧ h.comparator = cmp ∧
      h.data.Perm arr ∧ IsHeap cmp h.data := by
  obtain ⟨d1, e1, e2, e3⟩ := CreateHeapFromArray_spec cmp arr
  exact ⟨_, e1, rfl, e2, (isHeap_iff_heapFrom _ _).mpr (e3 (fun a b => hc.asymm) hc.trans)⟩

theorem createHeapFromArray_safe_witness :
    StrictWeakOrder maxComparator ∧
    ∃ h, CreateHeapFromArray [5, 2, 7, 3, 9] maxComparator = some h ∧
      h.comparator = maxComparator ∧ h.data.Perm [5, 2, 7, 3, 9] ∧
      IsHeap maxComparator h.data :=
  ⟨maxComparator_swo, createHeapFromArray_safe [5, 2, 7, 3, 9] maxComparator maxComparator_swo⟩

/-- C5. For every heap, `Peek()` returns exactly the value that an immediately
following `Pop()` returns, and `Peek()` leaves the heap (array and length)
unchanged. -/
theorem peek_agrees_with_pop {T : Type} [Inhabited T] (h : Heap T) :
    ∃ x h1, h.Peek = some (x, h) ∧ h.Pop = some (x, h1) := by
  obtain ⟨d, c⟩ := h
  match d with
  | [] => exact ⟨default, { data := [], comparator := c }, by simp [Heap.Peek], by simp [Heap.Pop]⟩
  | x :: t =>
    obtain ⟨d1, e1, _, _⟩ := Pop_spec c x t
    exact ⟨x, _, by simp [Heap.Peek], e1⟩

/-- C6. On an empty heap `Pop()` and `Peek()` do not fail: each returns the zero
value of `T` and leaves the heap empty (`Len() == 0`, `IsEmpty()` true). -/
theorem empty_heap_pop_peek {T : Type} [Inhabited T] (h : Heap T) (hempty : h.IsEmpty = true) :
    (∃ h1, h.Pop = some (default, h1) ∧ h1.Len = 0 ∧ h1.IsEmpty = true) ∧
    (∃ h1, h.Peek = some (default, h1) ∧ h1.Len = 0 ∧ h1.IsEmpty = true) := by
  have hlen : h.data.length = 0 := by
    simpa [Heap.IsEmpty, Heap.Len] using hempty
  exact ⟨⟨h, by simp [Heap.Pop, hlen], hlen, hempty⟩,
    ⟨h, by simp [Heap.Peek, hlen], hlen, hempty⟩⟩

theorem empty_heap_pop_peek_witness :
    (NewHeap minComparator).IsEmpty = true ∧
    (∃ h1, (NewHeap minComparator).Pop = some (default, h1) ∧ h1.Len = 0 ∧
      h1.IsEmpty = true) ∧
    (∃ h1, (NewHeap minComparator).Peek = some (default, h1) ∧ h1.Len = 0 ∧
      h1.IsEmpty = true) :=
  ⟨rfl, empty_heap_pop_peek (NewHeap minComparator) rfl⟩

/-- C7, as stated, fails: after `Insert(1)`, `Insert(1)` on a min-heap the array
is `[1, 1]`, and `better(data[0], data[1])`, that is `1 < 1`, is false. -/
theorem strict_parent_order_counterexample :
    Reachable minComparator { data := [1, 1], comparator := minComparator } ∧
    ¬ StrictParentOrder minComparator [1, 1] :=
  ⟨Reachable.insert 1 (Reachable.insert 1 Reachable.new rfl) rfl, by decide⟩

/-- C7, amended. After any sequence of `Insert` and `Pop` calls on a min-heap
built with `better(a,b) = a<b`, for every index `i` and each existing child
index `c` in `2i+1`, `2i+2`, `better(data[c], data[i])` is false (the parent is
less than or equal to the child). -/
theorem weak_parent_order_of_reachable (h : Heap Int) (hr : Reachable minComparator h) :
    WeakParentOrder minComparator h.data ∧
    ∀ i c a b, (c = 2 * i + 1 ∨ c = 2 * i + 2) → h.data[i]? = some a → h.data[c]? = some b →
      a ≤ b := by
  have hd := (hr.inv minComparator_swo).2
  have hw := weakParentOrder_of_heapFrom hd
  refine ⟨hw, ?_⟩
  intro i c a b hci ha hb
  have h1 := hw i (getElem?_lt ha) c (getElem?_lt hb) hci a (by simpa using ha) b
    (by simpa using hb)
  simp only [minComparator, decide_eq_false_iff_not] at h1
  omega

theorem weak_parent_order_of_reachable_witness :
    Reachable minComparator { data := [1, 1], comparator := minComparator } ∧
    WeakParentOrder minComparator [1, 1] ∧
    ∀ i c a b, (c = 2 * i + 1 ∨ c = 2 * i + 2) → ([1, 1] : List Int)[i]? = some a →
      ([1, 1] : List Int)[c]? = some b → a ≤ b :=
  ⟨Reachable.insert 1 (Reachable.insert 1 Reachable.new rfl) rfl,
   weak_parent_order_of_reachable { data := [1, 1], comparator := minComparator }
     (Reachable.insert 1 (Reachable.insert 1 Reachable.new rfl) rfl)⟩

end myheap

namespace bst

/-! ## The binary search tree: auxiliary lemmas -/

theorem inOrder_eq_append {T : Type} (t : Node T) :
    ∀ acc : List T, inOrder t acc = acc ++ inOrder t [] := by
  induction t with
  | nil => intro acc; simp [inOrder]
  | node v l r ihl ihr =>
    intro acc
    simp only [inOrder]
    rw [ihr (inOrder l acc ++ [v]), ihr (inOrder l [] ++ [v]), ihl acc]
    simp

theorem inOrder_node {T : Type} (v : T) (l r : Node T) :
    inOrder (Node.node v l r) [] = inOrder l [] ++ v :: inOrder r [] := by
  simp only [inOrder]
  rw [inOrder_eq_append r]
  simp

theorem all_iff {T : Type} (p : T → Prop) (t : Node T) :
    Node.All p t ↔ ∀ x ∈ inOrder t [], p x := by
  induction t with
  | nil => simp [Node.All, inOrder]
  | node v l r ihl ihr =>
    rw [inOrder_node]
    simp only [Node.All, ihl, ihr, List.mem_append, List.mem_cons]
    constructor
    · rintro ⟨h1, h2, h3⟩ x (hx | hx | hx)
      · exact h2 x hx
      · rw [hx]; exact h1
      · exact h3 x hx
    · intro h
      exact ⟨h v (Or.inr (Or.inl rfl)), fun x hx => h x (Or.inl hx),
        fun x hx => h x (Or.inr (Or.inr hx))⟩

theorem isBST_iff_sorted {T : Type} [LinearOrder T] (t : Node T) :
    IsBST t ↔ (inOrder t []).Sorted (fun a b => a < b) := by
  induction t with
  | nil => simp [IsBST, inOrder]
  | node v l r ihl ihr =>
    rw [inOrder_node]
    simp only [IsBST, ihl, ihr, all_iff, List.Sorted, List.pairwise_append, List.pairwise_cons,
      List.mem_cons]
    constructor
    · rintro ⟨h1, h2, h3, h4⟩
      refine ⟨h3, ⟨h2, h4⟩, ?_⟩
      rintro a ha b (hb | hb)
      · rw [hb]; exact h1 a ha
      · exact lt_trans (h1 a ha) (h2 b hb)
    · rintro ⟨h1, ⟨h2, h3⟩, h4⟩
      exact ⟨fun x hx => h4 x hx v (Or.inl rfl), h2, h1, h3⟩

theorem mem_inOrder_insert {T : Type} [LinearOrder T] (t : Node T) (v x : T) :
    x ∈ inOrder (insert t v) [] ↔ x = v ∨ x ∈ inOrder t [] := by
  induction t with
  | nil => simp [insert, inOrder]
  | node w l r ihl ihr =>
    unfold insert
    by_cases h1 : v < w
    · simp only [h1, if_true, inOrder_node, List.mem_append, List.mem_cons, ihl]
      tauto
    · by_cases h2 : v > w
      · simp only [h1, h2, if_false, if_true, inOrder_node, List.mem_append, List.mem_cons, ihr]
        tauto
      · have h3 : v = w := le_antisymm (not_lt.mp h2) (not_lt.mp h1)
        rw [if_neg h1, if_neg h2]
        subst h3
        simp only [inOrder_node, List.mem_append, List.mem_cons]
        tauto

theorem isBST_insert {T : Type} [LinearOrder T] (t : Node T) (v : T) (h : IsBST t) :
    IsBST (insert t v) := by
  induction t with
  | nil => simp [insert, IsBST, Node.All]
  | node w l r ihl ihr =>
    obtain ⟨h1, h2, h3, h4⟩ := h
    unfold insert
    by_cases c1 : v < w
    · simp only [c1, if_true, IsBST]
      refine ⟨?_, h2, ihl h3, h4⟩
      rw [all_iff] at h1 ⊢
      intro x hx
      rcases (mem_inOrder_insert l v x).mp hx with hx | hx
      · rw [hx]; exact c1
      · exact h1 x hx
    · by_cases c2 : v > w
      · simp only [c1, c2, if_false, if_true, IsBST]
        refine ⟨h1, ?_, h3, ihr h4⟩
        rw [all_iff] at h2 ⊢
        intro x hx
        rcases (mem_inOrder_insert r v x).mp hx with hx | hx
        · rw [hx]; exact c2
        · exact h2 x hx
      · simp only [c1, c2, if_false]
        exact ⟨h1, h2, h3, h4⟩

theorem FindMin_spec {T : Type} (t : Node T) :
    ∀ (v : T) (r : Node T), ∃ mv ml mr rest,
      FindMin (Node.node v t r) = some (Node.node mv ml mr) ∧
      inOrder (Node.node v t r) [] = mv :: rest := by
  induction t with
  | nil =>
    intro v r
    exact ⟨v, Node.nil, r, inOrder r [], by simp [FindMin], by rw [inOrder_node]; simp [inOrder]⟩
  | node lv ll lr ihl _ =>
    intro v r
    obtain ⟨mv, ml, mr, rest, h1, h2⟩ := ihl lv lr
    refine ⟨mv, ml, mr, rest ++ v :: inOrder r [], by simpa [FindMin] using h1, ?_⟩
    rw [inOrder_node, h2]
    simp

theorem filter_ne_eq_self {T : Type} [DecidableEq T] (l : List T) (v : T)
    (h : ∀ x ∈ l, x ≠ v) : l.filter (fun x => decide (x ≠ v)) = l := by
  rw [List.filter_eq_self]
  intro x hx
  simpa using h x hx

theorem Delete_node {T : Type} [LinearOrder T] (v : T) (l r : Node T) (value : T) :
    Delete (Node.node v l r) value =
      if value < v then
        match Delete l value with
        | none => none
        | some l1 => some (Node.node v l1 r)
      else if value > v then
        match Delete r value with
        | none => none
        | some r1 => some (Node.node v l r1)
      else
        match l with
        | Node.nil =>
          match r with
          | Node.nil => some Node.nil
          | Node.node _ _ _ => some r
        | Node.node _ _ _ =>
          match r with
          | Node.nil => some l
          | Node.node _ _ _ =>
            match FindMin r with
            | none => none
            | some Node.nil => none
            | some (Node.node mv _ _) =>
              match Delete r mv with
              | none => none
              | some r1 => some (Node.node mv l r1) := by
  cases l <;> cases r <;> rfl

/-- On a valid tree `Delete` returns, and the in-order sequence of the result is
the old one without `value`. -/
theorem Delete_spec {T : Type} [LinearOrder T] (t : Node T) :
    ∀ value : T, IsBST t → ∃ t1, Delete t value = some t1 ∧
      inOrder t1 [] = (inOrder t []).filter (fun x => decide (x ≠ value)) := by
  induction t with
  | nil => intro value _; exact ⟨Node.nil, rfl, by simp [inOrder]⟩
  | node w l r ihl ihr =>
    intro value h
    obtain ⟨h1, h2, h3, h4⟩ := h
    rw [all_iff] at h1 h2
    rw [Delete_node]
    by_cases c1 : value < w
    · obtain ⟨l1, e1, e2⟩ := ihl value h3
      refine ⟨Node.node w l1 r, by simp [c1, e1], ?_⟩
      rw [inOrder_node, inOrder_node, e2, List.filter_append, List.filter_cons]
      have hw : decide (w ≠ value) = true := by simpa using (ne_of_gt c1)
      rw [hw, filter_ne_eq_self (inOrder r []) value
        (fun x hx => ne_of_gt (lt_trans c1 (h2 x hx)))]
      simp
    · by_cases c2 : value > w
      · obtain ⟨r1, e1, e2⟩ := ihr value h4
        refine ⟨Node.node w l r1, by simp [c1, c2, e1], ?_⟩
        rw [inOrder_node, inOrder_node, e2, List.filter_append, List.filter_cons]
        have hw : decide (w ≠ value) = true := by simpa using (ne_of_lt c2)
        rw [hw, filter_ne_eq_self (inOrder l []) value
          (fun x hx => ne_of_lt (lt_trans (h1 x hx) c2))]
        simp
      · have c3 : value = w := le_antisymm (not_lt.mp c2) (not_lt.mp c1)
        subst c3
        simp only [c1, c2, if_false]
        have hfl : (inOrder l []).filter (fun x => decide (x ≠ value)) = inOrder l [] :=
          filter_ne_eq_self _ _ (fun x hx => ne_of_lt (h1 x hx))
        have hfr : (inOrder r []).filter (fun x => decide (x ≠ value)) = inOrder r [] :=
          filter_ne_eq_self _ _ (fun x hx => ne_of_gt (h2 x hx))
        have hgoal : (inOrder (Node.node value l r) []).filter (fun x => decide (x ≠ value))
            = inOrder l [] ++ inOrder r [] := by
          rw [inOrder_node, List.filter_append, List.filter_cons, hfl, hfr]
          simp
        rw [hgoal]
        match l, r, h2, h4, ihr with
        | Node.nil, Node.nil, _, _, _ => exact ⟨Node.nil, rfl, by simp [inOrder]⟩
        | Node.nil, Node.node rv rl rr, _, _, _ => exact ⟨_, rfl, by simp [inOrder]⟩
        | Node.node lv ll lr, Node.nil, _, _, _ => exact ⟨_, rfl, by simp [inOrder]⟩
        | Node.node lv ll lr, Node.node rv rl rr, h2, h4, ihr =>
          obtain ⟨mv, ml, mr, rest, f1, f2⟩ := FindMin_spec rl rv rr
          obtain ⟨r1, e1, e2⟩ := ihr mv h4
          refine ⟨Node.node mv (Node.node lv ll lr) r1, by simp [f1, e1], ?_⟩
          rw [inOrder_node, e2, f2, List.filter_cons]
          have hs := (isBST_iff_sorted _).mp h4
          rw [f2] at hs
          have hrest : ∀ x ∈ rest, x ≠ mv :=
            fun x hx => ne_of_gt (List.rel_of_sorted_cons hs x hx)
          rw [filter_ne_eq_self rest mv hrest]
          simp

theorem search_iff {T : Type} [LinearOrder T] (t : Node T) (value : T) (h : IsBST t) :
    search t value = true ↔ value ∈ inOrder t [] := by
  induction t with
  | nil => simp [search, inOrder]
  | node w l r ihl ihr =>
    obtain ⟨h1, h2, h3, h4⟩ := h
    rw [all_iff] at h1 h2
    unfold search
    rw [inOrder_node]
    simp only [List.mem_append, List.mem_cons]
    by_cases c0 : value = w
    · simp [c0]
    · by_cases c1 : value < w
      · simp only [c0, c1, if_false, if_true, ihl h3]
        constructor
        · intro hx; exact Or.inl hx
        · rintro (hx | hx | hx)
          · exact hx
          · exact absurd hx (by simp)
          · exact absurd (lt_trans c1 (h2 value hx)) (lt_irrefl _)
      · simp only [c0, c1, if_false, ihr h4]
        constructor
        · intro hx; exact Or.inr (Or.inr hx)
        · rintro (hx | hx | hx)
          · exact absurd (h1 value hx) c1
          · exact absurd hx (by simp)
          · exact hx


theorem build_spec {T : Type} [LinearOrder T] (values : List T) :
    ∀ t : BST T, IsBST t.Root →
      IsBST (values.foldl (fun tree val => tree.Insert val) t).Root ∧
      ∀ x, x ∈ (values.foldl (fun tree val => tree.Insert val) t).InOrderTraversal ↔
        x ∈ t.InOrderTraversal ∨ x ∈ values := by
  induction values with
  | nil => intro t h; simpa using h
  | cons v vs ih =>
    intro t h
    obtain ⟨g1, g2⟩ := ih (t.Insert v) (isBST_insert t.Root v h)
    refine ⟨g1, ?_⟩
    intro x
    rw [List.foldl_cons, g2 x]
    simp only [BST.InOrderTraversal, BST.Insert, mem_inOrder_insert, List.mem_cons]
    tauto

/-! ## The binary search tree: claims -/

/-- C8. BST invariant preservation: for every tree that satisfies the BST
invariant and every value `v`, the tree after `Insert(v)` satisfies it, and
`Delete(v)` returns a tree that satisfies it. -/
theorem bst_invariant_preserved {T : Type} [LinearOrder T] (t : BST T) (v : T)
    (h : IsBST t.Root) :
    IsBST (t.Insert v).Root ∧ ∃ t1, t.Delete v = some t1 ∧ IsBST t1.Root := by
  refine ⟨isBST_insert t.Root v h, ?_⟩
  obtain ⟨r1, e1, e2⟩ := Delete_spec t.Root v h
  refine ⟨{ Root := r1 }, by simp [BST.Delete, e1], ?_⟩
  rw [isBST_iff_sorted, e2]
  exact ((isBST_iff_sorted _).mp h).sublist (List.filter_sublist _)

theorem bst_invariant_preserved_witness :
    IsBST (BuildBSTFromSlice [5, 3, 8, 7, 9]).Root ∧
    IsBST ((BuildBSTFromSlice [5, 3, 8, 7, 9]).Insert 5).Root ∧
    ∃ t1, (BuildBSTFromSlice [5, 3, 8, 7, 9]).Delete 5 = some t1 ∧ IsBST t1.Root :=
  ⟨by simp [BuildBSTFromSlice, BST.Insert, NewBST, insert, IsBST, Node.All],
   bst_invariant_preserved (BuildBSTFromSlice [5, 3, 8, 7, 9]) 5
     (by simp [BuildBSTFromSlice, BST.Insert, NewBST, insert, IsBST, Node.All])⟩

/-- C9. For every valid BST and every value `v`, `Delete(v)` returns a tree
whose in-order traversal is the traversal before with `v` removed (unchanged
when `v` is absent), and `Search(v)` is false afterwards. -/
theorem delete_removes_value {T : Type} [LinearOrder T] (t : BST T) (v : T)
    (h : IsBST t.Root) :
    ∃ t1, t.Delete v = some t1 ∧
      t1.InOrderTraversal = t.InOrderTraversal.erase v ∧
      (v ∉ t.InOrderTraversal → t1.InOrderTraversal = t.InOrderTraversal) ∧
      t1.Search v = false := by
  obtain ⟨r1, e1, e2⟩ := Delete_spec t.Root v h
  have hs := (isBST_iff_sorted _).mp h
  have hnd : (inOrder t.Root []).Nodup := hs.nodup
  have e3 : inOrder r1 [] = (inOrder t.Root []).erase v := by
    rw [e2, hnd.erase_eq_filter]
    congr 1
    funext x
    by_cases hxv : x = v <;> simp [hxv]
  have hb1 : IsBST r1 := by
    rw [isBST_iff_sorted, e2]
    exact hs.sublist (List.filter_sublist _)
  refine ⟨{ Root := r1 }, by simp [BST.Delete, e1], e3, ?_, ?_⟩
  · intro hv
    simp only [BST.InOrderTraversal] at hv ⊢
    rw [e3, List.erase_of_not_mem hv]
  · simp only [BST.Search]
    cases hsr : search r1 v with
    | false => rfl
    | true =>
      have hm := (search_iff r1 v hb1).mp hsr
      rw [e2] at hm
      simp at hm

theorem delete_removes_value_witness :
    IsBST (BuildBSTFromSlice [5, 3, 8, 7, 9]).Root ∧
    ∃ t1, (BuildBSTFromSlice [5, 3, 8, 7, 9]).Delete 5 = some t1 ∧
      t1.InOrderTraversal = (BuildBSTFromSlice [5, 3, 8, 7, 9]).InOrderTraversal.erase 5 ∧
      (5 ∉ (BuildBSTFromSlice [5, 3, 8, 7, 9]).InOrderTraversal →
        t1.InOrderTraversal = (BuildBSTFromSlice [5, 3, 8, 7, 9]).InOrderTraversal) ∧
      t1.Search 5 = false :=
  ⟨by simp [BuildBSTFromSlice, BST.Insert, NewBST, insert, IsBST, Node.All],
   delete_removes_value (BuildBSTFromSlice [5, 3, 8, 7, 9]) 5
     (by simp [BuildBSTFromSlice, BST.Insert, NewBST, insert, IsBST, Node.All])⟩

/-- C10. For every slice of values (any order, duplicates allowed),
`BuildBSTFromSlice(values).InOrderTraversal()` is the strictly ascending list of
the distinct values of the slice. -/
theorem build_inorder_sorted_distinct {T : Type} [LinearOrder T] (values : List T) :
    (BuildBSTFromSlice values).InOrderTraversal.Sorted (fun a b => a < b) ∧
    (∀ x, x ∈ (BuildBSTFromSlice values).InOrderTraversal ↔ x ∈ values) ∧
    (BuildBSTFromSlice values).InOrderTraversal = values.toFinset.sort (fun a b => a ≤ b) := by
  obtain ⟨g1, g2⟩ := build_spec values NewBST (by simp [NewBST, IsBST])
  have hs : (BuildBSTFromSlice values).InOrderTraversal.Sorted (fun a b => a < b) :=
    (isBST_iff_sorted _).mp g1
  have hm : ∀ x, x ∈ (BuildBSTFromSlice values).InOrderTraversal ↔ x ∈ values := by
    intro x
    have := g2 x
    simpa [BuildBSTFromSlice, BST.InOrderTraversal, NewBST, inOrder] using this
  refine ⟨hs, hm, ?_⟩
  have e1 : (BuildBSTFromSlice values).InOrderTraversal.toFinset = values.toFinset := by
    ext x; simp [hm x]
  rw [← e1]
  exact ((List.toFinset_sort (fun a b => a ≤ b) hs.nodup).mpr (hs.imp le_of_lt)).symm

end bst

namespace history

/-! ## Call sequences: lemmas -/

theorem storedAfter_nil {α : Type} (a : α) : ¬ StoredAfter ([] : List (Op α)) a := by
  rintro ⟨pre, post, h, _⟩
  cases pre <;> simp at h

theorem storedAfter_cons_insert {α : Type} (x : α) (ops : List (Op α)) (a : α) :
    StoredAfter (Op.insert x :: ops) a ↔ StoredAfter ops a ∨ (a = x ∧ Op.delete a ∉ ops) := by
  constructor
  · rintro ⟨pre, post, h, hd⟩
    cases pre with
    | nil =>
      simp only [List.nil_append, List.cons.injEq, Op.insert.injEq] at h
      obtain ⟨h1, h2⟩ := h
      subst h2
      exact Or.inr ⟨h1.symm, hd⟩
    | cons p pre =>
      simp only [List.cons_append, List.cons.injEq] at h
      exact Or.inl ⟨pre, post, h.2, hd⟩
  · rintro (⟨pre, post, h, hd⟩ | ⟨h1, h2⟩)
    · exact ⟨Op.insert x :: pre, post, by simp [h], hd⟩
    · subst h1
      exact ⟨[], ops, rfl, h2⟩

theorem storedAfter_cons_delete {α : Type} (x : α) (ops : List (Op α)) (a : α) :
    StoredAfter (Op.delete x :: ops) a ↔ StoredAfter ops a := by
  constructor
  · rintro ⟨pre, post, h, hd⟩
    cases pre with
    | nil => simp at h
    | cons p pre =>
      simp only [List.cons_append, List.cons.injEq] at h
      exact ⟨pre, post, h.2, hd⟩
  · rintro ⟨pre, post, h, hd⟩
    exact ⟨Op.delete x :: pre, post, by simp [h], hd⟩

/-- If every call returns and keeps `Inv`, an `Insert(x)` adds `x` to the
members and a `Delete(x)` removes it, then the whole sequence returns, keeps
`Inv`, and the members afterwards are the values stored by the sequence
together with the initial members that were never deleted. -/
theorem run_members {σ α : Type} (step : σ → Op α → Option σ) (Inv : σ → Prop)
    (mem : σ → α → Prop)
    (hins : ∀ s x, Inv s → ∃ s1, step s (Op.insert x) = some s1 ∧ Inv s1 ∧
      ∀ a, mem s1 a ↔ a = x ∨ mem s a)
    (hdel : ∀ s x, Inv s → ∃ s1, step s (Op.delete x) = some s1 ∧ Inv s1 ∧
      ∀ a, mem s1 a ↔ a ≠ x ∧ mem s a) :
    ∀ (ops : List (Op α)) (s : σ), Inv s → ∃ s1, run step ops s = some s1 ∧ Inv s1 ∧
      ∀ a, mem s1 a ↔ StoredAfter ops a ∨ (mem s a ∧ Op.delete a ∉ ops) := by
  intro ops
  induction ops with
  | nil =>
    intro s hs
    refine ⟨s, rfl, hs, ?_⟩
    intro a
    simp [storedAfter_nil]
  | cons op ops ih =>
    intro s hs
    cases op with
    | insert x =>
      obtain ⟨s1, e1, i1, m1⟩ := hins s x hs
      obtain ⟨s2, e2, i2, m2⟩ := ih s1 i1
      refine ⟨s2, by simp [run, e1, e2], i2, ?_⟩
      intro a
      rw [m2 a, m1 a, storedAfter_cons_insert]
      simp only [List.mem_cons, Op.delete.injEq, reduceCtorEq, false_or]
      tauto
    | delete x =>
      obtain ⟨s1, e1, i1, m1⟩ := hdel s x hs
      obtain ⟨s2, e2, i2, m2⟩ := ih s1 i1
      refine ⟨s2, by simp [run, e1, e2], i2, ?_⟩
      intro a
      rw [m2 a, m1 a, storedAfter_cons_delete]
      simp only [List.mem_cons, Op.delete.injEq, not_or]
      tauto

end history

namespace bst

theorem insert_of_mem {T : Type} [LinearOrder T] (t : Node T) (v : T) (h : IsBST t)
    (hv : v ∈ inOrder t []) : insert t v = t := by
  induction t with
  | nil => simp [inOrder] at hv
  | node w l r ihl ihr =>
    obtain ⟨h1, h2, h3, h4⟩ := h
    rw [all_iff] at h1 h2
    rw [inOrder_node] at hv
    simp only [List.mem_append, List.mem_cons] at hv
    unfold insert
    by_cases c1 : v < w
    · rw [if_pos c1]
      rcases hv with hv | hv | hv
      · rw [ihl h3 hv]
      · exact absurd c1 (by rw [hv]; exact lt_irrefl _)
      · exact absurd (lt_trans c1 (h2 v hv)) (lt_irrefl _)
    · rw [if_neg c1]
      by_cases c2 : v > w
      · rw [if_pos c2]
        rcases hv with hv | hv | hv
        · exact absurd (lt_trans (h1 v hv) c2) (lt_irrefl _)
        · exact absurd c2 (by rw [hv]; exact lt_irrefl _)
        · rw [ihr h4 hv]
      · rw [if_neg c2]

/-- C11. For every sequence of `Insert` and `Delete` calls applied to an empty
BST the calls return, and for every value `v`, `Search(v)` is true if and only
if `v` was inserted and not deleted after its last insertion, if and only if
`v` occurs in `InOrderTraversal()`. -/
theorem search_iff_stored {T : Type} [LinearOrder T] (ops : List (history.Op T)) :
    ∃ t, history.run applyOp ops NewBST = some t ∧
      ∀ v, (t.Search v = true ↔ history.StoredAfter ops v) ∧
        (t.Search v = true ↔ v ∈ t.InOrderTraversal) := by
  obtain ⟨t, e1, i1, m1⟩ :=
    history.run_members (@applyOp T _) (fun t => IsBST t.Root)
      (fun t a => a ∈ t.InOrderTraversal)
      (by
        intro s x hs
        exact ⟨s.Insert x, rfl, isBST_insert s.Root x hs,
          fun a => mem_inOrder_insert s.Root x a⟩)
      (by
        intro s x hs
        obtain ⟨r1, d1, d2⟩ := Delete_spec s.Root x hs
        refine ⟨{ Root := r1 }, by simp [applyOp, BST.Delete, d1], ?_, ?_⟩
        · show IsBST r1
          rw [isBST_iff_sorted, d2]
          exact ((isBST_iff_sorted _).mp hs).sublist (List.filter_sublist _)
        · intro a
          show a ∈ inOrder r1 [] ↔ _
          rw [d2]
          simp [BST.InOrderTraversal, and_comm])
      ops NewBST (by simp [NewBST, IsBST])
  refine ⟨t, e1, ?_⟩
  intro v
  have hs : t.Search v = true ↔ v ∈ t.InOrderTraversal := search_iff t.Root v i1
  refine ⟨?_, hs⟩
  rw [hs, m1 v]
  simp [BST.InOrderTraversal, NewBST, inOrder]

/-- C12. For every valid BST that already contains `v`, `Insert(v)` leaves the
tree unchanged (same shape, same values), and `InOrderTraversal()` still
contains `v` exactly once. -/
theorem insert_duplicate_noop {T : Type} [LinearOrder T] (t : BST T) (v : T)
    (h : IsBST t.Root) (hv : v ∈ t.InOrderTraversal) :
    t.Insert v = t ∧ (t.Insert v).InOrderTraversal.count v = 1 := by
  have e : t.Insert v = t := by
    obtain ⟨r⟩ := t
    simp only [BST.Insert]
    rw [insert_of_mem r v h hv]
  refine ⟨e, ?_⟩
  rw [e]
  exact List.count_eq_one_of_mem ((isBST_iff_sorted _).mp h).nodup hv

theorem insert_duplicate_noop_witness :
    IsBST (BuildBSTFromSlice [5, 3, 8, 7, 9]).Root ∧
    8 ∈ (BuildBSTFromSlice [5, 3, 8, 7, 9]).InOrderTraversal ∧
    (BuildBSTFromSlice [5, 3, 8, 7, 9]).Insert 8 = BuildBSTFromSlice [5, 3, 8, 7, 9] ∧
    ((BuildBSTFromSlice [5, 3, 8, 7, 9]).Insert 8).InOrderTraversal.count 8 = 1 :=
  ⟨by simp [BuildBSTFromSlice, BST.Insert, NewBST, insert, IsBST, Node.All], by decide,
   insert_duplicate_noop (BuildBSTFromSlice [5, 3, 8, 7, 9]) 8
     (by simp [BuildBSTFromSlice, BST.Insert, NewBST, insert, IsBST, Node.All]) (by decide)⟩

end bst


namespace trie

/-! ## The trie: auxiliary lemmas -/

theorem mapGet_mapSet_same (m : List (Char × Node)) (ch : Char) (n : Node) :
    mapGet (mapSet m ch n) ch = some n := by
  induction m with
  | nil => simp [mapSet, mapGet]
  | cons kv rest ih =>
    obtain ⟨k, v⟩ := kv
    by_cases h : k = ch
    · simp [mapSet, mapGet, h]
    · simp [mapSet, mapGet, h, ih]

theorem mapGet_mapSet_other (m : List (Char × Node)) (ch c : Char) (n : Node) (hne : c ≠ ch) :
    mapGet (mapSet m ch n) c = mapGet m c := by
  have hne2 : ¬ ch = c := fun h => hne h.symm
  induction m with
  | nil => simp [mapSet, mapGet, hne2]
  | cons kv rest ih =>
    obtain ⟨k, v⟩ := kv
    by_cases h : k = ch
    · subst h
      simp [mapSet, mapGet, hne2]
    · by_cases h2 : k = c
      · subst h2
        simp [mapSet, mapGet, h]
      · simp [mapSet, mapGet, h, h2, ih]

theorem mapGet_mapDelete_same (m : List (Char × Node)) (ch : Char) :
    mapGet (mapDelete m ch) ch = none := by
  induction m with
  | nil => simp [mapDelete, mapGet]
  | cons kv rest ih =>
    obtain ⟨k, v⟩ := kv
    by_cases h : k = ch
    · simp [mapDelete, h, ih]
    · simp [mapDelete, mapGet, h, ih]

theorem mapGet_mapDelete_other (m : List (Char × Node)) (ch c : Char) (hne : c ≠ ch) :
    mapGet (mapDelete m ch) c = mapGet m c := by
  have hne2 : ¬ ch = c := fun h => hne h.symm
  induction m with
  | nil => simp [mapDelete, mapGet]
  | cons kv rest ih =>
    obtain ⟨k, v⟩ := kv
    by_cases h : k = ch
    · subst h
      simp [mapDelete, mapGet, hne2, ih]
    · by_cases h2 : k = c
      · subst h2
        simp [mapDelete, mapGet, h]
      · simp [mapDelete, mapGet, h, h2, ih]

theorem nodeAt_append (p s : List Char) :
    ∀ r : Node, nodeAt r (p ++ s) = (nodeAt r p).bind (fun n => nodeAt n s) := by
  induction p with
  | nil => intro r; simp [nodeAt]
  | cons ch p ih =>
    intro r
    simp only [List.cons_append, nodeAt]
    cases h : mapGet r.Children ch with
    | none => simp
    | some child => simp [ih child]

theorem obsAt_append (p s : List Char) (r : Node) :
    obsAt r (p ++ s) = (nodeAt r p).bind (fun n => obsAt n s) := by
  unfold obsAt
  rw [nodeAt_append]
  cases nodeAt r p <;> simp

/-- Reading after a write through a pointer: below the written node the
observations are those of the new node, elsewhere they are unchanged. -/
theorem obsAt_modifyAt (f : Node → Node) (p : List Char) :
    ∀ (r : Node) (q : List Char),
      obsAt (modifyAt r p f) q =
        if p <+: q then (nodeAt r p).bind (fun n => obsAt (f n) (q.drop p.length))
        else obsAt r q := by
  induction p with
  | nil => intro r q; simp [modifyAt, nodeAt]
  | cons ch p ih =>
    intro r q
    cases q with
    | nil =>
      have hnp : ¬ (ch :: p <+: ([] : List Char)) := by simp
      rw [if_neg hnp]
      unfold modifyAt
      cases h : mapGet r.Children ch with
      | none => rfl
      | some child => cases r; rfl
    | cons c q =>
      by_cases hc : c = ch
      · subst hc
        have hpre : (c :: p <+: c :: q) ↔ p <+: q := by
          simp [List.cons_prefix_cons]
        simp only [hpre, List.length_cons, List.drop_succ_cons]
        unfold modifyAt
        cases h : mapGet r.Children c with
        | none =>
          have e1 : obsAt r (c :: q) = none := by simp [obsAt, nodeAt, h]
          have e2 : nodeAt r (c :: p) = none := by simp [nodeAt, h]
          simp [e1, e2]
        | some child =>
          have e1 : obsAt (r.setChildren (mapSet r.Children c (modifyAt child p f))) (c :: q)
              = obsAt (modifyAt child p f) q := by
            cases r
            simp [obsAt, nodeAt, Node.setChildren, Node.Children, mapGet_mapSet_same]
          have e2 : nodeAt r (c :: p) = nodeAt child p := by simp [nodeAt, h]
          have e3 : obsAt r (c :: q) = obsAt child q := by simp [obsAt, nodeAt, h]
          simp only [e1, e2, e3, ih child q]
      · have hnp : ¬ (ch :: p <+: c :: q) := by
          simp [List.cons_prefix_cons]
          intro h; exact absurd h.symm hc
        rw [if_neg hnp]
        unfold modifyAt
        cases h : mapGet r.Children ch with
        | none => rfl
        | some child =>
          cases r
          simp [obsAt, nodeAt, Node.setChildren, Node.Children, mapGet_mapSet_other _ _ _ _ hc]


theorem obsAt_nil (n : Node) : obsAt n [] = some (obs n) := rfl

theorem obsAt_cons (n : Node) (c : Char) (s : List Char) :
    obsAt n (c :: s) = (mapGet n.Children c).bind (fun m => obsAt m s) := by
  simp only [obsAt, nodeAt]
  cases mapGet n.Children c <;> rfl

theorem prefix_split {p q : List Char} (h : p <+: q) : q = p ++ q.drop p.length := by
  obtain ⟨s, rfl⟩ := h
  simp

/-- Writing fields other than `Children` changes the observation at the written
node only. -/
theorem obsAt_modifyAt_fields (f : Node → Node) (hf : ∀ n, (f n).Children = n.Children)
    (r : Node) (p q : List Char) :
    obsAt (modifyAt r p f) q =
      if q = p then (nodeAt r p).map (fun n => obs (f n)) else obsAt r q := by
  rw [obsAt_modifyAt]
  by_cases hp : p <+: q
  · rw [if_pos hp]
    have hq := prefix_split hp
    generalize q.drop p.length = s at hq
    subst hq
    cases s with
    | nil =>
      simp only [List.append_nil, if_true]
      cases nodeAt r p <;> simp [obsAt_nil]
    | cons c s =>
      have hne : ¬ p ++ c :: s = p := by
        intro h
        have := congrArg List.length h
        simp at this
      rw [if_neg hne, obsAt_append]
      congr 1
      funext n
      rw [obsAt_cons, obsAt_cons, hf]
  · rw [if_neg hp]
    have hne : ¬ q = p := by
      intro h; subst h; exact hp (List.prefix_refl _)
    rw [if_neg hne]

/-- Adding a missing child adds one observation: the new node. -/
theorem obsAt_modifyAt_addChild (r : Node) (p q : List Char) (ch : Char) (n : Node)
    (hn : nodeAt r p = some n) (hch : mapGet n.Children ch = none) :
    obsAt (modifyAt r p (fun m => m.setChildren (mapSet m.Children ch NewNode))) q =
      if q = p ++ [ch] then some (false, 0) else obsAt r q := by
  rw [obsAt_modifyAt]
  by_cases hp : p <+: q
  · rw [if_pos hp]
    have hq := prefix_split hp
    generalize q.drop p.length = s at hq
    subst hq
    simp only [hn, Option.some_bind, List.append_cancel_left_eq]
    cases s with
    | nil =>
      have : obsAt r (p ++ []) = some (obs n) := by simp [obsAt, hn]
      rw [this]
      cases n
      simp [obsAt_nil, obs, Node.setChildren, Node.IsEnd, Node.Count]
    | cons c s =>
      have e1 : obsAt r (p ++ c :: s) = (mapGet n.Children c).bind (fun m => obsAt m s) := by
        rw [obsAt_append, hn]; simp [obsAt_cons]
      rw [e1, obsAt_cons]
      have e2 : (n.setChildren (mapSet n.Children ch NewNode)).Children
          = mapSet n.Children ch NewNode := by cases n; rfl
      rw [e2]
      by_cases hc : c = ch
      · subst hc
        rw [mapGet_mapSet_same, hch]
        cases s with
        | nil => simp [obsAt_nil, obs, NewNode, Node.IsEnd, Node.Count]
        | cons d s => simp [obsAt_cons, NewNode, Node.Children, mapGet]
      · rw [mapGet_mapSet_other _ _ _ _ hc]
        have : ¬ c :: s = [ch] := by
          intro h; injection h with h1 h2; exact hc h1
        simp [this]
  · rw [if_neg hp]
    have hne : ¬ q = p ++ [ch] := by
      intro h; subst h; exact hp (List.prefix_append _ _)
    rw [if_neg hne]

/-- Deleting a child removes the observations at and below it. -/
theorem obsAt_modifyAt_delChild (r : Node) (p q : List Char) (ch : Char) (n : Node)
    (hn : nodeAt r p = some n) :
    obsAt (modifyAt r p (fun m => m.setChildren (mapDelete m.Children ch))) q =
      if p ++ [ch] <+: q then none else obsAt r q := by
  rw [obsAt_modifyAt]
  by_cases hp : p <+: q
  · rw [if_pos hp]
    have hq := prefix_split hp
    generalize q.drop p.length = s at hq
    subst hq
    simp only [hn, Option.some_bind, List.prefix_append_right_inj]
    cases s with
    | nil =>
      have : obsAt r (p ++ []) = some (obs n) := by simp [obsAt, hn]
      rw [this]
      cases n
      simp [obsAt_nil, obs, Node.setChildren, Node.IsEnd, Node.Count]
    | cons c s =>
      have e1 : obsAt r (p ++ c :: s) = (mapGet n.Children c).bind (fun m => obsAt m s) := by
        rw [obsAt_append, hn]; simp [obsAt_cons]
      rw [e1, obsAt_cons]
      have e2 : (n.setChildren (mapDelete n.Children ch)).Children
          = mapDelete n.Children ch := by cases n; rfl
      rw [e2]
      by_cases hc : c = ch
      · subst hc
        rw [mapGet_mapDelete_same]
        simp [List.cons_prefix_cons]
      · rw [mapGet_mapDelete_other _ _ _ hc]
        have : ¬ ([ch] <+: c :: s) := by
          simp [List.cons_prefix_cons]
          intro h; exact absurd h.symm hc
        simp [this]
  · rw [if_neg hp]
    have hne : ¬ (p ++ [ch] <+: q) := by
      intro h; exact hp ((List.prefix_append p [ch]).trans h)
    rw [if_neg hne]


theorem nodeAt_isSome_iff (r : Node) (q : List Char) :
    (nodeAt r q).isSome = (obsAt r q).isSome := by
  simp [obsAt]

/-- The loop of `Insert` returns; below the start node, the nodes on the path of
the word are created when missing and their counts grow by one, and nothing
else is observed to change. -/
theorem insertLoop_spec (rest : List Char) :
    ∀ (root : Node) (cur : List Char), (nodeAt root cur).isSome = true →
      ∃ root1, insertLoop rest root cur = some (root1, cur ++ rest) ∧
        (nodeAt root1 (cur ++ rest)).isSome = true ∧
        ∀ q, ((∃ s, s ≠ [] ∧ s <+: rest ∧ q = cur ++ s) →
            obsAt root1 q = some (bump (obsAt root q))) ∧
          ((¬ ∃ s, s ≠ [] ∧ s <+: rest ∧ q = cur ++ s) → obsAt root1 q = obsAt root q) := by
  induction rest with
  | nil =>
    intro root cur hcur
    refine ⟨root, by simp [insertLoop], by simpa using hcur, ?_⟩
    intro q
    constructor
    · rintro ⟨s, hs, hp, _⟩
      exact absurd (List.prefix_nil.mp hp) hs
    · intro _; rfl
  | cons ch rest ih =>
    intro root cur hcur
    obtain ⟨n, hn⟩ := Option.isSome_iff_exists.mp hcur
    -- the tree after the child is ensured
    obtain ⟨root1, hroot1, h1⟩ : ∃ root1,
        root1 = (if (mapGet n.Children ch).isNone then
            modifyAt root cur (fun m => m.setChildren (mapSet m.Children ch NewNode))
          else root) ∧
        ∀ q, obsAt root1 q =
          if q = cur ++ [ch] then some ((obsAt root q).getD (false, 0)) else obsAt root q := by
      refine ⟨_, rfl, ?_⟩
      intro q
      cases hch : mapGet n.Children ch with
      | none =>
        simp only [Option.isNone_none, if_true]
        rw [obsAt_modifyAt_addChild root cur q ch n hn hch]
        have e : obsAt root (cur ++ [ch]) = none := by
          rw [obsAt_append, hn]; simp [obsAt_cons, hch]
        by_cases hq : q = cur ++ [ch]
        · subst hq; simp [e]
        · simp [hq]
      | some child =>
        simp only [Option.isNone_some, Bool.false_eq_true, if_false]
        have e : obsAt root (cur ++ [ch]) = some (obs child) := by
          rw [obsAt_append, hn]; simp [obsAt_cons, hch, obsAt_nil]
        by_cases hq : q = cur ++ [ch]
        · subst hq; simp [e]
        · simp [hq]
    have hex1 : (nodeAt root1 (cur ++ [ch])).isSome = true := by
      rw [nodeAt_isSome_iff, h1]; simp
    obtain ⟨c1, hc1⟩ := Option.isSome_iff_exists.mp hex1
    -- the tree after the count of the child is incremented
    have h2 : ∀ q, obsAt (modifyAt root1 (cur ++ [ch]) (fun m => m.setCount (m.Count + 1))) q =
        if q = cur ++ [ch] then some (bump (obsAt root q)) else obsAt root q := by
      intro q
      rw [obsAt_modifyAt_fields _ (by intro m; cases m; rfl)]
      by_cases hq : q = cur ++ [ch]
      · subst hq
        have e1 := h1 (cur ++ [ch])
        simp only [if_true] at e1 ⊢
        simp only [obsAt, hc1, Option.map_some'] at e1
        rw [hc1]
        simp only [Option.map_some', Option.some.injEq]
        have e2 : obs c1 = (obsAt root (cur ++ [ch])).getD (false, 0) := by
          simpa [obsAt] using e1
        cases c1
        simp only [obs, Node.IsEnd, Node.Count, Node.setCount] at e2 ⊢
        simp only [bump, ← e2]
      · simp only [hq, if_false]
        rw [h1]; simp [hq]
    have hex2 : (nodeAt (modifyAt root1 (cur ++ [ch]) (fun m => m.setCount (m.Count + 1)))
        (cur ++ [ch])).isSome = true := by
      rw [nodeAt_isSome_iff, h2]; simp
    obtain ⟨root3, e3, x3, h3⟩ := ih _ (cur ++ [ch]) hex2
    refine ⟨root3, ?_, by simpa using x3, ?_⟩
    · unfold insertLoop
      simp only [hn, ← hroot1, hc1]
      simpa using e3
    · intro q
      have hsplit : (∃ s, s ≠ [] ∧ s <+: ch :: rest ∧ q = cur ++ s) ↔
          (q = cur ++ [ch] ∨ ∃ s, s ≠ [] ∧ s <+: rest ∧ q = (cur ++ [ch]) ++ s) := by
        constructor
        · rintro ⟨s, hs, hp, rfl⟩
          cases s with
          | nil => exact absurd rfl hs
          | cons c s =>
            rw [List.cons_prefix_cons] at hp
            obtain ⟨hc, hp⟩ := hp
            subst hc
            cases s with
            | nil => exact Or.inl rfl
            | cons d s => exact Or.inr ⟨d :: s, by simp, hp, by simp⟩
        · rintro (rfl | ⟨s, hs, hp, rfl⟩)
          · exact ⟨[ch], by simp, by simp [List.cons_prefix_cons], rfl⟩
          · exact ⟨ch :: s, by simp, by simp [List.cons_prefix_cons, hp], by simp⟩
      have hdisj : (∃ s, s ≠ [] ∧ s <+: rest ∧ q = (cur ++ [ch]) ++ s) → q ≠ cur ++ [ch] := by
        rintro ⟨s, hs, _, rfl⟩ h
        have := congrArg List.length h
        simp at this
        exact hs this
      constructor
      · intro hq
        rcases hsplit.mp hq with hq1 | hq2
        · have hn2 : ¬ ∃ s, s ≠ [] ∧ s <+: rest ∧ q = (cur ++ [ch]) ++ s := by
            intro h; exact hdisj h hq1
          rw [(h3 q).2 hn2, h2]; simp [hq1]
        · rw [(h3 q).1 hq2, h2]; simp [hdisj hq2]
      · intro hq
        have hn1 : ¬ q = cur ++ [ch] := fun h => hq (hsplit.mpr (Or.inl h))
        have hn2 : ¬ ∃ s, s ≠ [] ∧ s <+: rest ∧ q = (cur ++ [ch]) ++ s :=
          fun h => hq (hsplit.mpr (Or.inr h))
        rw [(h3 q).2 hn2, h2]; simp [hn1]


theorem search_eq (t : Trie) (q : List Char) :
    t.Search q = ((obsAt t.Root q).map Prod.fst).getD false := by
  unfold Trie.Search obsAt
  cases nodeAt t.Root q <;> simp [obs]

theorem startsWith_eq (t : Trie) (q : List Char) :
    t.StartsWith q = (obsAt t.Root q).isSome := by
  unfold Trie.StartsWith obsAt
  cases nodeAt t.Root q <;> simp

theorem precomputed_eq (t : Trie) (q : List Char) :
    PrefixCountPrecomputedCount t q = ((obsAt t.Root q).map Prod.snd).getD 0 := by
  unfold PrefixCountPrecomputedCount obsAt
  cases nodeAt t.Root q <;> simp [obs]

/-- `Insert` returns; afterwards the word is found, every prefix of the word has
a path, and the count of every non-empty prefix of the word has grown by one;
nothing else is observed to change. -/
theorem trie_Insert_spec (t : Trie) (w : List Char) :
    ∃ t1, t.Insert w = some t1 ∧ ∀ q,
      t1.Search q = (t.Search q || decide (q = w)) ∧
      t1.StartsWith q = (t.StartsWith q || decide (q <+: w)) ∧
      PrefixCountPrecomputedCount t1 q =
        PrefixCountPrecomputedCount t q + (if q ≠ [] ∧ q <+: w then 1 else 0) := by
  obtain ⟨root1, e1, x1, h1⟩ := insertLoop_spec w t.Root [] (by simp [nodeAt])
  simp only [List.nil_append] at e1 x1 h1
  obtain ⟨n1, hn1⟩ := Option.isSome_iff_exists.mp x1
  refine ⟨{ Root := modifyAt root1 w (fun m => m.setIsEnd true) }, ?_, ?_⟩
  · simp [Trie.Insert, e1, hn1]
  · intro q
    have hC : (∃ s, s ≠ [] ∧ s <+: w ∧ q = s) ↔ (q ≠ [] ∧ q <+: w) := by
      constructor
      · rintro ⟨s, hs, hp, rfl⟩; exact ⟨hs, hp⟩
      · rintro ⟨hs, hp⟩; exact ⟨q, hs, hp, rfl⟩
    have h2 : obsAt (modifyAt root1 w (fun m => m.setIsEnd true)) q =
        if q = w then (obsAt root1 w).map (fun o => (true, o.2)) else obsAt root1 q := by
      rw [obsAt_modifyAt_fields _ (by intro m; cases m; rfl)]
      by_cases hq : q = w
      · simp only [hq, if_true, obsAt, hn1, Option.map_some']
        cases n1; rfl
      · simp [hq]
    simp only [search_eq, startsWith_eq, precomputed_eq, h2]
    by_cases hc : q ≠ [] ∧ q <+: w
    · have e := (h1 q).1 (hC.mpr hc)
      by_cases hq : q = w
      · subst hq
        rw [if_pos rfl, e]
        cases ho : obsAt t.Root q <;> simp [bump, hc.1]
      · rw [if_neg hq, e]
        cases ho : obsAt t.Root q <;> simp [bump, hc, hq]
    · have e := (h1 q).2 (fun h => hc (hC.mp h))
      by_cases hq : q = w
      · subst hq
        have hnil : q = [] := by
          by_contra hne
          exact hc ⟨hne, List.prefix_refl _⟩
        subst hnil
        rw [if_pos rfl, e]
        simp [obsAt_nil]
      · rw [if_neg hq, e]
        have hpre : ¬ (q <+: w) ∨ q = [] := by
          by_cases hnil : q = []
          · exact Or.inr hnil
          · exact Or.inl (fun h => hc ⟨hnil, h⟩)
        rcases hpre with hpre | hnil
        · simp [hq, hpre]
        · subst hnil
          simp [obsAt_nil, hq]


theorem pathEntries_append (rest : List Char) :
    ∀ (ptr : List Char) (ch : Char),
      pathEntries ptr (rest ++ [ch]) =
        pathEntries ptr rest ++ [{ parent := ptr ++ rest, char := ch }] := by
  induction rest with
  | nil => intro ptr ch; simp [pathEntries]
  | cons c rest ih => intro ptr ch; simp [pathEntries, ih]

theorem pathEntries_length (rest : List Char) :
    ∀ ptr : List Char, (pathEntries ptr rest).length = rest.length := by
  induction rest with
  | nil => intro ptr; simp [pathEntries]
  | cons c rest ih => intro ptr; simp [pathEntries, ih]

/-- Step 1 of `Delete` returns early exactly when the walk finds no node, and
otherwise hands over the node reached, its pointer and one stack entry per
rune. -/
theorem deleteWalk_spec (rest : List Char) :
    ∀ (node : Node) (ptr : List Char) (st : stack.Stack stackEntry),
      deleteWalk rest node ptr st =
        (nodeAt node rest).map
          (fun n => ({ arr := st.arr ++ pathEntries ptr rest }, n, ptr ++ rest)) := by
  induction rest with
  | nil => intro node ptr st; simp [deleteWalk, nodeAt, pathEntries]
  | cons ch rest ih =>
    intro node ptr st
    simp only [deleteWalk, nodeAt]
    cases h : mapGet node.Children ch with
    | none => simp
    | some child => simp [ih, stack.Stack.Push, pathEntries]

theorem stack_pop_concat {T : Type} (init : List T) (x : T) :
    stack.Stack.Pop { arr := init ++ [x] } = (some x, { arr := init }) := by
  simp [stack.Stack.Pop]

theorem take_prefix_of_le (w : List Char) {j k : Nat} (h : j ≤ k) : w.take j <+: w.take k := by
  have : w.take j = (w.take k).take j := by
    rw [List.take_take, Nat.min_eq_left h]
  rw [this]
  exact List.take_prefix _ _

/-- The clean-up loop returns; for some level `j` it pruned the nodes of the
path below level `j` (each observed as `(false, 1)` before), decremented the
count at level `j` (when `j ≥ 1`) and changed no other observation. -/
theorem cleanupLoop_spec (w : List Char) :
    ∀ (fuel : Nat) (rc : Node), w.length < fuel → (nodeAt rc w).isSome = true →
      ∃ r2 j, j ≤ w.length ∧
        cleanupLoop fuel rc { arr := pathEntries [] w } = some r2 ∧
        (∀ k, j < k → k ≤ w.length → obsAt rc (w.take k) = some (false, 1)) ∧
        ∀ q, obsAt r2 q =
          if j < w.length ∧ w.take (j + 1) <+: q then none
          else if 1 ≤ j ∧ q = w.take j then (obsAt rc q).map (fun o => (o.1, o.2 - 1))
          else obsAt rc q := by
  induction w using List.reverseRecOn with
  | nil =>
    intro fuel rc hfuel _
    cases fuel with
    | zero => simp at hfuel
    | succ fuel =>
      refine ⟨rc, 0, Nat.le_refl _, by simp [cleanupLoop, pathEntries, stack.Stack.IsEmpty,
        stack.Stack.Len], ?_, ?_⟩
      · intro k h1 h2; simp at h2; omega
      · intro q; simp
  | append_singleton init ch ih =>
    intro fuel rc hfuel hex
    cases fuel with
    | zero => simp at hfuel
    | succ fuel =>
      have hlen : (init ++ [ch]).length = init.length + 1 := by simp
      rw [hlen] at hfuel
      have hfuel2 : init.length < fuel := by omega
      -- the nodes the iteration reads
      rw [nodeAt_append] at hex
      obtain ⟨parent, hparent⟩ : ∃ parent, nodeAt rc init = some parent := by
        cases h : nodeAt rc init with
        | none => rw [h] at hex; simp at hex
        | some parent => exact ⟨parent, rfl⟩
      rw [hparent] at hex
      simp only [Option.some_bind, nodeAt] at hex
      obtain ⟨node, hnode⟩ : ∃ node, mapGet parent.Children ch = some node := by
        cases h : mapGet parent.Children ch with
        | none => rw [h] at hex; simp at hex
        | some node => exact ⟨node, rfl⟩
      have hobs : obsAt rc (init ++ [ch]) = some (node.IsEnd, node.Count) := by
        rw [obsAt_append, hparent]; simp [obsAt_cons, hnode, obsAt_nil, obs]
      -- after the decrement
      have h1 : ∀ q, obsAt (modifyAt rc (init ++ [ch]) (fun m => m.setCount (m.Count - 1))) q =
          if q = init ++ [ch] then (obsAt rc q).map (fun o => (o.1, o.2 - 1))
          else obsAt rc q := by
        intro q
        rw [obsAt_modifyAt_fields _ (by intro m; cases m; rfl)]
        by_cases hq : q = init ++ [ch]
        · subst hq
          simp only [if_true, obsAt]
          cases nodeAt rc (init ++ [ch]) with
          | none => rfl
          | some m => cases m; rfl
        · simp [hq]
      have hstep : cleanupLoop (fuel + 1) rc { arr := pathEntries [] (init ++ [ch]) } =
          if node.Count - 1 = 0 ∧ node.IsEnd = false then
            cleanupLoop fuel
              (modifyAt (modifyAt rc (init ++ [ch]) (fun m => m.setCount (m.Count - 1))) init
                (fun m => m.setChildren (mapDelete m.Children ch)))
              { arr := pathEntries [] init }
          else some (modifyAt rc (init ++ [ch]) (fun m => m.setCount (m.Count - 1))) := by
        rw [pathEntries_append, cleanupLoop]
        simp only [stack.Stack.IsEmpty, stack.Stack.Len, stack_pop_concat, List.nil_append,
          hparent, hnode]
        simp
      rw [hstep]
      by_cases hcond : node.Count - 1 = 0 ∧ node.IsEnd = false
      · rw [if_pos hcond]
        obtain ⟨p1, hp1⟩ : ∃ p1, nodeAt (modifyAt rc (init ++ [ch])
            (fun m => m.setCount (m.Count - 1))) init = some p1 := by
          apply Option.isSome_iff_exists.mp
          rw [nodeAt_isSome_iff, h1]
          have hne : ¬ init = init ++ [ch] := by
            intro h
            have := congrArg List.length h
            simp at this
          simp [hne, obsAt, hparent]
        have h2 : ∀ q, obsAt (modifyAt (modifyAt rc (init ++ [ch])
            (fun m => m.setCount (m.Count - 1))) init
              (fun m => m.setChildren (mapDelete m.Children ch))) q =
            if init ++ [ch] <+: q then none else obsAt rc q := by
          intro q
          rw [obsAt_modifyAt_delChild _ init q ch p1 hp1, h1]
          by_cases hq : init ++ [ch] <+: q
          · simp [hq]
          · have hne : ¬ q = init ++ [ch] := by
              intro h; subst h; exact hq (List.prefix_refl _)
            simp [hq, hne]
        have hex2 : (nodeAt (modifyAt (modifyAt rc (init ++ [ch])
            (fun m => m.setCount (m.Count - 1))) init
              (fun m => m.setChildren (mapDelete m.Children ch))) init).isSome = true := by
          rw [nodeAt_isSome_iff, h2]
          have hne : ¬ (init ++ [ch] <+: init) := by
            intro h
            have := h.length_le
            simp at this
          simp [hne, obsAt, hparent]
        obtain ⟨r2, j, hj, e2, a2, b2⟩ := ih fuel _ hfuel2 hex2
        have htake : ∀ k, k ≤ init.length → (init ++ [ch]).take k = init.take k := by
          intro k hk
          rw [List.take_append_of_le_length hk]
        have hnotunder : ∀ k, k ≤ init.length → ¬ (init ++ [ch] <+: init.take k) := by
          intro k hk h
          have := h.length_le
          simp at this
        refine ⟨r2, j, by omega, e2, ?_, ?_⟩
        · intro k hk1 hk2
          rw [hlen] at hk2
          by_cases hk3 : k ≤ init.length
          · rw [htake k hk3]
            have := a2 k hk1 hk3
            rw [h2, if_neg (hnotunder k hk3)] at this
            exact this
          · have hk4 : k = init.length + 1 := by omega
            subst hk4
            have : (init ++ [ch]).take (init.length + 1) = init ++ [ch] := by
              rw [← hlen, List.take_length]
            rw [this, hobs]
            have hc1 : node.Count = 1 := by omega
            rw [hc1, hcond.2]
        · intro q
          rw [b2 q, hlen]
          by_cases hj2 : j < init.length
          · have e1 : (init ++ [ch]).take (j + 1) = init.take (j + 1) := htake _ (by omega)
            have hj3 : j < init.length + 1 := by omega
            simp only [hj2, hj3, true_and, e1]
            by_cases hq : init.take (j + 1) <+: q
            · simp [hq]
            · have hq2 : ¬ (init ++ [ch] <+: q) := by
                intro h
                apply hq
                have h3 : init.take (j + 1) <+: init ++ [ch] :=
                  (List.take_prefix _ _).trans (List.prefix_append _ _)
                exact h3.trans h
              simp only [hq, if_false, htake j (by omega)]
              by_cases hq3 : 1 ≤ j ∧ q = init.take j
              · simp only [hq3, if_true, and_self, h2]
                have : ¬ (init ++ [ch] <+: init.take j) := hnotunder j (by omega)
                simp [this]
              · simp only [hq3, if_false, h2, hq2]
          · have hj4 : j = init.length := by omega
            subst hj4
            have e1 : (init ++ [ch]).take (init.length + 1) = init ++ [ch] := by
              rw [← hlen, List.take_length]
            have e0 : (init ++ [ch]).take init.length = init := by
              rw [htake _ (Nat.le_refl _), List.take_length]
            have e00 : init.take init.length = init := List.take_length _
            simp only [Nat.lt_irrefl, false_and, if_false, Nat.lt_succ_self, true_and, e1, e0,
              e00]
            by_cases hq : init ++ [ch] <+: q
            · have hne : ¬ q = init := by
                intro h; subst h
                have := hq.length_le
                simp at this
              simp [hq, hne, h2]
            · simp only [hq, if_false, h2]
      · rw [if_neg hcond]
        refine ⟨_, init.length + 1, by simp, rfl, ?_, ?_⟩
        · intro k hk1 hk2
          rw [hlen] at hk2; omega
        · intro q
          have e1 : (init ++ [ch]).take (init.length + 1) = init ++ [ch] := by
            rw [← hlen, List.take_length]
          rw [h1, hlen]
          simp [e1]


/-- `Delete` returns the value of `Search` before the call.  When that is false
the trie is unchanged.  When it is true, for some level `j` the nodes of the
path below level `j` (each with count 1 and, above the last, not ending a word)
are pruned with everything under them, the count at level `j` is decremented
(when `j ≥ 1`), the word is no longer found, and nothing else is observed to
change. -/
theorem trie_Delete_spec (t : Trie) (w : List Char) :
    ∃ t1, Delete t w = some (t.Search w, t1) ∧
      (t.Search w = false → t1 = t) ∧
      (t.Search w = true → ∃ j, j ≤ w.length ∧
        (∀ k, j < k → k ≤ w.length →
          PrefixCountPrecomputedCount t (w.take k) = 1 ∧
          (k < w.length → t.Search (w.take k) = false)) ∧
        (∀ q, (j < w.length ∧ w.take (j + 1) <+: q) →
          t1.Search q = false ∧ t1.StartsWith q = false ∧
          PrefixCountPrecomputedCount t1 q = 0) ∧
        (∀ q, ¬ (j < w.length ∧ w.take (j + 1) <+: q) →
          t1.Search q = (t.Search q && decide (q ≠ w)) ∧
          t1.StartsWith q = t.StartsWith q ∧
          PrefixCountPrecomputedCount t1 q =
            PrefixCountPrecomputedCount t q - (if 1 ≤ j ∧ q = w.take j then 1 else 0))) := by
  unfold Delete
  rw [deleteWalk_spec]
  cases hn : nodeAt t.Root w with
  | none =>
    have hs : t.Search w = false := by simp [Trie.Search, hn]
    refine ⟨t, by simp [hs], fun _ => rfl, ?_⟩
    intro h; rw [hs] at h; exact absurd h (by decide)
  | some n =>
    have hs : t.Search w = n.IsEnd := by simp [Trie.Search, hn]
    cases he : n.IsEnd with
    | false =>
      rw [he] at hs
      refine ⟨t, by simp [hs, he], fun _ => rfl, ?_⟩
      intro h; rw [hs] at h; exact absurd h (by decide)
    | true =>
      rw [he] at hs
      have hobsw : obsAt t.Root w = some (true, n.Count) := by
        simp [obsAt, hn, obs, he]
      -- after `IsEnd` is unset
      have h1 : ∀ q, obsAt (modifyAt t.Root w (fun m => m.setIsEnd false)) q =
          if q = w then some (false, n.Count) else obsAt t.Root q := by
        intro q
        rw [obsAt_modifyAt_fields _ (by intro m; cases m; rfl)]
        by_cases hq : q = w
        · subst hq
          simp only [if_true, hn, Option.map_some']
          cases n; rfl
        · simp [hq]
      have hex : (nodeAt (modifyAt t.Root w (fun m => m.setIsEnd false)) w).isSome = true := by
        rw [nodeAt_isSome_iff, h1]; simp
      obtain ⟨r2, j, hj, e2, a2, b2⟩ :=
        cleanupLoop_spec w (w.length + 1) _ (Nat.lt_succ_self _) hex
      refine ⟨{ Root := r2 }, ?_, ?_, ?_⟩
      · simp only [Option.map_some', List.nil_append, he, Bool.true_eq_false, if_false, hs]
        simp only [cleanup, stack.Stack.Len, stack.NewStack, List.nil_append,
          pathEntries_length, e2]
      · intro h; rw [hs] at h; exact absurd h (by decide)
      · intro _
        refine ⟨j, hj, ?_, ?_, ?_⟩
        · intro k hk1 hk2
          have := a2 k hk1 hk2
          rw [h1] at this
          by_cases hk3 : k < w.length
          · have hne : ¬ w.take k = w := by
              intro h
              have := congrArg List.length h
              simp at this
              omega
            rw [if_neg hne] at this
            simp [precomputed_eq, search_eq, this]
          · have hk4 : k = w.length := by omega
            subst hk4
            simp only [List.take_length, if_true, Option.some.injEq, Prod.mk.injEq,
              true_and] at this
            simp [precomputed_eq, hobsw, this]
        · intro q hq
          simp [search_eq, startsWith_eq, precomputed_eq, b2 q, hq]
        · intro q hq
          have hb := b2 q
          rw [if_neg hq] at hb
          simp only [search_eq, startsWith_eq, precomputed_eq, hb]
          by_cases hq2 : 1 ≤ j ∧ q = w.take j
          · simp only [hq2, if_true, and_self, h1]
            rw [← hq2.2]
            by_cases hq3 : q = w
            · subst hq3
              simp [hobsw]
            · simp only [hq3, if_false]
              obtain ⟨o, ho⟩ : ∃ o, obsAt t.Root q = some o := by
                have hw : nodeAt t.Root (w.take j ++ w.drop j) = some n := by
                  rw [List.take_append_drop]; exact hn
                rw [nodeAt_append] at hw
                rw [hq2.2, obsAt]
                cases hx : nodeAt t.Root (w.take j) with
                | none => rw [hx] at hw; simp at hw
                | some m => exact ⟨obs m, rfl⟩
              simp [ho, hq3]
          · simp only [hq2, if_false, h1]
            by_cases hq3 : q = w
            · subst hq3
              simp [hobsw]
            · simp only [hq3, if_false]
              cases obsAt t.Root q <;> simp [hq3]


theorem prefixCount_nil (q : List Char) : prefixCount [] q = 0 := rfl

theorem prefixCount_cons (w : List Char) (S : List (List Char)) (q : List Char) :
    prefixCount (w :: S) q = prefixCount S q + (if q <+: w then 1 else 0) := by
  unfold prefixCount
  by_cases h : q <+: w
  · have h2 : q.isPrefixOf w = true := List.isPrefixOf_iff_prefix.mpr h
    simp [List.filter_cons, h, h2]
  · have h2 : ¬ q.isPrefixOf w = true := fun e => h (List.isPrefixOf_iff_prefix.mp e)
    simp [List.filter_cons, h, h2]

theorem prefixCount_nonneg (S : List (List Char)) (q : List Char) : 0 ≤ prefixCount S q := by
  unfold prefixCount; omega

theorem prefixCount_append_singleton (S : List (List Char)) (w q : List Char) :
    prefixCount (S ++ [w]) q = prefixCount S q + (if q <+: w then 1 else 0) := by
  induction S with
  | nil => simp [prefixCount_cons, prefixCount_nil]
  | cons x S ih => simp only [List.cons_append, prefixCount_cons, ih]; omega

theorem prefixCount_pos {S : List (List Char)} {w q : List Char} (hw : w ∈ S) (hq : q <+: w) :
    1 ≤ prefixCount S q := by
  induction S with
  | nil => simp at hw
  | cons x S ih =>
    rw [prefixCount_cons]
    rcases List.mem_cons.mp hw with h | h
    · subst h
      have := prefixCount_nonneg S q
      simp [hq]; omega
    · have := ih h
      split <;> omega

theorem prefixCount_mono (S : List (List Char)) {p q : List Char} (h : p <+: q) :
    prefixCount S q ≤ prefixCount S p := by
  induction S with
  | nil => simp [prefixCount_nil]
  | cons x S ih =>
    rw [prefixCount_cons, prefixCount_cons]
    by_cases hq : q <+: x
    · have hp : p <+: x := h.trans hq
      simp [hq, hp]; omega
    · simp only [hq, if_false]
      split <;> omega

theorem prefixCount_erase {S : List (List Char)} (hS : S.Nodup) {w : List Char} (hw : w ∈ S)
    (q : List Char) :
    prefixCount (S.erase w) q = prefixCount S q - (if q <+: w then 1 else 0) := by
  induction S with
  | nil => simp at hw
  | cons x S ih =>
    by_cases hx : x = w
    · subst hx
      rw [List.erase_cons_head, prefixCount_cons]; omega
    · have hw2 : w ∈ S := by
        rcases List.mem_cons.mp hw with h | h
        · exact absurd h.symm hx
        · exact h
      have hx2 : (x == w) = false := by simpa using hx
      rw [List.erase_cons_tail (by simp [hx]), prefixCount_cons, prefixCount_cons,
        ih (List.nodup_cons.mp hS).2 hw2]
      omega

/-- `Insert` keeps the invariant. -/
theorem TrieInv_insert (t : Trie) (w : List Char) (h : TrieInv t) :
    ∃ t1, t.Insert w = some t1 ∧ TrieInv t1 ∧
      ∀ q, t1.Search q = true ↔ q = w ∨ t.Search q = true := by
  obtain ⟨t1, e1, h1⟩ := trie_Insert_spec t w
  obtain ⟨S, hS, hmem, hcnt⟩ := h
  have hsearch : ∀ q, t1.Search q = true ↔ q = w ∨ t.Search q = true := by
    intro q
    rw [(h1 q).1]
    simp [or_comm]
  refine ⟨t1, e1, ?_, hsearch⟩
  by_cases hw : w ∈ S
  · refine ⟨S, hS, ?_, ?_⟩
    · intro q
      rw [hsearch, hmem]
      constructor
      · rintro (h | h)
        · rw [h]; exact hw
        · exact h
      · intro h; exact Or.inr h
    · intro q hq
      rw [(h1 q).2.2]
      have := hcnt q hq
      split <;> omega
  · refine ⟨w :: S, List.nodup_cons.mpr ⟨hw, hS⟩, ?_, ?_⟩
    · intro q
      rw [hsearch, hmem, List.mem_cons]
    · intro q hq
      rw [(h1 q).2.2, prefixCount_cons]
      have := hcnt q hq
      by_cases hp : q <+: w
      · simp [hp, hq]; omega
      · simp [hp]; omega

/-- `Delete` keeps the invariant. -/
theorem TrieInv_delete (t : Trie) (w : List Char) (h : TrieInv t) :
    ∃ t1, Delete t w = some (t.Search w, t1) ∧ TrieInv t1 ∧
      ∀ q, t1.Search q = true ↔ q ≠ w ∧ t.Search q = true := by
  obtain ⟨t1, e1, hfalse, htrue⟩ := trie_Delete_spec t w
  obtain ⟨S, hS, hmem, hcnt⟩ := h
  cases hs : t.Search w with
  | false =>
    have ht := hfalse hs
    subst ht
    refine ⟨t1, by rw [← hs]; exact e1, ⟨S, hS, hmem, hcnt⟩, ?_⟩
    intro q
    constructor
    · intro hq
      refine ⟨?_, hq⟩
      intro h; subst h; rw [hs] at hq; exact absurd hq (by decide)
    · intro hq; exact hq.2
  | true =>
    obtain ⟨j, hj, ha, hb, hc⟩ := htrue hs
    have hw : w ∈ S := (hmem w).mp hs
    -- no word of `S` other than `w` passes through a pruned node
    have hpruned : j < w.length → prefixCount (S.erase w) (w.take (j + 1)) ≤ 0 := by
      intro hjl
      have hne : w.take (j + 1) ≠ [] := by
        intro h
        have := congrArg List.length h
        rw [List.length_take, List.length_nil] at this
        omega
      have h1 := hcnt _ hne
      rw [(ha (j + 1) (Nat.lt_succ_self _) (by omega)).1] at h1
      rw [prefixCount_erase hS hw]
      simp [List.take_prefix]
      omega
    have hsearch : ∀ q, t1.Search q = true ↔ q ≠ w ∧ t.Search q = true := by
      intro q
      by_cases hq : j < w.length ∧ w.take (j + 1) <+: q
      · rw [(hb q hq).1]
        constructor
        · intro h; exact absurd h (by decide)
        · rintro ⟨hne, hsq⟩
          have hqS : q ∈ S.erase w := (hS.mem_erase_iff).mpr ⟨hne, (hmem q).mp hsq⟩
          have := prefixCount_pos hqS hq.2
          have := hpruned hq.1
          omega
      · rw [(hc q hq).1]
        simp [and_comm]
    refine ⟨t1, by rw [← hs]; exact e1, ⟨S.erase w, hS.erase w, ?_, ?_⟩, hsearch⟩
    · intro q
      rw [hsearch, hmem, hS.mem_erase_iff]
    · intro q hqne
      by_cases hq : j < w.length ∧ w.take (j + 1) <+: q
      · rw [(hb q hq).2.2]
        have h1 := prefixCount_mono (S.erase w) hq.2
        have h2 := hpruned hq.1
        omega
      · rw [(hc q hq).2.2, prefixCount_erase hS hw]
        have h1 := hcnt q hqne
        by_cases hq2 : 1 ≤ j ∧ q = w.take j
        · have hp : q <+: w := by rw [hq2.2]; exact List.take_prefix _ _
          rw [if_pos hq2, if_pos hp]
          omega
        · rw [if_neg hq2]
          split <;> omega


theorem mem_of_mapGet {m : List (Char × Node)} {ch : Char} {n : Node}
    (h : mapGet m ch = some n) : (ch, n) ∈ m := by
  induction m with
  | nil => simp [mapGet] at h
  | cons kv rest ih =>
    obtain ⟨k, v⟩ := kv
    by_cases hk : k = ch
    · subst hk
      simp [mapGet] at h
      subst h
      exact List.mem_cons_self _ _
    · simp [mapGet, hk] at h
      exact List.mem_cons_of_mem _ (ih h)

theorem key_of_mapGet {m : List (Char × Node)} {ch : Char} {n : Node}
    (h : mapGet m ch = some n) : ch ∈ m.map Prod.fst :=
  List.mem_map.mpr ⟨(ch, n), mem_of_mapGet h, rfl⟩

theorem mem_mapSet {m : List (Char × Node)} {ch : Char} {n : Node} {kv : Char × Node}
    (h : kv ∈ mapSet m ch n) : kv = (ch, n) ∨ kv ∈ m := by
  induction m with
  | nil => simp [mapSet] at h; exact Or.inl h
  | cons x rest ih =>
    obtain ⟨k, v⟩ := x
    by_cases hk : k = ch
    · simp only [mapSet, hk, if_true, List.mem_cons] at h
      rcases h with h | h
      · exact Or.inl h
      · exact Or.inr (List.mem_cons_of_mem _ h)
    · simp only [mapSet, hk, if_false, List.mem_cons] at h
      rcases h with h | h
      · exact Or.inr (by rw [h]; exact List.mem_cons_self _ _)
      · rcases ih h with h2 | h2
        · exact Or.inl h2
        · exact Or.inr (List.mem_cons_of_mem _ h2)

theorem key_mapSet {m : List (Char × Node)} {ch : Char} {n : Node} {k : Char}
    (h : k ∈ (mapSet m ch n).map Prod.fst) : k = ch ∨ k ∈ m.map Prod.fst := by
  obtain ⟨kv, hkv, rfl⟩ := List.mem_map.mp h
  rcases mem_mapSet hkv with h2 | h2
  · exact Or.inl (by rw [h2])
  · exact Or.inr (List.mem_map.mpr ⟨kv, h2, rfl⟩)

theorem nodup_mapSet {m : List (Char × Node)} (ch : Char) (n : Node)
    (h : (m.map Prod.fst).Nodup) : ((mapSet m ch n).map Prod.fst).Nodup := by
  induction m with
  | nil => simp [mapSet]
  | cons x rest ih =>
    obtain ⟨k, v⟩ := x
    simp only [List.map_cons, List.nodup_cons] at h
    by_cases hk : k = ch
    · subst hk
      simp only [mapSet, if_true, List.map_cons, List.nodup_cons]
      exact h
    · simp only [mapSet, hk, if_false, List.map_cons, List.nodup_cons]
      refine ⟨?_, ih h.2⟩
      intro hmem
      rcases key_mapSet hmem with h2 | h2
      · exact hk h2
      · exact h.1 h2

theorem mapDelete_sublist (m : List (Char × Node)) (ch : Char) :
    List.Sublist (mapDelete m ch) m := by
  induction m with
  | nil => simp [mapDelete]
  | cons x rest ih =>
    obtain ⟨k, v⟩ := x
    by_cases hk : k = ch
    · simp only [mapDelete, hk, if_true]
      exact List.Sublist.cons _ ih
    · simp only [mapDelete, hk, if_false]
      exact List.Sublist.cons₂ _ ih

theorem WF.keys {n : Node} (h : WF n) : (n.Children.map Prod.fst).Nodup := by
  cases h with
  | mk kids e c h1 h2 => exact h1

theorem WF.child {n : Node} (h : WF n) : ∀ kv, kv ∈ n.Children → WF kv.2 := by
  cases h with
  | mk kids e c h1 h2 => exact h2

theorem WF_of_children (n : Node) (h1 : (n.Children.map Prod.fst).Nodup)
    (h2 : ∀ kv, kv ∈ n.Children → WF kv.2) : WF n := by
  cases n with
  | mk kids e c => exact WF.mk kids e c h1 h2

theorem WF_NewNode : WF NewNode :=
  WF.mk [] false 0 (by simp) (by intro kv h; simp at h)

theorem WF_setCount {n : Node} (c : Int) (h : WF n) : WF (n.setCount c) :=
  WF_of_children _ (by cases n; exact h.keys) (by cases n; exact h.child)

theorem WF_setIsEnd {n : Node} (e : Bool) (h : WF n) : WF (n.setIsEnd e) :=
  WF_of_children _ (by cases n; exact h.keys) (by cases n; exact h.child)

theorem WF_setChild {n : Node} (ch : Char) (c : Node) (h : WF n) (hc : WF c) :
    WF (n.setChildren (mapSet n.Children ch c)) := by
  cases n with
  | mk kids e k =>
    refine WF.mk _ _ _ (nodup_mapSet ch c h.keys) ?_
    intro kv hkv
    rcases mem_mapSet hkv with h2 | h2
    · rw [h2]; exact hc
    · exact h.child kv h2

theorem WF_delChild {n : Node} (ch : Char) (h : WF n) :
    WF (n.setChildren (mapDelete n.Children ch)) := by
  cases n with
  | mk kids e k =>
    refine WF.mk _ _ _ ?_ ?_
    · exact List.Nodup.sublist ((mapDelete_sublist kids ch).map Prod.fst) h.keys
    · intro kv hkv
      exact h.child kv ((mapDelete_sublist kids ch).subset hkv)

/-- A write through a pointer keeps the tree well formed when the new node is
well formed. -/
theorem WF_modifyAt (f : Node → Node) (hf : ∀ n, WF n → WF (f n)) (p : List Char) :
    ∀ r : Node, WF r → WF (modifyAt r p f) := by
  induction p with
  | nil => intro r hr; exact hf r hr
  | cons ch p ih =>
    intro r hr
    unfold modifyAt
    cases h : mapGet r.Children ch with
    | none => exact hr
    | some child =>
      exact WF_setChild ch _ hr (ih child (hr.child _ (mem_of_mapGet h)))

theorem WF_insertLoop (rest : List Char) :
    ∀ (root : Node) (cur : List Char) (r : Node × List Char),
      WF root → insertLoop rest root cur = some r → WF r.1 := by
  induction rest with
  | nil =>
    intro root cur r hr h
    simp [insertLoop] at h
    rw [← h]; exact hr
  | cons ch rest ih =>
    intro root cur r hr h
    unfold insertLoop at h
    cases hn : nodeAt root cur with
    | none => rw [hn] at h; simp at h
    | some n =>
      rw [hn] at h
      simp only at h
      have hr1 : WF (if (mapGet n.Children ch).isNone then
          modifyAt root cur (fun m => m.setChildren (mapSet m.Children ch NewNode))
        else root) := by
        split
        · exact WF_modifyAt _ (fun m hm => WF_setChild ch NewNode hm WF_NewNode) cur root hr
        · exact hr
      cases hc : nodeAt (if (mapGet n.Children ch).isNone then
          modifyAt root cur (fun m => m.setChildren (mapSet m.Children ch NewNode))
        else root) (cur ++ [ch]) with
      | none => rw [hc] at h; simp at h
      | some c =>
        rw [hc] at h
        exact ih _ _ r (WF_modifyAt _ (fun m hm => WF_setCount _ hm) _ _ hr1) h

theorem WF_Insert (t t1 : Trie) (w : List Char) (h : WF t.Root) (e : t.Insert w = some t1) :
    WF t1.Root := by
  unfold Trie.Insert at e
  cases hl : insertLoop w t.Root [] with
  | none => rw [hl] at e; simp at e
  | some r =>
    obtain ⟨root, node⟩ := r
    rw [hl] at e
    simp only at e
    have hr := WF_insertLoop w t.Root [] _ h hl
    cases hn : nodeAt root node with
    | none => rw [hn] at e; simp at e
    | some n =>
      rw [hn] at e
      simp only [Option.some.injEq] at e
      rw [← e]
      exact WF_modifyAt _ (fun m hm => WF_setIsEnd _ hm) _ _ hr

theorem WF_cleanupLoop (fuel : Nat) :
    ∀ (root : Node) (st : stack.Stack stackEntry) (r : Node),
      WF root → cleanupLoop fuel root st = some r → WF r := by
  induction fuel with
  | zero => intro root st r _ h; simp [cleanupLoop] at h
  | succ fuel ih =>
    intro root st r hr h
    unfold cleanupLoop at h
    split at h
    · simp only [Option.some.injEq] at h; rw [← h]; exact hr
    · split at h
      · simp at h
      · split at h
        · simp at h
        · split at h
          · simp at h
          · rename_i entry st1 _ _ _ _ _ _ _
            have h1 := WF_modifyAt (fun m => m.setCount (m.Count - 1))
              (fun m hm => WF_setCount _ hm) (entry.parent ++ [entry.char]) root hr
            simp only at h
            split at h
            · exact ih _ _ r (WF_modifyAt _ (fun m hm => WF_delChild _ hm) _ _ h1) h
            · simp only [Option.some.injEq] at h; rw [← h]; exact h1

theorem WF_Delete (t t1 : Trie) (w : List Char) (b : Bool) (h : WF t.Root)
    (e : Delete t w = some (b, t1)) : WF t1.Root := by
  unfold Delete at e
  split at e
  · simp only [Option.some.injEq, Prod.mk.injEq] at e; rw [← e.2]; exact h
  · split at e
    · simp only [Option.some.injEq, Prod.mk.injEq] at e; rw [← e.2]; exact h
    · split at e
      · simp at e
      · rename_i root hroot
        simp only [Option.some.injEq, Prod.mk.injEq] at e
        rw [← e.2]
        exact WF_cleanupLoop _ _ _ _ (WF_modifyAt _ (fun m hm => WF_setIsEnd _ hm) _ _ h) hroot


theorem mapGet_cons (k : Char) (v : Node) (rest : List (Char × Node)) (ch : Char) :
    mapGet ((k, v) :: rest) ch = if k = ch then some v else mapGet rest ch := rfl

mutual
/-- The depth-first walk from a well-formed node appends, each once, the paths
of the nodes below it that end a word, and `countWords` counts them. -/
theorem collectWords_spec : ∀ (n : Node), WF n → ∀ path : List Char,
    ∃ L : List (List Char), (∀ results, collectWords n path results = results ++ L) ∧
      (∀ count, countWords n count = count + (L.length : Int)) ∧ L.Nodup ∧
      ∀ x, x ∈ L ↔ ∃ s, x = path ++ s ∧ (obsAt n s).map Prod.fst = some true
  | Node.mk kids e c, h, path => by
    obtain ⟨Lk, a1, a2, a3, a4⟩ := collectKids_spec kids h.keys h.child path
    have hnotin : path ∉ Lk := by
      intro hp
      obtain ⟨ch, child, s, _, hx, _⟩ := (a4 path).mp hp
      have := congrArg List.length hx
      simp at this
    cases e with
    | true =>
      refine ⟨path :: Lk, ?_, ?_, List.nodup_cons.mpr ⟨hnotin, a3⟩, ?_⟩
      · intro results
        simp [collectWords, a1]
      · intro count
        simp only [countWords, a2, if_true, List.length_cons]
        push_cast; ring
      · intro x
        rw [List.mem_cons, a4]
        constructor
        · rintro (hx | ⟨ch, child, s, hg, hx, hs⟩)
          · exact ⟨[], by simp [hx], by simp [obsAt_nil, obs, Node.IsEnd]⟩
          · refine ⟨ch :: s, hx, ?_⟩
            rw [obsAt_cons]
            simp only [Node.Children, hg, Option.some_bind]
            exact hs
        · rintro ⟨s, hx, hs⟩
          cases s with
          | nil => exact Or.inl (by simpa using hx)
          | cons ch s =>
            rw [obsAt_cons] at hs
            simp only [Node.Children] at hs
            cases hg : mapGet kids ch with
            | none => rw [hg] at hs; simp at hs
            | some child =>
              rw [hg] at hs
              exact Or.inr ⟨ch, child, s, hg, hx, hs⟩
    | false =>
      refine ⟨Lk, ?_, ?_, a3, ?_⟩
      · intro results
        simp [collectWords, a1]
      · intro count
        simp [countWords, a2]
      · intro x
        rw [a4]
        constructor
        · rintro ⟨ch, child, s, hg, hx, hs⟩
          refine ⟨ch :: s, hx, ?_⟩
          rw [obsAt_cons]
          simp only [Node.Children, hg, Option.some_bind]
          exact hs
        · rintro ⟨s, hx, hs⟩
          cases s with
          | nil => simp [obsAt_nil, obs, Node.IsEnd] at hs
          | cons ch s =>
            rw [obsAt_cons] at hs
            simp only [Node.Children] at hs
            cases hg : mapGet kids ch with
            | none => rw [hg] at hs; simp at hs
            | some child =>
              rw [hg] at hs
              exact ⟨ch, child, s, hg, hx, hs⟩
/-- The loop over the children of a well-formed node. -/
theorem collectKids_spec : ∀ (kids : List (Char × Node)), (kids.map Prod.fst).Nodup →
    (∀ kv, kv ∈ kids → WF kv.2) → ∀ path : List Char,
    ∃ L : List (List Char), (∀ results, collectKids kids path results = results ++ L) ∧
      (∀ count, countKids kids count = count + (L.length : Int)) ∧ L.Nodup ∧
      ∀ x, x ∈ L ↔ ∃ ch child s, mapGet kids ch = some child ∧ x = path ++ ch :: s ∧
        (obsAt child s).map Prod.fst = some true
  | [], _, _, path => by
    refine ⟨[], by simp [collectKids], by simp [countKids], List.nodup_nil, ?_⟩
    intro x
    simp [mapGet]
  | (ch, child) :: rest, hk, hw, path => by
    simp only [List.map_cons, List.nodup_cons] at hk
    obtain ⟨Lc, b1, b2, b3, b4⟩ :=
      collectWords_spec child (hw (ch, child) (List.mem_cons_self _ _)) (path ++ [ch])
    obtain ⟨Lr, c1, c2, c3, c4⟩ :=
      collectKids_spec rest hk.2 (fun kv hkv => hw kv (List.mem_cons_of_mem _ hkv)) path
    refine ⟨Lc ++ Lr, ?_, ?_, ?_, ?_⟩
    · intro results
      simp [collectKids, b1, c1]
    · intro count
      simp only [countKids, b2, c2, List.length_append]
      push_cast; ring
    · refine List.Nodup.append b3 c3 ?_
      intro x hx1 hx2
      obtain ⟨s, e1, _⟩ := (b4 x).mp hx1
      obtain ⟨c, child2, s2, hg, e2, _⟩ := (c4 x).mp hx2
      rw [e1] at e2
      simp only [List.append_assoc, List.singleton_append, List.append_cancel_left_eq,
        List.cons.injEq] at e2
      exact hk.1 (by rw [e2.1]; exact key_of_mapGet hg)
    · intro x
      rw [List.mem_append, b4, c4]
      constructor
      · rintro (⟨s, e1, hs⟩ | ⟨c, child2, s2, hg, e2, hs⟩)
        · exact ⟨ch, child, s, by simp [mapGet_cons], by simp [e1], hs⟩
        · have hne : ¬ ch = c := by
            intro h; subst h; exact hk.1 (key_of_mapGet hg)
          exact ⟨c, child2, s2, by simp [mapGet_cons, hne, hg], e2, hs⟩
      · rintro ⟨c, child2, s2, hg, e2, hs⟩
        rw [mapGet_cons] at hg
        by_cases hc : ch = c
        · subst hc
          simp only [if_true, Option.some.injEq] at hg
          subst hg
          exact Or.inl ⟨s2, by simp [e2], hs⟩
        · rw [if_neg hc] at hg
          exact Or.inr ⟨c, child2, s2, hg, e2, hs⟩
end


theorem WF_nodeAt (p : List Char) :
    ∀ (r n : Node), WF r → nodeAt r p = some n → WF n := by
  induction p with
  | nil =>
    intro r n hr h
    simp [nodeAt] at h
    rw [← h]; exact hr
  | cons ch p ih =>
    intro r n hr h
    simp only [nodeAt] at h
    cases hg : mapGet r.Children ch with
    | none => rw [hg] at h; simp at h
    | some child =>
      rw [hg] at h
      exact ih child n (hr.child _ (mem_of_mapGet hg)) h

theorem search_true_iff (t : Trie) (q : List Char) :
    t.Search q = true ↔ (obsAt t.Root q).map Prod.fst = some true := by
  rw [search_eq]
  cases obsAt t.Root q <;> simp

/-- On a well-formed trie `Autocomplete` returns, each once, exactly the words
found by `Search` that start with the prefix, and `PrefixCount` is their
number. -/
theorem Autocomplete_spec (t : Trie) (h : WF t.Root) (p : List Char) :
    (Autocomplete t p).Nodup ∧
    (∀ x, x ∈ Autocomplete t p ↔ (p <+: x ∧ t.Search x = true)) ∧
    PrefixCount t p = ((Autocomplete t p).length : Int) := by
  unfold Autocomplete PrefixCount
  cases hn : nodeAt t.Root p with
  | none =>
    refine ⟨List.nodup_nil, ?_, by simp⟩
    intro x
    simp only [List.not_mem_nil, false_iff, not_and]
    rintro ⟨s, rfl⟩
    simp [Trie.Search, nodeAt_append, hn]
  | some node =>
    obtain ⟨L, a1, a2, a3, a4⟩ := collectWords_spec node (WF_nodeAt p _ _ h hn) p
    simp only [a1, a2, List.nil_append, zero_add]
    refine ⟨a3, ?_, trivial⟩
    intro x
    rw [a4]
    constructor
    · rintro ⟨s, rfl, hs⟩
      refine ⟨List.prefix_append _ _, ?_⟩
      rw [search_true_iff, obsAt_append, hn]
      exact hs
    · rintro ⟨⟨s, rfl⟩, hs⟩
      refine ⟨s, rfl, ?_⟩
      rw [search_true_iff, obsAt_append, hn] at hs
      exact hs

theorem NewTrieFromArray_append (ws : List (List Char)) (w : List Char) :
    NewTrieFromArray (ws ++ [w]) = (NewTrieFromArray ws).bind (fun t => t.Insert w) := by
  simp [NewTrieFromArray, List.foldl_append]

/-- After inserting the words of `ws` into the empty trie: the trie is well
formed, `Search` finds exactly the words of `ws`, the count of a non-root node
is the number of inserted words that pass through it, and the paths are the
prefixes of the inserted words. -/
theorem inserts_spec (ws : List (List Char)) :
    ∃ t, NewTrieFromArray ws = some t ∧ WF t.Root ∧
      (∀ q, t.Search q = true ↔ q ∈ ws) ∧
      (∀ q, q ≠ [] → PrefixCountPrecomputedCount t q = prefixCount ws q) ∧
      (∀ q, t.StartsWith q = true ↔ q = [] ∨ ∃ w, w ∈ ws ∧ q <+: w) := by
  induction ws using List.reverseRecOn with
  | nil =>
    refine ⟨NewTrie, rfl, WF_NewNode, ?_, ?_, ?_⟩
    · intro q
      cases q <;> simp [Trie.Search, NewTrie, NewNode, nodeAt, Node.IsEnd, Node.Children, mapGet]
    · intro q hq
      cases q with
      | nil => exact absurd rfl hq
      | cons c q =>
        simp [PrefixCountPrecomputedCount, NewTrie, NewNode, nodeAt, Node.Children, mapGet,
          prefixCount_nil]
    · intro q
      cases q <;> simp [Trie.StartsWith, NewTrie, NewNode, nodeAt, Node.Children, mapGet]
  | append_singleton ws w ih =>
    obtain ⟨t, e, hwf, hs, hc, hp⟩ := ih
    obtain ⟨t1, e1, h1⟩ := trie_Insert_spec t w
    refine ⟨t1, by rw [NewTrieFromArray_append, e]; exact e1, WF_Insert t t1 w hwf e1, ?_, ?_, ?_⟩
    · intro q
      rw [(h1 q).1, List.mem_append, List.mem_singleton, ← hs q]
      simp
    · intro q hq
      rw [(h1 q).2.2, hc q hq, prefixCount_append_singleton]
      simp [hq]
    · intro q
      rw [(h1 q).2.1, Bool.or_eq_true, hp q]
      simp only [decide_eq_true_eq, List.mem_append, List.mem_singleton]
      constructor
      · rintro ((h | ⟨x, hx, hq⟩) | h)
        · exact Or.inl h
        · exact Or.inr ⟨x, Or.inl hx, hq⟩
        · exact Or.inr ⟨w, Or.inr rfl, h⟩
      · rintro (h | ⟨x, hx | hx, hq⟩)
        · exact Or.inl (Or.inl h)
        · exact Or.inl (Or.inr ⟨x, hx, hq⟩)
        · subst hx; exact Or.inr hq

/-- After inserting pairwise distinct words, both prefix counts of a non-empty
prefix are the number of inserted words that start with it. -/
theorem distinct_inserts_counts (ws : List (List Char)) (hnd : ws.Nodup) :
    ∃ t, NewTrieFromArray ws = some t ∧ ∀ p, p ≠ [] →
      PrefixCountPrecomputedCount t p = prefixCount ws p ∧
      PrefixCount t p = prefixCount ws p := by
  obtain ⟨t, e, hwf, hs, hc, _⟩ := inserts_spec ws
  refine ⟨t, e, ?_⟩
  intro p hp
  refine ⟨hc p hp, ?_⟩
  obtain ⟨a1, a2, a3⟩ := Autocomplete_spec t hwf p
  rw [a3]
  unfold prefixCount
  congr 1
  apply List.Perm.length_eq
  rw [List.perm_ext_iff_of_nodup a1 (hnd.filter _)]
  intro x
  rw [a2, hs, List.mem_filter, List.isPrefixOf_iff_prefix, and_comm]

/-- Every trie reached from the empty trie is well formed and satisfies the
invariant; `Search` finds exactly the stored words. -/
theorem reached_spec (ops : List (history.Op (List Char))) :
    ∃ t, history.run applyOp ops NewTrie = some t ∧ (WF t.Root ∧ TrieInv t) ∧
      ∀ w, t.Search w = true ↔ history.StoredAfter ops w := by
  obtain ⟨t, e, hinv, hm⟩ :=
    history.run_members applyOp (fun t => WF t.Root ∧ TrieInv t)
      (fun t w => t.Search w = true)
      (by
        intro s x hs
        obtain ⟨s1, e1, i1, m1⟩ := TrieInv_insert s x hs.2
        exact ⟨s1, e1, ⟨WF_Insert s s1 x hs.1 e1, i1⟩, m1⟩)
      (by
        intro s x hs
        obtain ⟨s1, e1, i1, m1⟩ := TrieInv_delete s x hs.2
        exact ⟨s1, by simp [applyOp, e1], ⟨WF_Delete s s1 x _ hs.1 e1, i1⟩, m1⟩)
      ops NewTrie
      ⟨WF_NewNode, [], List.nodup_nil, by
        intro q
        cases q <;> simp [Trie.Search, NewTrie, NewNode, nodeAt, Node.IsEnd, Node.Children,
          mapGet], by
        intro q _
        rw [prefixCount_nil]
        cases q <;> simp [PrefixCountPrecomputedCount, NewTrie, NewNode, nodeAt, Node.Children,
          Node.Count, mapGet]⟩
  refine ⟨t, e, hinv, ?_⟩
  intro w
  rw [hm w]
  have : ¬ NewTrie.Search w = true := by
    cases w <;> simp [Trie.Search, NewTrie, NewNode, nodeAt, Node.IsEnd, Node.Children, mapGet]
  simp [this]


/-! ## The trie: claims -/

/-- C13. For every sequence of `Insert` and `Delete` calls applied to an empty
trie the calls return, and for every word `w`, `Search(w)` is true if and only
if `w` was inserted and not deleted after its last insertion; in particular a
`Delete` of one word never makes `Search` false for another stored word. -/
theorem trie_search_iff_stored (ops : List (history.Op (List Char))) :
    ∃ t, history.run applyOp ops NewTrie = some t ∧
      (∀ w, t.Search w = true ↔ history.StoredAfter ops w) ∧
      ∀ w, ∃ t1, Delete t w = some (t.Search w, t1) ∧
        ∀ x, x ≠ w → t.Search x = true → t1.Search x = true := by
  obtain ⟨t, e, hinv, hs⟩ := reached_spec ops
  refine ⟨t, e, hs, ?_⟩
  intro w
  obtain ⟨t1, e1, _, m1⟩ := TrieInv_delete t w hinv.2
  exact ⟨t1, e1, fun x hx hsx => (m1 x).mpr ⟨hx, hsx⟩⟩

/-- C14, the code at the failing input.  After `Insert("ab")`, `Insert("abc")`,
`Delete("abc")` the only stored word is "ab" (`Search` finds it and `PrefixCount`
counts one word under "a"), but the `Count` of the node of "a" is still 2: the
clean-up loop stopped at the node of "ab" and did not decrement above it. -/
theorem count_stale_after_delete :
    (history.run applyOp
      [history.Op.insert ['a', 'b'], history.Op.insert ['a', 'b', 'c'],
        history.Op.delete ['a', 'b', 'c']] NewTrie).map
      (fun t => (t.Search ['a', 'b'], t.Search ['a', 'b', 'c'], PrefixCount t ['a'],
        PrefixCountPrecomputedCount t ['a'], PrefixCountPrecomputedCount t ['a', 'b']))
      = some (true, false, 1, 2, 1) := by
  decide

/-- C15, the code at the failing input.  After `Insert("ab")`, `Insert("abc")`,
`Delete("abc")` the trie stores the one word "ab"; `PrefixCount(t, "a")`, the
depth-first count, is 1, and `PrefixCountPrecomputedCount(t, "a")`, the `Count`
of the node of "a", is 2. -/
theorem prefix_counts_differ_after_delete :
    (history.run applyOp
      [history.Op.insert ['a', 'b'], history.Op.insert ['a', 'b', 'c'],
        history.Op.delete ['a', 'b', 'c']] NewTrie).map
      (fun t => (GetAllWords t, PrefixCount t ['a'], PrefixCountPrecomputedCount t ['a']))
      = some ([['a', 'b']], 1, 2) := by
  decide

/-- The root has no count: after `Insert("a")` the empty prefix has
`PrefixCount` 1 (the depth-first count from the root) and
`PrefixCountPrecomputedCount` 0 (the `Count` of the root, which `Insert` never
increments). -/
theorem prefixCount_root_uncounted :
    (history.run applyOp [history.Op.insert ['a']] NewTrie).map
      (fun t => (PrefixCount t [], PrefixCountPrecomputedCount t [])) = some (1, 0) := by
  decide

/-- C16. For every list of pairwise distinct words inserted into an empty trie
and every non-empty prefix `p`, `PrefixCountPrecomputedCount(t, p)` and
`PrefixCount(t, p)` both equal the number of inserted words that start with
`p`. -/
theorem prefix_counts_of_distinct_inserts (ws : List (List Char)) (hnd : ws.Nodup)
    (p : List Char) (hp : p ≠ []) :
    ∃ t, NewTrieFromArray ws = some t ∧
      PrefixCountPrecomputedCount t p = prefixCount ws p ∧
      PrefixCount t p = prefixCount ws p := by
  obtain ⟨t, e, h⟩ := distinct_inserts_counts ws hnd
  exact ⟨t, e, h p hp⟩

theorem prefix_counts_of_distinct_inserts_witness :
    [['c', 'a', 't'], ['c', 'a', 'r'], ['d', 'o', 'g']].Nodup ∧ ['c', 'a'] ≠ [] ∧
    ∃ t, NewTrieFromArray [['c', 'a', 't'], ['c', 'a', 'r'], ['d', 'o', 'g']] = some t ∧
      PrefixCountPrecomputedCount t ['c', 'a'] =
        prefixCount [['c', 'a', 't'], ['c', 'a', 'r'], ['d', 'o', 'g']] ['c', 'a'] ∧
      PrefixCount t ['c', 'a'] =
        prefixCount [['c', 'a', 't'], ['c', 'a', 'r'], ['d', 'o', 'g']] ['c', 'a'] :=
  ⟨by decide, by decide,
   prefix_counts_of_distinct_inserts [['c', 'a', 't'], ['c', 'a', 'r'], ['d', 'o', 'g']]
     (by decide) ['c', 'a'] (by decide)⟩

/-- C17. For every trie and word `w`, `Delete(t, w)` returns, its result is the
value of `Search(w)` before the call, and when it returns false the trie is
unchanged. -/
theorem delete_returns_search (t : Trie) (w : List Char) :
    ∃ t1, Delete t w = some (t.Search w, t1) ∧ (t.Search w = false → t1 = t) := by
  obtain ⟨t1, e1, hfalse, _⟩ := trie_Delete_spec t w
  exact ⟨t1, e1, hfalse⟩

/-- C18, the code at the failing input.  After `Insert("ab")`, `Insert("abc")`
and then `Delete("abc")`, `Delete("ab")` (both return true), no word is stored
but the root still has a child: the stale `Count` 2 of the node of "a" keeps it
from being pruned. -/
theorem root_not_empty_after_deleting_all :
    ((history.run applyOp [history.Op.insert ['a', 'b'], history.Op.insert ['a', 'b', 'c']]
        NewTrie).bind
      (fun t0 => (Delete t0 ['a', 'b', 'c']).bind
        (fun r1 => (Delete r1.2 ['a', 'b']).map
          (fun r2 => (r1.1, r2.1, r2.2.Root.Children.length, r2.2.StartsWith ['a'],
            r2.2.Search ['a', 'b'], r2.2.Search ['a', 'b', 'c'])))))
      = some (true, true, 1, true, false, false) := by
  decide

/-- C19, the code at the failing input.  After `Insert("ab")`, `Insert("abc")`,
`Delete("abc")`, `Delete("ab")` no word is stored (`Search` is false for every
word), and `StartsWith("a")` is true: the node of "a" is still under the
root. -/
theorem startsWith_true_with_no_word :
    ∃ t, history.run applyOp
        [history.Op.insert ['a', 'b'], history.Op.insert ['a', 'b', 'c'],
          history.Op.delete ['a', 'b', 'c'], history.Op.delete ['a', 'b']] NewTrie = some t ∧
      t.StartsWith ['a'] = true ∧
      (∀ w, t.Search w = false) ∧
      ∀ w, ¬ history.StoredAfter
        [history.Op.insert ['a', 'b'], history.Op.insert ['a', 'b', 'c'],
          history.Op.delete ['a', 'b', 'c'], history.Op.delete ['a', 'b']] w := by
  obtain ⟨t, e, _, hs⟩ := reached_spec
    [history.Op.insert ['a', 'b'], history.Op.insert ['a', 'b', 'c'],
      history.Op.delete ['a', 'b', 'c'], history.Op.delete ['a', 'b']]
  have hno : ∀ w, ¬ history.StoredAfter
      [history.Op.insert ['a', 'b'], history.Op.insert ['a', 'b', 'c'],
        history.Op.delete ['a', 'b', 'c'], history.Op.delete ['a', 'b']] w := by
    intro w
    rw [history.storedAfter_cons_insert, history.storedAfter_cons_insert,
      history.storedAfter_cons_delete, history.storedAfter_cons_delete]
    rintro ((h | ⟨rfl, h⟩) | ⟨rfl, h⟩)
    · exact history.storedAfter_nil w h
    · simp at h
    · simp at h
  have hst : (history.run applyOp
      [history.Op.insert ['a', 'b'], history.Op.insert ['a', 'b', 'c'],
        history.Op.delete ['a', 'b', 'c'], history.Op.delete ['a', 'b']] NewTrie).map
      (fun t => t.StartsWith ['a']) = some true := by
    decide
  rw [e] at hst
  refine ⟨t, e, ?_, ?_, hno⟩
  · simpa using hst
  · intro w
    cases h : t.Search w with
    | false => rfl
    | true => exact absurd ((hs w).mp h) (hno w)

/-- The empty prefix always has a path: on the empty trie `StartsWith("")` is
true although no word is stored. -/
theorem startsWith_empty_prefix :
    history.run applyOp [] NewTrie = some NewTrie ∧
    NewTrie.StartsWith [] = true ∧
    ¬ ∃ w, history.StoredAfter ([] : List (history.Op (List Char))) w ∧ [] <+: w :=
  ⟨rfl, rfl, fun ⟨w, hw, _⟩ => history.storedAfter_nil w hw⟩

/-- For every trie reached by `Insert` and `Delete` calls and every prefix `p`,
`StartsWith(p)` is true whenever some stored word starts with `p`; and for every
trie built by `Insert` calls only, `StartsWith(p)` is true if and only if `p` is
empty or some inserted word starts with `p`. -/
theorem startsWith_of_stored :
    (∀ ops : List (history.Op (List Char)),
      ∃ t, history.run applyOp ops NewTrie = some t ∧
        ∀ p w, history.StoredAfter ops w → p <+: w → t.StartsWith p = true) ∧
    (∀ ws : List (List Char),
      ∃ t, NewTrieFromArray ws = some t ∧
        ∀ p, t.StartsWith p = true ↔ p = [] ∨ ∃ w, w ∈ ws ∧ p <+: w) := by
  constructor
  · intro ops
    obtain ⟨t, e, _, hs⟩ := reached_spec ops
    refine ⟨t, e, ?_⟩
    rintro p w hw ⟨s, rfl⟩
    have h1 := (hs _).mpr hw
    unfold Trie.Search at h1
    unfold Trie.StartsWith
    rw [nodeAt_append] at h1
    cases hn : nodeAt t.Root p with
    | none => rw [hn] at h1; simp at h1
    | some n => rfl
  · intro ws
    obtain ⟨t, e, _, _, _, hp⟩ := inserts_spec ws
    exact ⟨t, e, hp⟩

/-- C20. For every trie reached by `Insert` and `Delete` calls and every prefix
`p`, `Autocomplete(t, p)` returns, each exactly once, exactly the stored words
that have `p` as a prefix, and returns no words when no path for `p` exists. -/
theorem autocomplete_exact (ops : List (history.Op (List Char))) :
    ∃ t, history.run applyOp ops NewTrie = some t ∧ ∀ p,
      (Autocomplete t p).Nodup ∧
      (∀ x, x ∈ Autocomplete t p ↔ (history.StoredAfter ops x ∧ p <+: x)) ∧
      (t.StartsWith p = false → Autocomplete t p = []) := by
  obtain ⟨t, e, hinv, hs⟩ := reached_spec ops
  refine ⟨t, e, ?_⟩
  intro p
  obtain ⟨a1, a2, _⟩ := Autocomplete_spec t hinv.1 p
  refine ⟨a1, ?_, ?_⟩
  · intro x
    rw [a2, hs, and_comm]
  · intro h
    unfold Trie.StartsWith at h
    unfold Autocomplete
    cases hn : nodeAt t.Root p with
    | none => rfl
    | some n => rw [hn] at h; simp at h

end trie


namespace trie

/-! ## The trie: further lemmas and claims -/

mutual
theorem collect_eq : ∀ (n : Node) (path : List Char) (result : List (List Char)),
    collect n path result = collectWords n path result
  | Node.mk kids e c, path, result => by
    simp only [collect, collectWords]
    exact collectRange_eq kids path _
theorem collectRange_eq : ∀ (kids : List (Char × Node)) (path : List Char)
    (result : List (List Char)), collectRange kids path result = collectKids kids path result
  | [], path, result => by simp [collectRange, collectKids]
  | (ch, child) :: rest, path, result => by
    simp only [collectRange, collectKids]
    rw [collect_eq child (path ++ [ch]) result]
    exact collectRange_eq rest path _
end

theorem mapGet_of_mem {m : List (Char × Node)} (hnd : (m.map Prod.fst).Nodup) {k : Char}
    {v : Node} (h : (k, v) ∈ m) : mapGet m k = some v := by
  induction m with
  | nil => simp at h
  | cons x rest ih =>
    obtain ⟨k1, v1⟩ := x
    simp only [List.map_cons, List.nodup_cons] at hnd
    rcases List.mem_cons.mp h with h1 | h1
    · injection h1 with e1 e2
      subst e1; subst e2
      simp [mapGet]
    · have hne : ¬ k1 = k := by
        intro e
        subst e
        exact hnd.1 (List.mem_map.mpr ⟨(k1, v), h1, rfl⟩)
      simp [mapGet, hne, ih hnd.2 h1]

/-- The wildcard search from a well-formed node succeeds exactly when some path
below the node that ends a word matches the pattern position by position. -/
theorem searchHelper_spec (pattern : List Char) :
    ∀ node : Node, WF node →
      (searchHelper node pattern = true ↔
        ∃ w, List.Forall₂ (fun p c => p = '.' ∨ c = p) pattern w ∧
          (obsAt node w).map Prod.fst = some true) := by
  induction pattern with
  | nil =>
    intro node _
    simp only [searchHelper, List.forall₂_nil_left_iff, exists_eq_left, obsAt_nil, obs,
      Option.map_some', Option.some.injEq]
  | cons ch rest ih =>
    intro node hwf
    unfold searchHelper
    by_cases hdot : ch = '.'
    · rw [if_pos hdot, List.any_eq_true]
      constructor
      · rintro ⟨kv, hkv, hs⟩
        obtain ⟨w, hw, he⟩ := (ih kv.2 (hwf.child kv hkv)).mp hs
        refine ⟨kv.1 :: w, List.Forall₂.cons (Or.inl hdot) hw, ?_⟩
        rw [obsAt_cons, mapGet_of_mem hwf.keys hkv]
        exact he
      · rintro ⟨w, hw, he⟩
        cases hw with
        | cons hc hrest =>
          rename_i c w1
          rw [obsAt_cons] at he
          cases hg : mapGet node.Children c with
          | none => rw [hg] at he; simp at he
          | some child =>
            rw [hg] at he
            have hmem := mem_of_mapGet hg
            exact ⟨(c, child), hmem, (ih child (hwf.child _ hmem)).mpr ⟨w1, hrest, he⟩⟩
    · rw [if_neg hdot]
      constructor
      · intro hs
        cases hg : mapGet node.Children ch with
        | none => rw [hg] at hs; simp at hs
        | some child =>
          rw [hg] at hs
          obtain ⟨w, hw, he⟩ := (ih child (hwf.child _ (mem_of_mapGet hg))).mp hs
          refine ⟨ch :: w, List.Forall₂.cons (Or.inr rfl) hw, ?_⟩
          rw [obsAt_cons, hg]
          exact he
      · rintro ⟨w, hw, he⟩
        cases hw with
        | cons hc hrest =>
          rename_i c w1
          have hcc : c = ch := by
            rcases hc with h | h
            · exact absurd h hdot
            · exact h
          subst hcc
          rw [obsAt_cons] at he
          cases hg : mapGet node.Children c with
          | none => rw [hg] at he; simp at he
          | some child =>
            rw [hg] at he
            simp only [Option.some_bind] at he
            exact (ih child (hwf.child _ (mem_of_mapGet hg))).mpr ⟨w1, hrest, he⟩

theorem matches_iff_forall₂ (pattern : List Char) :
    ∀ w : List Char, Matches pattern w ↔
      List.Forall₂ (fun p c => p = '.' ∨ c = p) pattern w := by
  induction pattern with
  | nil =>
    intro w
    simp only [Matches, List.length_nil, List.length_eq_zero, List.forall₂_nil_left_iff]
    constructor
    · intro h; exact h.1
    · intro h; subst h; exact ⟨rfl, by intro i p hp; simp at hp⟩
  | cons ch rest ih =>
    intro w
    cases w with
    | nil =>
      simp only [Matches, List.length_nil, List.length_cons]
      constructor
      · intro h; have := h.1; omega
      · intro h; cases h
    | cons c w =>
      rw [List.forall₂_cons, ← ih w]
      simp only [Matches, List.length_cons]
      constructor
      · rintro ⟨hl, hm⟩
        refine ⟨?_, by omega, ?_⟩
        · by_cases hdot : ch = '.'
          · exact Or.inl hdot
          · have := hm 0 ch (by simp) hdot
            simp at this
            exact Or.inr this
        · intro i p hp hne
          have := hm (i + 1) p (by simpa using hp) hne
          simpa using this
      · rintro ⟨hc, hl, hm⟩
        refine ⟨by omega, ?_⟩
        intro i p hp hne
        cases i with
        | zero =>
          simp only [List.getElem?_cons_zero, Option.some.injEq] at hp ⊢
          subst hp
          rcases hc with h | h
          · exact absurd h hne
          · exact h
        | succ i =>
          simp only [List.getElem?_cons_succ] at hp ⊢
          exact hm i p hp hne

theorem forall₂_no_dot (pattern : List Char) (hno : '.' ∉ pattern) :
    ∀ w : List Char, List.Forall₂ (fun p c => p = '.' ∨ c = p) pattern w ↔ w = pattern := by
  induction pattern with
  | nil => intro w; simp
  | cons ch rest ih =>
    intro w
    simp only [List.mem_cons, not_or] at hno
    cases w with
    | nil => simp
    | cons c w =>
      rw [List.forall₂_cons, ih hno.2 w]
      have hne : ¬ ch = '.' := fun h => hno.1 h.symm
      simp [hne]

theorem WF_singleton (ch : Char) (e : Bool) (c : Int) (e0 : Bool) (c0 : Int) :
    WF (Node.mk [(ch, Node.mk [] e c)] e0 c0) :=
  WF.mk _ _ _ (by simp) (by
    intro kv hkv
    simp only [List.mem_singleton] at hkv
    subst hkv
    exact WF.mk [] e c (by simp) (by intro kv h; simp at h))

/-- C21. For every trie reached by `Insert` and `Delete` calls, `GetAllWords(t)`
returns, each exactly once, exactly the words `w` for which `Search(w)` is
true. -/
theorem getAllWords_exact (ops : List (history.Op (List Char))) :
    ∃ t, history.run applyOp ops NewTrie = some t ∧
      (GetAllWords t).Nodup ∧ ∀ w, w ∈ GetAllWords t ↔ t.Search w = true := by
  obtain ⟨t, e, hinv, _⟩ := reached_spec ops
  refine ⟨t, e, ?_⟩
  obtain ⟨a1, a2, _⟩ := Autocomplete_spec t hinv.1 []
  have hg : GetAllWords t = Autocomplete t [] := by
    simp [GetAllWords, Autocomplete, nodeAt, collect_eq]
  rw [hg]
  refine ⟨a1, ?_⟩
  intro w
  rw [a2]
  simp

/-- C22. For every trie and words `oldWord`, `newWord`, `Update` returns the
value of `Search(oldWord)` before the call, and when that is false the trie is
unchanged; for every trie reached from the empty trie by `Insert` and `Delete`
calls, when `Update` returns true, afterwards `Search(newWord)` is true,
`Search(oldWord)` is false unless the two words are equal, and `Search` is
unchanged for every other word. -/
theorem update_spec :
    (∀ (t : Trie) (oldWord newWord : List Char),
      ∃ t1, Update t oldWord newWord = some (t.Search oldWord, t1) ∧
        (t.Search oldWord = false → t1 = t)) ∧
    (∀ ops : List (history.Op (List Char)),
      ∃ t, history.run applyOp ops NewTrie = some t ∧
        ∀ oldWord newWord : List Char, t.Search oldWord = true →
          ∃ t1, Update t oldWord newWord = some (true, t1) ∧
            t1.Search newWord = true ∧
            (oldWord ≠ newWord → t1.Search oldWord = false) ∧
            ∀ x, x ≠ oldWord → x ≠ newWord → t1.Search x = t.Search x) := by
  constructor
  · intro t oldWord newWord
    obtain ⟨t1, e1, hfalse, _⟩ := trie_Delete_spec t oldWord
    cases hs : t.Search oldWord with
    | false =>
      rw [hs] at e1
      exact ⟨t1, by simp [Update, e1], fun _ => hfalse hs⟩
    | true =>
      rw [hs] at e1
      obtain ⟨t2, e2, _⟩ := trie_Insert_spec t1 newWord
      exact ⟨t2, by simp [Update, e1, e2], fun h => absurd h (by decide)⟩
  · intro ops
    obtain ⟨t, e, hinv, _⟩ := reached_spec ops
    refine ⟨t, e, ?_⟩
    intro oldWord newWord hs
    obtain ⟨t1, e1, _, m1⟩ := TrieInv_delete t oldWord hinv.2
    rw [hs] at e1
    obtain ⟨t2, e2, h2⟩ := trie_Insert_spec t1 newWord
    refine ⟨t2, by simp [Update, e1, e2], ?_, ?_, ?_⟩
    · rw [(h2 newWord).1]; simp
    · intro hne
      rw [(h2 oldWord).1]
      have : t1.Search oldWord = false := by
        cases h : t1.Search oldWord with
        | false => rfl
        | true => exact absurd ((m1 oldWord).mp h).1 (by simp)
      simp [this, hne]
    · intro x hx1 hx2
      rw [(h2 x).1]
      have h3 : t1.Search x = t.Search x := by
        cases h : t.Search x with
        | true => exact (m1 x).mpr ⟨hx1, h⟩
        | false =>
          cases h4 : t1.Search x with
          | false => rfl
          | true => rw [((m1 x).mp h4).2] at h; exact absurd h (by decide)
      simp [h3, hx2]

theorem update_spec_witness :
    ∃ t, history.run applyOp [history.Op.insert ['a'], history.Op.insert ['a', 'b']] NewTrie
        = some t ∧
      t.Search ['a'] = true ∧
      ∃ t1, Update t ['a'] ['c'] = some (true, t1) ∧
        t1.Search ['c'] = true ∧ t1.Search ['a'] = false ∧ t1.Search ['a', 'b'] = true := by
  obtain ⟨t, e, h⟩ := update_spec.2 [history.Op.insert ['a'], history.Op.insert ['a', 'b']]
  have hs : (history.run applyOp [history.Op.insert ['a'], history.Op.insert ['a', 'b']]
      NewTrie).map (fun t => (t.Search ['a'], t.Search ['a', 'b'])) = some (true, true) := by
    decide
  rw [e] at hs
  simp only [Option.map_some', Option.some.injEq, Prod.mk.injEq] at hs
  obtain ⟨t1, e1, h1, h2, h3⟩ := h ['a'] ['c'] hs.1
  refine ⟨t, e, hs.1, t1, e1, h1, h2 (by decide), ?_⟩
  rw [h3 ['a', 'b'] (by decide) (by decide)]
  exact hs.2

/-- C23. For every trie (each children map having one entry per key) and every
pattern, `SearchWithWildcard(t, pattern)` is true if and only if some stored
word has as many characters as the pattern and agrees with it at every position
where the pattern character is not `.`; for a pattern without `.` the result
equals `t.Search(pattern)`. -/
theorem wildcard_search_spec (t : Trie) (hwf : WF t.Root) (pattern : List Char) :
    (SearchWithWildcard t pattern = true ↔ ∃ w, t.Search w = true ∧ Matches pattern w) ∧
    ('.' ∉ pattern → SearchWithWildcard t pattern = t.Search pattern) := by
  have h1 : SearchWithWildcard t pattern = true ↔
      ∃ w, t.Search w = true ∧ Matches pattern w := by
    unfold SearchWithWildcard
    rw [searchHelper_spec pattern t.Root hwf]
    constructor
    · rintro ⟨w, hw, he⟩
      exact ⟨w, (search_true_iff t w).mpr he, (matches_iff_forall₂ pattern w).mpr hw⟩
    · rintro ⟨w, hs, hm⟩
      exact ⟨w, (matches_iff_forall₂ pattern w).mp hm, (search_true_iff t w).mp hs⟩
  refine ⟨h1, ?_⟩
  intro hno
  rw [Bool.eq_iff_iff, h1]
  constructor
  · rintro ⟨w, hs, hm⟩
    rw [matches_iff_forall₂, forall₂_no_dot pattern hno] at hm
    rw [← hm]; exact hs
  · intro hs
    exact ⟨pattern, hs, (matches_iff_forall₂ pattern pattern).mpr
      ((forall₂_no_dot pattern hno pattern).mpr rfl)⟩

theorem wildcard_search_spec_witness :
    WF (Trie.mk (Node.mk [('a', Node.mk [] true 1)] false 0)).Root ∧
    ((SearchWithWildcard (Trie.mk (Node.mk [('a', Node.mk [] true 1)] false 0)) ['.'] = true ↔
      ∃ w, (Trie.mk (Node.mk [('a', Node.mk [] true 1)] false 0)).Search w = true ∧
        Matches ['.'] w) ∧
    ('.' ∉ ['.'] →
      SearchWithWildcard (Trie.mk (Node.mk [('a', Node.mk [] true 1)] false 0)) ['.'] =
        (Trie.mk (Node.mk [('a', Node.mk [] true 1)] false 0)).Search ['.'])) :=
  ⟨WF_singleton 'a' true 1 false 0,
   wildcard_search_spec _ (WF_singleton 'a' true 1 false 0) ['.']⟩

end trie

namespace union_find

/-! ## Union-find: forests of parent pointers -/

section forest

variable {α : Type}

theorem RootAt_fixed {par : α → α} {k : Nat} : ∀ {x r : α}, RootAt par k x r → par r = r := by
  induction k with
  | zero =>
    intro x r h
    obtain ⟨h1, h2⟩ := h
    subst h1
    exact h2
  | succ k ih =>
    intro x r h
    exact ih h.2

theorem RootAt_unique {par : α → α} {k : Nat} :
    ∀ {j : Nat} {x r r1 : α}, RootAt par k x r → RootAt par j x r1 → k = j ∧ r = r1 := by
  induction k with
  | zero =>
    intro j x r r1 h h1
    cases j with
    | zero => exact ⟨rfl, h.1.symm.trans h1.1⟩
    | succ j => exact absurd h.2 h1.1
  | succ k ih =>
    intro j x r r1 h h1
    cases j with
    | zero => exact absurd h1.2 h.1
    | succ j =>
      obtain ⟨e1, e2⟩ := ih h.2 h1.2
      exact ⟨by rw [e1], e2⟩

theorem IsRootOf_fixed {par : α → α} {x r : α} (h : IsRootOf par x r) : par r = r := by
  obtain ⟨k, hk⟩ := h
  exact RootAt_fixed hk

theorem IsRootOf_unique {par : α → α} {x r r1 : α} (h : IsRootOf par x r)
    (h1 : IsRootOf par x r1) : r = r1 := by
  obtain ⟨k, hk⟩ := h
  obtain ⟨j, hj⟩ := h1
  exact (RootAt_unique hk hj).2

theorem IsRootOf_self {par : α → α} {r : α} (h : par r = r) : IsRootOf par r r :=
  ⟨0, rfl, h⟩

theorem IsRootOf_of_fixed {par : α → α} {x r : α} (e : par x = x) (h : IsRootOf par x r) :
    r = x :=
  IsRootOf_unique h (IsRootOf_self e)

theorem IsRootOf_step {par : α → α} {x r : α} (h : IsRootOf par (par x) r) :
    IsRootOf par x r := by
  by_cases e : par x = x
  · rw [e] at h; exact h
  · obtain ⟨k, hk⟩ := h
    exact ⟨k + 1, e, hk⟩

theorem IsRootOf_parent {par : α → α} {x r : α} (h : IsRootOf par x r) :
    IsRootOf par (par x) r := by
  obtain ⟨k, hk⟩ := h
  cases k with
  | zero =>
    have e : par x = x := hk.2
    rw [e]
    exact ⟨0, hk⟩
  | succ k => exact ⟨k, hk.2⟩

theorem IsRootOf_root {par : α → α} {x r : α} (h : IsRootOf par x r) : IsRootOf par r r :=
  IsRootOf_self (IsRootOf_fixed h)

/-- Path compression keeps every root: pointing `x` at its own root changes no
representative. -/
theorem RootAt_compress [DecidableEq α] {par : α → α} {x r : α} (hx : IsRootOf par x r)
    (k : Nat) : ∀ z r1, RootAt par k z r1 → IsRootOf (Function.update par x r) z r1 := by
  induction k with
  | zero =>
    intro z r1 h
    obtain ⟨h1, h2⟩ := h
    subst h1
    apply IsRootOf_self
    by_cases e : z = x
    · subst e
      rw [Function.update_same]
      exact IsRootOf_of_fixed h2 hx
    · rw [Function.update_noteq e]
      exact h2
  | succ k ih =>
    intro z r1 h
    have h3 := ih _ _ h.2
    by_cases e : z = x
    · subst e
      have e1 : r1 = r := IsRootOf_unique ⟨k + 1, h⟩ hx
      subst e1
      apply IsRootOf_step
      rw [Function.update_same]
      apply IsRootOf_self
      have hne : r1 ≠ z := by
        intro e2
        subst e2
        exact h.1 (IsRootOf_fixed hx)
      rw [Function.update_noteq hne]
      exact IsRootOf_fixed hx
    · apply IsRootOf_step
      rw [Function.update_noteq e]
      exact h3

theorem IsRootOf_compress [DecidableEq α] {par : α → α} {x r : α} (hx : IsRootOf par x r)
    {z r1 : α} (h : IsRootOf par z r1) : IsRootOf (Function.update par x r) z r1 := by
  obtain ⟨k, hk⟩ := h
  exact RootAt_compress hx k z r1 hk

/-- Linking the root `a` under the root `b` sends every element of the tree of
`a` to `b` and keeps every other root. -/
theorem RootAt_link [DecidableEq α] {par : α → α} {a b : α} (ha : par a = a) (hb : par b = b)
    (hab : a ≠ b) (k : Nat) :
    ∀ z r, RootAt par k z r → IsRootOf (Function.update par a b) z (if r = a then b else r) := by
  induction k with
  | zero =>
    intro z r h
    obtain ⟨h1, h2⟩ := h
    subst h1
    by_cases e : z = a
    · subst e
      rw [if_pos rfl]
      apply IsRootOf_step
      rw [Function.update_same]
      apply IsRootOf_self
      rw [Function.update_noteq (Ne.symm hab)]
      exact hb
    · rw [if_neg e]
      apply IsRootOf_self
      rw [Function.update_noteq e]
      exact h2
  | succ k ih =>
    intro z r h
    have e : z ≠ a := by
      intro e
      subst e
      exact h.1 ha
    apply IsRootOf_step
    rw [Function.update_noteq e]
    exact ih _ _ h.2

theorem IsRootOf_link [DecidableEq α] {par : α → α} {a b : α} (ha : par a = a) (hb : par b = b)
    (hab : a ≠ b) {z r : α} (h : IsRootOf par z r) :
    IsRootOf (Function.update par a b) z (if r = a then b else r) := by
  obtain ⟨k, hk⟩ := h
  exact RootAt_link ha hb hab k z r hk

theorem RootAt_iterate {par : α → α} {k : Nat} :
    ∀ {x r : α}, RootAt par k x r → ∀ i, i ≤ k → RootAt par (k - i) (par^[i] x) r := by
  induction k with
  | zero =>
    intro x r h i hi
    have e : i = 0 := by omega
    subst e
    exact h
  | succ k ih =>
    intro x r h i hi
    cases i with
    | zero => exact h
    | succ i =>
      rw [Function.iterate_succ_apply, Nat.add_sub_add_right]
      exact ih h.2 i (by omega)

/-- The elements on the way to the root are pairwise different, so the way is
no longer than any finite set that holds them. -/
theorem RootAt_le_card_aux [DecidableEq α] {par : α → α} {r : α} (k : Nat) :
    ∀ (s : Finset α) (x : α), RootAt par k x r → (∀ i, i < k → par^[i] x ∈ s) →
      k ≤ s.card := by
  induction k with
  | zero => intro s x _ _; exact Nat.zero_le _
  | succ k ih =>
    intro s x h hs
    have hx : x ∈ s := hs 0 (by omega)
    have h1 : k ≤ (s.erase x).card := by
      apply ih (s.erase x) (par x) h.2
      intro i hi
      rw [Finset.mem_erase]
      constructor
      · intro e
        have h2 := RootAt_iterate h (i + 1) (by omega)
        rw [Function.iterate_succ_apply, e] at h2
        have := (RootAt_unique h2 h).1
        omega
      · have := hs (i + 1) (by omega)
        rw [Function.iterate_succ_apply] at this
        exact this
    rw [Finset.card_erase_of_mem hx] at h1
    have : 0 < s.card := Finset.card_pos.mpr ⟨x, hx⟩
    omega

theorem RootAt_le_card [DecidableEq α] {par : α → α} {r x : α} {k : Nat} (s : Finset α)
    (hs : ∀ z, par z ≠ z → z ∈ s) (h : RootAt par k x r) : k ≤ s.card := by
  apply RootAt_le_card_aux k s x h
  intro i hi
  apply hs
  have h2 := RootAt_iterate h i (by omega)
  have e : k - i = (k - i - 1) + 1 := by omega
  rw [e] at h2
  exact h2.1

theorem SameRoot_iff {par : α → α} {a b ra rb : α} (ha : IsRootOf par a ra)
    (hb : IsRootOf par b rb) : SameRoot par a b ↔ ra = rb := by
  constructor
  · rintro ⟨r, h1, h2⟩
    rw [IsRootOf_unique ha h1, IsRootOf_unique hb h2]
  · intro e
    subst e
    exact ⟨ra, ha, hb⟩

theorem SameRoot_refl {par : α → α} (hf : Forest par) (a : α) : SameRoot par a a := by
  obtain ⟨r, hr⟩ := hf a
  exact ⟨r, hr, hr⟩

theorem SameRoot_symm {par : α → α} {a b : α} (h : SameRoot par a b) : SameRoot par b a := by
  obtain ⟨r, h1, h2⟩ := h
  exact ⟨r, h2, h1⟩

theorem SameRoot_trans {par : α → α} {a b c : α} (h : SameRoot par a b)
    (h1 : SameRoot par b c) : SameRoot par a c := by
  obtain ⟨r, h2, h3⟩ := h
  obtain ⟨r1, h4, h5⟩ := h1
  have e := IsRootOf_unique h3 h4
  subst e
  exact ⟨r, h2, h5⟩

/-- Roots are carried along a map `f` of roots: the forest property and the
description of the new partition. -/
theorem Forest_of_rootMap {par par1 : α → α} (f : α → α) (hf : Forest par)
    (h : ∀ z r, IsRootOf par z r → IsRootOf par1 z (f r)) : Forest par1 := by
  intro x
  obtain ⟨r, hr⟩ := hf x
  exact ⟨f r, h x r hr⟩

theorem UnionSpec_forest [DecidableEq α] {par par1 : α → α} {x y : α} {ret : Bool}
    (hf : Forest par) (h : UnionSpec par par1 x y ret) : Forest par1 := by
  obtain ⟨rx, ry, hx, hy, _, h1, h2⟩ := h
  by_cases e : rx = ry
  · exact Forest_of_rootMap id hf (h1 e)
  · obtain ⟨a, b, _, h3⟩ := h2 e
    exact Forest_of_rootMap _ hf h3

theorem UnionSpec_ret [DecidableEq α] {par par1 : α → α} {x y : α} {ret : Bool}
    (h : UnionSpec par par1 x y ret) : ret = true ↔ ¬ SameRoot par x y := by
  obtain ⟨rx, ry, hx, hy, hr, _, _⟩ := h
  rw [SameRoot_iff hx hy, hr]
  simp

theorem merge_eq_iff [DecidableEq α] (a b ra rb : α) :
    ((if ra = a then b else ra) = (if rb = a then b else rb)) ↔
      (ra = rb ∨ (ra = a ∧ rb = b) ∨ (ra = b ∧ rb = a)) := by
  by_cases c1 : ra = a
  · by_cases c2 : rb = a
    · rw [if_pos c1, if_pos c2, c1, c2]
      simp
    · rw [if_pos c1, if_neg c2]
      constructor
      · intro h; exact Or.inr (Or.inl ⟨c1, h.symm⟩)
      · rintro (h | ⟨_, h⟩ | ⟨_, h⟩)
        · exact absurd (h.symm.trans c1) c2
        · exact h.symm
        · exact absurd h c2
  · by_cases c2 : rb = a
    · rw [if_neg c1, if_pos c2]
      constructor
      · intro h; exact Or.inr (Or.inr ⟨h, c2⟩)
      · rintro (h | ⟨h, _⟩ | ⟨h, _⟩)
        · exact absurd (h.trans c2) c1
        · exact absurd h c1
        · exact h
    · rw [if_neg c1, if_neg c2]
      constructor
      · intro h; exact Or.inl h
      · rintro (h | ⟨h, _⟩ | ⟨_, h⟩)
        · exact h
        · exact absurd h c1
        · exact absurd h c2

/-- After a union exactly the sets of `x` and `y` are merged. -/
theorem UnionSpec_sameRoot [DecidableEq α] {par par1 : α → α} {x y : α} {ret : Bool}
    (hf : Forest par) (h : UnionSpec par par1 x y ret) (a b : α) :
    SameRoot par1 a b ↔
      (SameRoot par a b ∨ (SameRoot par a x ∧ SameRoot par b y) ∨
        (SameRoot par a y ∧ SameRoot par b x)) := by
  obtain ⟨rx, ry, hx, hy, _, h1, h2⟩ := h
  obtain ⟨ra, hra⟩ := hf a
  obtain ⟨rb, hrb⟩ := hf b
  rw [SameRoot_iff hra hrb, SameRoot_iff hra hx, SameRoot_iff hrb hy, SameRoot_iff hra hy,
    SameRoot_iff hrb hx]
  by_cases e : rx = ry
  · rw [SameRoot_iff (h1 e a ra hra) (h1 e b rb hrb)]
    subst e
    constructor
    · intro h; exact Or.inl h
    · rintro (h | ⟨h3, h4⟩ | ⟨h3, h4⟩)
      · exact h
      · rw [h3, h4]
      · rw [h3, h4]
  · obtain ⟨a1, b1, hab, h3⟩ := h2 e
    rw [SameRoot_iff (h3 a ra hra) (h3 b rb hrb)]
    rcases hab with ⟨e1, e2⟩ | ⟨e1, e2⟩
    · subst e1; subst e2
      exact merge_eq_iff a1 b1 ra rb
    · subst e1; subst e2
      rw [merge_eq_iff a1 b1 ra rb]
      constructor
      · rintro (h | h | h)
        · exact Or.inl h
        · exact Or.inr (Or.inr h)
        · exact Or.inr (Or.inl h)
      · rintro (h | h | h)
        · exact Or.inl h
        · exact Or.inr (Or.inr h)
        · exact Or.inr (Or.inl h)

/-- The fixed points after a union: none is gained, and exactly one is lost
when the call returns true. -/
theorem UnionSpec_fixed [DecidableEq α] {par par1 : α → α} {x y : α} {ret : Bool}
    (hf : Forest par) (h : UnionSpec par par1 x y ret) :
    (ret = false → ∀ z, par1 z = z ↔ par z = z) ∧
    (ret = true → ∃ a, (IsRootOf par x a ∨ IsRootOf par y a) ∧
      ∀ z, par1 z = z ↔ (par z = z ∧ z ≠ a)) := by
  obtain ⟨rx, ry, hx, hy, hr, h1, h2⟩ := h
  constructor
  · intro hret
    have e : rx = ry := by
      rw [hret] at hr
      by_contra hne
      simp [hne] at hr
    intro z
    obtain ⟨r, hzr⟩ := hf z
    constructor
    · intro hz
      have := IsRootOf_of_fixed hz (h1 e z r hzr)
      subst this
      exact IsRootOf_fixed hzr
    · intro hz
      have := IsRootOf_of_fixed hz hzr
      subst this
      exact IsRootOf_fixed (h1 e r r hzr)
  · intro hret
    have e : rx ≠ ry := by
      rw [hret] at hr
      intro he
      simp [he] at hr
    obtain ⟨a, b, hab, h3⟩ := h2 e
    have hne : a ≠ b := by
      rcases hab with ⟨e1, e2⟩ | ⟨e1, e2⟩
      · rw [e1, e2]; exact e
      · rw [e1, e2]; exact Ne.symm e
    have ha : par a = a := by
      rcases hab with ⟨e1, _⟩ | ⟨e1, _⟩
      · rw [e1]; exact IsRootOf_fixed hx
      · rw [e1]; exact IsRootOf_fixed hy
    have hb : par b = b := by
      rcases hab with ⟨_, e2⟩ | ⟨_, e2⟩
      · rw [e2]; exact IsRootOf_fixed hy
      · rw [e2]; exact IsRootOf_fixed hx
    have hxa : IsRootOf par x a ∨ IsRootOf par y a := by
      rcases hab with ⟨e1, _⟩ | ⟨e1, _⟩
      · rw [e1]; exact Or.inl hx
      · rw [e1]; exact Or.inr hy
    refine ⟨a, hxa, ?_⟩
    intro z
    obtain ⟨r, hzr⟩ := hf z
    have hz1 := h3 z r hzr
    constructor
    · intro hz
      have e1 := IsRootOf_of_fixed hz hz1
      by_cases c : r = a
      · rw [if_pos c] at e1
        -- the root of z was a, and z = b is a root of par: impossible
        subst e1
        have := IsRootOf_of_fixed hb hzr
        exact absurd (this.symm.trans c).symm hne
      · rw [if_neg c] at e1
        subst e1
        exact ⟨IsRootOf_fixed hzr, c⟩
    · rintro ⟨hz, hza⟩
      have e1 := IsRootOf_of_fixed hz hzr
      subst e1
      rw [if_neg hza] at hz1
      exact IsRootOf_fixed hz1

/-- After a union `x` and `y` have the same root. -/
theorem UnionSpec_joined [DecidableEq α] {par par1 : α → α} {x y : α} {ret : Bool}
    (hf : Forest par) (h : UnionSpec par par1 x y ret) : SameRoot par1 x y :=
  (UnionSpec_sameRoot hf h x y).mpr
    (Or.inr (Or.inl ⟨SameRoot_refl hf x, SameRoot_refl hf y⟩))

theorem UnionsSpec_forest [DecidableEq α] {par par1 : α → α} {es : List (α × α)}
    {bs : List Bool} (h : UnionsSpec par par1 es bs) : Forest par → Forest par1 := by
  induction h with
  | nil par => exact fun hf => hf
  | cons hstep _ ih => exact fun hf => ih (UnionSpec_forest hf hstep)

theorem Conn_refl (es : List (α × α)) (a : α) : Conn es a a :=
  Relation.EqvGen.refl a

theorem Conn_symm {es : List (α × α)} {a b : α} (h : Conn es a b) : Conn es b a :=
  Relation.EqvGen.symm a b h

theorem Conn_trans {es : List (α × α)} {a b c : α} (h : Conn es a b) (h1 : Conn es b c) :
    Conn es a c :=
  Relation.EqvGen.trans a b c h h1

theorem Conn_nil (a b : α) : Conn ([] : List (α × α)) a b ↔ a = b := by
  constructor
  · intro h
    induction h with
    | rel x y h => simp at h
    | refl x => rfl
    | symm x y _ ih => exact ih.symm
    | trans x y z _ _ ih1 ih2 => exact ih1.trans ih2
  · intro e
    subst e
    exact Conn_refl _ a

theorem Conn_append_left {es : List (α × α)} (fs : List (α × α)) {a b : α}
    (h : Conn es a b) : Conn (es ++ fs) a b := by
  induction h with
  | rel x y h => exact Relation.EqvGen.rel x y (List.mem_append_left fs h)
  | refl x => exact Relation.EqvGen.refl x
  | symm x y _ ih => exact Relation.EqvGen.symm x y ih
  | trans x y z _ _ ih1 ih2 => exact Relation.EqvGen.trans x y z ih1 ih2

/-- Adding the pair `(x, y)` joins exactly the classes of `x` and `y`. -/
theorem Conn_snoc (es : List (α × α)) (x y a b : α) :
    Conn (es ++ [(x, y)]) a b ↔
      (Conn es a b ∨ (Conn es a x ∧ Conn es b y) ∨ (Conn es a y ∧ Conn es b x)) := by
  constructor
  · intro h
    induction h with
    | rel u v h =>
      rcases List.mem_append.mp h with h1 | h1
      · exact Or.inl (Relation.EqvGen.rel u v h1)
      · simp only [List.mem_singleton, Prod.mk.injEq] at h1
        obtain ⟨e1, e2⟩ := h1
        subst e1; subst e2
        exact Or.inr (Or.inl ⟨Conn_refl _ _, Conn_refl _ _⟩)
    | refl u => exact Or.inl (Conn_refl _ _)
    | symm u v _ ih =>
      rcases ih with h1 | ⟨h1, h2⟩ | ⟨h1, h2⟩
      · exact Or.inl (Conn_symm h1)
      · exact Or.inr (Or.inr ⟨h2, h1⟩)
      · exact Or.inr (Or.inl ⟨h2, h1⟩)
    | trans u v w _ _ ih1 ih2 =>
      rcases ih1 with h1 | ⟨h1, h2⟩ | ⟨h1, h2⟩
      · rcases ih2 with g1 | ⟨g1, g2⟩ | ⟨g1, g2⟩
        · exact Or.inl (Conn_trans h1 g1)
        · exact Or.inr (Or.inl ⟨Conn_trans h1 g1, g2⟩)
        · exact Or.inr (Or.inr ⟨Conn_trans h1 g1, g2⟩)
      · rcases ih2 with g1 | ⟨g1, g2⟩ | ⟨g1, g2⟩
        · exact Or.inr (Or.inl ⟨h1, Conn_trans (Conn_symm g1) h2⟩)
        · exact Or.inr (Or.inl ⟨h1, g2⟩)
        · exact Or.inl (Conn_trans h1 (Conn_symm g2))
      · rcases ih2 with g1 | ⟨g1, g2⟩ | ⟨g1, g2⟩
        · exact Or.inr (Or.inr ⟨h1, Conn_trans (Conn_symm g1) h2⟩)
        · exact Or.inl (Conn_trans h1 (Conn_symm g2))
        · exact Or.inr (Or.inr ⟨h1, g2⟩)
  · rintro (h | ⟨h1, h2⟩ | ⟨h1, h2⟩)
    · exact Conn_append_left _ h
    · have hxy : Conn (es ++ [(x, y)]) x y :=
        Relation.EqvGen.rel x y (List.mem_append_right es (List.mem_singleton.mpr rfl))
      exact Conn_trans (Conn_append_left _ h1) (Conn_trans hxy (Conn_symm (Conn_append_left _ h2)))
    · have hxy : Conn (es ++ [(x, y)]) x y :=
        Relation.EqvGen.rel x y (List.mem_append_right es (List.mem_singleton.mpr rfl))
      exact Conn_trans (Conn_append_left _ h1)
        (Conn_trans (Conn_symm hxy) (Conn_symm (Conn_append_left _ h2)))

theorem UnionsSpec_cons_inv [DecidableEq α] {q q1 : α → α} {x y : α} {es : List (α × α)}
    {cs : List Bool} (h : UnionsSpec q q1 ((x, y) :: es) cs) :
    ∃ q2 c cs1, cs = c :: cs1 ∧ UnionSpec q q2 x y c ∧ UnionsSpec q2 q1 es cs1 := by
  cases h with
  | cons h1 h2 => exact ⟨_, _, _, rfl, h1, h2⟩

theorem UnionsSpec_nil_inv [DecidableEq α] {q q1 : α → α} {cs : List Bool}
    (h : UnionsSpec q q1 [] cs) : cs = [] ∧ q1 = q := by
  cases h
  exact ⟨rfl, rfl⟩

/-- Two runs of the same unions from states with the same partition return the
same booleans and end with the same partition. -/
theorem UnionsSpec_agree [DecidableEq α] (es : List (α × α)) :
    ∀ {par par1 q q1 : α → α} {bs cs : List Bool}, UnionsSpec par par1 es bs →
      UnionsSpec q q1 es cs → Forest par → Forest q →
      (∀ a b, SameRoot par a b ↔ SameRoot q a b) →
      bs = cs ∧ ∀ a b, SameRoot par1 a b ↔ SameRoot q1 a b := by
  induction es with
  | nil =>
    intro par par1 q q1 bs cs h h1 _ _ hsame
    obtain ⟨e1, e2⟩ := UnionsSpec_nil_inv h
    obtain ⟨e3, e4⟩ := UnionsSpec_nil_inv h1
    subst e1; subst e2; subst e3; subst e4
    exact ⟨rfl, hsame⟩
  | cons e es ih =>
    obtain ⟨x, y⟩ := e
    intro par par1 q q1 bs cs h h1 hf hfq hsame
    obtain ⟨p2, b, bs1, e1, hstep, hrest⟩ := UnionsSpec_cons_inv h
    obtain ⟨q2, c, cs1, e2, hstep1, hrest1⟩ := UnionsSpec_cons_inv h1
    subst e1; subst e2
    have hb := UnionSpec_ret hstep
    have hb1 := UnionSpec_ret hstep1
    rw [hsame] at hb
    have e : b = c := Bool.eq_iff_iff.mpr (hb.trans hb1.symm)
    have hs : ∀ u v, SameRoot p2 u v ↔ SameRoot q2 u v := by
      intro u v
      rw [UnionSpec_sameRoot hf hstep u v, UnionSpec_sameRoot hfq hstep1 u v,
        hsame u v, hsame u x, hsame v y, hsame u y, hsame v x]
    obtain ⟨e3, h2⟩ := ih hrest hrest1 (UnionSpec_forest hf hstep)
      (UnionSpec_forest hfq hstep1) hs
    exact ⟨by rw [e, e3], h2⟩

/-- The partition after a sequence of unions joins exactly the pairs united. -/
theorem UnionsSpec_conn [DecidableEq α] (es : List (α × α)) :
    ∀ {par par1 : α → α} {bs : List Bool} (done : List (α × α)), UnionsSpec par par1 es bs →
      Forest par → (∀ a b, SameRoot par a b ↔ Conn done a b) →
      ∀ a b, SameRoot par1 a b ↔ Conn (done ++ es) a b := by
  induction es with
  | nil =>
    intro par par1 bs done h _ hsame
    obtain ⟨_, e2⟩ := UnionsSpec_nil_inv h
    subst e2
    rw [List.append_nil]
    exact hsame
  | cons e es ih =>
    obtain ⟨x, y⟩ := e
    intro par par1 bs done h hf hsame
    obtain ⟨p2, b, bs1, e1, hstep, hrest⟩ := UnionsSpec_cons_inv h
    have hs : ∀ u v, SameRoot p2 u v ↔ Conn (done ++ [(x, y)]) u v := by
      intro u v
      rw [UnionSpec_sameRoot hf hstep u v, Conn_snoc, hsame u v, hsame u x, hsame v y,
        hsame u y, hsame v x]
    have := ih (done ++ [(x, y)]) hrest (UnionSpec_forest hf hstep) hs
    rw [List.append_assoc] at this
    exact this

end forest

/-! ## Union-find on arrays: `findNaive`, `unionNaive`, `Find`, `Union` -/

theorem arrPar_lt {p : List Nat} {x : Nat} (h : x < p.length) : p[x]? = some (arrPar p x) := by
  unfold arrPar
  rw [List.getElem?_eq_getElem h]
  rfl

theorem arrPar_ge {p : List Nat} {x : Nat} (h : ¬ x < p.length) : arrPar p x = x := by
  unfold arrPar
  rw [List.getElem?_eq_none (by omega)]
  rfl

theorem arrPar_set {p : List Nat} {x : Nat} (r : Nat) (h : x < p.length) :
    arrPar (p.set x r) = Function.update (arrPar p) x r := by
  funext z
  by_cases e : z = x
  · subst e
    rw [Function.update_same]
    unfold arrPar
    rw [List.getElem?_set_eq_of_lt _ h]
    rfl
  · rw [Function.update_noteq e]
    unfold arrPar
    rw [List.getElem?_set_ne (Ne.symm e)]

theorem InRange_set {p : List Nat} {x r : Nat} (hin : InRange p) (hx : x < p.length)
    (hr : r < p.length) : InRange (p.set x r) := by
  intro z hz
  rw [List.length_set] at hz ⊢
  rw [arrPar_set r hx]
  by_cases e : z = x
  · subst e; rw [Function.update_same]; exact hr
  · rw [Function.update_noteq e]; exact hin z hz

theorem RootAt_lt {p : List Nat} (hin : InRange p) {k : Nat} :
    ∀ {x r : Nat}, RootAt (arrPar p) k x r → x < p.length → r < p.length := by
  induction k with
  | zero => intro x r h hx; rw [← h.1]; exact hx
  | succ k ih => intro x r h hx; exact ih h.2 (hin x hx)

theorem IsRootOf_lt {p : List Nat} (hin : InRange p) {x r : Nat}
    (h : IsRootOf (arrPar p) x r) (hx : x < p.length) : r < p.length := by
  obtain ⟨k, hk⟩ := h
  exact RootAt_lt hin hk hx

/-- The way to the root in a parent array has at most `len(parent)` steps. -/
theorem RootAt_le_length {p : List Nat} {k x r : Nat} (h : RootAt (arrPar p) k x r) :
    k ≤ p.length := by
  have := RootAt_le_card (Finset.range p.length) (by
    intro z hz
    rw [Finset.mem_range]
    by_contra hlt
    exact hz (arrPar_ge hlt)) h
  rw [Finset.card_range] at this
  exact this

theorem findNaiveLoop_spec {p : List Nat} (hin : InRange p) (fuel : Nat) :
    ∀ (k x r : Nat), RootAt (arrPar p) k x r → x < p.length → k < fuel →
      findNaiveLoop fuel x p = some r := by
  induction fuel with
  | zero => intro k x r _ _ hk; omega
  | succ fuel ih =>
    intro k x r h hx hk
    unfold findNaiveLoop
    rw [arrPar_lt hx]
    cases k with
    | zero =>
      obtain ⟨h1, h2⟩ := h
      subst h1
      simp only [h2, ne_eq, not_true_eq_false, if_false]
    | succ k =>
      simp only [ne_eq, h.1, not_false_eq_true, if_true]
      exact ih k _ r h.2 (hin x hx) (by omega)

theorem findNaive_spec {p : List Nat} (hin : InRange p) {x r : Nat}
    (h : IsRootOf (arrPar p) x r) (hx : x < p.length) : findNaive x p = some r := by
  obtain ⟨k, hk⟩ := h
  exact findNaiveLoop_spec hin _ k x r hk hx (by have := RootAt_le_length hk; omega)

theorem FindRec_spec {p : List Nat} (hin : InRange p) (fuel : Nat) :
    ∀ (k x r : Nat), RootAt (arrPar p) k x r → x < p.length → k < fuel →
      ∃ p1, FindRec fuel x p = some (r, p1) ∧ p1.length = p.length ∧ InRange p1 ∧
        ∀ z rz, IsRootOf (arrPar p) z rz → IsRootOf (arrPar p1) z rz := by
  induction fuel with
  | zero => intro k x r _ _ hk; omega
  | succ fuel ih =>
    intro k x r h hx hk
    unfold FindRec
    rw [arrPar_lt hx]
    cases k with
    | zero =>
      obtain ⟨h1, h2⟩ := h
      subst h1
      refine ⟨p, ?_, rfl, hin, fun z rz hz => hz⟩
      simp only [h2, ne_eq, not_true_eq_false, if_false]
    | succ k =>
      obtain ⟨p1, e1, hlen, hin1, hpres⟩ := ih k _ r h.2 (hin x hx) (by omega)
      have hx1 : x < p1.length := by rw [hlen]; exact hx
      have hroot : IsRootOf (arrPar p1) x r := hpres x r ⟨k + 1, h⟩
      refine ⟨p1.set x r, ?_, ?_, ?_, ?_⟩
      · simp only [ne_eq, h.1, not_false_eq_true, if_true, e1, assign, hx1,
          List.getElem?_set_eq_of_lt]
      · rw [List.length_set, hlen]
      · exact InRange_set hin1 hx1 (IsRootOf_lt hin1 hroot hx1)
      · intro z rz hz
        rw [arrPar_set r hx1]
        exact IsRootOf_compress hroot (hpres z rz hz)

/-- `Find` on a parent array with entries in range: it returns the root of `x`
and keeps the root of every element. -/
theorem Find_spec {p : List Nat} (hin : InRange p) {x r : Nat}
    (h : IsRootOf (arrPar p) x r) (hx : x < p.length) :
    ∃ p1, Find x p = some (r, p1) ∧ p1.length = p.length ∧ InRange p1 ∧
      ∀ z rz, IsRootOf (arrPar p) z rz → IsRootOf (arrPar p1) z rz := by
  obtain ⟨k, hk⟩ := h
  exact FindRec_spec hin _ k x r hk hx (by have := RootAt_le_length hk; omega)

theorem ValidArr_of_preserved {p p1 : List Nat} (hv : ValidArr p) (hin1 : InRange p1)
    (h : ∀ z rz, IsRootOf (arrPar p) z rz → IsRootOf (arrPar p1) z rz) : ValidArr p1 :=
  ⟨hin1, Forest_of_rootMap id hv.2 h⟩

theorem findValue_iff {p : List Nat} (hv : ValidArr p) {x : Nat} (hx : x < p.length) (r : Nat) :
    findValue p x = some r ↔ IsRootOf (arrPar p) x r := by
  obtain ⟨r1, hr1⟩ := hv.2 x
  obtain ⟨p1, e1, _⟩ := Find_spec hv.1 hr1 hx
  unfold findValue
  rw [e1]
  simp only [Option.map_some', Option.some.injEq]
  constructor
  · intro e; subst e; exact hr1
  · intro h; exact IsRootOf_unique hr1 h

theorem findNaive_iff {p : List Nat} (hv : ValidArr p) {x : Nat} (hx : x < p.length) (r : Nat) :
    findNaive x p = some r ↔ IsRootOf (arrPar p) x r := by
  obtain ⟨r1, hr1⟩ := hv.2 x
  rw [findNaive_spec hv.1 hr1 hx]
  simp only [Option.some.injEq]
  constructor
  · intro e; subst e; exact hr1
  · intro h; exact IsRootOf_unique hr1 h

theorem SameSet_iff {p : List Nat} (hv : ValidArr p) {a b : Nat} (ha : a < p.length)
    (hb : b < p.length) : SameSet p a b ↔ SameRoot (arrPar p) a b := by
  unfold SameSet SameRoot
  constructor
  · rintro ⟨r, h1, h2⟩
    exact ⟨r, (findValue_iff hv ha r).mp h1, (findValue_iff hv hb r).mp h2⟩
  · rintro ⟨r, h1, h2⟩
    exact ⟨r, (findValue_iff hv ha r).mpr h1, (findValue_iff hv hb r).mpr h2⟩

theorem SameSetNaive_iff {p : List Nat} (hv : ValidArr p) {a b : Nat} (ha : a < p.length)
    (hb : b < p.length) : SameSetNaive p a b ↔ SameRoot (arrPar p) a b := by
  unfold SameSetNaive SameRoot
  constructor
  · rintro ⟨r, h1, h2⟩
    exact ⟨r, (findNaive_iff hv ha r).mp h1, (findNaive_iff hv hb r).mp h2⟩
  · rintro ⟨r, h1, h2⟩
    exact ⟨r, (findNaive_iff hv ha r).mpr h1, (findNaive_iff hv hb r).mpr h2⟩

/-- The link step shared by `unionNaive` and `Union`: writing `parent[a] = b`
for two different roots. -/
theorem link_spec {p : List Nat} (hv : ValidArr p) {a b : Nat} (ha : a < p.length)
    (hb : b < p.length) (hra : arrPar p a = a) (hrb : arrPar p b = b) (hab : a ≠ b) :
    assign p a b = some (p.set a b) ∧ (p.set a b).length = p.length ∧ InRange (p.set a b) ∧
      ∀ z r, IsRootOf (arrPar p) z r → IsRootOf (arrPar (p.set a b)) z (if r = a then b else r) := by
  refine ⟨by simp [assign, ha], List.length_set _ _ _, InRange_set hv.1 ha hb, ?_⟩
  intro z r hz
  rw [arrPar_set b ha]
  exact IsRootOf_link hra hrb hab hz

/-- `unionNaive` on a valid parent array. -/
theorem unionNaive_spec {p : List Nat} (hv : ValidArr p) {x y : Nat} (hx : x < p.length)
    (hy : y < p.length) :
    ∃ p1 ret, unionNaive x y p = some p1 ∧ p1.length = p.length ∧ ValidArr p1 ∧
      UnionSpec (arrPar p) (arrPar p1) x y ret := by
  obtain ⟨rx, hrx⟩ := hv.2 x
  obtain ⟨ry, hry⟩ := hv.2 y
  have e1 := findNaive_spec hv.1 hrx hx
  have e2 := findNaive_spec hv.1 hry hy
  unfold unionNaive
  rw [e1, e2]
  by_cases e : rx = ry
  · refine ⟨p, false, by simp [e], rfl, hv, rx, ry, hrx, hry, by simp [e], ?_, ?_⟩
    · intro _ z r hz; exact hz
    · intro hne; exact absurd e hne
  · obtain ⟨h1, h2, h3, h4⟩ := link_spec hv (IsRootOf_lt hv.1 hrx hx) (IsRootOf_lt hv.1 hry hy)
      (IsRootOf_fixed hrx) (IsRootOf_fixed hry) e
    refine ⟨p.set rx ry, true, by simp [e, h1], h2, ⟨h3, Forest_of_rootMap _ hv.2 h4⟩,
      rx, ry, hrx, hry, by simp [e], ?_, ?_⟩
    · intro he; exact absurd he e
    · intro _; exact ⟨rx, ry, Or.inl ⟨rfl, rfl⟩, h4⟩

/-- `Union` on a valid parent array with a rank array of the same length. -/
theorem Union_spec {p : List Nat} {rank : List Int} (hv : ValidArr p)
    (hrk : rank.length = p.length) {x y : Nat} (hx : x < p.length) (hy : y < p.length) :
    ∃ ret p1 rank1, Union x y p rank = some (ret, p1, rank1) ∧ p1.length = p.length ∧
      rank1.length = rank.length ∧ ValidArr p1 ∧ UnionSpec (arrPar p) (arrPar p1) x y ret := by
  obtain ⟨rx, hrx⟩ := hv.2 x
  obtain ⟨ry, hry⟩ := hv.2 y
  obtain ⟨p1, e1, hl1, hin1, hp1⟩ := Find_spec hv.1 hrx hx
  have hv1 : ValidArr p1 := ValidArr_of_preserved hv hin1 hp1
  obtain ⟨p2, e2, hl2, hin2, hp2⟩ := Find_spec hin1 (hp1 y ry hry) (by rw [hl1]; exact hy)
  have hv2 : ValidArr p2 := ValidArr_of_preserved hv1 hin2 hp2
  have hpres : ∀ z r, IsRootOf (arrPar p) z r → IsRootOf (arrPar p2) z r :=
    fun z r hz => hp2 z r (hp1 z r hz)
  have hlen : p2.length = p.length := hl2.trans hl1
  unfold Union
  rw [e1]
  simp only [e2]
  by_cases e : rx = ry
  · refine ⟨false, p2, rank, by simp [e], hlen, rfl, hv2, rx, ry, hrx, hry, by simp [e], ?_, ?_⟩
    · intro _; exact hpres
    · intro hne; exact absurd e hne
  · have hrx2 : rx < p2.length := by rw [hlen]; exact IsRootOf_lt hv.1 hrx hx
    have hry2 : ry < p2.length := by rw [hlen]; exact IsRootOf_lt hv.1 hry hy
    have fx : arrPar p2 rx = rx := IsRootOf_fixed (hpres x rx hrx)
    have fy : arrPar p2 ry = ry := IsRootOf_fixed (hpres y ry hry)
    have hrr : rx < rank.length := by rw [hrk, ← hlen]; exact hrx2
    have hrr2 : ry < rank.length := by rw [hrk, ← hlen]; exact hry2
    have hkx : rank[rx]? = some rank[rx] := List.getElem?_eq_getElem hrr
    have hky : rank[ry]? = some rank[ry] := List.getElem?_eq_getElem hrr2
    rw [if_neg e, hkx, hky]
    simp only []
    obtain ⟨a1, a2, a3, a4⟩ := link_spec hv2 hrx2 hry2 fx fy e
    obtain ⟨b1, b2, b3, b4⟩ := link_spec hv2 hry2 hrx2 fy fx (Ne.symm e)
    have sxy : UnionSpec (arrPar p) (arrPar (p2.set rx ry)) x y true :=
      ⟨rx, ry, hrx, hry, by simp [e], fun he => absurd he e,
        fun _ => ⟨rx, ry, Or.inl ⟨rfl, rfl⟩, fun z r hz => a4 z r (hpres z r hz)⟩⟩
    have syx : UnionSpec (arrPar p) (arrPar (p2.set ry rx)) x y true :=
      ⟨rx, ry, hrx, hry, by simp [e], fun he => absurd he e,
        fun _ => ⟨ry, rx, Or.inr ⟨rfl, rfl⟩, fun z r hz => b4 z r (hpres z r hz)⟩⟩
    split_ifs with c1 c2
    · exact ⟨true, p2.set rx ry, rank, by rw [a1], a2.trans hlen, rfl,
        ⟨a3, Forest_of_rootMap _ hv2.2 a4⟩, sxy⟩
    · exact ⟨true, p2.set ry rx, rank, by rw [b1], b2.trans hlen, rfl,
        ⟨b3, Forest_of_rootMap _ hv2.2 b4⟩, syx⟩
    · refine ⟨true, p2.set ry rx, rank.set rx (rank[rx] + 1), ?_, b2.trans hlen,
        List.length_set _ _ _, ⟨b3, Forest_of_rootMap _ hv2.2 b4⟩, syx⟩
      rw [b1]
      simp [assign, hrr]

/-! ## The generic union-find: `Add`, `Find`, `Union` on maps -/

section generic

variable {T : Type} [DecidableEq T]

theorem mapGet_mapSet {V : Type} (m : List (T × V)) (k : T) (v : V) (k1 : T) :
    mapGet (mapSet m k v) k1 = if k = k1 then some v else mapGet m k1 := by
  induction m with
  | nil => simp [mapSet, mapGet]
  | cons e rest ih =>
    obtain ⟨k2, v2⟩ := e
    by_cases c : k2 = k
    · subst c
      by_cases c1 : k2 = k1
      · simp [mapSet, mapGet, c1]
      · simp [mapSet, mapGet, c1]
    · by_cases c1 : k2 = k1
      · subst c1
        simp [mapSet, mapGet, c, Ne.symm c]
      · simp [mapSet, mapGet, c, c1, ih]

theorem mapGet_mem_keys {V : Type} {m : List (T × V)} {k : T} {v : V}
    (h : mapGet m k = some v) : k ∈ m.map Prod.fst := by
  induction m with
  | nil => simp [mapGet] at h
  | cons e rest ih =>
    obtain ⟨k2, v2⟩ := e
    by_cases c : k2 = k
    · simp [c]
    · simp only [mapGet, c, if_false] at h
      simp [ih h]

theorem par_of_none {uf : UnionFind T} {x : T} (h : mapGet uf.parent x = none) :
    uf.par x = x := by
  unfold UnionFind.par
  rw [h]
  rfl

theorem par_setParent (uf : UnionFind T) (rk : List (T × Int)) (x r : T) :
    UnionFind.par { parent := mapSet uf.parent x r, rank := rk } =
      Function.update uf.par x r := by
  funext z
  unfold UnionFind.par
  simp only [mapGet_mapSet]
  by_cases c : x = z
  · subst c
    simp
  · rw [if_neg c, Function.update_noteq (Ne.symm c)]

/-- `Add` changes no parent pointer: an unregistered element was its own
parent already. -/
theorem par_Add (uf : UnionFind T) (x : T) : (uf.Add x).par = uf.par := by
  unfold UnionFind.Add
  cases h : mapGet uf.parent x with
  | none =>
    simp only [Option.isNone_none, if_true]
    rw [par_setParent]
    funext z
    by_cases c : z = x
    · subst c
      rw [Function.update_same, par_of_none h]
    · rw [Function.update_noteq c]
  | some v => simp

theorem mapRead_registered [Inhabited T] (uf : UnionFind T) (x : T) :
    mapRead (if (mapGet uf.parent x).isNone then uf.Add x else uf).parent x = uf.par x := by
  unfold mapRead UnionFind.par UnionFind.Add
  cases h : mapGet uf.parent x with
  | none => simp [mapGet_mapSet]
  | some v => simp [h]

/-- The way to the root in the generic structure has at most `len(uf.parent)`
steps. -/
theorem gRootAt_le_length {uf : UnionFind T} {k : Nat} {x r : T} (h : RootAt uf.par k x r) :
    k ≤ uf.parent.length := by
  have h1 := RootAt_le_card (uf.parent.map Prod.fst).toFinset (by
    intro z hz
    rw [List.mem_toFinset]
    cases hg : mapGet uf.parent z with
    | none => exact absurd (par_of_none hg) hz
    | some v => exact mapGet_mem_keys hg) h
  have h2 := List.toFinset_card_le (uf.parent.map Prod.fst)
  rw [List.length_map] at h2
  omega

theorem gFindRec_spec [Inhabited T] (uf : UnionFind T) (fuel : Nat) :
    ∀ (k : Nat) (x r : T), RootAt uf.par k x r → k < fuel →
      ∃ uf1, UnionFind.FindRec fuel uf x = some (r, uf1) ∧
        (k = 0 → uf1 = if (mapGet uf.parent x).isNone then uf.Add x else uf) ∧
        mapGet uf1.parent r = some r ∧
        ∀ z rz, IsRootOf uf.par z rz → IsRootOf uf1.par z rz := by
  induction fuel with
  | zero => intro k x r _ hk; omega
  | succ fuel ih =>
    intro k x r h hk
    unfold UnionFind.FindRec
    simp only [mapRead_registered]
    cases k with
    | zero =>
      obtain ⟨h1, h2⟩ := h
      subst h1
      refine ⟨_, by simp only [h2, ne_eq, not_true_eq_false, if_false], fun _ => rfl, ?_, ?_⟩
      · cases hg : mapGet uf.parent x with
        | none => simp [UnionFind.Add, hg, mapGet_mapSet]
        | some v =>
          have : uf.par x = v := by unfold UnionFind.par; rw [hg]; rfl
          simp [hg, ← this, h2]
      · intro z rz hz
        split_ifs
        · rw [par_Add]; exact hz
        · exact hz
    | succ k =>
      have hreg : (if (mapGet uf.parent x).isNone then uf.Add x else uf) = uf := by
        cases hg : mapGet uf.parent x with
        | none => exact absurd (par_of_none hg) h.1
        | some v => simp
      rw [hreg]
      obtain ⟨uf2, e2, _, hreg2, hpres⟩ := ih k _ r h.2 (by omega)
      have hroot : IsRootOf uf2.par x r := hpres x r ⟨k + 1, h⟩
      refine ⟨{ uf2 with parent := mapSet uf2.parent x r }, ?_, fun e => by omega, ?_, ?_⟩
      · simp only [ne_eq, h.1, not_false_eq_true, if_true, e2]
        simp [mapRead, mapGet_mapSet]
      · simp only [mapGet_mapSet]
        split_ifs
        · rfl
        · exact hreg2
      · intro z rz hz
        rw [par_setParent]
        exact IsRootOf_compress hroot (hpres z rz hz)

/-- The generic `Find`: it returns the root of `x`, which is registered as its
own parent afterwards, and keeps the root of every element. -/
theorem gFind_spec [Inhabited T] (uf : UnionFind T) {x r : T} (h : IsRootOf uf.par x r) :
    ∃ uf1, uf.Find x = some (r, uf1) ∧ mapGet uf1.parent r = some r ∧
      ∀ z rz, IsRootOf uf.par z rz → IsRootOf uf1.par z rz := by
  obtain ⟨k, hk⟩ := h
  obtain ⟨uf1, e, _, hr, hp⟩ := gFindRec_spec uf (uf.parent.length + 1) k x r hk
    (by have := gRootAt_le_length hk; omega)
  exact ⟨uf1, e, hr, hp⟩

theorem gFindRec_sound [Inhabited T] (fuel : Nat) :
    ∀ (uf uf1 : UnionFind T) (x r : T), UnionFind.FindRec fuel uf x = some (r, uf1) →
      IsRootOf uf.par x r := by
  induction fuel with
  | zero => intro uf uf1 x r h; simp [UnionFind.FindRec] at h
  | succ fuel ih =>
    intro uf uf1 x r h
    unfold UnionFind.FindRec at h
    simp only [mapRead_registered] at h
    by_cases c : uf.par x = x
    · simp only [c, ne_eq, not_true_eq_false, if_false, Option.some.injEq, Prod.mk.injEq] at h
      rw [← h.1]
      exact IsRootOf_self c
    · have hreg : (if (mapGet uf.parent x).isNone then uf.Add x else uf) = uf := by
        cases hg : mapGet uf.parent x with
        | none => exact absurd (par_of_none hg) c
        | some v => simp
      rw [hreg] at h
      simp only [ne_eq, c, not_false_eq_true, if_true] at h
      cases hrec : UnionFind.FindRec fuel uf (uf.par x) with
      | none => rw [hrec] at h; simp at h
      | some res =>
        obtain ⟨r2, uf2⟩ := res
        rw [hrec] at h
        simp only [mapRead, mapGet_mapSet, if_true, Option.getD_some, Option.some.injEq,
          Prod.mk.injEq] at h
        rw [← h.1]
        exact IsRootOf_step (ih uf uf2 _ r2 hrec)

/-- The generic `Find(x)` returns `r` exactly when the parent pointers lead from
`x` to the root `r`. -/
theorem gfindValue_iff [Inhabited T] (uf : UnionFind T) (x r : T) :
    uf.findValue x = some r ↔ IsRootOf uf.par x r := by
  constructor
  · intro h
    unfold UnionFind.findValue at h
    cases hf : uf.Find x with
    | none => rw [hf] at h; simp at h
    | some res =>
      obtain ⟨r1, uf1⟩ := res
      rw [hf] at h
      simp only [Option.map_some', Option.some.injEq] at h
      subst h
      exact gFindRec_sound _ uf uf1 x r1 hf
  · intro h
    obtain ⟨uf1, e1, _, _⟩ := gFind_spec uf h
    unfold UnionFind.findValue
    rw [e1]
    rfl

theorem gSameSet_iff [Inhabited T] (uf : UnionFind T) (a b : T) :
    uf.SameSet a b ↔ SameRoot uf.par a b := by
  unfold UnionFind.SameSet SameRoot
  constructor
  · rintro ⟨r, h1, h2⟩
    exact ⟨r, (gfindValue_iff uf a r).mp h1, (gfindValue_iff uf b r).mp h2⟩
  · rintro ⟨r, h1, h2⟩
    exact ⟨r, (gfindValue_iff uf a r).mpr h1, (gfindValue_iff uf b r).mpr h2⟩

/-- The generic `Union` on a valid structure. -/
theorem gUnion_spec [Inhabited T] {uf : UnionFind T} (hv : uf.Valid) (x y : T) :
    ∃ ret uf1, uf.Union x y = some (ret, uf1) ∧ uf1.Valid ∧
      UnionSpec uf.par uf1.par x y ret := by
  obtain ⟨rx, hrx⟩ := hv x
  obtain ⟨ry, hry⟩ := hv y
  obtain ⟨uf1, e1, _, hp1⟩ := gFind_spec uf hrx
  have hv1 : uf1.Valid := Forest_of_rootMap id hv hp1
  obtain ⟨uf2, e2, _, hp2⟩ := gFind_spec uf1 (hp1 y ry hry)
  have hv2 : uf2.Valid := Forest_of_rootMap id hv1 hp2
  have hpres : ∀ z r, IsRootOf uf.par z r → IsRootOf uf2.par z r :=
    fun z r hz => hp2 z r (hp1 z r hz)
  unfold UnionFind.Union
  rw [e1]
  simp only [e2]
  by_cases e : rx = ry
  · refine ⟨false, uf2, by simp [e], hv2, rx, ry, hrx, hry, by simp [e], ?_, ?_⟩
    · intro _; exact hpres
    · intro hne; exact absurd e hne
  · have fx : uf2.par rx = rx := IsRootOf_fixed (hpres x rx hrx)
    have fy : uf2.par ry = ry := IsRootOf_fixed (hpres y ry hry)
    have lxy : ∀ rk, ∀ z r, IsRootOf uf.par z r →
        IsRootOf (UnionFind.par { parent := mapSet uf2.parent rx ry, rank := rk }) z
          (if r = rx then ry else r) := by
      intro rk z r hz
      rw [par_setParent]
      exact IsRootOf_link fx fy e (hpres z r hz)
    have lyx : ∀ rk, ∀ z r, IsRootOf uf.par z r →
        IsRootOf (UnionFind.par { parent := mapSet uf2.parent ry rx, rank := rk }) z
          (if r = ry then rx else r) := by
      intro rk z r hz
      rw [par_setParent]
      exact IsRootOf_link fy fx (Ne.symm e) (hpres z r hz)
    have sxy : ∀ rk, UnionSpec uf.par
        (UnionFind.par { parent := mapSet uf2.parent rx ry, rank := rk }) x y true :=
      fun rk => ⟨rx, ry, hrx, hry, by simp [e], fun he => absurd he e,
        fun _ => ⟨rx, ry, Or.inl ⟨rfl, rfl⟩, lxy rk⟩⟩
    have syx : ∀ rk, UnionSpec uf.par
        (UnionFind.par { parent := mapSet uf2.parent ry rx, rank := rk }) x y true :=
      fun rk => ⟨rx, ry, hrx, hry, by simp [e], fun he => absurd he e,
        fun _ => ⟨ry, rx, Or.inr ⟨rfl, rfl⟩, lyx rk⟩⟩
    rw [if_neg e]
    split_ifs with c1 c2
    · exact ⟨true, _, rfl, Forest_of_rootMap _ hv (lxy _), sxy _⟩
    · exact ⟨true, _, rfl, Forest_of_rootMap _ hv (lyx _), syx _⟩
    · exact ⟨true, _, rfl, Forest_of_rootMap _ hv (lxy _), sxy _⟩

end generic

end union_find

namespace union_find

/-! ## Union-find: counting roots and components -/

theorem RootClosed_step {par par1 : Nat → Nat} {x y n : Nat} {ret : Bool} (hf : Forest par)
    (hc : RootClosed par n) (hx : x < n) (hy : y < n) (h : UnionSpec par par1 x y ret) :
    RootClosed par1 n := by
  obtain ⟨rx, ry, hrx, hry, _, h1, h2⟩ := h
  intro z r hz hzr
  obtain ⟨rz, hrz⟩ := hf z
  by_cases e : rx = ry
  · rw [IsRootOf_unique hzr (h1 e z rz hrz)]
    exact hc z rz hz hrz
  · obtain ⟨a, b, hab, h3⟩ := h2 e
    rw [IsRootOf_unique hzr (h3 z rz hrz)]
    split_ifs
    · rcases hab with ⟨_, e2⟩ | ⟨_, e2⟩
      · rw [e2]; exact hc y ry hy hry
      · rw [e2]; exact hc x rx hx hrx
    · exact hc z rz hz hrz

/-- A union that returns true removes one root below `n`; one that returns
false removes none. -/
theorem UnionSpec_count {par par1 : Nat → Nat} {x y n : Nat} {ret : Bool} (hf : Forest par)
    (hc : RootClosed par n) (hx : x < n) (hy : y < n) (h : UnionSpec par par1 x y ret) :
    ((Finset.range n).filter (fun i => par1 i = i)).card + (if ret = true then 1 else 0) =
      ((Finset.range n).filter (fun i => par i = i)).card := by
  obtain ⟨h1, h2⟩ := UnionSpec_fixed hf h
  cases ret with
  | false =>
    have e : (Finset.range n).filter (fun i => par1 i = i) =
        (Finset.range n).filter (fun i => par i = i) :=
      Finset.filter_congr (fun z _ => h1 rfl z)
    rw [e]
    simp
  | true =>
    obtain ⟨a, ha, h3⟩ := h2 rfl
    have hfix : par a = a := by
      rcases ha with ha | ha
      · exact IsRootOf_fixed ha
      · exact IsRootOf_fixed ha
    have han : a < n := by
      rcases ha with ha | ha
      · exact hc x a hx ha
      · exact hc y a hy ha
    have e : (Finset.range n).filter (fun i => par1 i = i) =
        ((Finset.range n).filter (fun i => par i = i)).erase a := by
      ext z
      simp only [Finset.mem_filter, Finset.mem_range, Finset.mem_erase, h3 z]
      tauto
    have hmem : a ∈ (Finset.range n).filter (fun i => par i = i) := by
      simp only [Finset.mem_filter, Finset.mem_range]
      exact ⟨han, hfix⟩
    rw [e, Finset.card_erase_of_mem hmem]
    have : 0 < ((Finset.range n).filter (fun i => par i = i)).card :=
      Finset.card_pos.mpr ⟨a, hmem⟩
    simp only [if_true]
    omega

theorem UnionsSpec_count {n : Nat} (es : List (Nat × Nat)) :
    ∀ {par par1 : Nat → Nat} {bs : List Bool}, UnionsSpec par par1 es bs → Forest par →
      RootClosed par n → (∀ e, e ∈ es → e.1 < n ∧ e.2 < n) →
      RootClosed par1 n ∧
      ((Finset.range n).filter (fun i => par1 i = i)).card + bs.count true =
        ((Finset.range n).filter (fun i => par i = i)).card := by
  induction es with
  | nil =>
    intro par par1 bs h _ hc _
    obtain ⟨e1, e2⟩ := UnionsSpec_nil_inv h
    subst e1; subst e2
    exact ⟨hc, by simp⟩
  | cons e es ih =>
    obtain ⟨x, y⟩ := e
    intro par par1 bs h hf hc hes
    obtain ⟨p2, b, bs1, e1, hstep, hrest⟩ := UnionsSpec_cons_inv h
    subst e1
    obtain ⟨hx, hy⟩ := hes (x, y) (List.mem_cons_self _ _)
    have hc2 := RootClosed_step hf hc hx hy hstep
    obtain ⟨hc1, hcount⟩ := ih hrest (UnionSpec_forest hf hstep) hc2
      (fun e he => hes e (List.mem_cons_of_mem _ he))
    refine ⟨hc1, ?_⟩
    have h2 := UnionSpec_count hf hc hx hy hstep
    rw [List.count_cons]
    cases b with
    | false => simp at h2 ⊢; omega
    | true => simp at h2 ⊢; omega

theorem Conn_below {n : Nat} {es : List (Nat × Nat)} (hes : ∀ e, e ∈ es → e.1 < n ∧ e.2 < n)
    {a b : Nat} (h : Conn es a b) :
    a = b ∨ ∃ (ha : a < n) (hb : b < n), (edgeGraph n es).Reachable ⟨a, ha⟩ ⟨b, hb⟩ := by
  induction h with
  | rel u v h =>
    obtain ⟨hu, hv⟩ := hes (u, v) h
    by_cases e : u = v
    · exact Or.inl e
    · refine Or.inr ⟨hu, hv, SimpleGraph.Adj.reachable ?_⟩
      unfold edgeGraph
      rw [SimpleGraph.fromRel_adj]
      exact ⟨fun he => e (Fin.mk.inj_iff.mp he), Or.inl h⟩
  | refl u => exact Or.inl rfl
  | symm u v _ ih =>
    rcases ih with e | ⟨hu, hv, hr⟩
    · exact Or.inl e.symm
    · exact Or.inr ⟨hv, hu, hr.symm⟩
  | trans u v w _ _ ih1 ih2 =>
    rcases ih1 with e | ⟨hu, hv, hr⟩
    · subst e; exact ih2
    · rcases ih2 with e | ⟨hv2, hw, hr2⟩
      · subst e; exact Or.inr ⟨hu, hv, hr⟩
      · exact Or.inr ⟨hu, hw, hr.trans hr2⟩

theorem reachable_iff_Conn {n : Nat} {es : List (Nat × Nat)}
    (hes : ∀ e, e ∈ es → e.1 < n ∧ e.2 < n) (a b : Fin n) :
    (edgeGraph n es).Reachable a b ↔ Conn es a.val b.val := by
  constructor
  · rintro ⟨w⟩
    induction w with
    | nil => exact Conn_refl _ _
    | cons hadj _ ih =>
      refine Conn_trans ?_ ih
      unfold edgeGraph at hadj
      rw [SimpleGraph.fromRel_adj] at hadj
      rcases hadj.2 with h | h
      · exact Relation.EqvGen.rel _ _ h
      · exact Conn_symm (Relation.EqvGen.rel _ _ h)
  · intro h
    rcases Conn_below hes h with e | ⟨_, _, hr⟩
    · rw [Fin.ext e]
    · exact hr

/-- The roots below `n` are as many as the connected components of the graph
whose edges were united. -/
theorem card_components {n : Nat} {es : List (Nat × Nat)} {par : Nat → Nat} (hf : Forest par)
    (hc : RootClosed par n) (hes : ∀ e, e ∈ es → e.1 < n ∧ e.2 < n)
    (hsame : ∀ a b, SameRoot par a b ↔ Conn es a b) :
    Nat.card (edgeGraph n es).ConnectedComponent =
      ((Finset.range n).filter (fun i => par i = i)).card := by
  have hmem : ∀ i, i ∈ (Finset.range n).filter (fun i => par i = i) → i < n := by
    intro i hi
    exact Finset.mem_range.mp (Finset.mem_filter.mp hi).1
  have hfix : ∀ i, i ∈ (Finset.range n).filter (fun i => par i = i) → par i = i := by
    intro i hi
    exact (Finset.mem_filter.mp hi).2
  have key : Function.Bijective
      (fun i : ((Finset.range n).filter (fun i => par i = i)) =>
        (edgeGraph n es).connectedComponentMk ⟨i.1, hmem i.1 i.2⟩) := by
    constructor
    · intro i j hij
      have hr := SimpleGraph.ConnectedComponent.exact hij
      rw [reachable_iff_Conn hes, ← hsame] at hr
      rw [SameRoot_iff (IsRootOf_self (hfix i.1 i.2)) (IsRootOf_self (hfix j.1 j.2))] at hr
      exact Subtype.ext hr
    · intro c
      obtain ⟨v, hv⟩ := c.exists_rep
      obtain ⟨r, hr⟩ := hf v.val
      have hrn : r < n := hc v.val r v.isLt hr
      have hrf : par r = r := IsRootOf_fixed hr
      refine ⟨⟨r, Finset.mem_filter.mpr ⟨Finset.mem_range.mpr hrn, hrf⟩⟩, ?_⟩
      rw [← hv]
      apply SimpleGraph.ConnectedComponent.sound
      rw [reachable_iff_Conn hes, ← hsame]
      exact ⟨r, IsRootOf_self hrf, hr⟩
  have := Nat.card_eq_of_bijective _ key
  rw [← this, Nat.card_eq_fintype_card, Fintype.card_coe]

end union_find

namespace union_find

/-! ## Union-find: sequences of calls -/

theorem Forest_id {α : Type} : Forest (fun x : α => x) :=
  fun x => ⟨x, IsRootOf_self rfl⟩

theorem SameRoot_id {α : Type} (a b : α) : SameRoot (fun x : α => x) a b ↔ a = b := by
  rw [SameRoot_iff (IsRootOf_self rfl) (IsRootOf_self rfl)]

theorem arrPar_range (n : Nat) : arrPar (List.range n) = fun x => x := by
  funext x
  unfold arrPar
  by_cases h : x < n
  · rw [List.getElem?_range h]; rfl
  · rw [List.getElem?_eq_none (by rw [List.length_range]; omega)]; rfl

/-- The array of `n` singletons is a valid parent array. -/
theorem ValidArr_range (n : Nat) : ValidArr (List.range n) := by
  constructor
  · intro x hx
    rw [arrPar_range]
    exact hx
  · rw [arrPar_range]
    exact Forest_id

theorem par_New {T : Type} [DecidableEq T] : (NewUnionFind : UnionFind T).par = fun x => x := by
  funext x
  rfl

/-- The empty generic structure is valid. -/
theorem Valid_New {T : Type} [DecidableEq T] : (NewUnionFind : UnionFind T).Valid := by
  unfold UnionFind.Valid
  rw [par_New]
  exact Forest_id

theorem unionAll_spec (es : List (Nat × Nat)) :
    ∀ (p : List Nat) (rank : List Int), ValidArr p → rank.length = p.length →
      (∀ e, e ∈ es → e.1 < p.length ∧ e.2 < p.length) →
      ∃ bs p1 rank1, unionAll es p rank = some (bs, p1, rank1) ∧ p1.length = p.length ∧
        rank1.length = p.length ∧ ValidArr p1 ∧ UnionsSpec (arrPar p) (arrPar p1) es bs := by
  induction es with
  | nil =>
    intro p rank hv hrk _
    exact ⟨[], p, rank, rfl, rfl, hrk, hv, UnionsSpec.nil _⟩
  | cons e es ih =>
    obtain ⟨x, y⟩ := e
    intro p rank hv hrk hes
    obtain ⟨hx, hy⟩ := hes (x, y) (List.mem_cons_self _ _)
    obtain ⟨b, p1, rank1, e1, hl1, hk1, hv1, hs1⟩ := Union_spec hv hrk hx hy
    obtain ⟨bs, p2, rank2, e2, hl2, hk2, hv2, hs2⟩ := ih p1 rank1 hv1 (by rw [hk1, hrk, hl1])
      (fun e he => by rw [hl1]; exact hes e (List.mem_cons_of_mem _ he))
    refine ⟨b :: bs, p2, rank2, ?_, hl2.trans hl1, hk2.trans hl1, hv2, UnionsSpec.cons hs1 hs2⟩
    simp only [unionAll, e1, e2]

theorem unionNaiveAll_spec (es : List (Nat × Nat)) :
    ∀ (p : List Nat), ValidArr p → (∀ e, e ∈ es → e.1 < p.length ∧ e.2 < p.length) →
      ∃ bs p1, unionNaiveAll es p = some p1 ∧ p1.length = p.length ∧ ValidArr p1 ∧
        UnionsSpec (arrPar p) (arrPar p1) es bs := by
  induction es with
  | nil =>
    intro p hv _
    exact ⟨[], p, rfl, rfl, hv, UnionsSpec.nil _⟩
  | cons e es ih =>
    obtain ⟨x, y⟩ := e
    intro p hv hes
    obtain ⟨hx, hy⟩ := hes (x, y) (List.mem_cons_self _ _)
    obtain ⟨p1, b, e1, hl1, hv1, hs1⟩ := unionNaive_spec hv hx hy
    obtain ⟨bs, p2, e2, hl2, hv2, hs2⟩ := ih p1 hv1
      (fun e he => by rw [hl1]; exact hes e (List.mem_cons_of_mem _ he))
    refine ⟨b :: bs, p2, ?_, hl2.trans hl1, hv2, UnionsSpec.cons hs1 hs2⟩
    simp only [unionNaiveAll, e1, e2]

theorem gunionAll_spec {T : Type} [DecidableEq T] [Inhabited T] (es : List (T × T)) :
    ∀ (uf : UnionFind T), uf.Valid →
      ∃ bs uf1, UnionFind.unionAll es uf = some (bs, uf1) ∧ uf1.Valid ∧
        UnionsSpec uf.par uf1.par es bs := by
  induction es with
  | nil =>
    intro uf hv
    exact ⟨[], uf, rfl, hv, UnionsSpec.nil _⟩
  | cons e es ih =>
    obtain ⟨x, y⟩ := e
    intro uf hv
    obtain ⟨b, uf1, e1, hv1, hs1⟩ := gUnion_spec hv x y
    obtain ⟨bs, uf2, e2, hv2, hs2⟩ := ih uf1 hv1
    refine ⟨b :: bs, uf2, ?_, hv2, UnionsSpec.cons hs1 hs2⟩
    simp only [UnionFind.unionAll, e1, e2]

theorem runCalls_spec (calls : List (Call Nat)) :
    ∀ (p : List Nat) (rank : List Int), ValidArr p → rank.length = p.length →
      (∀ c, c ∈ calls → c.Below p.length) →
      ∃ p1 rank1, runCalls calls p rank = some (p1, rank1) ∧ p1.length = p.length ∧
        ValidArr p1 := by
  induction calls with
  | nil =>
    intro p rank hv _ _
    exact ⟨p, rank, rfl, rfl, hv⟩
  | cons c calls ih =>
    intro p rank hv hrk hc
    have hc0 := hc c (List.mem_cons_self _ _)
    cases c with
    | find x =>
      obtain ⟨r, hr⟩ := hv.2 x
      obtain ⟨p1, e1, hl1, hin1, hp1⟩ := Find_spec hv.1 hr hc0
      obtain ⟨p2, rank2, e2, hl2, hv2⟩ := ih p1 rank (ValidArr_of_preserved hv hin1 hp1)
        (by rw [hrk, hl1]) (fun c hcm => by rw [hl1]; exact hc c (List.mem_cons_of_mem _ hcm))
      exact ⟨p2, rank2, by simp only [runCalls, e1, e2], hl2.trans hl1, hv2⟩
    | union x y =>
      obtain ⟨b, p1, rank1, e1, hl1, hk1, hv1, _⟩ := Union_spec hv hrk hc0.1 hc0.2
      obtain ⟨p2, rank2, e2, hl2, hv2⟩ := ih p1 rank1 hv1 (by rw [hk1, hrk, hl1])
        (fun c hcm => by rw [hl1]; exact hc c (List.mem_cons_of_mem _ hcm))
      exact ⟨p2, rank2, by simp only [runCalls, e1, e2], hl2.trans hl1, hv2⟩

theorem grunCalls_spec {T : Type} [DecidableEq T] [Inhabited T] (calls : List (Call T)) :
    ∀ (uf : UnionFind T), uf.Valid →
      ∃ uf1, UnionFind.runCalls calls uf = some uf1 ∧ uf1.Valid := by
  induction calls with
  | nil =>
    intro uf hv
    exact ⟨uf, rfl, hv⟩
  | cons c calls ih =>
    intro uf hv
    cases c with
    | find x =>
      obtain ⟨r, hr⟩ := hv x
      obtain ⟨uf1, e1, _, hp1⟩ := gFind_spec uf hr
      obtain ⟨uf2, e2, hv2⟩ := ih uf1 (Forest_of_rootMap id hv hp1)
      exact ⟨uf2, by simp only [UnionFind.runCalls, e1, e2], hv2⟩
    | union x y =>
      obtain ⟨b, uf1, e1, hv1, _⟩ := gUnion_spec hv x y
      obtain ⟨uf2, e2, hv2⟩ := ih uf1 hv1
      exact ⟨uf2, by simp only [UnionFind.runCalls, e1, e2], hv2⟩

theorem numRoots_eq {p : List Nat} (hv : ValidArr p) :
    numRoots p = ((Finset.range p.length).filter (fun i => arrPar p i = i)).card := by
  unfold numRoots
  congr 1
  apply Finset.filter_congr
  intro i hi
  rw [findValue_iff hv (Finset.mem_range.mp hi)]
  exact ⟨fun h => IsRootOf_fixed h, fun h => IsRootOf_self h⟩

theorem numRootsBelow_eq (uf : UnionFind Nat) (n : Nat) :
    uf.numRootsBelow n = ((Finset.range n).filter (fun i => uf.par i = i)).card := by
  unfold UnionFind.numRootsBelow
  congr 1
  apply Finset.filter_congr
  intro i _
  rw [gfindValue_iff]
  exact ⟨fun h => IsRootOf_fixed h, fun h => IsRootOf_self h⟩

theorem RootClosed_id (n : Nat) : RootClosed (fun x => x) n := by
  intro z r hz h
  rw [IsRootOf_of_fixed rfl h]
  exact hz

theorem card_fixed_id (n : Nat) :
    ((Finset.range n).filter (fun i => (fun x : Nat => x) i = i)).card = n := by
  simp

theorem countLoop_eq (es : List (Nat × Nat)) :
    ∀ (uf : UnionFind Nat) (c : Int),
      countLoop es uf c =
        (UnionFind.unionAll es uf).map (fun r => c - ((r.1.count true : Nat) : Int)) := by
  induction es with
  | nil => intro uf c; simp [countLoop, UnionFind.unionAll]
  | cons e es ih =>
    obtain ⟨x, y⟩ := e
    intro uf c
    unfold countLoop UnionFind.unionAll
    cases h : uf.Union x y with
    | none => rfl
    | some res =>
      obtain ⟨b, uf1⟩ := res
      simp only [ih]
      cases h1 : UnionFind.unionAll es uf1 with
      | none => rfl
      | some res1 =>
        obtain ⟨bs, uf2⟩ := res1
        cases b with
        | false => simp
        | true =>
          simp only [Option.map_some', if_true, List.count_cons_self, Option.some.injEq]
          push_cast
          ring
end union_find

namespace union_find

/-! ## Union-find: the claims -/

theorem findNaiveLoop_sound {p : List Nat} (fuel : Nat) :
    ∀ (x r : Nat), findNaiveLoop fuel x p = some r → IsRootOf (arrPar p) x r := by
  induction fuel with
  | zero => intro x r h; simp [findNaiveLoop] at h
  | succ fuel ih =>
    intro x r h
    unfold findNaiveLoop at h
    by_cases hx : x < p.length
    · rw [arrPar_lt hx] at h
      simp only [ne_eq] at h
      by_cases c : arrPar p x = x
      · simp only [c, not_true_eq_false, if_false, Option.some.injEq] at h
        subst h
        exact IsRootOf_self c
      · simp only [c, not_false_eq_true, if_true] at h
        exact IsRootOf_step (ih _ r h)
    · rw [List.getElem?_eq_none (by omega)] at h
      simp at h

/-- A parent array is valid when its entries are in range and `findNaive`
returns on every index. -/
theorem ValidArr_of_check (p : List Nat) (h1 : ∀ x, x < p.length → arrPar p x < p.length)
    (h2 : ∀ x, x < p.length → (findNaive x p).isSome = true) : ValidArr p := by
  refine ⟨h1, ?_⟩
  intro x
  by_cases hx : x < p.length
  · obtain ⟨r, hr⟩ := Option.isSome_iff_exists.mp (h2 x hx)
    exact ⟨r, findNaiveLoop_sound _ x r hr⟩
  · exact ⟨x, IsRootOf_self (arrPar_ge hx)⟩

/-- A generic structure is valid when `Find` returns on every registered
element. -/
theorem Valid_of_check {T : Type} [DecidableEq T] [Inhabited T] (uf : UnionFind T)
    (h : ∀ kv, kv ∈ uf.parent → (uf.findValue kv.1).isSome = true) : uf.Valid := by
  intro x
  cases hg : mapGet uf.parent x with
  | none => exact ⟨x, IsRootOf_self (par_of_none hg)⟩
  | some v =>
    obtain ⟨kv, hkv, e⟩ := List.mem_map.mp (mapGet_mem_keys hg)
    subst e
    obtain ⟨r, hr⟩ := Option.isSome_iff_exists.mp (h kv hkv)
    exact ⟨r, (gfindValue_iff uf _ r).mp hr⟩

theorem ret_false_iff {P : Prop} {ret : Bool} (h : ret = true ↔ ¬ P) : ret = false ↔ P := by
  cases ret with
  | false =>
    constructor
    · intro _
      by_contra hn
      exact absurd (h.mpr hn) (by decide)
    · intro _; rfl
  | true =>
    constructor
    · intro e; exact absurd e (by decide)
    · intro hp; exact absurd hp (h.mp rfl)

/-- C24. For the array-based `Union(x, y, parent, rank)` on a parent array that
is a forest, with `x` and `y` in range, and for the generic `uf.Union(x, y)`: the
call returns false exactly when `Find(x) == Find(y)` held before the call, and
true otherwise. -/
theorem union_false_iff_same_set {T : Type} [DecidableEq T] [Inhabited T]
    (parent : List Nat) (rank : List Int) (x y : Nat) (uf : UnionFind T) (u v : T)
    (hv : ValidArr parent) (hrk : rank.length = parent.length)
    (hx : x < parent.length) (hy : y < parent.length) (hu : uf.Valid) :
    (∃ ret parent1 rank1, Union x y parent rank = some (ret, parent1, rank1) ∧
      (ret = false ↔ SameSet parent x y)) ∧
    (∃ ret uf1, uf.Union u v = some (ret, uf1) ∧ (ret = false ↔ uf.SameSet u v)) := by
  constructor
  · obtain ⟨ret, p1, rank1, e, _, _, _, hs⟩ := Union_spec hv hrk hx hy
    refine ⟨ret, p1, rank1, e, ?_⟩
    rw [SameSet_iff hv hx hy]
    exact ret_false_iff (UnionSpec_ret hs)
  · obtain ⟨ret, uf1, e, _, hs⟩ := gUnion_spec hu u v
    refine ⟨ret, uf1, e, ?_⟩
    rw [gSameSet_iff]
    exact ret_false_iff (UnionSpec_ret hs)

theorem union_false_iff_same_set_witness :
    ValidArr [0, 0, 1, 3] ∧ ([1, 0, 0, 0] : List Int).length = [0, 0, 1, 3].length ∧
    2 < [0, 0, 1, 3].length ∧ 3 < [0, 0, 1, 3].length ∧
    UnionFind.Valid (UnionFind.mk [(2, 1), (1, 1), (5, 5)] [(1, 1), (2, 0), (5, 0)]) ∧
    (∃ ret parent1 rank1, Union 2 3 [0, 0, 1, 3] [1, 0, 0, 0] = some (ret, parent1, rank1) ∧
      (ret = false ↔ SameSet [0, 0, 1, 3] 2 3)) ∧
    (∃ ret uf1, UnionFind.Union (UnionFind.mk [(2, 1), (1, 1), (5, 5)] [(1, 1), (2, 0), (5, 0)]) 2 1 = some (ret, uf1) ∧
      (ret = false ↔ UnionFind.SameSet (UnionFind.mk [(2, 1), (1, 1), (5, 5)] [(1, 1), (2, 0), (5, 0)]) 2 1)) :=
  ⟨ValidArr_of_check _ (by decide) (by decide), rfl, by decide, by decide,
   Valid_of_check _ (by decide),
   union_false_iff_same_set [0, 0, 1, 3] [1, 0, 0, 0] 2 3
     (UnionFind.mk [(2, 1), (1, 1), (5, 5)] [(1, 1), (2, 0), (5, 0)])
     2 1 (ValidArr_of_check _ (by decide) (by decide)) rfl (by decide) (by decide)
     (Valid_of_check _ (by decide))⟩

/-- C25. For every valid union-find state (array-based or generic) and elements
`x`, `y`: after `Union(x, y)`, `Find(x) == Find(y)`; and for all elements `a`,
`b`, `Find(a) == Find(b)` holds after the call if and only if it held before the
call or one of `a`, `b` was in the set of `x` and the other in the set of `y`. -/
theorem union_merges_two_sets {T : Type} [DecidableEq T] [Inhabited T]
    (parent : List Nat) (rank : List Int) (x y : Nat) (uf : UnionFind T) (u v : T)
    (hv : ValidArr parent) (hrk : rank.length = parent.length)
    (hx : x < parent.length) (hy : y < parent.length) (hu : uf.Valid) :
    (∃ ret parent1 rank1, Union x y parent rank = some (ret, parent1, rank1) ∧
      SameSet parent1 x y ∧
      ∀ a b, a < parent.length → b < parent.length →
        (SameSet parent1 a b ↔
          (SameSet parent a b ∨ (SameSet parent a x ∧ SameSet parent b y) ∨
            (SameSet parent a y ∧ SameSet parent b x)))) ∧
    (∃ ret uf1, uf.Union u v = some (ret, uf1) ∧ uf1.SameSet u v ∧
      ∀ a b, (uf1.SameSet a b ↔
        (uf.SameSet a b ∨ (uf.SameSet a u ∧ uf.SameSet b v) ∨
          (uf.SameSet a v ∧ uf.SameSet b u)))) := by
  constructor
  · obtain ⟨ret, p1, rank1, e, hl, _, hv1, hs⟩ := Union_spec hv hrk hx hy
    refine ⟨ret, p1, rank1, e, ?_, ?_⟩
    · rw [SameSet_iff hv1 (by rw [hl]; exact hx) (by rw [hl]; exact hy)]
      exact UnionSpec_joined hv.2 hs
    · intro a b ha hb
      rw [SameSet_iff hv1 (by rw [hl]; exact ha) (by rw [hl]; exact hb), SameSet_iff hv ha hb,
        SameSet_iff hv ha hx, SameSet_iff hv hb hy, SameSet_iff hv ha hy, SameSet_iff hv hb hx]
      exact UnionSpec_sameRoot hv.2 hs a b
  · obtain ⟨ret, uf1, e, _, hs⟩ := gUnion_spec hu u v
    refine ⟨ret, uf1, e, ?_, ?_⟩
    · rw [gSameSet_iff]
      exact UnionSpec_joined hu hs
    · intro a b
      simp only [gSameSet_iff]
      exact UnionSpec_sameRoot hu hs a b

theorem union_merges_two_sets_witness :
    ValidArr [0, 0, 1, 3] ∧ ([1, 0, 0, 0] : List Int).length = [0, 0, 1, 3].length ∧
    2 < [0, 0, 1, 3].length ∧ 3 < [0, 0, 1, 3].length ∧
    UnionFind.Valid (UnionFind.mk [(2, 1), (1, 1), (5, 5)] [(1, 1), (2, 0), (5, 0)]) ∧
    (∃ ret parent1 rank1, Union 2 3 [0, 0, 1, 3] [1, 0, 0, 0] = some (ret, parent1, rank1) ∧
      SameSet parent1 2 3 ∧
      ∀ a b, a < [0, 0, 1, 3].length → b < [0, 0, 1, 3].length →
        (SameSet parent1 a b ↔
          (SameSet [0, 0, 1, 3] a b ∨ (SameSet [0, 0, 1, 3] a 2 ∧ SameSet [0, 0, 1, 3] b 3) ∨
            (SameSet [0, 0, 1, 3] a 3 ∧ SameSet [0, 0, 1, 3] b 2)))) ∧
    (∃ ret uf1, UnionFind.Union (UnionFind.mk [(2, 1), (1, 1), (5, 5)] [(1, 1), (2, 0), (5, 0)]) 2 5 = some (ret, uf1) ∧
      uf1.SameSet 2 5 ∧
      ∀ a b, (uf1.SameSet a b ↔
        (UnionFind.SameSet (UnionFind.mk [(2, 1), (1, 1), (5, 5)] [(1, 1), (2, 0), (5, 0)]) a b ∨
          (UnionFind.SameSet (UnionFind.mk [(2, 1), (1, 1), (5, 5)] [(1, 1), (2, 0), (5, 0)]) a 2 ∧
           UnionFind.SameSet (UnionFind.mk [(2, 1), (1, 1), (5, 5)] [(1, 1), (2, 0), (5, 0)]) b 5) ∨
          (UnionFind.SameSet (UnionFind.mk [(2, 1), (1, 1), (5, 5)] [(1, 1), (2, 0), (5, 0)]) a 5 ∧
           UnionFind.SameSet (UnionFind.mk [(2, 1), (1, 1), (5, 5)] [(1, 1), (2, 0), (5, 0)]) b 2)))) :=
  ⟨ValidArr_of_check _ (by decide) (by decide), rfl, by decide, by decide,
   Valid_of_check _ (by decide),
   union_merges_two_sets [0, 0, 1, 3] [1, 0, 0, 0] 2 3
     (UnionFind.mk [(2, 1), (1, 1), (5, 5)] [(1, 1), (2, 0), (5, 0)])
     2 5 (ValidArr_of_check _ (by decide) (by decide)) rfl (by decide) (by decide)
     (Valid_of_check _ (by decide))⟩

end union_find

namespace union_find

theorem SameSet_equiv {p : List Nat} (hv : ValidArr p) :
    (∀ a, a < p.length → SameSet p a a) ∧ (∀ a b, SameSet p a b → SameSet p b a) ∧
    (∀ a b c, SameSet p a b → SameSet p b c → SameSet p a c) := by
  refine ⟨?_, ?_, ?_⟩
  · intro a ha
    rw [SameSet_iff hv ha ha]
    exact SameRoot_refl hv.2 a
  · rintro a b ⟨r, h1, h2⟩
    exact ⟨r, h2, h1⟩
  · rintro a b c ⟨r, h1, h2⟩ ⟨r1, h3, h4⟩
    rw [h2] at h3
    injection h3 with e
    subst e
    exact ⟨r, h1, h4⟩

theorem gSameSet_equiv {T : Type} [DecidableEq T] [Inhabited T] {uf : UnionFind T}
    (hv : uf.Valid) :
    (∀ a, uf.SameSet a a) ∧ (∀ a b, uf.SameSet a b → uf.SameSet b a) ∧
    (∀ a b c, uf.SameSet a b → uf.SameSet b c → uf.SameSet a c) := by
  refine ⟨?_, ?_, ?_⟩
  · intro a
    rw [gSameSet_iff]
    exact SameRoot_refl hv a
  · intro a b h
    rw [gSameSet_iff] at h ⊢
    exact SameRoot_symm h
  · intro a b c h h1
    rw [gSameSet_iff] at h h1 ⊢
    exact SameRoot_trans h h1

/-- C26. For every valid forest state (array-based or generic) and element `x`:
`Find(x)` returns a root `r` (`parent[r] == r`), `Find(Find(x)) == Find(x)`, and
a second `Find(x)` returns the same value as the first; and after any sequence
of unions `Find(a) == Find(b)` is an equivalence relation on the elements
(reflexive, symmetric, transitive). -/
theorem find_idempotent_equivalence {T : Type} [DecidableEq T] [Inhabited T]
    (parent : List Nat) (rank : List Int) (x : Nat) (es : List (Nat × Nat))
    (uf : UnionFind T) (u : T) (gs : List (T × T))
    (hv : ValidArr parent) (hrk : rank.length = parent.length) (hx : x < parent.length)
    (hes : ∀ e, e ∈ es → e.1 < parent.length ∧ e.2 < parent.length) (hu : uf.Valid) :
    (∃ r parent1, Find x parent = some (r, parent1) ∧ parent1[r]? = some r ∧
      findValue parent1 r = some r ∧ findValue parent1 x = some r) ∧
    (∃ bs parent2 rank2, unionAll es parent rank = some (bs, parent2, rank2) ∧
      (∀ a, a < parent.length → SameSet parent2 a a) ∧
      (∀ a b, SameSet parent2 a b → SameSet parent2 b a) ∧
      (∀ a b c, SameSet parent2 a b → SameSet parent2 b c → SameSet parent2 a c)) ∧
    (∃ r uf1, uf.Find u = some (r, uf1) ∧ mapGet uf1.parent r = some r ∧
      uf1.findValue r = some r ∧ uf1.findValue u = some r) ∧
    (∃ bs uf2, UnionFind.unionAll gs uf = some (bs, uf2) ∧
      (∀ a, uf2.SameSet a a) ∧
      (∀ a b, uf2.SameSet a b → uf2.SameSet b a) ∧
      (∀ a b c, uf2.SameSet a b → uf2.SameSet b c → uf2.SameSet a c)) := by
  refine ⟨?_, ?_, ?_, ?_⟩
  · obtain ⟨r, hr⟩ := hv.2 x
    obtain ⟨p1, e1, hl1, hin1, hp1⟩ := Find_spec hv.1 hr hx
    have hv1 : ValidArr p1 := ValidArr_of_preserved hv hin1 hp1
    have hrn : r < p1.length := by rw [hl1]; exact IsRootOf_lt hv.1 hr hx
    have hr1 : IsRootOf (arrPar p1) x r := hp1 x r hr
    refine ⟨r, p1, e1, ?_, ?_, ?_⟩
    · rw [arrPar_lt hrn, IsRootOf_fixed hr1]
    · exact (findValue_iff hv1 hrn r).mpr (IsRootOf_root hr1)
    · exact (findValue_iff hv1 (by rw [hl1]; exact hx) r).mpr hr1
  · obtain ⟨bs, p2, rank2, e2, hl2, _, hv2, _⟩ := unionAll_spec es parent rank hv hrk hes
    have := SameSet_equiv hv2
    rw [hl2] at this
    exact ⟨bs, p2, rank2, e2, this⟩
  · obtain ⟨r, hr⟩ := hu u
    obtain ⟨uf1, e1, hreg, hp1⟩ := gFind_spec uf hr
    have hr1 : IsRootOf uf1.par u r := hp1 u r hr
    exact ⟨r, uf1, e1, hreg, (gfindValue_iff uf1 r r).mpr (IsRootOf_root hr1),
      (gfindValue_iff uf1 u r).mpr hr1⟩
  · obtain ⟨bs, uf2, e2, hv2, _⟩ := gunionAll_spec gs uf hu
    exact ⟨bs, uf2, e2, gSameSet_equiv hv2⟩

theorem find_idempotent_equivalence_witness :
    ValidArr [0, 0, 1, 3] ∧ ([1, 0, 0, 0] : List Int).length = [0, 0, 1, 3].length ∧
    2 < [0, 0, 1, 3].length ∧
    (∀ e, e ∈ [(2, 3), (0, 3)] → e.1 < [0, 0, 1, 3].length ∧ e.2 < [0, 0, 1, 3].length) ∧
    UnionFind.Valid (UnionFind.mk [(2, 1), (1, 1), (5, 5)] [(1, 1), (2, 0), (5, 0)]) ∧
    ((∃ r parent1, Find 2 [0, 0, 1, 3] = some (r, parent1) ∧ parent1[r]? = some r ∧
      findValue parent1 r = some r ∧ findValue parent1 2 = some r) ∧
    (∃ bs parent2 rank2, unionAll [(2, 3), (0, 3)] [0, 0, 1, 3] [1, 0, 0, 0] =
        some (bs, parent2, rank2) ∧
      (∀ a, a < [0, 0, 1, 3].length → SameSet parent2 a a) ∧
      (∀ a b, SameSet parent2 a b → SameSet parent2 b a) ∧
      (∀ a b c, SameSet parent2 a b → SameSet parent2 b c → SameSet parent2 a c)) ∧
    (∃ r uf1, UnionFind.Find (UnionFind.mk [(2, 1), (1, 1), (5, 5)] [(1, 1), (2, 0), (5, 0)]) 2 =
        some (r, uf1) ∧ mapGet uf1.parent r = some r ∧
      uf1.findValue r = some r ∧ uf1.findValue 2 = some r) ∧
    (∃ bs uf2, UnionFind.unionAll [(2, 5), (7, 2)]
        (UnionFind.mk [(2, 1), (1, 1), (5, 5)] [(1, 1), (2, 0), (5, 0)]) = some (bs, uf2) ∧
      (∀ a, uf2.SameSet a a) ∧
      (∀ a b, uf2.SameSet a b → uf2.SameSet b a) ∧
      (∀ a b c, uf2.SameSet a b → uf2.SameSet b c → uf2.SameSet a c))) :=
  ⟨ValidArr_of_check _ (by decide) (by decide), rfl, by decide, by decide,
   Valid_of_check _ (by decide),
   find_idempotent_equivalence [0, 0, 1, 3] [1, 0, 0, 0] 2 [(2, 3), (0, 3)]
     (UnionFind.mk [(2, 1), (1, 1), (5, 5)] [(1, 1), (2, 0), (5, 0)]) 2 [(2, 5), (7, 2)]
     (ValidArr_of_check _ (by decide) (by decide)) rfl (by decide) (by decide)
     (Valid_of_check _ (by decide))⟩

theorem hes_range {n : Nat} {es : List (Nat × Nat)} (hes : ∀ e, e ∈ es → e.1 < n ∧ e.2 < n) :
    ∀ e, e ∈ es → e.1 < (List.range n).length ∧ e.2 < (List.range n).length := by
  intro e he
  rw [List.length_range]
  exact hes e he

/-- C27. Starting from `n` singleton sets, after any sequence of `Union` calls
with arguments in `0..n-1`, the number of roots (indices `i` with
`Find(i) == i`) equals `n` minus the number of `Union` calls that returned true,
for the array-based and for the generic version; hence
`countConnectedComponents(n, edges)` equals the number of connected components
of the undirected graph on `0..n-1` with those edges. -/
theorem roots_count_components (n : Nat) (edges : List (Nat × Nat))
    (hes : ∀ e, e ∈ edges → e.1 < n ∧ e.2 < n) :
    (∃ bs parent rank, unionAll edges (List.range n) (List.replicate n 0) =
        some (bs, parent, rank) ∧
      numRoots parent + bs.count true = n) ∧
    (∃ bs uf, UnionFind.unionAll edges NewUnionFind = some (bs, uf) ∧
      uf.numRootsBelow n + bs.count true = n) ∧
    countConnectedComponents n edges =
      some ((Nat.card (edgeGraph n edges).ConnectedComponent : Nat) : Int) := by
  have hg := gunionAll_spec edges (NewUnionFind : UnionFind Nat) Valid_New
  obtain ⟨gbs, uf, ge, gv, gs⟩ := hg
  rw [par_New] at gs
  obtain ⟨gc, gcount⟩ := UnionsSpec_count edges gs Forest_id (RootClosed_id n) hes
  rw [card_fixed_id, ← numRootsBelow_eq] at gcount
  refine ⟨?_, ⟨gbs, uf, ge, gcount⟩, ?_⟩
  · obtain ⟨bs, p, rank, e, hl, _, hv, hs⟩ := unionAll_spec edges (List.range n)
      (List.replicate n 0) (ValidArr_range n) (by simp) (hes_range hes)
    rw [arrPar_range] at hs
    obtain ⟨_, hcount⟩ := UnionsSpec_count edges hs Forest_id (RootClosed_id n) hes
    rw [card_fixed_id] at hcount
    refine ⟨bs, p, rank, e, ?_⟩
    rw [numRoots_eq hv, hl, List.length_range]
    exact hcount
  · have hconn : ∀ a b, SameRoot uf.par a b ↔ Conn edges a b := by
      have := UnionsSpec_conn edges [] gs Forest_id
        (fun a b => by rw [SameRoot_id, Conn_nil])
      simpa using this
    have hcard := card_components gv gc hes hconn
    rw [← numRootsBelow_eq] at hcard
    unfold countConnectedComponents
    rw [countLoop_eq, ge, hcard]
    simp only [Option.map_some', Option.some.injEq]
    omega

theorem roots_count_components_witness :
    (∀ e, e ∈ [(0, 1), (1, 2), (3, 4)] → e.1 < 5 ∧ e.2 < 5) ∧
    ((∃ bs parent rank, unionAll [(0, 1), (1, 2), (3, 4)] (List.range 5) (List.replicate 5 0) =
        some (bs, parent, rank) ∧
      numRoots parent + bs.count true = 5) ∧
    (∃ bs uf, UnionFind.unionAll [(0, 1), (1, 2), (3, 4)] NewUnionFind = some (bs, uf) ∧
      uf.numRootsBelow 5 + bs.count true = 5) ∧
    countConnectedComponents 5 [(0, 1), (1, 2), (3, 4)] =
      some ((Nat.card (edgeGraph 5 [(0, 1), (1, 2), (3, 4)]).ConnectedComponent : Nat) : Int)) :=
  ⟨by decide, roots_count_components 5 [(0, 1), (1, 2), (3, 4)] (by decide)⟩

/-- C28. For every `n` and every sequence of `Union(x, y)` calls with arguments
in `0..n-1` applied from the all-singletons state, the naive array
implementation, the optimized array implementation and the generic map
implementation induce the same partition of `0..n-1`, and the optimized and the
generic `Union` calls return the same booleans. -/
theorem implementations_agree (n : Nat) (es : List (Nat × Nat))
    (hes : ∀ e, e ∈ es → e.1 < n ∧ e.2 < n) :
    ∃ naive bs parent rank gbs uf,
      unionNaiveAll es (List.range n) = some naive ∧
      unionAll es (List.range n) (List.replicate n 0) = some (bs, parent, rank) ∧
      UnionFind.unionAll es NewUnionFind = some (gbs, uf) ∧
      bs = gbs ∧
      ∀ a b, a < n → b < n →
        ((SameSetNaive naive a b ↔ SameSet parent a b) ∧
          (SameSet parent a b ↔ uf.SameSet a b)) := by
  obtain ⟨nbs, pn, en, hln, hvn, hsn⟩ := unionNaiveAll_spec es (List.range n)
    (ValidArr_range n) (hes_range hes)
  obtain ⟨bs, p, rank, e, hl, _, hv, hs⟩ := unionAll_spec es (List.range n)
    (List.replicate n 0) (ValidArr_range n) (by simp) (hes_range hes)
  obtain ⟨gbs, uf, ge, gv, gs⟩ := gunionAll_spec es (NewUnionFind : UnionFind Nat) Valid_New
  rw [arrPar_range] at hsn hs
  rw [par_New] at gs
  obtain ⟨_, h1⟩ := UnionsSpec_agree es hsn hs Forest_id Forest_id (fun _ _ => Iff.rfl)
  obtain ⟨e2, h2⟩ := UnionsSpec_agree es hs gs Forest_id Forest_id (fun _ _ => Iff.rfl)
  rw [List.length_range] at hln hl
  refine ⟨pn, bs, p, rank, gbs, uf, en, e, ge, e2, ?_⟩
  intro a b ha hb
  rw [SameSetNaive_iff hvn (by rw [hln]; exact ha) (by rw [hln]; exact hb),
    SameSet_iff hv (by rw [hl]; exact ha) (by rw [hl]; exact hb), gSameSet_iff]
  exact ⟨h1 a b, h2 a b⟩

theorem implementations_agree_witness :
    (∀ e, e ∈ [(0, 1), (1, 2), (3, 4), (2, 3), (0, 4)] → e.1 < 6 ∧ e.2 < 6) ∧
    ∃ naive bs parent rank gbs uf,
      unionNaiveAll [(0, 1), (1, 2), (3, 4), (2, 3), (0, 4)] (List.range 6) = some naive ∧
      unionAll [(0, 1), (1, 2), (3, 4), (2, 3), (0, 4)] (List.range 6) (List.replicate 6 0) =
        some (bs, parent, rank) ∧
      UnionFind.unionAll [(0, 1), (1, 2), (3, 4), (2, 3), (0, 4)] NewUnionFind =
        some (gbs, uf) ∧
      bs = gbs ∧
      ∀ a b, a < 6 → b < 6 →
        ((SameSetNaive naive a b ↔ SameSet parent a b) ∧
          (SameSet parent a b ↔ uf.SameSet a b)) :=
  ⟨by decide, implementations_agree 6 [(0, 1), (1, 2), (3, 4), (2, 3), (0, 4)] (by decide)⟩

/-- C29. From the initial state and after any sequence of `Union` and `Find`
calls (array-based with arguments in range, or generic), and after any sequence
of `unionNaive` calls, following parent pointers from any element reaches a root
after finitely many steps (at most as many as there are elements), so `Find` and
`findNaive` return. -/
theorem find_terminates {T : Type} [DecidableEq T] [Inhabited T] (n : Nat)
    (calls : List (Call Nat)) (es : List (Nat × Nat)) (gcalls : List (Call T))
    (hc : ∀ c, c ∈ calls → c.Below n) (hes : ∀ e, e ∈ es → e.1 < n ∧ e.2 < n) :
    (∃ parent rank, runCalls calls (List.range n) (List.replicate n 0) = some (parent, rank) ∧
      ∀ x, x < n → ∃ k r, k ≤ n ∧ RootAt (arrPar parent) k x r ∧
        findNaive x parent = some r ∧ ∃ parent1, Find x parent = some (r, parent1)) ∧
    (∃ naive, unionNaiveAll es (List.range n) = some naive ∧
      ∀ x, x < n → ∃ k r, k ≤ n ∧ RootAt (arrPar naive) k x r ∧
        findNaive x naive = some r ∧ ∃ parent1, Find x naive = some (r, parent1)) ∧
    (∃ uf, UnionFind.runCalls gcalls (NewUnionFind : UnionFind T) = some uf ∧
      ∀ x, ∃ k r, k ≤ uf.parent.length ∧ RootAt uf.par k x r ∧
        ∃ uf1, uf.Find x = some (r, uf1)) := by
  have harr : ∀ p : List Nat, p.length = n → ValidArr p →
      ∀ x, x < n → ∃ k r, k ≤ n ∧ RootAt (arrPar p) k x r ∧
        findNaive x p = some r ∧ ∃ p1, Find x p = some (r, p1) := by
    intro p hl hv x hx
    obtain ⟨r, k, hk⟩ := hv.2 x
    have hx1 : x < p.length := by rw [hl]; exact hx
    obtain ⟨p1, e1, _⟩ := Find_spec hv.1 ⟨k, hk⟩ hx1
    exact ⟨k, r, by rw [← hl]; exact RootAt_le_length hk, hk,
      findNaive_spec hv.1 ⟨k, hk⟩ hx1, p1, e1⟩
  refine ⟨?_, ?_, ?_⟩
  · obtain ⟨p, rank, e, hl, hv⟩ := runCalls_spec calls (List.range n) (List.replicate n 0)
      (ValidArr_range n) (by simp) (fun c hcm => by rw [List.length_range]; exact hc c hcm)
    rw [List.length_range] at hl
    exact ⟨p, rank, e, harr p hl hv⟩
  · obtain ⟨_, p, e, hl, hv, _⟩ := unionNaiveAll_spec es (List.range n) (ValidArr_range n)
      (hes_range hes)
    rw [List.length_range] at hl
    exact ⟨p, e, harr p hl hv⟩
  · obtain ⟨uf, e, hv⟩ := grunCalls_spec gcalls (NewUnionFind : UnionFind T) Valid_New
    refine ⟨uf, e, ?_⟩
    intro x
    obtain ⟨r, k, hk⟩ := hv x
    obtain ⟨uf1, e1, _⟩ := gFind_spec uf ⟨k, hk⟩
    exact ⟨k, r, gRootAt_le_length hk, hk, uf1, e1⟩

theorem find_terminates_witness :
    (∀ c, c ∈ [Call.union 0 1, Call.find 1, Call.union 1 2, Call.union 2 0] → c.Below 3) ∧
    (∀ e, e ∈ [(0, 1), (1, 2)] → e.1 < 3 ∧ e.2 < 3) ∧
    ((∃ parent rank, runCalls [Call.union 0 1, Call.find 1, Call.union 1 2, Call.union 2 0]
        (List.range 3) (List.replicate 3 0) = some (parent, rank) ∧
      ∀ x, x < 3 → ∃ k r, k ≤ 3 ∧ RootAt (arrPar parent) k x r ∧
        findNaive x parent = some r ∧ ∃ parent1, Find x parent = some (r, parent1)) ∧
    (∃ naive, unionNaiveAll [(0, 1), (1, 2)] (List.range 3) = some naive ∧
      ∀ x, x < 3 → ∃ k r, k ≤ 3 ∧ RootAt (arrPar naive) k x r ∧
        findNaive x naive = some r ∧ ∃ parent1, Find x naive = some (r, parent1)) ∧
    (∃ uf, UnionFind.runCalls [Call.union 'a' 'b', Call.find 'c', Call.union 'b' 'c']
        (NewUnionFind : UnionFind Char) = some uf ∧
      ∀ x, ∃ k r, k ≤ uf.parent.length ∧ RootAt uf.par k x r ∧
        ∃ uf1, uf.Find x = some (r, uf1))) :=
  ⟨by
    intro c hc
    simp only [List.mem_cons, List.mem_singleton, List.not_mem_nil, or_false] at hc
    rcases hc with h | h | h | h <;> subst h <;> simp [Call.Below],
   by decide,
   find_terminates 3 [Call.union 0 1, Call.find 1, Call.union 1 2, Call.union 2 0]
     [(0, 1), (1, 2)] [Call.union 'a' 'b', Call.find 'c', Call.union 'b' 'c']
     (by
      intro c hc
      simp only [List.mem_cons, List.mem_singleton, List.not_mem_nil, or_false] at hc
      rcases hc with h | h | h | h <;> subst h <;> simp [Call.Below])
     (by decide)⟩

/-- C30. For the generic union-find and an element `x` that is not registered,
`Find(x)` returns `x` and registers it with `parent[x] = x` and `rank[x] = 0`,
without changing the parent, the rank or the representative of any other
element; `Add(x)` on a registered element changes nothing. -/
theorem find_registers_fresh {T : Type} [DecidableEq T] [Inhabited T] (uf : UnionFind T)
    (x : T) (hx : mapGet uf.parent x = none) :
    (∃ uf1, uf.Find x = some (x, uf1) ∧
      mapGet uf1.parent x = some x ∧ mapGet uf1.rank x = some 0 ∧
      (∀ z, z ≠ x → mapGet uf1.parent z = mapGet uf.parent z ∧
        mapGet uf1.rank z = mapGet uf.rank z) ∧
      (∀ z, z ≠ x → uf1.findValue z = uf.findValue z)) ∧
    (∀ w, mapGet uf.parent w ≠ none → uf.Add w = uf) := by
  constructor
  · have hroot : RootAt uf.par 0 x x := ⟨rfl, par_of_none hx⟩
    obtain ⟨uf1, e, h0, _, _⟩ := gFindRec_spec uf (uf.parent.length + 1) 0 x x hroot
      (Nat.succ_pos _)
    have e1 : uf1 = uf.Add x := by
      rw [h0 rfl, hx]
      rfl
    subst e1
    have hadd : uf.Add x = { parent := mapSet uf.parent x x, rank := mapSet uf.rank x 0 } := by
      unfold UnionFind.Add
      rw [hx]
      rfl
    refine ⟨uf.Add x, e, ?_, ?_, ?_, ?_⟩
    · rw [hadd]; simp [mapGet_mapSet]
    · rw [hadd]; simp [mapGet_mapSet]
    · intro z hz
      rw [hadd]
      simp [mapGet_mapSet, Ne.symm hz]
    · intro z _
      apply Option.ext
      intro r
      rw [Option.mem_def, Option.mem_def, gfindValue_iff, gfindValue_iff, par_Add]
  · intro w hw
    unfold UnionFind.Add
    cases hg : mapGet uf.parent w with
    | none => exact absurd hg hw
    | some v => rfl

theorem find_registers_fresh_witness :
    mapGet (UnionFind.mk [(2, 1), (1, 1), (5, 5)] [(1, 1), (2, 0), (5, 0)]).parent 7 = none ∧
    ((∃ uf1, UnionFind.Find (UnionFind.mk [(2, 1), (1, 1), (5, 5)] [(1, 1), (2, 0), (5, 0)]) 7 =
        some (7, uf1) ∧
      mapGet uf1.parent 7 = some 7 ∧ mapGet uf1.rank 7 = some 0 ∧
      (∀ z, z ≠ 7 →
        mapGet uf1.parent z =
          mapGet (UnionFind.mk [(2, 1), (1, 1), (5, 5)] [(1, 1), (2, 0), (5, 0)]).parent z ∧
        mapGet uf1.rank z =
          mapGet (UnionFind.mk [(2, 1), (1, 1), (5, 5)] [(1, 1), (2, 0), (5, 0)]).rank z) ∧
      (∀ z, z ≠ 7 → uf1.findValue z =
        UnionFind.findValue (UnionFind.mk [(2, 1), (1, 1), (5, 5)] [(1, 1), (2, 0), (5, 0)]) z)) ∧
    (∀ w, mapGet (UnionFind.mk [(2, 1), (1, 1), (5, 5)] [(1, 1), (2, 0), (5, 0)]).parent w ≠ none →
      UnionFind.Add (UnionFind.mk [(2, 1), (1, 1), (5, 5)] [(1, 1), (2, 0), (5, 0)]) w =
        UnionFind.mk [(2, 1), (1, 1), (5, 5)] [(1, 1), (2, 0), (5, 0)])) :=
  ⟨by decide,
   find_registers_fresh (UnionFind.mk [(2, 1), (1, 1), (5, 5)] [(1, 1), (2, 0), (5, 0)]) 7
     (by decide)⟩

end union_find

namespace stack

/-! ## The stack: claims -/

theorem push_then_pop {T : Type} (s : Stack T) (x : T) : (s.Push x).Pop = (some x, s) := by
  cases s with
  | mk arr =>
    simp [Stack.Push, Stack.Pop]

theorem pushAll_append {T : Type} (s : Stack T) (xs : List T) (x : T) :
    s.pushAll (xs ++ [x]) = (s.pushAll xs).Push x := by
  simp [Stack.pushAll, List.foldl_append]

theorem popN_pushAll {T : Type} (s : Stack T) (xs : List T) :
    Stack.popN xs.length (s.pushAll xs) = (xs.reverse.map some, s) := by
  induction xs using List.reverseRecOn with
  | nil => rfl
  | append_singleton xs x ih =>
    rw [pushAll_append, List.length_append, List.length_singleton, Stack.popN]
    simp only [push_then_pop, ih, List.reverse_append, List.reverse_cons, List.reverse_nil,
      List.nil_append, List.singleton_append, List.map_cons]

/-- C31. For every stack and element `x`, `Push(x)` followed by `Pop()` returns
(a pointer to) `x` and restores the previous contents of the stack, so elements
pushed in a row are popped in reverse order; `Pop()` on an empty stack returns
nil and leaves it empty. -/
theorem stack_push_pop_lifo {T : Type} (s : Stack T) (x : T) (xs : List T) :
    (s.Push x).Pop = (some x, s) ∧
    Stack.popN xs.length (s.pushAll xs) = (xs.reverse.map some, s) ∧
    (s.IsEmpty = true → s.Pop = (none, s) ∧ s.Pop.2.IsEmpty = true) ∧
    (NewStack : Stack T).Pop = (none, NewStack) := by
  refine ⟨push_then_pop s x, popN_pushAll s xs, ?_, rfl⟩
  intro h
  have h0 : s.arr.length = 0 := by
    simpa [Stack.IsEmpty, Stack.Len] using h
  have hp : s.Pop = (none, s) := by simp [Stack.Pop, h0]
  exact ⟨hp, by rw [hp]; exact h⟩

end stack

namespace queue

/-! ## The queue: claims -/

theorem enqueueAll_arr {T : Type} (xs : List T) :
    ∀ q : Queue T, (q.enqueueAll xs).arr = q.arr ++ xs := by
  induction xs with
  | nil => intro q; simp [Queue.enqueueAll]
  | cons x xs ih =>
    intro q
    have := ih (q.Enqueue x)
    simp only [Queue.enqueueAll, List.foldl_cons] at this ⊢
    rw [this]
    simp [Queue.Enqueue]

theorem dequeueN_arr {T : Type} (xs : List T) :
    Queue.dequeueN xs.length ({ arr := xs } : Queue T) = (xs.map some, { arr := [] }) := by
  induction xs with
  | nil => rfl
  | cons x xs ih =>
    simp only [List.length_cons, Queue.dequeueN, Queue.Dequeue, List.drop_succ_cons,
      List.drop_zero, List.map_cons]
    simp [ih]

/-- C32. For every queue, after enqueuing `x1..xn` onto an empty queue, `n`
successive `Dequeue()` calls return (pointers to) `x1..xn` in that same order
and leave the queue empty; `Dequeue()` on an empty queue returns nil and leaves
it empty. -/
theorem queue_fifo {T : Type} (q : Queue T) (xs : List T) :
    (Queue.dequeueN xs.length ((NewQueue : Queue T).enqueueAll xs)).1 = xs.map some ∧
    (Queue.dequeueN xs.length ((NewQueue : Queue T).enqueueAll xs)).2.IsEmpty = true ∧
    (q.IsEmpty = true → q.Dequeue = (none, q) ∧ q.Dequeue.2.IsEmpty = true) := by
  have e : (NewQueue : Queue T).enqueueAll xs = { arr := xs } := by
    have := enqueueAll_arr xs (NewQueue : Queue T)
    cases h : (NewQueue : Queue T).enqueueAll xs with
    | mk arr =>
      rw [h] at this
      simp only [NewQueue, List.nil_append] at this
      rw [this]
  rw [e, dequeueN_arr]
  refine ⟨rfl, rfl, ?_⟩
  intro h
  have h0 : q.arr.length = 0 := by
    simpa [Queue.IsEmpty] using h
  have hp : q.Dequeue = (none, q) := by simp [Queue.Dequeue, h0]
  exact ⟨hp, by rw [hp]; exact h⟩

end queue

namespace quicksort

/-! ## Quicksort: claims -/

/-- C36, the code at the failing inputs.  `qs` keeps one copy of the pivot and
drops every other element equal to it: `qs([3,3,3])` is `[3]` and
`qs([555,128,57,6,5,555,33])` has a single 555. -/
theorem qs_drops_duplicates :
    qs [3, 3, 3] = some [3] ∧
    qs [555, 128, 57, 6, 5, 555, 33] = some [5, 6, 33, 57, 128, 555] ∧
    ¬ List.Perm [3] [3, 3, 3] := by
  refine ⟨by decide, by decide, ?_⟩
  intro h
  have := h.length_eq
  simp at this

end quicksort

namespace sorted_array

/-! ## Sorted array: claims -/

/-- C37, the code at the failing input.  For the value 3, which does not occur
in the ascending array `[1,4,5,7,8]`, `searchSorted` returns the index 1 of the
first greater element instead of -1. -/
theorem searchSorted_absent_value :
    searchSorted [1, 4, 5, 7, 8] 3 = some 1 ∧
    (3 : Int) ∉ [1, 4, 5, 7, 8] ∧
    List.Sorted (fun a b : Int => a ≤ b) [1, 4, 5, 7, 8] := by
  refine ⟨by decide, by decide, by decide⟩

end sorted_array
namespace gomath

theorem wrapInt_of_isInt {z : Int} (h1 : MinInt ≤ z) (h2 : z ≤ MaxInt) : wrapInt z = z := by
  unfold MinInt at h1
  unfold MaxInt at h2
  unfold wrapInt
  omega

end gomath

namespace bst_algos

/-! ## Algorithms on the binary search tree: claims -/

open bst in
theorem isValidBST_iff {T : Type} [LinearOrder T] (t : Node T) :
    ∀ lo hi : T, isValidBST t lo hi = true ↔
      IsBST t ∧ Node.All (fun x => lo < x ∧ x < hi) t := by
  induction t with
  | nil => intro lo hi; simp [isValidBST, IsBST, Node.All]
  | node v l r ihl ihr =>
    intro lo hi
    unfold isValidBST
    simp only [IsBST, Node.All]
    by_cases c : v ≤ lo ∨ v ≥ hi
    · rw [if_pos c]
      constructor
      · intro h; exact absurd h (by decide)
      · rintro ⟨_, ⟨h1, h2⟩, _⟩
        rcases c with c | c
        · exact absurd h1 (not_lt.mpr c)
        · exact absurd h2 (not_lt.mpr c)
    · rw [if_neg c, Bool.and_eq_true, ihl, ihr]
      rw [not_or, not_le, not_le] at c
      simp only [all_iff]
      constructor
      · rintro ⟨⟨bl, al⟩, ⟨br, ar⟩⟩
        exact ⟨⟨fun x hx => (al x hx).2, fun x hx => (ar x hx).1, bl, br⟩, c,
          fun x hx => ⟨(al x hx).1, lt_trans (al x hx).2 c.2⟩,
          fun x hx => ⟨lt_trans c.1 (ar x hx).1, (ar x hx).2⟩⟩
      · rintro ⟨⟨al, ar, bl, br⟩, _, rl, rr⟩
        exact ⟨⟨bl, fun x hx => ⟨(rl x hx).1, al x hx⟩⟩,
          ⟨br, fun x hx => ⟨ar x hx, (rr x hx).2⟩⟩⟩

/-- C38, as stated, fails: the one-node tree holding `math.MaxInt`, which is
`BuildBSTFromSlice([math.MaxInt]).Root`, is a valid BST, and
`isValidBST(root, -math.MaxInt, math.MaxInt)` is false on it. -/
theorem isValidBST_maxInt_counterexample :
    bst.IsBST (bst.Node.node gomath.MaxInt bst.Node.nil bst.Node.nil) ∧
    (bst.BuildBSTFromSlice [gomath.MaxInt]).Root =
      bst.Node.node gomath.MaxInt bst.Node.nil bst.Node.nil ∧
    isValidBST (bst.BuildBSTFromSlice [gomath.MaxInt]).Root (-gomath.MaxInt) gomath.MaxInt
      = false :=
  ⟨⟨trivial, trivial, trivial, trivial⟩, rfl, by decide⟩

/-- C38, amended. For every binary tree and bounds `min`, `max`,
`isValidBST(root, min, max)` returns true if and only if the tree is a valid BST
and every value in it lies strictly between `min` and `max`; in particular
`isValidBST(root, -math.MaxInt, math.MaxInt)` returns true for
`BuildBSTFromSlice(data).Root` for every int slice `data` whose values lie
strictly between `-math.MaxInt` and `math.MaxInt`. -/
theorem isValidBST_iff_bst_in_range :
    (∀ (t : bst.Node Int) (lo hi : Int), isValidBST t lo hi = true ↔
      bst.IsBST t ∧ bst.Node.All (fun x => lo < x ∧ x < hi) t) ∧
    (∀ data : List Int, (∀ x, x ∈ data → -gomath.MaxInt < x ∧ x < gomath.MaxInt) →
      isValidBST (bst.BuildBSTFromSlice data).Root (-gomath.MaxInt) gomath.MaxInt = true) := by
  refine ⟨fun t lo hi => isValidBST_iff t lo hi, ?_⟩
  intro data hdata
  rw [isValidBST_iff]
  obtain ⟨hb, hm⟩ := bst.build_spec data bst.NewBST trivial
  refine ⟨hb, ?_⟩
  rw [bst.all_iff]
  intro x hx
  have := (hm x).mp hx
  rcases this with h | h
  · simp [bst.BST.InOrderTraversal, bst.NewBST, bst.inOrder] at h
  · exact hdata x h

open bst in
theorem getKth_spec (t : Node Int) :
    ∀ k : Int, 1 ≤ k → k ≤ gomath.MaxInt →
      (k ≤ (inOrder t []).length →
        ∃ v, (inOrder t [])[(k - 1).toNat]? = some v ∧
          getKthSmallestNodeValueEarlyExit t k = ((v, true), 0)) ∧
      (((inOrder t []).length : Int) < k →
        getKthSmallestNodeValueEarlyExit t k = ((-1, false), k - (inOrder t []).length)) := by
  induction t with
  | nil =>
    intro k hk _
    simp only [inOrder, List.length_nil, getKthSmallestNodeValueEarlyExit]
    constructor
    · intro h; exact absurd h (by simp; omega)
    · intro _; simp
  | node v l r ihl ihr =>
    intro k hk hmax
    rw [inOrder_node]
    obtain ⟨l1, l2⟩ := ihl k hk hmax
    unfold getKthSmallestNodeValueEarlyExit
    by_cases c : k ≤ (inOrder l []).length
    · obtain ⟨x, hx, e⟩ := l1 c
      simp only [e, if_true]
      constructor
      · intro _
        refine ⟨x, ?_, rfl⟩
        rw [List.getElem?_append_left (by omega)]
        exact hx
      · intro h
        simp only [List.length_append, List.length_cons] at h
        omega
    · have c1 : ((inOrder l []).length : Int) < k := by omega
      have e := l2 c1
      have hw : gomath.wrapInt (k - (inOrder l []).length - 1) = k - (inOrder l []).length - 1 := by
        apply gomath.wrapInt_of_isInt
        · unfold gomath.MinInt; omega
        · omega
      simp only [e, Bool.false_eq_true, if_false, hw]
      by_cases c2 : k - ((inOrder l []).length : Int) - 1 = 0
      · rw [if_pos c2]
        constructor
        · intro _
          refine ⟨v, ?_, by rw [c2]⟩
          have hi : (k - 1).toNat = (inOrder l []).length := by omega
          rw [hi, List.getElem?_append_right (le_refl _)]
          simp
        · intro h
          simp only [List.length_append, List.length_cons] at h
          push_cast at h
          omega
      · rw [if_neg c2]
        obtain ⟨r1, r2⟩ := ihr (k - (inOrder l []).length - 1) (by omega) (by omega)
        constructor
        · intro h
          simp only [List.length_append, List.length_cons] at h
          push_cast at h
          obtain ⟨x, hx, e2⟩ := r1 (by omega)
          refine ⟨x, ?_, e2⟩
          have hi : (k - 1).toNat =
              (inOrder l []).length + ((k - (inOrder l []).length - 1 - 1).toNat + 1) := by
            omega
          rw [hi, List.getElem?_append_right (by omega)]
          simp only [Nat.add_sub_cancel_left, List.getElem?_cons_succ]
          exact hx
        · intro h
          simp only [List.length_append, List.length_cons] at h
          push_cast at h
          rw [r2 (by omega)]
          simp only [List.length_append, List.length_cons, Prod.mk.injEq, true_and]
          push_cast
          omega

/-- C39. For every binary search tree with `n` nodes and every `k` with
`1 <= k <= n`, `getKthSmallestNodeValueEarlyExit(root, &k)` returns
`(InOrderTraversal()[k-1], true)`; for `k > n` it returns `(-1, false)`. -/
theorem kth_smallest_early_exit (t : bst.BST Int) (k : Int) (hk : 1 ≤ k)
    (hmax : k ≤ gomath.MaxInt) :
    (k ≤ t.InOrderTraversal.length →
      ∃ v, t.InOrderTraversal[(k - 1).toNat]? = some v ∧
        (getKthSmallestNodeValueEarlyExit t.Root k).1 = (v, true)) ∧
    ((t.InOrderTraversal.length : Int) < k →
      (getKthSmallestNodeValueEarlyExit t.Root k).1 = (-1, false)) := by
  obtain ⟨h1, h2⟩ := getKth_spec t.Root k hk hmax
  constructor
  · intro h
    obtain ⟨v, hv, e⟩ := h1 h
    exact ⟨v, hv, by rw [e]⟩
  · intro h
    rw [h2 h]

theorem kth_smallest_early_exit_witness :
    (1 : Int) ≤ 3 ∧ (3 : Int) ≤ gomath.MaxInt ∧
    ((3 : Int) ≤ (bst.BuildBSTFromSlice [1, 4, 2, 5, 7]).InOrderTraversal.length →
      ∃ v, (bst.BuildBSTFromSlice [1, 4, 2, 5, 7]).InOrderTraversal[((3 : Int) - 1).toNat]?
          = some v ∧
        (getKthSmallestNodeValueEarlyExit (bst.BuildBSTFromSlice [1, 4, 2, 5, 7]).Root 3).1
          = (v, true)) ∧
    (((bst.BuildBSTFromSlice [1, 4, 2, 5, 7]).InOrderTraversal.length : Int) < 3 →
      (getKthSmallestNodeValueEarlyExit (bst.BuildBSTFromSlice [1, 4, 2, 5, 7]).Root 3).1
        = (-1, false)) :=
  ⟨by decide, by decide,
   kth_smallest_early_exit (bst.BuildBSTFromSlice [1, 4, 2, 5, 7]) 3 (by decide) (by decide)⟩

end bst_algos
namespace union_find

/-! ## Union-find: path compression -/

theorem FindRec_points {p : List Nat} (hin : InRange p) (fuel : Nat) :
    ∀ (k x r : Nat), RootAt (arrPar p) k x r → x < p.length → k < fuel →
      ∃ p1, FindRec fuel x p = some (r, p1) ∧ p1.length = p.length ∧
        ∀ i, i ≤ k → arrPar p1 ((arrPar p)^[i] x) = r := by
  induction fuel with
  | zero => intro k x r _ _ hk; omega
  | succ fuel ih =>
    intro k x r h hx hk
    unfold FindRec
    rw [arrPar_lt hx]
    cases k with
    | zero =>
      obtain ⟨h1, h2⟩ := h
      subst h1
      refine ⟨p, ?_, rfl, ?_⟩
      · simp only [h2, ne_eq, not_true_eq_false, if_false]
      · intro i hi
        have e : i = 0 := by omega
        subst e
        exact h2
    | succ k =>
      obtain ⟨p1, e1, hlen, hpts⟩ := ih k _ r h.2 (hin x hx) (by omega)
      have hx1 : x < p1.length := by rw [hlen]; exact hx
      refine ⟨p1.set x r, ?_, ?_, ?_⟩
      · simp only [ne_eq, h.1, not_false_eq_true, if_true, e1, assign, hx1,
          List.getElem?_set_eq_of_lt]
      · rw [List.length_set, hlen]
      · intro i hi
        rw [arrPar_set r hx1]
        by_cases c : (arrPar p)^[i] x = x
        · rw [c, Function.update_same]
        · rw [Function.update_noteq c]
          cases i with
          | zero => exact absurd rfl c
          | succ i =>
            rw [Function.iterate_succ_apply]
            exact hpts i (by omega)

/-- C40. For every parent array that is a forest and every `x` in range,
`Find(x, parent)` returns the same root as `findNaive(x, parent)` on the array
before the call; after the call `findNaive(y, parent)` is unchanged for every
`y`, and every node on the original path of `x` (the nodes `x`, `parent[x]`,
`parent[parent[x]]`, ... up to the root) points directly to the root. -/
theorem find_compresses_path (parent : List Nat) (x : Nat) (hv : ValidArr parent)
    (hx : x < parent.length) :
    ∃ r parent1, Find x parent = some (r, parent1) ∧ findNaive x parent = some r ∧
      (∀ y, findNaive y parent1 = findNaive y parent) ∧
      (∀ i, parent1[(arrPar parent)^[i] x]? = some r) := by
  obtain ⟨r, k, hk⟩ := hv.2 x
  have hfuel : k < parent.length + 1 := by have := RootAt_le_length hk; omega
  obtain ⟨p1, e1, hl1, hin1, hpres⟩ := FindRec_spec hv.1 _ k x r hk hx hfuel
  obtain ⟨p2, e2, _, hpts⟩ := FindRec_points hv.1 _ k x r hk hx hfuel
  have e : p2 = p1 := by
    rw [e1] at e2
    injection e2 with e3
    injection e3 with _ e4
    exact e4.symm
  subst e
  have hv1 : ValidArr p2 := ValidArr_of_preserved hv hin1 hpres
  refine ⟨r, p2, e1, findNaive_spec hv.1 ⟨k, hk⟩ hx, ?_, ?_⟩
  · intro y
    by_cases hy : y < parent.length
    · obtain ⟨ry, hry⟩ := hv.2 y
      rw [findNaive_spec hv.1 hry hy, findNaive_spec hin1 (hpres y ry hry) (by rw [hl1]; exact hy)]
    · have h1 : findNaive y parent = none := by
        unfold findNaive findNaiveLoop
        rw [List.getElem?_eq_none (by omega)]
      have h2 : findNaive y p2 = none := by
        unfold findNaive findNaiveLoop
        rw [List.getElem?_eq_none (by omega)]
      rw [h1, h2]
  · intro i
    have hroot : ∀ j, k ≤ j → (arrPar parent)^[j] x = r := by
      intro j hj
      have h0 := RootAt_iterate hk k (le_refl _)
      rw [Nat.sub_self] at h0
      have hr : (arrPar parent)^[k] x = r := h0.1
      have hfix : arrPar parent r = r := RootAt_fixed hk
      obtain ⟨d, hd⟩ := Nat.exists_eq_add_of_le hj
      rw [hd, Nat.add_comm, Function.iterate_add_apply, hr]
      exact Function.iterate_fixed hfix d
    have hlt : r < p2.length := by rw [hl1]; exact RootAt_lt hv.1 hk hx
    by_cases c : i ≤ k
    · have h3 := hpts i c
      have hin : (arrPar parent)^[i] x < p2.length := by
        rw [hl1]
        have := RootAt_iterate hk i c
        clear h3
        induction i with
        | zero => exact hx
        | succ i ih2 =>
          rw [Function.iterate_succ_apply']
          exact hv.1 _ (ih2 (by omega) (RootAt_iterate hk i (by omega)))
      rw [arrPar_lt hin, h3]
    · have h3 := hpts k (le_refl _)
      rw [hroot k (le_refl _)] at h3
      rw [hroot i (by omega), arrPar_lt hlt, h3]

theorem find_compresses_path_witness :
    ValidArr [0, 0, 1, 2, 4] ∧ 3 < [0, 0, 1, 2, 4].length ∧
    ∃ r parent1, Find 3 [0, 0, 1, 2, 4] = some (r, parent1) ∧
      findNaive 3 [0, 0, 1, 2, 4] = some r ∧
      (∀ y, findNaive y parent1 = findNaive y [0, 0, 1, 2, 4]) ∧
      (∀ i, parent1[(arrPar [0, 0, 1, 2, 4])^[i] 3]? = some r) :=
  ⟨ValidArr_of_check _ (by decide) (by decide), by decide,
   find_compresses_path [0, 0, 1, 2, 4] 3 (ValidArr_of_check _ (by decide) (by decide))
     (by decide)⟩

end union_find

namespace heap_algos

/-! ## Algorithms on the heap: the k smallest elements -/

open myheap in
theorem popLoop_extends {T : Type} [Inhabited T] (m : Nat) :
    ∀ (h h1 : Heap T) (res r : List T), popLoop m h res = some (r, h1) →
      ∃ ext, r = res ++ ext ∧ ext.length = m := by
  induction m with
  | zero =>
    intro h h1 res r e
    simp only [popLoop, Option.some.injEq, Prod.mk.injEq] at e
    exact ⟨[], by simp [e.1], rfl⟩
  | succ m ih =>
    intro h h1 res r e
    unfold popLoop at e
    cases hp : h.Pop with
    | none => rw [hp] at e; simp at e
    | some p =>
      obtain ⟨x, h2⟩ := p
      rw [hp] at e
      obtain ⟨ext, e1, e2⟩ := ih h2 h1 (res ++ [x]) r e
      exact ⟨x :: ext, by rw [e1]; simp, by simp [e2]⟩

open myheap in
theorem popLoop_add {T : Type} [Inhabited T] (a b : Nat) :
    ∀ (h : Heap T) (res : List T),
      popLoop (a + b) h res = (popLoop a h res).bind (fun p => popLoop b p.2 p.1) := by
  induction a with
  | zero => intro h res; simp [popLoop]
  | succ a ih =>
    intro h res
    rw [Nat.add_right_comm]
    cases hp : h.Pop with
    | none => simp only [popLoop, hp, Option.none_bind]
    | some p =>
      obtain ⟨x, h2⟩ := p
      simp only [popLoop, hp]
      exact ih h2 (res ++ [x])

theorem sorted_eq_insertionSort {out arr : List Int} (hp : out.Perm arr)
    (hs : out.Sorted (fun a b => a ≤ b)) : out = arr.insertionSort (fun a b => a ≤ b) :=
  List.eq_of_perm_of_sorted (hp.trans (List.perm_insertionSort _ arr).symm) hs
    (List.sorted_insertionSort _ arr)

/-- A part of the array that is below the rest is, up to order, the first
elements of the sorted array. -/
theorem perm_smallest {d R arr : List Int} (hp : (d ++ R).Perm arr)
    (hle : ∀ s, s ∈ d → ∀ r, r ∈ R → s ≤ r) : d.Perm (smallest d.length arr) := by
  have hs : (d.insertionSort (fun a b => a ≤ b) ++ R.insertionSort (fun a b => a ≤ b)).Sorted
      (fun a b => a ≤ b) := by
    unfold List.Sorted
    rw [List.pairwise_append]
    refine ⟨List.sorted_insertionSort _ d, List.sorted_insertionSort _ R, ?_⟩
    intro a ha b hb
    exact hle a ((List.perm_insertionSort _ d).mem_iff.mp ha) b
      ((List.perm_insertionSort _ R).mem_iff.mp hb)
  have hperm : (d.insertionSort (fun a b => a ≤ b) ++ R.insertionSort (fun a b => a ≤ b)).Perm
      arr :=
    ((List.perm_insertionSort _ d).append (List.perm_insertionSort _ R)).trans hp
  have e := sorted_eq_insertionSort hperm hs
  unfold smallest
  rw [← e, List.take_left' (List.length_insertionSort _ d)]
  exact (List.perm_insertionSort _ d).symm

theorem maxComparator_false {y x : Int} (h : myheap.maxComparator y x = false) : y ≤ x := by
  simpa [myheap.maxComparator] using h

open myheap in
theorem kSmallestLoop_spec (k : Int) (hk : 1 ≤ k) (rest : List Int) :
    ∀ (d R : List Int), HeapFrom maxComparator 0 d → (∀ s, s ∈ d → ∀ r, r ∈ R → s ≤ r) →
      (d.length : Int) ≤ k → ((d.length : Int) < k → R = []) →
      ∃ d1 R1, kSmallestLoop k rest { data := d, comparator := maxComparator }
          = some { data := d1, comparator := maxComparator } ∧
        (d1 ++ R1).Perm ((d ++ R) ++ rest) ∧ (∀ s, s ∈ d1 → ∀ r, r ∈ R1 → s ≤ r) ∧
        (d1.length : Int) ≤ k ∧ ((d1.length : Int) < k → R1 = []) := by
  induction rest with
  | nil =>
    intro d R _ hle hlen hR
    exact ⟨d, R, rfl, by simp, hle, hlen, hR⟩
  | cons a rest ih =>
    intro d R hheap hle hlen hR
    unfold kSmallestLoop
    simp only [Heap.Len]
    by_cases c : (d.length : Int) < k
    · rw [if_pos c]
      have hRnil := hR c
      subst hRnil
      obtain ⟨d1, e1, p1, hh1⟩ := Insert_spec maxComparator d a
      rw [e1]
      simp only []
      have hl1 : d1.length = d.length + 1 := by rw [p1.length_eq]; rfl
      obtain ⟨d2, R2, e2, p2, hle2, hlen2, hR2⟩ := ih d1 [] (hh1 maxComparator_swo hheap)
        (fun s _ r hr => absurd hr (List.not_mem_nil r)) (by rw [hl1]; push_cast; omega)
        (fun _ => rfl)
      refine ⟨d2, R2, e2, p2.trans ?_, hle2, hlen2, hR2⟩
      simp only [List.append_nil]
      refine (List.Perm.append_right rest p1).trans ?_
      simp only [List.cons_append]
      exact (List.perm_middle).symm
    · rw [if_neg c]
      cases d with
      | nil => simp at c; omega
      | cons x t =>
        have hpeek : Heap.Peek { data := x :: t, comparator := maxComparator }
            = some (x, { data := x :: t, comparator := maxComparator }) := by
          simp [Heap.Peek]
        rw [hpeek]
        simp only []
        have hroot : ∀ y, y ∈ x :: t → y ≤ x := by
          intro y hy
          obtain ⟨i, hi, hiy⟩ := List.getElem_of_mem hy
          have hy2 : (x :: t)[i]? = some y := by rw [List.getElem?_eq_getElem hi, hiy]
          exact maxComparator_false (root_extremal maxComparator_swo hheap
            (List.getElem?_cons_zero) i y hy2)
        by_cases c2 : a < x
        · rw [if_pos c2]
          obtain ⟨d1, e1, p1, hh1⟩ := Pop_spec maxComparator x t
          rw [e1]
          simp only []
          obtain ⟨d2, e2, p2, hh2⟩ := Insert_spec maxComparator d1 a
          rw [e2]
          simp only []
          have pt : d1.Perm t := (List.perm_cons x).mp p1
          have hl2 : d2.length = (x :: t).length := by
            rw [p2.length_eq, List.length_cons, List.length_cons, pt.length_eq]
          obtain ⟨d3, R3, e3, p3, hle3, hlen3, hR3⟩ := ih d2 (x :: R)
            (hh2 maxComparator_swo (hh1 maxComparator_swo hheap))
            (by
              intro s hs r hr
              have hs2 : s = a ∨ s ∈ t := by
                rcases List.mem_cons.mp (p2.mem_iff.mp hs) with h | h
                · exact Or.inl h
                · exact Or.inr (pt.mem_iff.mp h)
              rcases List.mem_cons.mp hr with h | h
              · subst h
                rcases hs2 with h2 | h2
                · subst h2; exact le_of_lt c2
                · exact hroot s (List.mem_cons_of_mem _ h2)
              · rcases hs2 with h2 | h2
                · subst h2
                  exact le_of_lt (lt_of_lt_of_le c2 (hle x (List.mem_cons_self _ _) r h))
                · exact hle s (List.mem_cons_of_mem _ h2) r h)
            (by rw [hl2]; exact hlen)
            (by intro h; rw [hl2] at h; exact absurd h c)
          refine ⟨d3, R3, e3, p3.trans ?_, hle3, hlen3, hR3⟩
          have q1 : (d2 ++ x :: R).Perm ((a :: t) ++ x :: R) :=
            List.Perm.append_right _ (p2.trans (List.Perm.cons a pt))
          have q2 : ((a :: t) ++ x :: R).Perm (a :: x :: (t ++ R)) := by
            rw [List.cons_append]
            exact List.Perm.cons a List.perm_middle
          have q3 : (a :: x :: (t ++ R)).Perm ((x :: (t ++ R)) ++ [a]) := by
            rw [← List.singleton_append]
            exact List.perm_append_comm
          have q : (d2 ++ x :: R).Perm (((x :: t) ++ R) ++ [a]) :=
            (q1.trans q2).trans (q3.trans (by simp))
          refine (List.Perm.append_right rest q).trans ?_
          simp
        · rw [if_neg c2]
          obtain ⟨d3, R3, e3, p3, hle3, hlen3, hR3⟩ := ih (x :: t) (a :: R) hheap
            (by
              intro s hs r hr
              rcases List.mem_cons.mp hr with h | h
              · subst h
                exact le_trans (hroot s hs) (not_lt.mp c2)
              · exact hle s hs r h)
            hlen (fun h => absurd h c)
          refine ⟨d3, R3, e3, p3.trans ?_, hle3, hlen3, hR3⟩
          have q : ((x :: t) ++ a :: R).Perm (((x :: t) ++ R) ++ [a]) := by
            rw [List.append_assoc]
            refine List.Perm.append_left _ ?_
            rw [← List.singleton_append]
            exact List.perm_append_comm
          refine (List.Perm.append_right rest q).trans ?_
          simp

/-- C35. For every int array `arr` and every `k` with `1 <= k <= len(arr)`,
`kSmallest(k, arr)` returns exactly `k` elements that are, as a multiset, the
`k` smallest elements of `arr`: the multiset that `kSmallestDumb(k, arr)`
returns in ascending order. -/
theorem kSmallest_returns_k_smallest (k : Int) (arr : List Int) (hk : 1 ≤ k)
    (hlen : k ≤ arr.length) :
    ∃ res dumb, kSmallest k arr = some res ∧ kSmallestDumb k arr = some dumb ∧
      res.length = k.toNat ∧ dumb = smallest k.toNat arr ∧ res.Perm dumb := by
  have hne : ¬ (k ≤ 0 ∨ arr.length = 0) := by omega
  -- the heap of size k
  obtain ⟨d1, R1, e1, p1, hle1, hlen1, hR1⟩ := kSmallestLoop_spec k hk arr [] []
    (by intro i a b _ _ h; simp at h) (fun s hs => absurd hs (List.not_mem_nil s))
    (by simp; omega) (fun _ => rfl)
  simp only [List.nil_append] at p1
  have hd1 : d1.length = k.toNat := by
    have hl := p1.length_eq
    rw [List.length_append] at hl
    by_cases c : (d1.length : Int) < k
    · have := hR1 c
      subst this
      simp only [List.length_nil] at hl
      omega
    · omega
  have hres : kSmallest k arr = some d1 := by
    unfold kSmallest
    rw [if_neg hne]
    have : myheap.CreateHeapWithCapacity k.toNat myheap.maxComparator
        = { data := [], comparator := myheap.maxComparator } := rfl
    rw [this, e1]
    rfl
  -- the full sort by popping
  obtain ⟨h0, e0, p0, hh0⟩ := myheap.CreateHeapFromArray_spec myheap.minComparator arr
  have hswo := myheap.minComparator_swo
  have hheap0 := hh0 (by
      intro a b h
      have h2 := hswo.irrefl a
      cases hba : myheap.minComparator b a with
      | false => rfl
      | true => rw [hswo.trans a b a h hba] at h2; exact absurd h2 (by decide))
    hswo.trans
  obtain ⟨out, eo, po, so⟩ := myheap.popLoop_spec hswo h0.length h0 [] rfl hheap0
  simp only [List.nil_append] at eo
  have hsorted : out.Sorted (fun a b => a ≤ b) := by
    unfold List.Sorted
    refine so.imp ?_
    intro a b h
    simpa [myheap.minComparator] using h
  have hout := sorted_eq_insertionSort (po.trans p0) hsorted
  have hn : h0.length = k.toNat + (arr.length - k.toNat) := by
    rw [p0.length_eq]; omega
  rw [hn, popLoop_add] at eo
  cases hk1 : myheap.popLoop k.toNat
      ({ data := h0, comparator := myheap.minComparator } : myheap.Heap Int) [] with
  | none => rw [hk1] at eo; simp at eo
  | some p =>
    obtain ⟨outk, hk2⟩ := p
    rw [hk1] at eo
    simp only [Option.some_bind] at eo
    obtain ⟨ext1, x1, x2⟩ := popLoop_extends _ _ _ _ _ hk1
    obtain ⟨ext2, y1, _⟩ := popLoop_extends _ _ _ _ _ eo
    simp only [List.nil_append] at x1
    subst x1
    have hdumb : kSmallestDumb k arr = some outk := by
      unfold kSmallestDumb
      rw [if_neg hne, e0]
      simp only [hk1, Option.map_some']
    have houtk : outk = smallest k.toNat arr := by
      unfold smallest
      rw [← hout, y1, List.take_left' x2]
    refine ⟨d1, outk, hres, hdumb, hd1, houtk, ?_⟩
    rw [houtk, ← hd1]
    exact perm_smallest p1 hle1

theorem kSmallest_returns_k_smallest_witness :
    (1 : Int) ≤ 3 ∧ (3 : Int) ≤ ([5, 2, 7, 3, 9] : List Int).length ∧
    ∃ res dumb, kSmallest 3 [5, 2, 7, 3, 9] = some res ∧
      kSmallestDumb 3 [5, 2, 7, 3, 9] = some dumb ∧
      res.length = (3 : Int).toNat ∧ dumb = smallest (3 : Int).toNat [5, 2, 7, 3, 9] ∧
      res.Perm dumb :=
  ⟨by decide, by decide,
   kSmallest_returns_k_smallest 3 [5, 2, 7, 3, 9] (by decide) (by decide)⟩

end heap_algos
namespace heap_algos

/-! ## Algorithms on the heap: the median of a data stream -/

theorem minComparator_false {y x : Int} (h : myheap.minComparator y x = false) : x ≤ y := by
  simpa [myheap.minComparator] using h

open myheap in
theorem root_max {x : Int} {t : List Int} (hheap : HeapFrom maxComparator 0 (x :: t)) :
    ∀ y, y ∈ x :: t → y ≤ x := by
  intro y hy
  obtain ⟨i, hi, hiy⟩ := List.getElem_of_mem hy
  have hy2 : (x :: t)[i]? = some y := by rw [List.getElem?_eq_getElem hi, hiy]
  exact maxComparator_false (root_extremal maxComparator_swo hheap
    (List.getElem?_cons_zero) i y hy2)

open myheap in
theorem root_min {x : Int} {t : List Int} (hheap : HeapFrom minComparator 0 (x :: t)) :
    ∀ y, y ∈ x :: t → x ≤ y := by
  intro y hy
  obtain ⟨i, hi, hiy⟩ := List.getElem_of_mem hy
  have hy2 : (x :: t)[i]? = some y := by rw [List.getElem?_eq_getElem hi, hiy]
  exact minComparator_false (root_extremal minComparator_swo hheap
    (List.getElem?_cons_zero) i y hy2)

/-- The statement `dst.Insert(src.Pop())` on a non-empty source: the root moves
over, both heaps stay heaps. -/
theorem moveTop_spec {cs cd : Int → Int → Bool} (hcs : myheap.StrictWeakOrder cs)
    (hcd : myheap.StrictWeakOrder cd) (x : Int) (t D : List Int)
    (hs : myheap.HeapFrom cs 0 (x :: t)) (hd : myheap.HeapFrom cd 0 D) :
    ∃ S1 D1, moveTop { data := x :: t, comparator := cs } { data := D, comparator := cd }
        = some ({ data := S1, comparator := cs }, { data := D1, comparator := cd }) ∧
      myheap.HeapFrom cs 0 S1 ∧ myheap.HeapFrom cd 0 D1 ∧ S1.Perm t ∧ D1.Perm (x :: D) := by
  obtain ⟨S1, e1, p1, h1⟩ := myheap.Pop_spec cs x t
  obtain ⟨D1, e2, p2, h2⟩ := myheap.Insert_spec cd D x
  refine ⟨S1, D1, ?_, h1 hcs hs, h2 hcd hd, (List.perm_cons x).mp p1, p2⟩
  unfold moveTop
  rw [e1]
  simp only [e2]

/-- The state of the two heaps: both are heaps, the left side is below the
right side, the left side has as many elements as the right side or one more,
and together they hold the numbers added. -/
theorem AddNum_spec (L R nums : List Int) (x : Int)
    (hL : myheap.HeapFrom myheap.maxComparator 0 L)
    (hR : myheap.HeapFrom myheap.minComparator 0 R)
    (hle : ∀ a, a ∈ L → ∀ b, b ∈ R → a ≤ b)
    (hlen : L.length = R.length ∨ L.length = R.length + 1)
    (hp : (L ++ R).Perm nums) :
    ∃ L1 R1, DataStream.AddNum
        { leftSide := { data := L, comparator := myheap.maxComparator },
          rightSide := { data := R, comparator := myheap.minComparator } } x
        = some { leftSide := { data := L1, comparator := myheap.maxComparator },
                 rightSide := { data := R1, comparator := myheap.minComparator } } ∧
      myheap.HeapFrom myheap.maxComparator 0 L1 ∧ myheap.HeapFrom myheap.minComparator 0 R1 ∧
      (∀ a, a ∈ L1 → ∀ b, b ∈ R1 → a ≤ b) ∧
      (L1.length = R1.length ∨ L1.length = R1.length + 1) ∧
      (L1 ++ R1).Perm (nums ++ [x]) := by
  -- the insertion
  have hins : ∃ La Ra,
      (match (if (myheap.Heap.IsEmpty
            ({ data := L, comparator := myheap.maxComparator } : myheap.Heap Int)) = true
          then some true
          else
            match myheap.Heap.Peek
              ({ data := L, comparator := myheap.maxComparator } : myheap.Heap Int) with
            | none => none
            | some (top, _) => some (decide (x ≤ top))) with
        | none => none
        | some c =>
          (if c = true then
            (myheap.Heap.Insert
              ({ data := L, comparator := myheap.maxComparator } : myheap.Heap Int) x).map
              (fun l => (l, ({ data := R, comparator := myheap.minComparator } : myheap.Heap Int)))
          else
            (myheap.Heap.Insert
              ({ data := R, comparator := myheap.minComparator } : myheap.Heap Int) x).map
              (fun r => (({ data := L, comparator := myheap.maxComparator } : myheap.Heap Int), r))))
        = some (({ data := La, comparator := myheap.maxComparator } : myheap.Heap Int),
                ({ data := Ra, comparator := myheap.minComparator } : myheap.Heap Int)) ∧
      myheap.HeapFrom myheap.maxComparator 0 La ∧ myheap.HeapFrom myheap.minComparator 0 Ra ∧
      (∀ a, a ∈ La → ∀ b, b ∈ Ra → a ≤ b) ∧
      ((La.length = L.length + 1 ∧ Ra.length = R.length) ∨
        (La.length = L.length ∧ Ra.length = R.length + 1)) ∧
      (La ++ Ra).Perm (nums ++ [x]) := by
    obtain ⟨La, ea, pa, ha⟩ := myheap.Insert_spec myheap.maxComparator L x
    obtain ⟨Ra, er, pr, hr⟩ := myheap.Insert_spec myheap.minComparator R x
    have permL : (La ++ R).Perm (nums ++ [x]) := by
      have q : (La ++ R).Perm (x :: (L ++ R)) := by
        rw [← List.cons_append]
        exact List.Perm.append_right R pa
      refine q.trans ?_
      rw [← List.singleton_append]
      exact List.perm_append_comm.trans (List.Perm.append_right _ hp)
    have permR : (L ++ Ra).Perm (nums ++ [x]) := by
      have q : (L ++ Ra).Perm (L ++ x :: R) := List.Perm.append_left L pr
      refine q.trans (List.perm_middle.trans ?_)
      rw [← List.singleton_append]
      exact List.perm_append_comm.trans (List.Perm.append_right _ hp)
    cases L with
    | nil =>
      have hRnil : R = [] := by
        rcases hlen with h | h
        · exact List.length_eq_zero.mp h.symm
        · simp at h
      subst hRnil
      refine ⟨La, [], ?_, ha myheap.maxComparator_swo hL, hR, ?_, ?_, permL⟩
      · simp [myheap.Heap.IsEmpty, myheap.Heap.Len, ea]
      · intro a _ b hb; exact absurd hb (List.not_mem_nil b)
      · exact Or.inl ⟨by rw [pa.length_eq]; rfl, rfl⟩
    | cons top t =>
      have hpeek : myheap.Heap.Peek
          ({ data := top :: t, comparator := myheap.maxComparator } : myheap.Heap Int)
          = some (top, { data := top :: t, comparator := myheap.maxComparator }) := by
        simp [myheap.Heap.Peek]
      have hempty : myheap.Heap.IsEmpty
          ({ data := top :: t, comparator := myheap.maxComparator } : myheap.Heap Int)
          = false := by
        simp [myheap.Heap.IsEmpty, myheap.Heap.Len]
      rw [hempty, hpeek]
      simp only [Bool.false_eq_true, if_false]
      by_cases c : x ≤ top
      · refine ⟨La, R, ?_, ha myheap.maxComparator_swo hL, hR, ?_, ?_, permL⟩
        · simp [c, ea]
        · intro a haL b hb
          rcases List.mem_cons.mp (pa.mem_iff.mp haL) with h | h
          · subst h
            exact le_trans c (hle top (List.mem_cons_self _ _) b hb)
          · exact hle a h b hb
        · exact Or.inl ⟨by rw [pa.length_eq]; rfl, rfl⟩
      · refine ⟨top :: t, Ra, ?_, hL, hr myheap.minComparator_swo hR, ?_, ?_, permR⟩
        · simp [c, er]
        · intro a haL b hb
          rcases List.mem_cons.mp (pr.mem_iff.mp hb) with h | h
          · subst h
            exact le_trans (root_max hL a haL) (le_of_lt (not_le.mp c))
          · exact hle a haL b h
        · exact Or.inr ⟨rfl, by rw [pr.length_eq]; rfl⟩
  obtain ⟨La, Ra, eins, hLa, hRa, hlea, hlena, hpa⟩ := hins
  -- the first rebalancing step
  have hfirst : ∃ Lb Rb,
      (if ({ data := La, comparator := myheap.maxComparator } : myheap.Heap Int).Len >
            ({ data := Ra, comparator := myheap.minComparator } : myheap.Heap Int).Len + 1
        then moveTop { data := La, comparator := myheap.maxComparator }
            { data := Ra, comparator := myheap.minComparator }
        else some ({ data := La, comparator := myheap.maxComparator },
                   { data := Ra, comparator := myheap.minComparator }))
        = some (({ data := Lb, comparator := myheap.maxComparator } : myheap.Heap Int),
                ({ data := Rb, comparator := myheap.minComparator } : myheap.Heap Int)) ∧
      myheap.HeapFrom myheap.maxComparator 0 Lb ∧ myheap.HeapFrom myheap.minComparator 0 Rb ∧
      (∀ a, a ∈ Lb → ∀ b, b ∈ Rb → a ≤ b) ∧
      ((La.length > Ra.length + 1 ∧ Lb.length + 1 = La.length ∧ Rb.length = Ra.length + 1) ∨
        (¬ La.length > Ra.length + 1 ∧ Lb.length = La.length ∧ Rb.length = Ra.length)) ∧
      (Lb ++ Rb).Perm (nums ++ [x]) := by
    simp only [myheap.Heap.Len]
    by_cases c : La.length > Ra.length + 1
    · rw [if_pos c]
      cases La with
      | nil => simp at c
      | cons m t =>
        obtain ⟨S1, D1, e1, h1, h2, p1, p2⟩ := moveTop_spec myheap.maxComparator_swo
          myheap.minComparator_swo m t Ra hLa hRa
        refine ⟨S1, D1, e1, h1, h2, ?_, Or.inl ⟨c, ?_, ?_⟩, ?_⟩
        · intro a ha b hb
          have ha2 : a ∈ m :: t := List.mem_cons_of_mem _ (p1.mem_iff.mp ha)
          rcases List.mem_cons.mp (p2.mem_iff.mp hb) with h | h
          · subst h; exact root_max hLa a ha2
          · exact hlea a ha2 b h
        · rw [p1.length_eq]; rfl
        · rw [p2.length_eq]; rfl
        · refine ((p1.append p2).trans ?_).trans hpa
          exact List.perm_middle
    · rw [if_neg c]
      exact ⟨La, Ra, rfl, hLa, hRa, hlea, Or.inr ⟨c, rfl, rfl⟩, hpa⟩
  obtain ⟨Lb, Rb, efirst, hLb, hRb, hleb, hlenb, hpb⟩ := hfirst
  -- the second rebalancing step
  have hsecond : ∃ Lc Rc,
      (if ({ data := Rb, comparator := myheap.minComparator } : myheap.Heap Int).Len >
            ({ data := Lb, comparator := myheap.maxComparator } : myheap.Heap Int).Len
        then (moveTop { data := Rb, comparator := myheap.minComparator }
            { data := Lb, comparator := myheap.maxComparator }).map (fun p => (p.2, p.1))
        else some ({ data := Lb, comparator := myheap.maxComparator },
                   { data := Rb, comparator := myheap.minComparator }))
        = some (({ data := Lc, comparator := myheap.maxComparator } : myheap.Heap Int),
                ({ data := Rc, comparator := myheap.minComparator } : myheap.Heap Int)) ∧
      myheap.HeapFrom myheap.maxComparator 0 Lc ∧ myheap.HeapFrom myheap.minComparator 0 Rc ∧
      (∀ a, a ∈ Lc → ∀ b, b ∈ Rc → a ≤ b) ∧
      ((Rb.length > Lb.length ∧ Rc.length + 1 = Rb.length ∧ Lc.length = Lb.length + 1) ∨
        (¬ Rb.length > Lb.length ∧ Lc.length = Lb.length ∧ Rc.length = Rb.length)) ∧
      (Lc ++ Rc).Perm (nums ++ [x]) := by
    simp only [myheap.Heap.Len]
    by_cases c : Rb.length > Lb.length
    · rw [if_pos c]
      cases Rb with
      | nil => simp at c
      | cons m t =>
        obtain ⟨S1, D1, e1, h1, h2, p1, p2⟩ := moveTop_spec myheap.minComparator_swo
          myheap.maxComparator_swo m t Lb hRb hLb
        refine ⟨D1, S1, by rw [e1]; rfl, h2, h1, ?_, Or.inl ⟨c, ?_, ?_⟩, ?_⟩
        · intro a ha b hb
          have hb2 : b ∈ m :: t := List.mem_cons_of_mem _ (p1.mem_iff.mp hb)
          rcases List.mem_cons.mp (p2.mem_iff.mp ha) with h | h
          · subst h; exact root_min hRb b hb2
          · exact hleb a h b hb2
        · rw [p1.length_eq]; rfl
        · rw [p2.length_eq]; rfl
        · refine ((p2.append p1).trans ?_).trans hpb
          exact (List.perm_middle).symm
    · rw [if_neg c]
      exact ⟨Lb, Rb, rfl, hLb, hRb, hleb, Or.inr ⟨c, rfl, rfl⟩, hpb⟩
  obtain ⟨Lc, Rc, esecond, hLc, hRc, hlec, hlenc, hpc⟩ := hsecond
  refine ⟨Lc, Rc, ?_, hLc, hRc, hlec, ?_, hpc⟩
  · unfold DataStream.AddNum
    simp only []
    cases hq : (if (myheap.Heap.IsEmpty
            ({ data := L, comparator := myheap.maxComparator } : myheap.Heap Int)) = true
          then some true
          else
            match myheap.Heap.Peek
              ({ data := L, comparator := myheap.maxComparator } : myheap.Heap Int) with
            | none => none
            | some (top, _) => some (decide (x ≤ top))) with
    | none => rw [hq] at eins; simp at eins
    | some cb =>
      rw [hq] at eins
      simp only [] at eins
      simp only [eins, efirst, esecond]
  · omega

end heap_algos
namespace heap_algos

theorem addAll_spec (xs : List Int) :
    ∀ (L R nums : List Int), myheap.HeapFrom myheap.maxComparator 0 L →
      myheap.HeapFrom myheap.minComparator 0 R → (∀ a, a ∈ L → ∀ b, b ∈ R → a ≤ b) →
      (L.length = R.length ∨ L.length = R.length + 1) → (L ++ R).Perm nums →
      ∃ L1 R1, DataStream.addAll xs
          { leftSide := { data := L, comparator := myheap.maxComparator },
            rightSide := { data := R, comparator := myheap.minComparator } }
          = some { leftSide := { data := L1, comparator := myheap.maxComparator },
                   rightSide := { data := R1, comparator := myheap.minComparator } } ∧
        myheap.HeapFrom myheap.maxComparator 0 L1 ∧
        myheap.HeapFrom myheap.minComparator 0 R1 ∧
        (∀ a, a ∈ L1 → ∀ b, b ∈ R1 → a ≤ b) ∧
        (L1.length = R1.length ∨ L1.length = R1.length + 1) ∧
        (L1 ++ R1).Perm (nums ++ xs) := by
  induction xs with
  | nil =>
    intro L R nums hL hR hle hlen hp
    exact ⟨L, R, rfl, hL, hR, hle, hlen, by simpa using hp⟩
  | cons x xs ih =>
    intro L R nums hL hR hle hlen hp
    obtain ⟨L1, R1, e1, hL1, hR1, hle1, hlen1, hp1⟩ := AddNum_spec L R nums x hL hR hle hlen hp
    obtain ⟨L2, R2, e2, hL2, hR2, hle2, hlen2, hp2⟩ := ih L1 R1 (nums ++ [x]) hL1 hR1 hle1
      hlen1 hp1
    refine ⟨L2, R2, ?_, hL2, hR2, hle2, hlen2, by simpa using hp2⟩
    simp only [DataStream.addAll, e1, e2]

theorem float64OfInt_exact {z : Int} (h1 : -9007199254740992 < z) (h2 : z < 9007199254740992) :
    float64OfInt z = (z : Rat) := by
  have hn : z.natAbs < 9007199254740992 := by omega
  unfold float64OfInt
  simp only [float64Spacing, Nat.mul_one, hn, if_true, Nat.div_one, Nat.mod_one]
  norm_num
  by_cases c : z < 0
  · rw [if_pos c]
    have hz : (z : Rat) < 0 := by exact_mod_cast c
    rw [abs_of_neg hz, neg_neg]
  · rw [if_neg c]
    have hz : (0 : Rat) ≤ z := by exact_mod_cast (not_lt.mp c)
    rw [abs_of_nonneg hz]

/-- The last element of an ascending list is the greatest element. -/
theorem sorted_last {l : List Int} (hs : l.Sorted (fun a b => a ≤ b)) {m : Int} (hm : m ∈ l)
    (hmax : ∀ y, y ∈ l → y ≤ m) : l[l.length - 1]? = some m := by
  have hpos : 0 < l.length := List.length_pos_of_mem hm
  have hlt : l.length - 1 < l.length := by omega
  rw [List.getElem?_eq_getElem hlt]
  congr 1
  apply le_antisymm (hmax _ (List.getElem_mem _))
  obtain ⟨i, hi, hiv⟩ := List.getElem_of_mem hm
  rw [← hiv]
  rcases Nat.lt_or_ge i (l.length - 1) with c | c
  · exact List.pairwise_iff_getElem.mp hs i (l.length - 1) hi hlt c
  · have : i = l.length - 1 := by omega
    subst this
    exact le_refl _

/-- The first element of an ascending list is the least element. -/
theorem sorted_head {l : List Int} (hs : l.Sorted (fun a b => a ≤ b)) {m : Int} (hm : m ∈ l)
    (hmin : ∀ y, y ∈ l → m ≤ y) : l[0]? = some m := by
  have hpos : 0 < l.length := List.length_pos_of_mem hm
  rw [List.getElem?_eq_getElem hpos]
  congr 1
  apply le_antisymm _ (hmin _ (List.getElem_mem _))
  obtain ⟨i, hi, hiv⟩ := List.getElem_of_mem hm
  rw [← hiv]
  rcases Nat.eq_zero_or_pos i with c | c
  · subst c; exact le_refl _
  · exact List.pairwise_iff_getElem.mp hs 0 i hpos hi c

end heap_algos
namespace heap_algos

theorem insertionSort_split {L R nums : List Int} (hp : (L ++ R).Perm nums)
    (hle : ∀ a, a ∈ L → ∀ b, b ∈ R → a ≤ b) :
    nums.insertionSort (fun a b => a ≤ b) =
      L.insertionSort (fun a b => a ≤ b) ++ R.insertionSort (fun a b => a ≤ b) := by
  have hs : (L.insertionSort (fun a b => a ≤ b) ++ R.insertionSort (fun a b => a ≤ b)).Sorted
      (fun a b => a ≤ b) := by
    unfold List.Sorted
    rw [List.pairwise_append]
    refine ⟨List.sorted_insertionSort _ L, List.sorted_insertionSort _ R, ?_⟩
    intro a ha b hb
    exact hle a ((List.perm_insertionSort _ L).mem_iff.mp ha) b
      ((List.perm_insertionSort _ R).mem_iff.mp hb)
  exact (sorted_eq_insertionSort
    (((List.perm_insertionSort _ L).append (List.perm_insertionSort _ R)).trans hp) hs).symm

/-- On a state that holds the numbers added, `GetMedian` returns the value
computed from the middle of the sorted numbers. -/
theorem GetMedian_spec (L R nums : List Int) (hne : nums ≠ [])
    (hL : myheap.HeapFrom myheap.maxComparator 0 L)
    (hR : myheap.HeapFrom myheap.minComparator 0 R)
    (hle : ∀ a, a ∈ L → ∀ b, b ∈ R → a ≤ b)
    (hlen : L.length = R.length ∨ L.length = R.length + 1)
    (hp : (L ++ R).Perm nums) :
    DataStream.GetMedian
        { leftSide := { data := L, comparator := myheap.maxComparator },
          rightSide := { data := R, comparator := myheap.minComparator } }
      = some (roundedMedian nums) := by
  have hsplit := insertionSort_split hp hle
  have htotal : nums.length = L.length + R.length := by
    rw [← hp.length_eq, List.length_append]
  have hnpos : 0 < nums.length := List.length_pos.mpr hne
  cases L with
  | nil =>
    simp only [List.length_nil] at hlen htotal
    omega
  | cons top t =>
    have hsl : (List.insertionSort (fun a b => a ≤ b) (top :: t)).length = t.length + 1 := by
      rw [List.length_insertionSort]; rfl
    have htop : (List.insertionSort (fun a b => a ≤ b) (top :: t))[t.length]? = some top := by
      have h := sorted_last (List.sorted_insertionSort (fun a b : Int => a ≤ b) (top :: t))
        ((List.perm_insertionSort _ (top :: t)).mem_iff.mpr (List.mem_cons_self top t))
        (fun y hy => root_max hL y ((List.perm_insertionSort _ (top :: t)).mem_iff.mp hy))
      rw [hsl] at h
      simpa using h
    have hmid : (nums.insertionSort (fun a b => a ≤ b)).getD t.length 0 = top := by
      rw [List.getD_eq_getElem?_getD, hsplit, List.getElem?_append_left (by rw [hsl]; omega),
        htop]
      rfl
    have hslen : (nums.insertionSort (fun a b => a ≤ b)).length = nums.length :=
      List.length_insertionSort _ _
    unfold DataStream.GetMedian roundedMedian
    simp only [myheap.Heap.Len, hslen, htotal, List.length_cons]
    rcases hlen with h | h
    · -- even count
      simp only [List.length_cons] at h
      cases R with
      | nil => simp at h
      | cons rb rt =>
        have hrb : (List.insertionSort (fun a b => a ≤ b) (rb :: rt))[0]? = some rb :=
          sorted_head (List.sorted_insertionSort (fun a b : Int => a ≤ b) (rb :: rt))
            ((List.perm_insertionSort _ (rb :: rt)).mem_iff.mpr (List.mem_cons_self rb rt))
            (fun y hy => root_min hR y ((List.perm_insertionSort _ (rb :: rt)).mem_iff.mp hy))
        have hmid2 : (nums.insertionSort (fun a b => a ≤ b)).getD (t.length + 1) 0 = rb := by
          rw [List.getD_eq_getElem?_getD, hsplit,
            List.getElem?_append_right (by rw [hsl]), hsl, Nat.sub_self, hrb]
          rfl
        simp only [List.length_cons] at h ⊢
        have hev : (t.length + 1 + (rt.length + 1)) % 2 = 0 := by omega
        have hhalf : (t.length + 1 + (rt.length + 1)) / 2 = t.length + 1 := by omega
        simp only [hev, if_true, hhalf, Nat.add_sub_cancel, hmid, hmid2, myheap.Heap.Peek,
          List.length_cons, Nat.add_one_ne_zero, if_false, List.getElem?_cons_zero]
    · -- odd count
      simp only [List.length_cons] at h
      have hodd : ¬ (t.length + 1 + R.length) % 2 = 0 := by omega
      have hhalf : (t.length + 1 + R.length) / 2 = t.length := by omega
      simp only [hodd, if_false, hhalf, hmid, myheap.Heap.Peek, List.length_cons,
        Nat.add_one_ne_zero, List.getElem?_cons_zero]

theorem getD_bounded {s : List Int} {lo hi : Int} (h0 : lo < 0) (h1 : 0 < hi)
    (hb : ∀ x, x ∈ s → lo < x ∧ x < hi) (i : Nat) : lo < s.getD i 0 ∧ s.getD i 0 < hi := by
  rw [List.getD_eq_getElem?_getD]
  cases h : s[i]? with
  | none => exact ⟨h0, h1⟩
  | some v => exact hb v (List.mem_iff_getElem?.mpr ⟨i, h⟩)

/-- For numbers of less than 52 bits no sum wraps and every conversion to
float64 is exact. -/
theorem roundedMedian_eq_median (nums : List Int)
    (hb : ∀ x, x ∈ nums → -4503599627370496 < x ∧ x < 4503599627370496) :
    roundedMedian nums = median nums := by
  have hs : ∀ x, x ∈ nums.insertionSort (fun a b => a ≤ b) →
      -4503599627370496 < x ∧ x < 4503599627370496 :=
    fun x hx => hb x ((List.perm_insertionSort _ nums).mem_iff.mp hx)
  have hg := getD_bounded (by norm_num) (by norm_num) hs
  unfold roundedMedian median
  simp only []
  by_cases c : (nums.insertionSort (fun a b => a ≤ b)).length % 2 = 0
  · have c1 : ¬ (nums.insertionSort (fun a b => a ≤ b)).length % 2 = 1 := by omega
    rw [if_pos c, if_neg c1]
    have ha := hg ((nums.insertionSort (fun a b => a ≤ b)).length / 2 - 1)
    have hb2 := hg ((nums.insertionSort (fun a b => a ≤ b)).length / 2)
    rw [gomath.wrapInt_of_isInt (by unfold gomath.MinInt; omega) (by unfold gomath.MaxInt; omega),
      float64OfInt_exact (by omega) (by omega)]
  · have c1 : (nums.insertionSort (fun a b => a ≤ b)).length % 2 = 1 := by omega
    rw [if_neg c, if_pos c1]
    have ha := hg ((nums.insertionSort (fun a b => a ≤ b)).length / 2)
    rw [float64OfInt_exact (by omega) (by omega)]

theorem CreateDataStream_eq :
    CreateDataStream = { leftSide := { data := [], comparator := myheap.maxComparator },
                         rightSide := { data := [], comparator := myheap.minComparator } } :=
  rfl

theorem heapFrom_nil (cmp : Int → Int → Bool) : myheap.HeapFrom cmp 0 [] := by
  intro i a b _ _ h
  simp at h

/-- C33, as stated, fails: after `AddNum(2^62)` twice the `int` sum of the two
middle elements wraps around, and `GetMedian()` returns `-2^62` while the median
is `2^62`. -/
theorem median_overflow_counterexample :
    (DataStream.addAll [4611686018427387904, 4611686018427387904] CreateDataStream).bind
      DataStream.GetMedian = some (-4611686018427387904) ∧
    median [4611686018427387904, 4611686018427387904] = 4611686018427387904 := by
  constructor
  · have h1 : DataStream.addAll [4611686018427387904, 4611686018427387904] CreateDataStream
        = some { leftSide := { data := [4611686018427387904],
                               comparator := myheap.maxComparator },
                 rightSide := { data := [4611686018427387904],
                                comparator := myheap.minComparator } } := rfl
    rw [h1]
    simp only [Option.some_bind, DataStream.GetMedian, myheap.Heap.Len, myheap.Heap.Peek,
      gomath.wrapInt, float64OfInt, float64Spacing]
    norm_num
  · simp only [median, List.insertionSort, List.orderedInsert]
    norm_num

/-- C33, amended. For every non-empty sequence of `AddNum` calls on a fresh
`DataStream`, the max-heap side holds as many elements as the min-heap side or
exactly one more, and `GetMedian()` returns the float64 of the middle element of
the sorted sequence when the count is odd and half the float64 of the `int` sum
of the two middle elements when it is even; when all numbers lie strictly
between `-2^52` and `2^52` this is the median of the numbers added. -/
theorem median_of_data_stream (nums : List Int) (hne : nums ≠ []) :
    ∃ d, DataStream.addAll nums CreateDataStream = some d ∧
      (d.leftSide.Len = d.rightSide.Len ∨ d.leftSide.Len = d.rightSide.Len + 1) ∧
      d.GetMedian = some (roundedMedian nums) ∧
      ((∀ x, x ∈ nums → -4503599627370496 < x ∧ x < 4503599627370496) →
        d.GetMedian = some (median nums)) := by
  obtain ⟨L, R, e, hL, hR, hle, hlen, hp⟩ := addAll_spec nums [] [] []
    (heapFrom_nil _) (heapFrom_nil _) (fun a ha => absurd ha (List.not_mem_nil a))
    (Or.inl rfl) (List.Perm.refl _)
  rw [List.nil_append] at hp
  have hg := GetMedian_spec L R nums hne hL hR hle hlen hp
  refine ⟨{ leftSide := { data := L, comparator := myheap.maxComparator },
            rightSide := { data := R, comparator := myheap.minComparator } },
    by rw [CreateDataStream_eq]; exact e, hlen, hg, ?_⟩
  intro hb
  rw [hg, roundedMedian_eq_median nums hb]

theorem median_of_data_stream_witness :
    ([5, 1, 2, 3] : List Int) ≠ [] ∧
    ∃ d, DataStream.addAll [5, 1, 2, 3] CreateDataStream = some d ∧
      (d.leftSide.Len = d.rightSide.Len ∨ d.leftSide.Len = d.rightSide.Len + 1) ∧
      d.GetMedian = some (roundedMedian [5, 1, 2, 3]) ∧
      ((∀ x, x ∈ ([5, 1, 2, 3] : List Int) →
          -4503599627370496 < x ∧ x < 4503599627370496) →
        d.GetMedian = some (median [5, 1, 2, 3])) :=
  ⟨by decide, median_of_data_stream [5, 1, 2, 3] (by decide)⟩

end heap_algos

namespace heap_algos

/-! ## Dijkstra: auxiliary lemmas -/

theorem itemComparator_swo : myheap.StrictWeakOrder itemComparator := by
  constructor
  · intro a
    simp [itemComparator]
  · intro a b c h1 h2
    simp only [itemComparator, decide_eq_true_eq] at h1 h2 ⊢
    omega
  · intro a b c h1 h2 h3 h4
    simp only [itemComparator, decide_eq_false_iff_not, not_lt] at h1 h2 h3 h4 ⊢
    constructor <;> omega

theorem item_root_min {x : Item} {t : List Item}
    (hheap : myheap.HeapFrom itemComparator 0 (x :: t)) :
    ∀ y, y ∈ x :: t → x.Distance ≤ y.Distance := by
  intro y hy
  obtain ⟨i, hi, hiy⟩ := List.getElem_of_mem hy
  have hy2 : (x :: t)[i]? = some y := by rw [List.getElem?_eq_getElem hi, hiy]
  have := myheap.root_extremal itemComparator_swo hheap (List.getElem?_cons_zero) i y hy2
  simpa [itemComparator] using this

theorem Walk_nonneg {graph : List (String × List Edge)}
    (hw : ∀ u e, e ∈ edgesOf graph u → 0 ≤ e.Weight) {u v : String} {p : List String}
    {w : Int} (h : Walk graph u p v w) : 0 ≤ w := by
  induction h with
  | single => exact le_refl _
  | step e _ he ih => exact add_nonneg ih (hw _ e he)

theorem initDist_fold (graph : List (String × List Edge)) :
    ∀ (d : String → Int) (v : String),
      (graph.foldl (fun d kv => Function.update d kv.1 gomath.MaxInt) d) v =
        if v ∈ keysOf graph then gomath.MaxInt else d v := by
  induction graph with
  | nil => intro d v; simp [keysOf]
  | cons kv rest ih =>
    intro d v
    rw [List.foldl_cons, ih]
    simp only [keysOf, List.map_cons, List.mem_cons]
    by_cases c : v ∈ List.map Prod.fst rest
    · simp [c]
    · rw [if_neg c]
      by_cases c3 : v = kv.1
      · subst c3; simp
      · rw [Function.update_noteq c3]
        simp [c, c3]

theorem initDist_key {graph : List (String × List Edge)} {v : String}
    (h : v ∈ keysOf graph) : initDist graph v = gomath.MaxInt := by
  unfold initDist
  rw [initDist_fold, if_pos h]

theorem pot_false (graph : List (String × List Edge)) :
    pot (fun _ => false) graph = numEdges graph := by
  induction graph with
  | nil => rfl
  | cons kv rest ih =>
    obtain ⟨k, es⟩ := kv
    simp [pot, numEdges, ih]

theorem pot_mono (graph : List (String × List Edge)) (visited : String → Bool) (u : String) :
    pot (Function.update visited u true) graph ≤ pot visited graph := by
  induction graph with
  | nil => exact le_refl _
  | cons kv rest ih =>
    obtain ⟨k, es⟩ := kv
    simp only [pot]
    by_cases c : k = u
    · subst c
      rw [Function.update_same]
      simp only [if_true]
      omega
    · rw [Function.update_noteq c]
      omega

/-- Visiting a node takes its edges out of the count of edges still to come. -/
theorem pot_visit (graph : List (String × List Edge)) (visited : String → Bool) (u : String)
    (hu : visited u = false) :
    pot (Function.update visited u true) graph + (edgesOf graph u).length ≤
      pot visited graph := by
  induction graph with
  | nil => simp [pot, edgesOf]
  | cons kv rest ih =>
    obtain ⟨k, es⟩ := kv
    simp only [pot, edgesOf]
    by_cases c : k = u
    · subst c
      rw [Function.update_same, hu]
      simp only [if_true, Bool.false_eq_true, if_false]
      have := pot_mono rest visited k
      omega
    · rw [Function.update_noteq c, if_neg c]
      omega

/-- The path depends on `parents` only at its own nodes. -/
theorem PathTo_congr {parents parents1 : String → String} {start v : String}
    {p : List String} (h : PathTo parents start v p)
    (hagree : ∀ a, a ∈ p → parents1 a = parents a) : PathTo parents1 start v p := by
  induction h with
  | base h0 =>
    exact PathTo.base (by rw [hagree start (List.mem_singleton.mpr rfl)]; exact h0)
  | step hp hpar ih =>
    rename_i u v p
    refine PathTo.step (ih (fun a ha => hagree a (List.mem_append_left _ ha))) ?_
    rw [hagree v (List.mem_append_right _ (List.mem_singleton.mpr rfl))]
    exact hpar

theorem buildPathLoop_spec {parents : String → String} {start v : String} {p : List String}
    (h : PathTo parents start v p) (hne : ∀ a, a ∈ p → a ≠ "") :
    ∀ (fuel : Nat) (acc : List String), p.length < fuel →
      buildPathLoop fuel v parents acc = some (acc ++ p.reverse) := by
  induction h with
  | base h0 =>
    intro fuel acc hf
    have hs : start ≠ "" := hne start (List.mem_singleton.mpr rfl)
    simp only [List.length_singleton] at hf
    obtain ⟨f2, e⟩ : ∃ f2, fuel = f2 + 2 := ⟨fuel - 2, by omega⟩
    subst e
    simp [buildPathLoop, hs, h0]
  | step hp hpar ih =>
    rename_i u v p
    intro fuel acc hf
    have hv : v ≠ "" := hne v (List.mem_append_right _ (List.mem_singleton.mpr rfl))
    rw [List.length_append, List.length_singleton] at hf
    obtain ⟨f1, e⟩ : ∃ f1, fuel = f1 + 1 := ⟨fuel - 1, by omega⟩
    subst e
    rw [buildPathLoop, if_pos hv, hpar,
      ih (fun a ha => hne a (List.mem_append_left _ ha)) f1 (acc ++ [v]) (by omega)]
    simp

theorem buildPath_spec {parents : String → String} {start v : String} {p : List String}
    (h : PathTo parents start v p) (hne : ∀ a, a ∈ p → a ≠ "") (fuel : Nat)
    (hf : p.length < fuel) : buildPath fuel v parents = some p := by
  unfold buildPath
  rw [buildPathLoop_spec h hne fuel [] hf]
  simp


theorem MaxInt_pos : (0 : Int) < gomath.MaxInt := by
  unfold gomath.MaxInt; norm_num

theorem bound_mono {B : Int} (hB : 0 ≤ B) (it : Nat) : B * (it : Int) ≤ B * ((it : Int) + 1) := by
  have : B * ((it : Int) + 1) = B * (it : Int) + B := by ring
  rw [this]
  omega

/-- Along any walk from the start, either the end is visited or some node that
is not visited yet has a recorded distance no more than the weight of the
walk. -/
theorem frontier {graph : List (String × List Edge)} {start finish : String} {B : Int}
    {s : DState} {it : Nat} (hg : GoodGraph graph start B)
    (hinv : DInv graph start finish B (fun _ _ => False) s it)
    (hbig : B * ((it : Int) + 1) < gomath.MaxInt) :
    ∀ {p : List String} {v : String} {w : Int}, Walk graph start p v w →
      s.visited v = true ∨
        ∃ y, (y = start ∨ y ∈ keysOf graph) ∧ s.visited y = false ∧
          s.dist y ≠ gomath.MaxInt ∧ s.dist y ≤ w := by
  intro p v w h
  induction h with
  | single =>
    cases hv : s.visited start with
    | true => exact Or.inl rfl
    | false =>
      refine Or.inr ⟨start, Or.inl rfl, hv, ?_, ?_⟩
      · rw [hinv.hstart]; exact ne_of_lt MaxInt_pos
      · rw [hinv.hstart]
  | step e hwalk he ih =>
    rename_i v1 p1 w1
    have hew := hg.hw _ e he
    rcases ih with hv1 | ⟨y, hy1, hy2, hy3, hy4⟩
    · cases hv : s.visited e.To with
      | true => exact Or.inl rfl
      | false =>
        obtain ⟨hnode, hset, hfin⟩ := hinv.hfinal v1 hv1
        have hrel : s.dist e.To ≤ s.dist v1 + e.Weight := by
          rcases hinv.hrelaxed v1 hv1 e he with h | h
          · exact absurd h id
          · exact h
        have hb : s.dist v1 ≤ B * (it : Int) := by
          rcases hinv.hdist v1 hnode with h | h
          · exact absurd h hset
          · exact h.2
        have hm := bound_mono hg.hB it
        have e1 : B * ((it : Int) + 1) = B * (it : Int) + B := by ring
        refine Or.inr ⟨e.To, Or.inr (hg.hkeys _ e he), hv, ?_, ?_⟩
        · intro habs
          rw [habs] at hrel
          omega
        · have := hfin _ _ hwalk
          omega
    · exact Or.inr ⟨y, hy1, hy2, hy3, by omega⟩

/-- What is known about the node of the heap root when it is not visited yet:
its recorded distance is the length of a shortest walk, and following `parents`
back from it gives such a walk. -/
theorem visit_facts {graph : List (String × List Edge)} {start finish : String} {B : Int}
    {s : DState} {it : Nat} (hg : GoodGraph graph start B)
    (hinv : DInv graph start finish B (fun _ _ => False) s it)
    (hbig : B * ((it : Int) + 1) < gomath.MaxInt) {x : Item} {t : List Item}
    (hdata : s.heap.data = x :: t) (hx : s.visited x.Node = false) :
    (x.Node = start ∨ x.Node ∈ keysOf graph) ∧ s.dist x.Node ≠ gomath.MaxInt ∧
    s.dist x.Node ≤ B * (it : Int) ∧
    (∀ p w, Walk graph start p x.Node w → s.dist x.Node ≤ w) ∧
    ∃ p, PathTo s.parents start x.Node p ∧
      (∀ a, a ∈ p → a = x.Node ∨ s.visited a = true) ∧
      Walk graph start p x.Node (s.dist x.Node) ∧ p.length ≤ it + 1 := by
  have hxmem : x ∈ s.heap.data := by rw [hdata]; exact List.mem_cons_self _ _
  obtain ⟨hnode, hle, hbd⟩ := hinv.hitems x hxmem
  have hm := bound_mono hg.hB it
  have hb : s.dist x.Node ≤ B * (it : Int) := le_trans hle hbd
  have hset : s.dist x.Node ≠ gomath.MaxInt := by
    intro habs
    rw [habs] at hb
    omega
  have hheap := hinv.hheap
  rw [hdata] at hheap
  refine ⟨hnode, hset, hb, ?_, ?_⟩
  · intro p w hwalk
    rcases frontier hg hinv hbig hwalk with h | ⟨y, hy1, hy2, hy3, hy4⟩
    · rw [hx] at h; exact absurd h (by decide)
    · have hq := hinv.hqueued y hy1 hy2 hy3
      rw [hdata] at hq
      have := item_root_min hheap _ hq
      simp only at this
      omega
  · by_cases c : x.Node = start
    · rw [c]
      refine ⟨[start], PathTo.base hinv.hpstart, ?_, ?_, ?_⟩
      · intro a ha
        exact Or.inl (List.mem_singleton.mp ha)
      · rw [hinv.hstart]; exact Walk.single start
      · simp
    · have hkey : x.Node ∈ keysOf graph := by
        rcases hnode with h | h
        · exact absurd h c
        · exact h
      obtain ⟨u, e, hu, hpar, he, hto, hd⟩ := hinv.hpending x.Node hkey c hx hset
      obtain ⟨p0, hp0, hvis0, hw0, hl0⟩ := hinv.hparents u hu
      refine ⟨p0 ++ [x.Node], PathTo.step hp0 hpar, ?_, ?_, ?_⟩
      · intro a ha
        rcases List.mem_append.mp ha with h | h
        · exact Or.inr (hvis0 a h)
        · exact Or.inl (List.mem_singleton.mp h)
      · have := Walk.step e hw0 he
        rw [hto, ← hd] at this
        exact this
      · rw [List.length_append, List.length_singleton]; omega


theorem cast_succ_int (it : Nat) : ((it + 1 : Nat) : Int) = (it : Int) + 1 := by
  push_cast; rfl

/-- An iteration that pops an item of a visited node keeps the invariant. -/
theorem skip_inv {graph : List (String × List Edge)} {start finish : String} {B : Int}
    {s : DState} {it : Nat} (hg : GoodGraph graph start B)
    (hinv : DInv graph start finish B (fun _ _ => False) s it)
    {x : Item} {t d1 : List Item} (hdata : s.heap.data = x :: t)
    (hx : s.visited x.Node = true) (hd1 : d1.Perm t)
    (hh1 : myheap.HeapFrom itemComparator 0 d1) :
    DInv graph start finish B (fun _ _ => False)
      { dist := s.dist, visited := s.visited, parents := s.parents,
        heap := { data := d1, comparator := itemComparator } } (it + 1) := by
  have hm := bound_mono hg.hB it
  have hsub : ∀ y, y ∈ d1 → y ∈ s.heap.data := by
    intro y hy
    rw [hdata]
    exact List.mem_cons_of_mem _ (hd1.mem_iff.mp hy)
  constructor
  · rfl
  · exact hh1
  · exact hinv.hstart
  · exact hinv.hpstart
  · intro v hv
    rcases hinv.hdist v hv with h | h
    · exact Or.inl h
    · refine Or.inr ⟨h.1, ?_⟩
      rw [cast_succ_int]
      exact le_trans h.2 hm
  · intro y hy
    obtain ⟨h1, h2, h3⟩ := hinv.hitems y (hsub y hy)
    refine ⟨h1, h2, ?_⟩
    rw [cast_succ_int]
    exact le_trans h3 hm
  · intro v hv hvis hset
    have hq := hinv.hqueued v hv hvis hset
    rw [hdata] at hq
    rcases List.mem_cons.mp hq with h | h
    · have : x.Node = v := by rw [← h]
      rw [this, hvis] at hx
      exact absurd hx (by decide)
    · exact hd1.mem_iff.mpr h
  · exact hinv.hfinal
  · exact hinv.hrelaxed
  · intro v hv
    obtain ⟨p, h1, h2, h3, h4⟩ := hinv.hparents v hv
    exact ⟨p, h1, h2, h3, by omega⟩
  · exact hinv.hpending
  · exact hinv.hnotfin

/-- Marking the node of the heap root visited gives the invariant in which the
edges of that node are still to be read. -/
theorem visit_inv {graph : List (String × List Edge)} {start finish : String} {B : Int}
    {s : DState} {it : Nat} (hg : GoodGraph graph start B)
    (hinv : DInv graph start finish B (fun _ _ => False) s it)
    (hbig : B * ((it : Int) + 1) < gomath.MaxInt) {x : Item} {t d1 : List Item}
    (hdata : s.heap.data = x :: t) (hx : s.visited x.Node = false) (hnf : x.Node ≠ finish)
    (hd1 : d1.Perm t) (hh1 : myheap.HeapFrom itemComparator 0 d1) :
    DInv graph start finish B (fun u e => u = x.Node ∧ e ∈ edgesOf graph x.Node)
      { dist := s.dist, visited := Function.update s.visited x.Node true,
        parents := s.parents, heap := { data := d1, comparator := itemComparator } }
      (it + 1) := by
  have hm := bound_mono hg.hB it
  obtain ⟨hnode, hset, hb, hfin, p, hp1, hp2, hp3, hp4⟩ := visit_facts hg hinv hbig hdata hx
  have hsub : ∀ y, y ∈ d1 → y ∈ s.heap.data := by
    intro y hy
    rw [hdata]
    exact List.mem_cons_of_mem _ (hd1.mem_iff.mp hy)
  have hvis : ∀ v, s.visited v = true → Function.update s.visited x.Node true v = true := by
    intro v hv
    by_cases c : v = x.Node
    · rw [c, Function.update_same]
    · rw [Function.update_noteq c]; exact hv
  have hrev : ∀ v, v ≠ x.Node → Function.update s.visited x.Node true v = true →
      s.visited v = true := by
    intro v c hv
    rw [Function.update_noteq c] at hv
    exact hv
  have hunvis : ∀ v, Function.update s.visited x.Node true v = false →
      v ≠ x.Node ∧ s.visited v = false := by
    intro v hv
    by_cases c : v = x.Node
    · rw [c, Function.update_same] at hv
      exact absurd hv (by decide)
    · rw [Function.update_noteq c] at hv
      exact ⟨c, hv⟩
  constructor
  · rfl
  · exact hh1
  · exact hinv.hstart
  · exact hinv.hpstart
  · intro v hv
    rcases hinv.hdist v hv with h | h
    · exact Or.inl h
    · refine Or.inr ⟨h.1, ?_⟩
      rw [cast_succ_int]
      exact le_trans h.2 hm
  · intro y hy
    obtain ⟨h1, h2, h3⟩ := hinv.hitems y (hsub y hy)
    refine ⟨h1, h2, ?_⟩
    rw [cast_succ_int]
    exact le_trans h3 hm
  · intro v hv hvu hsetv
    obtain ⟨hne, hvf⟩ := hunvis v hvu
    have hq := hinv.hqueued v hv hvf hsetv
    rw [hdata] at hq
    rcases List.mem_cons.mp hq with h | h
    · have : x.Node = v := by rw [← h]
      exact absurd this.symm hne
    · exact hd1.mem_iff.mpr h
  · intro v hv
    by_cases c : v = x.Node
    · rw [c]
      exact ⟨hnode, hset, hfin⟩
    · exact hinv.hfinal v (hrev v c hv)
  · intro u hu e he
    by_cases c : u = x.Node
    · left
      exact ⟨c, by rw [← c]; exact he⟩
    · rcases hinv.hrelaxed u (hrev u c hu) e he with h | h
      · exact absurd h id
      · exact Or.inr h
  · intro v hv
    by_cases c : v = x.Node
    · rw [c]
      refine ⟨p, hp1, ?_, hp3, hp4⟩
      intro a ha
      rcases hp2 a ha with h | h
      · rw [h]
        exact Function.update_same _ _ _
      · exact hvis a h
    · obtain ⟨q, h1, h2, h3, h4⟩ := hinv.hparents v (hrev v c hv)
      exact ⟨q, h1, fun a ha => hvis a (h2 a ha), h3, by omega⟩
  · intro v hkey hvs hvu hsetv
    obtain ⟨_, hvf⟩ := hunvis v hvu
    obtain ⟨u, e, h1, h2, h3, h4, h5⟩ := hinv.hpending v hkey hvs hvf hsetv
    exact ⟨u, e, hvis u h1, h2, h3, h4, h5⟩
  · have hne : finish ≠ x.Node := fun h => hnf h.symm
    show Function.update s.visited x.Node true finish = false
    rw [Function.update_noteq hne]
    exact hinv.hnotfin


/-- The invariant with fewer exempt edges, when the edges no longer exempt are
relaxed. -/
theorem DInv_exempt {graph : List (String × List Edge)} {start finish : String} {B : Int}
    {ex1 ex2 : String → Edge → Prop} {s : DState} {it : Nat}
    (hinv : DInv graph start finish B ex1 s it)
    (h : ∀ u e, s.visited u = true → e ∈ edgesOf graph u → ex1 u e →
      ex2 u e ∨ s.dist e.To ≤ s.dist u + e.Weight) :
    DInv graph start finish B ex2 s it := by
  constructor
  · exact hinv.hcmp
  · exact hinv.hheap
  · exact hinv.hstart
  · exact hinv.hpstart
  · exact hinv.hdist
  · exact hinv.hitems
  · exact hinv.hqueued
  · exact hinv.hfinal
  · intro u hu e he
    rcases hinv.hrelaxed u hu e he with h1 | h1
    · exact h u e hu he h1
    · exact Or.inr h1
  · exact hinv.hparents
  · exact hinv.hpending
  · exact hinv.hnotfin

theorem heap_eta (h : myheap.Heap Item) (hc : h.comparator = itemComparator) :
    h = { data := h.data, comparator := itemComparator } := by
  cases h with
  | mk d c =>
    simp only at hc
    rw [hc]

/-- One relaxation that improves the recorded distance of the neighbour keeps
the invariant. -/
theorem relax_update_inv {graph : List (String × List Edge)} {start finish : String} {B : Int}
    {s : DState} {it : Nat} {u : String} {e : Edge} {rest : List Edge} {d1 : List Item}
    (hg : GoodGraph graph start B)
    (hinv : DInv graph start finish B (fun u1 e1 => u1 = u ∧ e1 ∈ e :: rest) s (it + 1))
    (hu : s.visited u = true) (hub : s.dist u ≤ B * (it : Int)) (he : e ∈ edgesOf graph u)
    (hlt : s.dist u + e.Weight < s.dist e.To)
    (hd1 : d1.Perm ((⟨e.To, s.dist u + e.Weight⟩ : Item) :: s.heap.data))
    (hh1 : myheap.HeapFrom itemComparator 0 d1) :
    DInv graph start finish B (fun u1 e1 => u1 = u ∧ e1 ∈ rest)
      { dist := Function.update s.dist e.To (s.dist u + e.Weight),
        visited := s.visited,
        parents := Function.update s.parents e.To u,
        heap := { data := d1, comparator := itemComparator } } (it + 1) := by
  obtain ⟨hunode, huset, hufin⟩ := hinv.hfinal u hu
  have hew := hg.hw u e he
  have huwalk : ∃ p, Walk graph start p u (s.dist u) := by
    rcases hinv.hdist u hunode with h | h
    · exact absurd h huset
    · exact h.1
  have hu0 : 0 ≤ s.dist u := by
    obtain ⟨p, hp⟩ := huwalk
    exact Walk_nonneg (fun a b hab => (hg.hw a b hab).1) hp
  have hkey : e.To ∈ keysOf graph := hg.hkeys u e he
  have hvun : s.visited e.To = false := by
    cases hv : s.visited e.To with
    | false => rfl
    | true =>
      obtain ⟨p, hp⟩ := huwalk
      have := (hinv.hfinal e.To hv).2.2 _ _ (Walk.step e hp he)
      omega
  have hvs : e.To ≠ start := by
    intro h
    rw [h, hinv.hstart] at hlt
    omega
  have hvu : e.To ≠ u := by
    intro h
    rw [h, hu] at hvun
    exact absurd hvun (by decide)
  have hnotv : ∀ z, s.visited z = true → z ≠ e.To := by
    intro z hz h
    rw [h, hvun] at hz
    exact absurd hz (by decide)
  have hle : ∀ z, Function.update s.dist e.To (s.dist u + e.Weight) z ≤ s.dist z := by
    intro z
    by_cases c : z = e.To
    · rw [c, Function.update_same]; exact le_of_lt hlt
    · rw [Function.update_noteq c]
  have hbnd : s.dist u + e.Weight ≤ B * ((it + 1 : Nat) : Int) := by
    rw [cast_succ_int]
    have e1 : B * ((it : Int) + 1) = B * (it : Int) + B := by ring
    rw [e1]
    omega
  constructor
  · rfl
  · exact hh1
  · show Function.update s.dist e.To (s.dist u + e.Weight) start = 0
    rw [Function.update_noteq (Ne.symm hvs)]
    exact hinv.hstart
  · show Function.update s.parents e.To u start = ""
    rw [Function.update_noteq (Ne.symm hvs)]
    exact hinv.hpstart
  · intro z hz
    show Function.update s.dist e.To (s.dist u + e.Weight) z = gomath.MaxInt ∨
      ((∃ p, Walk graph start p z (Function.update s.dist e.To (s.dist u + e.Weight) z)) ∧
        Function.update s.dist e.To (s.dist u + e.Weight) z ≤ B * ((it + 1 : Nat) : Int))
    by_cases c : z = e.To
    · rw [c, Function.update_same]
      obtain ⟨p, hp⟩ := huwalk
      exact Or.inr ⟨⟨_, Walk.step e hp he⟩, hbnd⟩
    · rw [Function.update_noteq c]
      exact hinv.hdist z hz
  · intro y hy
    show (y.Node = start ∨ y.Node ∈ keysOf graph) ∧
      Function.update s.dist e.To (s.dist u + e.Weight) y.Node ≤ y.Distance ∧
        y.Distance ≤ B * ((it + 1 : Nat) : Int)
    rcases List.mem_cons.mp (hd1.mem_iff.mp hy) with h | h
    · subst h
      simp only [Function.update_same]
      exact ⟨Or.inr hkey, le_refl _, hbnd⟩
    · obtain ⟨h1, h2, h3⟩ := hinv.hitems y h
      exact ⟨h1, le_trans (hle y.Node) h2, h3⟩
  · intro z hz hzv hzset
    show (⟨z, Function.update s.dist e.To (s.dist u + e.Weight) z⟩ : Item) ∈ d1
    have hzset2 : Function.update s.dist e.To (s.dist u + e.Weight) z ≠ gomath.MaxInt := hzset
    by_cases c : z = e.To
    · rw [c, Function.update_same]
      exact hd1.mem_iff.mpr (List.mem_cons_self _ _)
    · rw [Function.update_noteq c] at hzset2 ⊢
      exact hd1.mem_iff.mpr (List.mem_cons_of_mem _ (hinv.hqueued z hz hzv hzset2))
  · intro z hz
    show (z = start ∨ z ∈ keysOf graph) ∧
      Function.update s.dist e.To (s.dist u + e.Weight) z ≠ gomath.MaxInt ∧
        ∀ p w, Walk graph start p z w →
          Function.update s.dist e.To (s.dist u + e.Weight) z ≤ w
    rw [Function.update_noteq (hnotv z hz)]
    exact hinv.hfinal z hz
  · intro u1 hu1 e1 he1
    show (u1 = u ∧ e1 ∈ rest) ∨
      Function.update s.dist e.To (s.dist u + e.Weight) e1.To ≤
        Function.update s.dist e.To (s.dist u + e.Weight) u1 + e1.Weight
    rw [Function.update_noteq (hnotv u1 hu1)]
    rcases hinv.hrelaxed u1 hu1 e1 he1 with ⟨h1, h2⟩ | h
    · rcases List.mem_cons.mp h2 with h3 | h3
      · right
        rw [h3, h1, Function.update_same]
      · exact Or.inl ⟨h1, h3⟩
    · exact Or.inr (le_trans (hle e1.To) h)
  · intro z hz
    obtain ⟨p, h1, h2, h3, h4⟩ := hinv.hparents z hz
    refine ⟨p, ?_, h2, ?_, h4⟩
    · refine PathTo_congr h1 ?_
      intro a ha
      exact Function.update_noteq (hnotv a (h2 a ha)) _ _
    · show Walk graph start p z (Function.update s.dist e.To (s.dist u + e.Weight) z)
      rw [Function.update_noteq (hnotv z hz)]
      exact h3
  · intro z hzkey hzs hzv hzset
    show ∃ u1 e1, s.visited u1 = true ∧ Function.update s.parents e.To u z = u1 ∧
      e1 ∈ edgesOf graph u1 ∧ e1.To = z ∧
      Function.update s.dist e.To (s.dist u + e.Weight) z =
        Function.update s.dist e.To (s.dist u + e.Weight) u1 + e1.Weight
    have hzset2 : Function.update s.dist e.To (s.dist u + e.Weight) z ≠ gomath.MaxInt := hzset
    by_cases c : z = e.To
    · refine ⟨u, e, hu, ?_, he, c.symm, ?_⟩
      · rw [c, Function.update_same]
      · rw [c, Function.update_same, Function.update_noteq (Ne.symm hvu)]
    · rw [Function.update_noteq c] at hzset2
      obtain ⟨u1, e1, g1, g2, g3, g4, g5⟩ := hinv.hpending z hzkey hzs hzv hzset2
      refine ⟨u1, e1, g1, ?_, g3, g4, ?_⟩
      · rw [Function.update_noteq c]; exact g2
      · rw [Function.update_noteq c, Function.update_noteq (hnotv u1 g1)]; exact g5
  · exact hinv.hnotfin


/-- The loop over the edges of the node being expanded: it returns, restores
the invariant, inserts at most one item per edge and visits nothing. -/
theorem relax_spec {graph : List (String × List Edge)} {start finish : String} {B : Int}
    {it : Nat} {u : String} (hg : GoodGraph graph start B)
    (hbig : B * ((it : Int) + 1) < gomath.MaxInt) (rest : List Edge) :
    ∀ s : DState,
      DInv graph start finish B (fun u1 e1 => u1 = u ∧ e1 ∈ rest) s (it + 1) →
      s.visited u = true → s.dist u ≤ B * (it : Int) →
      (∀ e, e ∈ rest → e ∈ edgesOf graph u) →
      ∃ s1, relax u rest s = some s1 ∧
        DInv graph start finish B (fun _ _ => False) s1 (it + 1) ∧
        s1.heap.data.length ≤ s.heap.data.length + rest.length ∧
        s1.visited = s.visited := by
  induction rest with
  | nil =>
    intro s hinv _ _ _
    refine ⟨s, rfl, DInv_exempt hinv ?_, by simp, rfl⟩
    intro u1 e1 _ _ h
    exact absurd h.2 (List.not_mem_nil e1)
  | cons e rest ih =>
    intro s hinv hu hub hsub
    have he : e ∈ edgesOf graph u := hsub e (List.mem_cons_self _ _)
    have hew := hg.hw u e he
    obtain ⟨hunode, huset, _⟩ := hinv.hfinal u hu
    have hu0 : 0 ≤ s.dist u := by
      rcases hinv.hdist u hunode with h | h
      · exact absurd h huset
      · obtain ⟨p, hp⟩ := h.1
        exact Walk_nonneg (fun a b hab => (hg.hw a b hab).1) hp
    have e1 : B * ((it : Int) + 1) = B * (it : Int) + B := by ring
    have hwrap : gomath.wrapInt (s.dist u + e.Weight) = s.dist u + e.Weight := by
      apply gomath.wrapInt_of_isInt
      · unfold gomath.MinInt; omega
      · omega
    unfold relax
    simp only [hwrap]
    by_cases c : s.dist u + e.Weight < s.dist e.To
    · rw [if_pos c]
      obtain ⟨d1, ei, pi, hi⟩ := myheap.Insert_spec itemComparator s.heap.data
        (⟨e.To, s.dist u + e.Weight⟩ : Item)
      rw [heap_eta s.heap hinv.hcmp, ei]
      simp only []
      have hinv1 := relax_update_inv hg hinv hu hub he c pi (hi itemComparator_swo hinv.hheap)
      have hvu : e.To ≠ u := by
        intro h
        rw [h] at c
        omega
      obtain ⟨s1, r1, r2, r3, r4⟩ := ih _ hinv1 hu
        (by
          show Function.update s.dist e.To (s.dist u + e.Weight) u ≤ B * (it : Int)
          rw [Function.update_noteq (Ne.symm hvu)]
          exact hub)
        (fun e2 he2 => hsub e2 (List.mem_cons_of_mem _ he2))
      refine ⟨s1, r1, r2, ?_, r4⟩
      have hl : d1.length = s.heap.data.length + 1 := by rw [pi.length_eq]; rfl
      simp only [List.length_cons] at r3 ⊢
      omega
    · rw [if_neg c]
      have hinv1 : DInv graph start finish B (fun u1 e1 => u1 = u ∧ e1 ∈ rest) s (it + 1) := by
        refine DInv_exempt hinv ?_
        intro u1 e2 _ _ h
        rcases List.mem_cons.mp h.2 with h3 | h3
        · right
          rw [h3, h.1]
          omega
        · exact Or.inl ⟨h.1, h3⟩
      obtain ⟨s1, r1, r2, r3, r4⟩ := ih s hinv1 hu hub
        (fun e2 he2 => hsub e2 (List.mem_cons_of_mem _ he2))
      refine ⟨s1, r1, r2, ?_, r4⟩
      simp only [List.length_cons]
      omega

/-- What `Dijkstra` has to return. -/
theorem dijkstraLoop_spec {graph : List (String × List Edge)} {start finish : String}
    {B : Int} (hg : GoodGraph graph start B) (fuel : Nat) :
    ∀ (s : DState) (it : Nat),
      DInv graph start finish B (fun _ _ => False) s it →
      s.heap.data.length + pot s.visited graph < fuel →
      it + (s.heap.data.length + pot s.visited graph) ≤ numEdges graph + 1 →
      ∃ res, dijkstraLoop finish graph (numEdges graph + 2) fuel s = some res ∧
        ((∃ p w, Walk graph start p finish w) →
          Walk graph start res.2 finish res.1 ∧
            ∀ p w, Walk graph start p finish w → res.1 ≤ w) ∧
        ((¬ ∃ p w, Walk graph start p finish w) → res = (-1, [])) := by
  induction fuel with
  | zero => intro s it _ h _; omega
  | succ fuel ih =>
    intro s it hinv hfuel hcredit
    have hbig : B * ((it : Int) + 1) < gomath.MaxInt := by
      have h1 : (it : Int) + 1 ≤ (numEdges graph : Int) + 2 := by omega
      exact lt_of_le_of_lt (mul_le_mul_of_nonneg_left h1 hg.hB) hg.hfit
    unfold dijkstraLoop
    simp only [myheap.Heap.Len]
    cases hdata : s.heap.data with
    | nil =>
      simp only [List.length_nil, gt_iff_lt, lt_self_iff_false, if_false]
      refine ⟨(-1, []), rfl, ?_, fun _ => rfl⟩
      rintro ⟨p, w, hwalk⟩
      exfalso
      rcases frontier hg hinv hbig hwalk with h | ⟨y, hy1, hy2, hy3, _⟩
      · rw [hinv.hnotfin] at h
        exact absurd h (by decide)
      · have := hinv.hqueued y hy1 hy2 hy3
        rw [hdata] at this
        exact absurd this (List.not_mem_nil _)
    | cons x t =>
      simp only [List.length_cons, gt_iff_lt, Nat.zero_lt_succ, if_true]
      obtain ⟨d1, ep, pp, hp⟩ := myheap.Pop_spec itemComparator x t
      have hd1 : d1.Perm t := (List.perm_cons x).mp pp
      have hheapxt : myheap.HeapFrom itemComparator 0 (x :: t) := by
        rw [← hdata]; exact hinv.hheap
      have hh1 := hp itemComparator_swo hheapxt
      have hpop : s.heap.Pop = some (x, { data := d1, comparator := itemComparator }) := by
        rw [heap_eta s.heap hinv.hcmp, hdata]
        exact ep
      rw [hpop]
      simp only []
      have hlen1 : d1.length = t.length := hd1.length_eq
      rw [hdata, List.length_cons] at hfuel hcredit
      cases hx : s.visited x.Node with
      | true =>
        simp only [if_true]
        have hinv1 := skip_inv hg hinv hdata hx hd1 hh1
        obtain ⟨res, r1, r2⟩ := ih _ (it + 1) hinv1
          (by simp only []; omega) (by simp only []; omega)
        exact ⟨res, r1, r2⟩
      | false =>
        simp only [Bool.false_eq_true, if_false]
        obtain ⟨hnode, hset, hb, hfin, p, hp1, hp2, hp3, hp4⟩ :=
          visit_facts hg hinv hbig hdata hx
        by_cases c : x.Node = finish
        · rw [if_pos c]
          have hne : ∀ a, a ∈ p → a ≠ "" := by
            intro a ha
            have hn : a = start ∨ a ∈ keysOf graph := by
              rcases hp2 a ha with h | h
              · rw [h]; exact hnode
              · exact (hinv.hfinal a h).1
            rcases hn with h | h
            · rw [h]; exact hg.hstart
            · exact hg.hnames a h
          rw [c] at hp1 hp3 hfin
          rw [buildPath_spec hp1 hne (numEdges graph + 2) (by omega)]
          refine ⟨(s.dist finish, p), rfl, fun _ => ⟨hp3, hfin⟩, ?_⟩
          intro hno
          exact absurd ⟨p, _, hp3⟩ hno
        · rw [if_neg c]
          have hinv1 := visit_inv hg hinv hbig hdata hx c hd1 hh1
          obtain ⟨s1, r1, r2, r3, r4⟩ := relax_spec hg hbig (edgesOf graph x.Node) _ hinv1
            (Function.update_same _ _ _) hb (fun e he => he)
          rw [r1]
          simp only []
          have hpot := pot_visit graph s.visited x.Node hx
          simp only [] at r3 r4
          obtain ⟨res, q1, q2⟩ := ih s1 (it + 1) r2
            (by rw [r4]; omega) (by rw [r4]; omega)
          exact ⟨res, q1, q2⟩


theorem init_inv (graph : List (String × List Edge)) (start finish : String) (B : Int) :
    DInv graph start finish B (fun _ _ => False)
      { dist := Function.update (initDist graph) start 0,
        visited := fun _ => false,
        parents := fun _ => "",
        heap := { data := [(⟨start, 0⟩ : Item)], comparator := itemComparator } } 0 := by
  have hunset : ∀ v, v ∈ keysOf graph → v ≠ start →
      Function.update (initDist graph) start 0 v = gomath.MaxInt := by
    intro v hv hne
    rw [Function.update_noteq hne]
    exact initDist_key hv
  constructor
  · rfl
  · intro i a b h1 _ ha _
    cases i with
    | zero => omega
    | succ i => simp at ha
  · exact Function.update_same _ _ _
  · rfl
  · intro v hv
    by_cases c : v = start
    · right
      rw [c]
      show (∃ p, Walk graph start p start (Function.update (initDist graph) start 0 start)) ∧
        Function.update (initDist graph) start 0 start ≤ B * ((0 : Nat) : Int)
      rw [Function.update_same]
      exact ⟨⟨[start], Walk.single start⟩, by simp⟩
    · left
      rcases hv with h | h
      · exact absurd h c
      · exact hunset v h c
  · intro x hx
    have : x = ⟨start, 0⟩ := List.mem_singleton.mp hx
    subst this
    show (start = start ∨ start ∈ keysOf graph) ∧
      Function.update (initDist graph) start 0 start ≤ 0 ∧ (0 : Int) ≤ B * ((0 : Nat) : Int)
    rw [Function.update_same]
    exact ⟨Or.inl rfl, le_refl _, by simp⟩
  · intro v hv _ hset
    show (⟨v, Function.update (initDist graph) start 0 v⟩ : Item) ∈ [(⟨start, 0⟩ : Item)]
    by_cases c : v = start
    · rw [c, Function.update_same]
      exact List.mem_singleton.mpr rfl
    · rcases hv with h | h
      · exact absurd h c
      · exact absurd (hunset v h c) hset
  · intro v hv
    exact (Bool.false_ne_true hv).elim
  · intro u hu
    exact (Bool.false_ne_true hu).elim
  · intro v hv
    exact (Bool.false_ne_true hv).elim
  · intro v hv hne _ hset
    exact absurd (hunset v hv hne) hset
  · rfl

/-- `Dijkstra` on a good graph: it returns, and the result is right. -/
theorem Dijkstra_spec {graph : List (String × List Edge)} {start : String} {B : Int}
    (hg : GoodGraph graph start B) (finish : String) :
    ∃ res, Dijkstra start finish graph = some res ∧
      ((∃ p w, Walk graph start p finish w) →
        Walk graph start res.2 finish res.1 ∧
          ∀ p w, Walk graph start p finish w → res.1 ≤ w) ∧
      ((¬ ∃ p w, Walk graph start p finish w) → res = (-1, [])) := by
  obtain ⟨d1, ei, pi, _⟩ := myheap.Insert_spec itemComparator [] (⟨start, 0⟩ : Item)
  have hd1 : d1 = [(⟨start, 0⟩ : Item)] := List.perm_singleton.mp pi
  subst hd1
  have hinv := init_inv graph start finish B
  obtain ⟨res, r1, r2⟩ := dijkstraLoop_spec hg (numEdges graph + 2) _ 0 hinv
    (by simp only [List.length_singleton, pot_false]; omega)
    (by simp only [List.length_singleton, pot_false]; omega)
  refine ⟨res, ?_, r2⟩
  unfold Dijkstra
  have hnew : myheap.NewHeap itemComparator
      = ({ data := [], comparator := itemComparator } : myheap.Heap Item) := rfl
  rw [hnew, ei]
  exact r1

theorem edgesOf_mem {graph : List (String × List Edge)} {u : String} {e : Edge}
    (h : e ∈ edgesOf graph u) : ∃ kv, kv ∈ graph ∧ e ∈ kv.2 := by
  induction graph with
  | nil => simp [edgesOf] at h
  | cons kv rest ih =>
    obtain ⟨k, es⟩ := kv
    unfold edgesOf at h
    by_cases c : k = u
    · rw [if_pos c] at h
      exact ⟨(k, es), List.mem_cons_self _ _, h⟩
    · rw [if_neg c] at h
      obtain ⟨kv, h1, h2⟩ := ih h
      exact ⟨kv, List.mem_cons_of_mem _ h1, h2⟩

/-- A graph is good when every stored edge passes the checks. -/
theorem GoodGraph_of_check (graph : List (String × List Edge)) (start : String) (B : Int)
    (h1 : ∀ kv, kv ∈ graph → ∀ e, e ∈ kv.2 →
      0 ≤ e.Weight ∧ e.Weight ≤ B ∧ e.To ∈ keysOf graph)
    (h2 : 0 ≤ B) (h3 : B * ((numEdges graph : Int) + 2) < gomath.MaxInt)
    (h4 : start ≠ "") (h5 : ∀ k, k ∈ keysOf graph → k ≠ "") : GoodGraph graph start B := by
  constructor
  · intro u e he
    obtain ⟨kv, g1, g2⟩ := edgesOf_mem he
    exact ⟨(h1 kv g1 e g2).1, (h1 kv g1 e g2).2.1⟩
  · exact h2
  · exact h3
  · intro u e he
    obtain ⟨kv, g1, g2⟩ := edgesOf_mem he
    exact (h1 kv g1 e g2).2.2
  · exact h4
  · exact h5

theorem Walk_ne_nil {graph : List (String × List Edge)} {u v : String} {p : List String}
    {w : Int} (h : Walk graph u p v w) : p ≠ [] := by
  cases h with
  | single => simp
  | step e h1 h2 => simp

/-- C34, as stated, fails, on three graphs with non-negative weights.
In the graph `"A": {{"B", 1}}` the node B is reachable from A by a walk of
weight 1 and `Dijkstra("A", "B", graph)` returns `(-1, nil)`: B is not a key of
the graph, so `dist["B"]` reads as 0 and the edge is never relaxed.
In the graph `"A": {{"", 1}}, "": {}` the node named by the empty string is
reachable from A and `Dijkstra("A", "", graph)` returns `(1, nil)`, and nil is
not a path: `buildPath` stops at the empty string.
In the graph `"A": {{"B", math.MaxInt}}, "B": {}` the node B is reachable from A
by a walk of weight `math.MaxInt` and `Dijkstra("A", "B", graph)` returns
`(-1, nil)`: `math.MaxInt` is the distance of a node not reached yet. -/
theorem dijkstra_counterexample :
    (Dijkstra "A" "B" [("A", [⟨"B", 1⟩])] = some (-1, []) ∧
      Walk [("A", [⟨"B", 1⟩])] "A" ["A", "B"] "B" 1) ∧
    (Dijkstra "A" "" [("A", [⟨"", 1⟩]), ("", [])] = some (1, []) ∧
      Walk [("A", [⟨"", 1⟩]), ("", [])] "A" ["A", ""] "" 1 ∧
      ∀ w, ¬ Walk [("A", [⟨"", 1⟩]), ("", [])] "A" [] "" w) ∧
    (Dijkstra "A" "B" [("A", [⟨"B", 9223372036854775807⟩]), ("B", [])] = some (-1, []) ∧
      Walk [("A", [⟨"B", 9223372036854775807⟩]), ("B", [])] "A" ["A", "B"] "B"
        9223372036854775807) := by
  refine ⟨⟨by decide, ?_⟩, ⟨by decide, ?_, ?_⟩, ⟨by decide, ?_⟩⟩
  · have h := @Walk.step [("A", [⟨"B", 1⟩])] "A" "A" ["A"] 0 ⟨"B", 1⟩ (Walk.single "A")
      (by simp [edgesOf])
    simpa using h
  · have h := @Walk.step [("A", [⟨"", 1⟩]), ("", [])] "A" "A" ["A"] 0 ⟨"", 1⟩
      (Walk.single "A") (by simp [edgesOf])
    simpa using h
  · intro w h
    exact Walk_ne_nil h rfl
  · have h := @Walk.step [("A", [⟨"B", 9223372036854775807⟩]), ("B", [])] "A" "A" ["A"] 0
      ⟨"B", 9223372036854775807⟩ (Walk.single "A") (by simp [edgesOf])
    simpa using h

/-- C34, amended. For every adjacency-list graph in which every edge leads to a
node that is a key of the graph, no node is named by the empty string, and the
edge weights are non-negative and small enough that no path length overflows
(at most `B`, with `B * (number of edges + 2) < math.MaxInt`), and for every
start and finish node: `Dijkstra(start, finish, graph)` returns; when finish is
reachable from start it returns the length of a shortest path together with a
path from start to finish of that total weight; and it returns `(-1, nil)`
exactly when finish is not reachable from start. -/
theorem dijkstra_shortest_path (start finish : String) (graph : List (String × List Edge))
    (B : Int) (hg : GoodGraph graph start B) :
    ∃ d path, Dijkstra start finish graph = some (d, path) ∧
      ((∃ p w, Walk graph start p finish w) →
        Walk graph start path finish d ∧ ∀ p w, Walk graph start p finish w → d ≤ w) ∧
      ((d, path) = (-1, []) ↔ ¬ ∃ p w, Walk graph start p finish w) := by
  obtain ⟨res, r1, r2, r3⟩ := Dijkstra_spec hg finish
  obtain ⟨d, path⟩ := res
  refine ⟨d, path, r1, r2, ?_, r3⟩
  intro he hreach
  have hwalk := (r2 hreach).1
  simp only at hwalk
  have hnn := Walk_nonneg (fun a b hab => (hg.hw a b hab).1) hwalk
  have hd : d = -1 := (Prod.mk.inj he).1
  omega

theorem dijkstra_shortest_path_witness :
    GoodGraph [("A", [⟨"B", 5⟩, ⟨"C", 1⟩]), ("C", [⟨"B", 2⟩, ⟨"D", 4⟩]), ("B", [⟨"D", 1⟩]),
      ("D", [])] "A" 5 ∧
    ∃ d path, Dijkstra "A" "D" [("A", [⟨"B", 5⟩, ⟨"C", 1⟩]), ("C", [⟨"B", 2⟩, ⟨"D", 4⟩]),
        ("B", [⟨"D", 1⟩]), ("D", [])] = some (d, path) ∧
      ((∃ p w, Walk [("A", [⟨"B", 5⟩, ⟨"C", 1⟩]), ("C", [⟨"B", 2⟩, ⟨"D", 4⟩]),
          ("B", [⟨"D", 1⟩]), ("D", [])] "A" p "D" w) →
        Walk [("A", [⟨"B", 5⟩, ⟨"C", 1⟩]), ("C", [⟨"B", 2⟩, ⟨"D", 4⟩]), ("B", [⟨"D", 1⟩]),
          ("D", [])] "A" path "D" d ∧
        ∀ p w, Walk [("A", [⟨"B", 5⟩, ⟨"C", 1⟩]), ("C", [⟨"B", 2⟩, ⟨"D", 4⟩]),
          ("B", [⟨"D", 1⟩]), ("D", [])] "A" p "D" w → d ≤ w) ∧
      ((d, path) = (-1, []) ↔
        ¬ ∃ p w, Walk [("A", [⟨"B", 5⟩, ⟨"C", 1⟩]), ("C", [⟨"B", 2⟩, ⟨"D", 4⟩]),
          ("B", [⟨"D", 1⟩]), ("D", [])] "A" p "D" w) :=
  ⟨GoodGraph_of_check _ _ _ (by decide) (by decide) (by decide) (by decide) (by decide),
   dijkstra_shortest_path "A" "D" [("A", [⟨"B", 5⟩, ⟨"C", 1⟩]), ("C", [⟨"B", 2⟩, ⟨"D", 4⟩]),
     ("B", [⟨"D", 1⟩]), ("D", [])] 5
     (GoodGraph_of_check _ _ _ (by decide) (by decide) (by decide) (by decide) (by decide))⟩

end heap_algos
